import Mathlib

/-!
# Outer hull extraction (`igl::copyleft::cgal::outer_hull_legacy`)

A shallow embedding of `include/igl/copyleft/cgal/outer_hull_legacy.cpp`.

Conventions of the embedding.

* Eigen matrices and `std::vector`s are lists; a row of `F`, `G` is a list of
  vertex indices, `J` and `flip` are lists of scalars.
* A read outside the bounds of a list returns a default value and a write
  outside the bounds is dropped; entries of a freshly resized matrix that the
  code never writes hold a fixed filler (`0`, `[]`).  The theorems below state
  the side conditions under which no such access happens.
* Quantities of C++ type `int` / `Index` are natural numbers (the sentinel `-1`
  of `nfei` and `max_ne` is `none`); the one expression that mixes `int` with
  `size_t` operands is evaluated modulo `2^64` as the language prescribes.
* The helpers declared in other headers (`unique_edge_map`,
  `order_facets_around_edges`, `facet_components`, `outer_facet`,
  `points_inside_component`) are not part of the embedded file: their results
  are fields of `Input`.
* Vertex coordinates are rationals (the exact-kernel instantiation of the
  template).

The embeddings of `straighten_seams.cpp`, `vector_area_matrix.cpp`,
`normal_derivative.cpp` and `WindingNumberAABB.h` follow in namespaces of their
own (`StraightenSeams`, `Eigen`, `VectorAreaMatrix`, `NormalDerivative`,
`WindingNumberAABB`), each with the definitions first and the theorems after
those of the outer hull.
-/

namespace OuterHull

/-- The arguments `V`, `F` of `outer_hull_legacy` together with the results of
the helper routines it calls. -/
structure Input where
  /-- Vertex positions, one row of three coordinates per vertex. -/
  V : List (List ℚ)
  /-- Triangles, one row of three vertex indices per face. -/
  F : List (List Nat)
  /-- The table `EMAP` of `unique_edge_map`: half-edge `f + c*m` to undirected edge. -/
  EMAP : List Nat
  /-- The table `uE2E` after line 104: for each undirected edge its half-edges in the
  radial order returned by `order_facets_around_edges` (`uE2oE`). -/
  uE2E : List (List Nat)
  /-- The table `uE2C` of `order_facets_around_edges`: per position, whether the
  half-edge runs along the direction used for sorting. -/
  uE2C : List (List Bool)
  /-- The vector `C` of `facet_components`: component label per face. -/
  C : List Nat
  /-- The vector `counts` of `facet_components`: number of faces per component. -/
  counts : List Nat
  /-- The call `outer_facet(V,F,IM,f,f_flip)` as a function of `IM`. -/
  outer_facet : List Nat → Nat × Bool
  /-- The call `points_inside_component(V,vG[id],query_points,inside)` as a function of
  the surface and the query points. -/
  points_inside_component : List (List Nat) → List (List ℚ) → List Int

/-- The number of faces, `m = F.rows()` (line 63). -/
def Input.m (inp : Input) : Nat := inp.F.length

/-- The number of components, `ncc = counts.rows()` (line 121). -/
def Input.ncc (inp : Input) : Nat := inp.counts.length

/-- The row `F.row(f)`. -/
def Input.row (inp : Input) (f : Nat) : List Nat := inp.F.getD f []

/-- The entry `F(f,c)`. -/
def Input.Fat (inp : Input) (f c : Nat) : Nat := (inp.row f).getD c 0

/-- The coordinate `V(v,k)`. -/
def Input.Vat (inp : Input) (v k : Nat) : ℚ := (inp.V.getD v []).getD k 0

/-- The incidence list `uE2E[EMAP(e)]` of the undirected edge of `e`. -/
def Input.ue (inp : Input) (e : Nat) : List Nat :=
  inp.uE2E.getD (inp.EMAP.getD e 0) []

/-- Lines 107-110: the inner loop for one incidence list `ue`, run for the
positions `0, ..., n-1`: `diIM[ue[i]] = i`. -/
def diIM_inner (di : List Nat) (ue : List Nat) (n : Nat) : List Nat :=
  (List.range n).foldl (fun di i => di.set (ue.getD i 0) i) di

/-- Lines 105-111: `diIM[fe] = i` for every position `i` of every incidence
list, in the order of the two nested loops. -/
def diIM_build (m : Nat) (uE2E : List (List Nat)) : List Nat :=
  uE2E.foldl (fun di ue => diIM_inner di ue ue.length) (List.replicate (3 * m) 0)

/-- The entry `diIM(e)`. -/
def Input.diIM (inp : Input) (e : Nat) : Nat :=
  (diIM_build inp.m inp.uE2E).getD e 0

/-- Lines 132-146: `vIM[id]` is sized `counts[id]` and filled, face by face,
at the running index `g[C(f)]`.  The pair `(vIM, g)` after the faces
`0, ..., k-1` have been placed. -/
def vIM_state (inp : Input) (k : Nat) : List (List Nat) × List Nat :=
  (List.range k).foldl
    (fun (st : List (List Nat) × List Nat) f =>
      let c := inp.C.getD f 0
      let gi := st.2.getD c 0
      (st.1.set c ((st.1.getD c []).set gi f), st.2.set c (gi + 1)))
    (inp.counts.map (fun n => List.replicate n 0), List.replicate inp.ncc 0)

/-- The vector `vIM` after the loop of lines 143-146. -/
def vIM_build (inp : Input) : List (List Nat) := (vIM_state inp inp.m).1

/-- The index list `vIM[id]`. -/
def Input.IM (inp : Input) (id : Nat) : List Nat := (vIM_build inp).getD id []

/-- The mutable data of the traversal: the queue `Q`, the face marks `FH`, the
half-edge marks `EH`, the orientation decisions `flip` and the counter
`FHcount`. -/
structure State where
  Q : List Nat
  FH : List Bool
  EH : List Bool
  flip : List Bool
  FHcount : Nat
deriving DecidableEq

/-- The modulus of `size_t` arithmetic. -/
def U64 : Nat := 2 ^ 64

/-- Conversion of the `int` values `1` and `-1` to `size_t`. -/
def signU (positive : Bool) : Nat := if positive then 1 else U64 - 1

/-- Line 239: `(diIM(e) + 2*val + e_cons*step*(flip(f)?-1:1)) % val`, the sum
and the products computed in `size_t`. -/
def nfei_new (di val : Nat) (e_cons : Bool) (step : Nat) (flipf : Bool) : Nat :=
  (((di + (2 * val) % U64) % U64
      + (((signU e_cons * step) % U64) * signU (!flipf)) % U64) % U64) % val

/-- Lines 233-269: the search for the next face around the edge of `e`.  The
`break` of line 259 is not guarded, so the body of the `for` loop runs for
`step = 1` only; `none` stands for `nfei = -1`. -/
def nextFaceSearch (inp : Input) (FH : List Bool) (flipf : Bool) (e : Nat) : Option Nat :=
  let val := (inp.ue e).length
  let e_cons := (inp.uE2C.getD (inp.EMAP.getD e 0) []).getD (inp.diIM e) false
  let step := 1
  if step < val + 2 then
    let i := nfei_new (inp.diIM e) val e_cons step flipf
    let nf := (inp.ue e).getD i 0 % inp.m
    if !(FH.getD nf false) then some i else none
  else none

/-- Line 212: `fs`, the source of the half-edge `(f,c)` according to `f`. -/
def edgeSource (inp : Input) (flipf : Bool) (f c : Nat) : Nat :=
  if flipf then inp.Fat f ((c + 2) % 3) else inp.Fat f ((c + 1) % 3)

/-- Line 214: `fd`, the destination of the half-edge `(f,c)` according to `f`. -/
def edgeDest (inp : Input) (flipf : Bool) (f c : Nat) : Nat :=
  if flipf then inp.Fat f ((c + 1) % 3) else inp.Fat f ((c + 2) % 3)

/-- Lines 294-296: the value written to `flip(nf)` when the traversal crosses
from the half-edge `(f,c)` to the half-edge `(nf,nc)`. -/
def neighborFlip (inp : Input) (flipf : Bool) (f c nf nc : Nat) : Bool :=
  let fs := edgeSource inp flipf f c
  let fd := edgeDest inp flipf f c
  let nd := inp.Fat nf ((nc + 2) % 3)
  let cons := (if flipf then fd else fs) == nd
  if cons then flipf else !flipf

/-- Lines 300-307: `if(!EH[ne]) Q.push(ne)`. -/
def pushUnvisited (EH : List Bool) (Q : List Nat) (ne : Nat) : List Nat :=
  if !(EH.getD ne false) then Q ++ [ne] else Q

/-- Lines 277-308: the state after the traversal has crossed from the
half-edge `e`, just popped and marked, to the half-edge `max_ne`; `Q` is the
rest of the queue. -/
def crossState (inp : Input) (s : State) (e : Nat) (Q : List Nat) (max_ne : Nat) : State :=
  let m := inp.m
  let f := e % m
  let c := e / m
  let EH := s.EH.set e true
  let flipf := s.flip.getD f false
  let nf := max_ne % m
  let nc := max_ne / m
  let ne1 := nf + ((nc + 1) % 3) * m
  let ne2 := nf + ((nc + 2) % 3) * m
  { Q := pushUnvisited EH (pushUnvisited EH Q ne1) ne2
    FH := s.FH.set nf true
    EH := EH
    flip := s.flip.set nf (neighborFlip inp flipf f c nf nc)
    FHcount := s.FHcount + 1 }

/-- Lines 191-309: one iteration of the `while(!Q.empty())` loop. -/
def bfsStep (inp : Input) (s : State) : State :=
  match s.Q with
  | [] => s
  | e :: Q =>
    if s.EH.getD e false = true then { s with Q := Q }
    else
      let flipf := s.flip.getD (e % inp.m) false
      let nfei := nextFaceSearch inp s.FH flipf e
      let max_ne := nfei.map (fun i => (inp.ue e).getD i 0)
      match max_ne with
      | none => { s with Q := Q, EH := s.EH.set e true }
      | some max_ne => crossState inp s e Q max_ne

/-- The `while` loop of lines 190-309 run for at most `fuel` iterations. -/
def bfs (inp : Input) : Nat → State → State
  | 0, s => s
  | fuel + 1, s => if s.Q = [] then s else bfs inp fuel (bfsStep inp s)

/-- The data that lives across the iterations of the loop over components
(lines 130-134): `FH`, `EH`, `flip` and the per-component results. -/
structure Global where
  FH : List Bool
  EH : List Bool
  flip : List Bool
  vG : List (List (List Nat))
  vJ : List (List Nat)
deriving DecidableEq

/-- Lines 122-134: the state before the first component. -/
def Global.init (inp : Input) : Global :=
  { FH := List.replicate inp.m false
    EH := List.replicate (3 * inp.m) false
    flip := List.replicate inp.m false
    vG := List.replicate inp.ncc []
    vJ := List.replicate inp.ncc [] }

/-- Lines 161-183: seed selection and queue initialisation of component `id`. -/
def seedInit (inp : Input) (id : Nat) (g : Global) : State :=
  let f := (inp.outer_facet (inp.IM id)).1
  let f_flip := (inp.outer_facet (inp.IM id)).2
  { FHcount := 1
    FH := g.FH.set f true
    Q := [f + 0 * inp.m, f + 1 * inp.m, f + 2 * inp.m]
    flip := g.flip.set f f_flip
    EH := g.EH }

/-- The matrix after `resize(n, ...)` followed by writes of the rows `written` at `0, 1, ...`:
the result has `n` rows. -/
def resized {α : Type} (n : Nat) (written : List α) (filler : α) : List α :=
  (written ++ List.replicate (n - written.length) filler).take n

/-- Lines 317-330: the faces of `IM` whose `FH` mark is set, in the order of
the loop over `i`. -/
def gathered (inp : Input) (id : Nat) (s : State) : List Nat :=
  ((List.range (inp.counts.getD id 0)).map (fun i => (inp.IM id).getD i 0)).filter
    (fun f => s.FH.getD f false)

/-- Line 326: the row of face `f` in the orientation decided by `flip`. -/
def orientedRow (inp : Input) (flip : List Bool) (f : Nat) : List Nat :=
  if flip.getD f false then (inp.row f).reverse else inp.row f

/-- The number of loop iterations after which the queue of a component is
certainly empty (three seeds, at most two pushes per resolved face). -/
def bfsFuel (inp : Input) : Nat := 3 + 2 * inp.m

/-- Lines 159-333: the body of the loop over components, for component `id`. -/
def componentBody (inp : Input) (id : Nat) (g : Global) : Global :=
  let s := bfs inp (bfsFuel inp) (seedInit inp id g)
  let fs := gathered inp id s
  { FH := s.FH
    EH := s.EH
    flip := s.flip
    vG := g.vG.set id (resized s.FHcount (fs.map (orientedRow inp s.flip)) [])
    vJ := g.vJ.set id (resized s.FHcount fs 0) }

/-- The state after the components `0, ..., k-1` have been traversed. -/
def componentsLoop (inp : Input) : Nat → Global
  | 0 => Global.init inp
  | k + 1 => componentBody inp k (componentsLoop inp k)

/-- Lines 342-366: `bounding_box(V,F)`, the rows `(min, max)`. -/
def bounding_box (inp : Input) (A : List (List Nat)) : List ℚ × List ℚ :=
  A.foldl
    (fun BB row =>
      (List.range 3).foldl
        (fun BB c =>
          let v := row.getD c 0
          ((List.range 3).map (fun k => min (BB.1.getD k 0) (inp.Vat v k)),
           (List.range 3).map (fun k => max (BB.2.getD k 0) (inp.Vat v k))))
        BB)
    ([100000000000000000000000000, 100000000000000000000000000, 100000000000000000000000000],
     [-100000000000000000000000000, -100000000000000000000000000, -100000000000000000000000000])

/-- The value of `maxCoeff()` on a row of three coefficients. -/
def maxCoeff (r : List ℚ) : ℚ := max (max (r.getD 0 0) (r.getD 1 0)) (r.getD 2 0)

/-- Lines 337-379: `has_overlapping_bbox(V,A,B)`. -/
def has_overlapping_bbox (inp : Input) (A B : List (List Nat)) : Bool :=
  let ABB := bounding_box inp A
  let BBB := bounding_box inp B
  if maxCoeff ((List.range 3).map (fun k => BBB.1.getD k 0 - ABB.2.getD k 0)) > 0 ∨
      maxCoeff ((List.range 3).map (fun k => ABB.1.getD k 0 - BBB.2.getD k 0)) > 0 then
    false
  else
    true

/-- The state of the nesting loop: `keep`, and a record of the invocations of
`points_inside_component` made so far (component, `unresolved`,
`query_points`).  The record is bookkeeping of the embedding only. -/
structure Nest where
  keep : List Bool
  calls : List (Nat × List Nat × List (List ℚ))
deriving DecidableEq

/-- Lines 388-398: the components whose sample point is to be tested against
component `id`. -/
def unresolvedOf (inp : Input) (vG : List (List (List Nat))) (keep : List Bool) (id : Nat) :
    List Nat :=
  (List.range inp.ncc).filter (fun oid =>
    !(id == oid || !(keep.getD oid false)) &&
      has_overlapping_bbox inp (vG.getD id []) (vG.getD oid []))

/-- Lines 403-406: the barycentre of the first row of `vG[oid]`. -/
def queryPoint (inp : Input) (vG : List (List (List Nat))) (oid : Nat) : List ℚ :=
  let f := (vG.getD oid []).getD 0 []
  (List.range 3).map (fun k =>
    (inp.Vat (f.getD 0 0) k + inp.Vat (f.getD 1 0) k + inp.Vat (f.getD 2 0) k) / 3)

/-- Lines 411-416: discard every tested component reported inside. -/
def discardInside (unresolved : List Nat) (inside : List Int) (keep : List Bool) : List Bool :=
  (List.range unresolved.length).foldl
    (fun keep i => if inside.getD i 0 ≠ 0 then keep.set (unresolved.getD i 0) false else keep)
    keep

/-- Lines 385-417: the body of the nesting loop for component `id`. -/
def nestBody (inp : Input) (vG : List (List (List Nat))) (id : Nat) (n : Nest) : Nest :=
  if !(n.keep.getD id false) then n
  else
    let unresolved := unresolvedOf inp vG n.keep id
    let query_points := unresolved.map (queryPoint inp vG)
    let inside := inp.points_inside_component (vG.getD id []) query_points
    { keep := discardInside unresolved inside n.keep
      calls := n.calls ++ [(id, unresolved, query_points)] }

/-- The nesting loop after the components `0, ..., k-1` have been the tester. -/
def nestLoop (inp : Input) (vG : List (List (List Nat))) : Nat → Nest
  | 0 => { keep := List.replicate inp.ncc true, calls := [] }
  | k + 1 => nestBody inp vG k (nestLoop inp vG k)

/-- The three results `G`, `J`, `flip`. -/
structure Output where
  G : List (List Nat)
  J : List Nat
  flip : List Bool
deriving DecidableEq

/-- Lines 418-439: concatenation of the blocks of the kept components. -/
def collect {α : Type} (ncc : Nat) (keep : List Bool) (v : List (List α)) : List α :=
  (List.range ncc).flatMap (fun id => if keep.getD id false then v.getD id [] else [])

/-- The whole of `outer_hull_legacy`. -/
def outer_hull_legacy (inp : Input) : Output :=
  let g := componentsLoop inp inp.ncc
  let keep := (nestLoop inp g.vG inp.ncc).keep
  { G := collect inp.ncc keep g.vG
    J := collect inp.ncc keep g.vJ
    flip := g.flip }

/-- Every half-edge occurs in the incidence list of the undirected edge that
`EMAP` assigns to it. -/
def EdgesListed (inp : Input) : Prop := ∀ e < 3 * inp.m, e ∈ inp.ue e

/-- The component labelling is adjacency-closed: the faces owning the
half-edges of one undirected edge carry the same label. -/
def AdjacencyClosed (inp : Input) : Prop :=
  ∀ ue ∈ inp.uE2E, ∀ e1 ∈ ue, ∀ e2 ∈ ue,
    inp.C.getD (e1 % inp.m) 0 = inp.C.getD (e2 % inp.m) 0

/-- The number of faces labelled `id`. -/
def labelCount (inp : Input) (id : Nat) : Nat :=
  (List.range inp.m).countP (fun f => inp.C.getD f 0 == id)

/-- The results of `facet_components` are well formed: every face has a label
below `ncc`, and `counts[id]` is the number of faces labelled `id`. -/
def LabelsOK (inp : Input) : Prop :=
  (∀ f < inp.m, inp.C.getD f 0 < inp.ncc) ∧
    ∀ id < inp.ncc, inp.counts.getD id 0 = labelCount inp id

/-- The seed returned by `outer_facet` for component `id` is a face labelled
`id`. -/
def SeedsOK (inp : Input) : Prop :=
  ∀ id < inp.ncc, (inp.outer_facet (inp.IM id)).1 < inp.m ∧
    inp.C.getD (inp.outer_facet (inp.IM id)).1 0 = id

/-- The number of resolved faces labelled `id`. -/
def resolvedCount (inp : Input) (id : Nat) (FH : List Bool) : Nat :=
  (List.range inp.m).countP (fun f => inp.C.getD f 0 == id && FH.getD f false)

/-- The quantity that decreases with every iteration of the traversal loop. -/
def State.measure (s : State) : Nat := s.Q.length + 2 * s.FH.count false

instance (inp : Input) : Decidable (EdgesListed inp) := by
  unfold EdgesListed; infer_instance

instance (inp : Input) : Decidable (AdjacencyClosed inp) := by
  unfold AdjacencyClosed; infer_instance

instance (inp : Input) : Decidable (LabelsOK inp) := by
  unfold LabelsOK; infer_instance

instance (inp : Input) : Decidable (SeedsOK inp) := by
  unfold SeedsOK; infer_instance

/-- Three triangles around the common edge `{0,1}` ("book with three pages"),
one component, seed face `0`. -/
def bookMesh : Input :=
  { V := [[0, 0, 0], [1, 0, 0], [0, 1, 0], [0, 0, 1], [0, -1, 0]]
    F := [[0, 1, 2], [0, 1, 3], [0, 1, 4]]
    EMAP := [4, 5, 6, 1, 2, 3, 0, 0, 0]
    uE2E := [[6, 7, 8], [3], [4], [5], [0], [1], [2]]
    uE2C := [[true, true, true], [false], [false], [false], [true], [true], [true]]
    C := [0, 0, 0]
    counts := [3]
    outer_facet := fun _ => (0, false)
    points_inside_component := fun _ q => q.map (fun _ => 0) }

/-- A tetrahedron with outward faces, one component, seed face `0`. -/
def tetraMesh : Input :=
  { V := [[0, 0, 0], [1, 0, 0], [0, 1, 0], [0, 0, 1]]
    F := [[0, 2, 1], [0, 1, 3], [1, 2, 3], [0, 3, 2]]
    EMAP := [3, 4, 5, 5, 0, 2, 4, 1, 1, 0, 3, 2]
    uE2E := [[4, 9], [7, 8], [5, 11], [0, 10], [1, 6], [2, 3]]
    uE2C := [[false, true], [false, true], [false, true], [false, true], [true, false],
      [true, false]]
    C := [0, 0, 0, 0]
    counts := [4]
    outer_facet := fun _ => (0, false)
    points_inside_component := fun _ q => q.map (fun _ => 0) }

/-- A tetrahedron with outward faces `0..3` and a fifth triangle `(0,1,4)`
hanging from the edge `{0,1}` into its interior; around that edge the radial
order is face `0`, face `4`, face `1`.  One component, seed face `2`. -/
def finMesh : Input :=
  { V := [[0, 0, 0], [1, 0, 0], [0, 1, 0], [0, 0, 1], [1/4, 1/4, 1/4]]
    F := [[0, 2, 1], [0, 1, 3], [1, 2, 3], [0, 3, 2], [0, 1, 4]]
    EMAP := [4, 5, 7, 7, 6, 0, 2, 5, 1, 3, 1, 0, 4, 2, 0]
    uE2E := [[5, 14, 11], [8, 10], [6, 13], [9], [0, 12], [1, 7], [4], [2, 3]]
    uE2C := [[false, true, true], [false, true], [false, true], [false], [false, true],
      [true, false], [true], [true, false]]
    C := [0, 0, 0, 0, 0]
    counts := [5]
    outer_facet := fun _ => (2, false)
    points_inside_component := fun _ q => q.map (fun _ => 0) }

/-- The successor rule in the words of the specification: walk the cyclic
order from one step away from the position of `e`, in the direction given by
the consistency flag and the flip of `f`, for `val` steps, and take the first
position whose owning face is not resolved. -/
def walkFirstUnresolved (inp : Input) (FH : List Bool) (flipf : Bool) (e : Nat) : Option Nat :=
  let val := (inp.ue e).length
  let e_cons := (inp.uE2C.getD (inp.EMAP.getD e 0) []).getD (inp.diIM e) false
  ((List.range val).map (fun k => nfei_new (inp.diIM e) val e_cons (k + 1) flipf)).find?
    (fun i => !(FH.getD ((inp.ue e).getD i 0 % inp.m) false))

/-- The position one step from `d` in a cyclic list of length `val`: forwards
when exactly one of the consistency flag and the flip is set, backwards
otherwise. -/
def oneStepPosition (d val : Nat) (e_cons flipf : Bool) : Nat :=
  if xor e_cons flipf then (d + 1) % val else (d + val - 1) % val

/-- The state of the traversal of component `id` after `k` iterations of the
loop. -/
def traversalState (inp : Input) (id k : Nat) : State :=
  (bfsStep inp)^[k] (seedInit inp id (componentsLoop inp id))

/-- The first endpoint of the half-edge `e = f + c*m` as stored in `F`:
`F(f,(c+1)%3)`. -/
def halfEdgeSrc (inp : Input) (e : Nat) : Nat := inp.Fat (e % inp.m) ((e / inp.m + 1) % 3)

/-- The second endpoint of the half-edge `e = f + c*m` as stored in `F`:
`F(f,(c+2)%3)`. -/
def halfEdgeDst (inp : Input) (e : Nat) : Nat := inp.Fat (e % inp.m) ((e / inp.m + 2) % 3)

/-- Two half-edges join the same two vertices. -/
def sameEndpoints (inp : Input) (e1 e2 : Nat) : Prop :=
  (halfEdgeSrc inp e1 = halfEdgeSrc inp e2 ∧ halfEdgeDst inp e1 = halfEdgeDst inp e2) ∨
  (halfEdgeSrc inp e1 = halfEdgeDst inp e2 ∧ halfEdgeDst inp e1 = halfEdgeSrc inp e2)

instance (inp : Input) (e1 e2 : Nat) : Decidable (sameEndpoints inp e1 e2) := by
  unfold sameEndpoints; infer_instance

/-- The three directed edges of an oriented triangle `(r0, r1, r2)`. -/
def directedEdges (row : List Nat) : List (Nat × Nat) :=
  [(row.getD 0 0, row.getD 1 0), (row.getD 1 0, row.getD 2 0), (row.getD 2 0, row.getD 0 0)]

/-- Every half-edge listed for the undirected edge `u` is mapped to `u` by
`EMAP`. -/
def EdgeMapOK (inp : Input) : Prop :=
  ∀ u < inp.uE2E.length, ∀ x ∈ inp.uE2E.getD u [], inp.EMAP.getD x 0 = u

instance (inp : Input) : Decidable (EdgeMapOK inp) := by
  unfold EdgeMapOK; infer_instance

/-- The half-edges `e1` and `e2` run in opposite directions between the same
two vertices. -/
def oppositeHalfEdges (inp : Input) (e1 e2 : Nat) : Prop :=
  halfEdgeSrc inp e1 = halfEdgeDst inp e2 ∧ halfEdgeDst inp e1 = halfEdgeSrc inp e2

instance (inp : Input) (e1 e2 : Nat) : Decidable (oppositeHalfEdges inp e1 e2) := by
  unfold oppositeHalfEdges; infer_instance

/-- Component `id` is a closed, consistently oriented manifold: the undirected
edge of each of its half-edges has exactly two incident half-edges, and they
run in opposite directions. -/
def ClosedOriented (inp : Input) (id : Nat) : Prop :=
  ∀ e < 3 * inp.m, inp.C.getD (e % inp.m) 0 = id →
    ∃ e' < 3 * inp.m, e' ≠ e ∧ (inp.ue e = [e, e'] ∨ inp.ue e = [e', e]) ∧
      oppositeHalfEdges inp e e'

instance (inp : Input) (id : Nat) : Decidable (ClosedOriented inp id) := by
  unfold ClosedOriented; infer_instance

/-- Face `g` owns a half-edge of the undirected edge of one of the half-edges
of face `f`. -/
def faceAdjacent (inp : Input) (f g : Nat) : Prop :=
  ∃ c < 3, ∃ e' ∈ inp.ue (f + c * inp.m), e' % inp.m = g

instance (inp : Input) (f g : Nat) : Decidable (faceAdjacent inp f g) := by
  unfold faceAdjacent; infer_instance

/-- Any two faces labelled `id` are joined by a chain of faces in which
consecutive faces share an undirected edge. -/
def ComponentConnected (inp : Input) (id : Nat) : Prop :=
  ∀ f < inp.m, ∀ g < inp.m, inp.C.getD f 0 = id → inp.C.getD g 0 = id →
    Relation.ReflTransGen (faceAdjacent inp) f g

/-- Consecutive faces of the walk share an undirected edge (seen from either
face). -/
def walkLinked (inp : Input) : List Nat → Bool
  | a :: b :: rest =>
    decide (faceAdjacent inp a b) && decide (faceAdjacent inp b a) && walkLinked inp (b :: rest)
  | _ => true

/-- A walk through the faces that passes every face labelled `id` and in
which consecutive faces share an undirected edge. -/
def WalkCovers (inp : Input) (id : Nat) (walk : List Nat) : Prop :=
  (∀ f < inp.m, inp.C.getD f 0 = id → f ∈ walk) ∧ walkLinked inp walk = true

instance (inp : Input) (id : Nat) (walk : List Nat) : Decidable (WalkCovers inp id walk) := by
  unfold WalkCovers; infer_instance

/-- The vertices of two origin-centred axis-aligned cubes: `0..7` the corners
`(±1, ±1, ±1)` of the cube of side `2`, `8..15` the corners `(±1/2, ±1/2, ±1/2)`
of the cube of side `1`. -/
def cubesV : List (List ℚ) :=
  [[-1, -1, -1], [1, -1, -1], [-1, 1, -1], [1, 1, -1], [-1, -1, 1], [1, -1, 1], [-1, 1, 1],
   [1, 1, 1], [-1/2, -1/2, -1/2], [1/2, -1/2, -1/2], [-1/2, 1/2, -1/2], [1/2, 1/2, -1/2],
   [-1/2, -1/2, 1/2], [1/2, -1/2, 1/2], [-1/2, 1/2, 1/2], [1/2, 1/2, 1/2]]

/-- The twelve outward triangles of the cube of side `2`. -/
def outerCube : List (List Nat) :=
  [[0, 6, 2], [0, 4, 6], [1, 3, 7], [1, 7, 5], [0, 1, 5], [0, 5, 4], [2, 7, 3], [2, 6, 7],
   [0, 3, 1], [0, 2, 3], [4, 5, 7], [4, 7, 6]]

/-- The twelve outward triangles of the cube of side `1`. -/
def innerCube : List (List Nat) :=
  [[8, 14, 10], [8, 12, 14], [9, 11, 15], [9, 15, 13], [8, 9, 13], [8, 13, 12], [10, 15, 11],
   [10, 14, 15], [8, 11, 9], [8, 10, 11], [12, 13, 15], [12, 15, 14]]

/-- The face list of the nesting scenario: the outer cube, then the inner. -/
def cubesF : List (List Nat) := outerCube ++ innerCube

/-- The barycentre of the first triangle of the outer cube. -/
def outerSample : List ℚ := [-1, 1/3, -1/3]

/-- The barycentre of the first triangle of the inner cube. -/
def innerSample : List ℚ := [-1/2, 1/6, -1/6]

/-- The component labels of the nesting scenario: the outer cube is component
`0` when `outerFirst` is set and component `1` otherwise. -/
def cubesLabels (outerFirst : Bool) : List Nat :=
  if outerFirst then List.replicate 12 0 ++ List.replicate 12 1
  else List.replicate 12 1 ++ List.replicate 12 0

/-- The nesting scenario with the outer cube as component `0` when
`outerFirst` is set and as component `1` otherwise, with the edge tables of
the face list, seed faces `0` and `12`, and a point-in-solid oracle that answers
"inside" exactly for the sample of the inner cube. -/
def nestedCubes (outerFirst : Bool) : Input :=
  { V := cubesV
    F := cubesF
    EMAP := [10, 14, 12, 16, 7, 13, 12, 17, 6, 9, 16, 17, 28, 32, 30, 34, 25, 31, 30, 35, 24,
      27, 34, 35, 1, 5, 8, 7, 4, 3, 9, 11, 0, 2, 15, 14, 19, 23, 26, 25, 22, 21, 27, 29, 18, 20,
      33, 32, 5, 3, 6, 8, 0, 4, 11, 10, 2, 1, 13, 15, 23, 21, 24, 26, 18, 22, 29, 28, 20, 19,
      31, 33]
    uE2E := [[32, 52], [24, 57], [33, 56], [29, 49], [28, 53], [25, 48], [8, 50], [4, 27],
      [26, 51], [9, 30], [0, 55], [31, 54], [2, 6], [5, 58], [1, 35], [34, 59], [3, 10],
      [7, 11], [44, 64], [36, 69], [45, 68], [41, 61], [40, 65], [37, 60], [20, 62], [16, 39],
      [38, 63], [21, 42], [12, 67], [43, 66], [14, 18], [17, 70], [13, 47], [46, 71], [15, 22],
      [19, 23]]
    uE2C := [[false, true], [false, true], [false, true], [false, true], [false, true],
      [false, true], [false, true], [true, false], [false, true], [true, false], [false, true],
      [false, true], [true, false], [false, true], [true, false], [false, true], [false, true],
      [true, false], [false, true], [false, true], [false, true], [false, true], [false, true],
      [false, true], [false, true], [true, false], [false, true], [true, false], [false, true],
      [false, true], [true, false], [false, true], [true, false], [false, true], [false, true],
      [true, false]]
    C := cubesLabels outerFirst
    counts := [12, 12]
    outer_facet := fun IM => (IM.getD 0 0, false)
    points_inside_component := fun _ q => q.map (fun p => if p = innerSample then 1 else 0) }

/-- The edge tables are a unique-edge map of the face list: every half-edge is
listed by the undirected edge that `EMAP` gives it, an incidence list holds
half-edges of the mesh without repetition, and two half-edges have the same
undirected edge exactly when they join the same two vertices. -/
def EdgeTablesValid (inp : Input) : Prop :=
  EdgesListed inp ∧ EdgeMapOK inp ∧
    (∀ ue ∈ inp.uE2E, ue.Nodup ∧ ∀ x ∈ ue, x < 3 * inp.m) ∧
    ∀ e1 < 3 * inp.m, ∀ e2 < 3 * inp.m,
      (inp.EMAP.getD e1 0 = inp.EMAP.getD e2 0 ↔ sameEndpoints inp e1 e2)

instance (inp : Input) : Decidable (EdgeTablesValid inp) := by
  unfold EdgeTablesValid; infer_instance

/-- In the face list, every half-edge of a face labelled `id` has exactly one
other half-edge joining the same two vertices, and that one runs in the
opposite direction. -/
def EdgePairing (inp : Input) (id : Nat) : Prop :=
  ∀ e < 3 * inp.m, inp.C.getD (e % inp.m) 0 = id →
    ∃ e' < 3 * inp.m, e' ≠ e ∧ oppositeHalfEdges inp e e' ∧
      ∀ x < 3 * inp.m, sameEndpoints inp e x → x = e ∨ x = e'

instance (inp : Input) (id : Nat) : Decidable (EdgePairing inp id) := by
  unfold EdgePairing; infer_instance

/-- Faces with half-edges joining the same two vertices carry the same label. -/
def LabelsFollowEdges (inp : Input) : Prop :=
  ∀ e1 < 3 * inp.m, ∀ e2 < 3 * inp.m, sameEndpoints inp e1 e2 →
    inp.C.getD (e1 % inp.m) 0 = inp.C.getD (e2 % inp.m) 0

instance (inp : Input) : Decidable (LabelsFollowEdges inp) := by
  unfold LabelsFollowEdges; infer_instance

/-- Faces `f` and `g` have half-edges joining the same two vertices. -/
def shareEdge (inp : Input) (f g : Nat) : Prop :=
  ∃ c < 3, ∃ c' < 3, sameEndpoints inp (f + c * inp.m) (g + c' * inp.m)

instance (inp : Input) (f g : Nat) : Decidable (shareEdge inp f g) := by
  unfold shareEdge; infer_instance

/-- Consecutive faces of the walk are faces of the mesh with a common edge. -/
def walkShares (inp : Input) : List Nat → Bool
  | a :: b :: rest =>
    decide (a < inp.m) && decide (b < inp.m) && decide (shareEdge inp a b) &&
      decide (shareEdge inp b a) && walkShares inp (b :: rest)
  | _ => true

/-- Every row of `F` has three entries. -/
def TrianglesOK (inp : Input) : Prop := ∀ r ∈ inp.F, r.length = 3

instance (inp : Input) : Decidable (TrianglesOK inp) := by
  unfold TrianglesOK; infer_instance

/-- No half-edge joins a vertex to itself. -/
def NonDegenerate (inp : Input) : Prop :=
  ∀ e < 3 * inp.m, halfEdgeSrc inp e ≠ halfEdgeDst inp e

instance (inp : Input) : Decidable (NonDegenerate inp) := by
  unfold NonDegenerate; infer_instance

/-- The flips `σ` orient the mesh consistently: any two distinct half-edges
that join the same two vertices run in opposite directions once their faces
are oriented by `σ`. -/
def ConsistentUnder (inp : Input) (σ : List Bool) : Prop :=
  ∀ e1 < 3 * inp.m, ∀ e2 < 3 * inp.m, e1 ≠ e2 → sameEndpoints inp e1 e2 →
    edgeSource inp (σ.getD (e1 % inp.m) false) (e1 % inp.m) (e1 / inp.m)
        = edgeDest inp (σ.getD (e2 % inp.m) false) (e2 % inp.m) (e2 / inp.m) ∧
      edgeDest inp (σ.getD (e1 % inp.m) false) (e1 % inp.m) (e1 / inp.m)
        = edgeSource inp (σ.getD (e2 % inp.m) false) (e2 % inp.m) (e2 / inp.m)

instance (inp : Input) (σ : List Bool) : Decidable (ConsistentUnder inp σ) := by
  unfold ConsistentUnder; infer_instance

/-- A Möbius strip of five triangles, one component, seed face `0`. -/
def mobiusMesh : Input :=
  { V := [[0, 0, 0], [1, 0, 0], [0, 1, 0], [0, 0, 1], [1, 1, 1]]
    F := [[0, 1, 2], [1, 2, 3], [2, 3, 4], [3, 4, 0], [4, 0, 1]]
    EMAP := [4, 7, 9, 3, 0, 1, 5, 8, 2, 6, 0, 4, 7, 9, 3]
    uE2E := [[4, 10], [5], [8], [3, 14], [0, 11], [6], [9], [1, 12], [7], [2, 13]]
    uE2C := [[true, true], [false], [true], [false, false], [true, true], [false], [true],
      [true, true], [false], [true, true]]
    C := [0, 0, 0, 0, 0]
    counts := [5]
    outer_facet := fun _ => (0, false)
    points_inside_component := fun _ q => q.map (fun _ => 0) }

/-! ## Invariants of the loops -/

/-- The invariant of the traversal of component `id` started from the global
state `g`. -/
structure TInv (inp : Input) (id : Nat) (g : Global) (s : State) : Prop where
  lenFH : s.FH.length = inp.m
  lenEH : s.EH.length = 3 * inp.m
  lenFlip : s.flip.length = inp.m
  queue : ∀ e ∈ s.Q, e < 3 * inp.m ∧ inp.C.getD (e % inp.m) 0 = id
  owner : ∀ e ∈ s.Q, s.FH.getD (e % inp.m) false = true
  frameFH : ∀ f, inp.C.getD f 0 ≠ id → s.FH.getD f false = g.FH.getD f false
  frameFlip : ∀ f, inp.C.getD f 0 ≠ id → s.flip.getD f false = g.flip.getD f false
  frameEH : ∀ e, inp.C.getD (e % inp.m) 0 ≠ id → s.EH.getD e false = g.EH.getD e false
  count : s.FHcount = resolvedCount inp id s.FH

/-- The invariant of the loop over components, before component `k`. -/
structure GInv (inp : Input) (k : Nat) (g : Global) : Prop where
  lenFH : g.FH.length = inp.m
  lenEH : g.EH.length = 3 * inp.m
  lenFlip : g.flip.length = inp.m
  lenvG : g.vG.length = inp.ncc
  lenvJ : g.vJ.length = inp.ncc
  marksFH : ∀ f, g.FH.getD f false = true → inp.C.getD f 0 < k
  marksEH : ∀ e, g.EH.getD e false = true → inp.C.getD (e % inp.m) 0 < k
  resJ : ∀ id < k, g.vJ.getD id [] = (inp.IM id).filter (fun f => g.FH.getD f false)
  resG : ∀ id < k, g.vG.getD id [] = (g.vJ.getD id []).map (orientedRow inp g.flip)

/-- The invariant on marks and queue during the traversal of component `id`
seeded at `seed`. -/
structure MInv (inp : Input) (id seed : Nat) (s : State) : Prop where
  nodup : s.Q.Nodup
  fresh : ∀ e ∈ s.Q, s.EH.getD e false = false
  seedFH : s.FH.getD seed false = true
  unresolved : ∀ f < inp.m, inp.C.getD f 0 = id → s.FH.getD f false = false →
    ∀ c < 3, s.EH.getD (f + c * inp.m) false = false ∧ f + c * inp.m ∉ s.Q
  seedMarks : ∀ c < 3, s.EH.getD (seed + c * inp.m) false = true ∨ seed + c * inp.m ∈ s.Q
  entered : ∀ f < inp.m, inp.C.getD f 0 = id → s.FH.getD f false = true → f ≠ seed →
    ∃ nc < 3, s.EH.getD (f + nc * inp.m) false = false ∧ f + nc * inp.m ∉ s.Q ∧
      ∀ c < 3, c ≠ nc → (s.EH.getD (f + c * inp.m) false = true ∨ f + c * inp.m ∈ s.Q)

/-- The invariant that yields completeness: every half-edge of a resolved face
is still queued or lies on an edge all of whose faces are resolved; every
resolved face of the component has the flip `ff` of the seed. -/
structure CInv (inp : Input) (id : Nat) (ff : Bool) (s : State) : Prop where
  closed : ∀ f < inp.m, inp.C.getD f 0 = id → s.FH.getD f false = true → ∀ c < 3,
    f + c * inp.m ∈ s.Q ∨ ∀ x ∈ inp.ue (f + c * inp.m), s.FH.getD (x % inp.m) false = true
  flips : ∀ f < inp.m, inp.C.getD f 0 = id → s.FH.getD f false = true →
    s.flip.getD f false = ff

/-- The invariant: on the resolved faces of the component the flips differ
from `σ` by the constant `κ`. -/
def OInv (inp : Input) (id : Nat) (σ : List Bool) (κ : Bool) (s : State) : Prop :=
  ∀ f < inp.m, inp.C.getD f 0 = id → s.FH.getD f false = true →
    (s.flip.getD f false != σ.getD f false) = κ

/-- No two distinct components have overlapping bounding boxes (the test of
line 397 fails for every pair). -/
def BoxesDisjoint (inp : Input) (vG : List (List (List Nat))) : Prop :=
  ∀ id < inp.ncc, ∀ oid < inp.ncc, id ≠ oid →
    has_overlapping_bbox inp (vG.getD id []) (vG.getD oid []) = false

/-- The vertices of two cubes that lie apart: `0..7` the corners `(±1, ±1, ±1)`,
`8..15` the corners `(4 ± 1/2, ±1/2, ±1/2)`. -/
def apartV : List (List ℚ) :=
  [[-1, -1, -1], [1, -1, -1], [-1, 1, -1], [1, 1, -1], [-1, -1, 1], [1, -1, 1], [-1, 1, 1],
   [1, 1, 1], [7/2, -1/2, -1/2], [9/2, -1/2, -1/2], [7/2, 1/2, -1/2], [9/2, 1/2, -1/2],
   [7/2, -1/2, 1/2], [9/2, -1/2, 1/2], [7/2, 1/2, 1/2], [9/2, 1/2, 1/2]]

/-- Two cubes that lie apart, with the face list, tables, labels and seeds of
`nestedCubes true`, and a point-in-solid oracle that answers "inside" for every
query point. -/
def apartCubes : Input :=
  { nestedCubes true with
    V := apartV
    points_inside_component := fun _ q => q.map (fun _ => 1) }

/-- The answer of the point-in-solid routine for a query point does not depend
on the other points of the batch it is sent with. -/
def OracleBatchFree (inp : Input) : Prop :=
  ∀ (S : List (List Nat)) (pts : List (List ℚ)) (i : Nat), i < pts.length →
    (inp.points_inside_component S pts).getD i 0
      = (inp.points_inside_component S [pts.getD i []]).getD 0 0

/-- The oracle reports the sample point of component `oid` inside the surface
of component `id`. -/
def reportsInside (inp : Input) (vG : List (List (List Nat))) (id oid : Nat) : Prop :=
  (inp.points_inside_component (vG.getD id []) [queryPoint inp vG oid]).getD 0 0 ≠ 0

/-- The containment relation of the nesting step: the boxes of `id` and `oid`
overlap and the oracle reports the sample point of `oid` inside the surface of
`id`. -/
def containsComp (inp : Input) (vG : List (List (List Nat))) (id oid : Nat) : Prop :=
  has_overlapping_bbox inp (vG.getD id []) (vG.getD oid []) = true ∧ reportsInside inp vG id oid

instance (inp : Input) (vG : List (List (List Nat))) (id oid : Nat) :
    Decidable (reportsInside inp vG id oid) := by
  unfold reportsInside; infer_instance

instance (inp : Input) (vG : List (List (List Nat))) (id oid : Nat) :
    Decidable (containsComp inp vG id oid) := by
  unfold containsComp; infer_instance

/-- Three nested triangles in the plane `z = 0`, each a component of its own:
component `0` the innermost, component `1` the outermost, component `2` the
middle one. The point-in-solid oracle reports the samples of the middle and the
innermost triangle inside the outermost, and the sample of the innermost inside
the middle one. -/
def threeTriangles : Input :=
  { V := [[2, 2, 0], [3, 2, 0], [2, 3, 0], [0, 0, 0], [9, 0, 0], [0, 9, 0], [1, 1, 0],
      [4, 1, 0], [1, 4, 0]]
    F := [[0, 1, 2], [3, 4, 5], [6, 7, 8]]
    EMAP := [2, 5, 8, 1, 4, 7, 0, 3, 6]
    uE2E := [[6], [3], [0], [7], [4], [1], [8], [5], [2]]
    uE2C := [[true], [false], [true], [true], [false], [true], [true], [false], [true]]
    C := [0, 1, 2]
    counts := [1, 1, 1]
    outer_facet := fun IM => (IM.getD 0 0, false)
    points_inside_component := fun S q => q.map (fun p =>
      if (S = [[3, 4, 5]] ∧ (p = [2, 2, 0] ∨ p = [7/3, 7/3, 0])) ∨
        (S = [[6, 7, 8]] ∧ p = [7/3, 7/3, 0]) then 1 else 0) }

/-- The two assertions of the gathering block of component `id` (lines 316 and
331), for the state `s` in which the traversal has ended: `counts(id) ==
IM.rows()` and `(int)h == FHcount`, where `h` is the number of rows written. -/
def gatherAssertions (inp : Input) (id : Nat) (s : State) : Prop :=
  inp.counts.getD id 0 = (inp.IM id).length ∧ (gathered inp id s).length = s.FHcount

instance (inp : Input) (id : Nat) (s : State) : Decidable (gatherAssertions inp id s) := by
  unfold gatherAssertions; infer_instance

/-- The half-edge `f + c*m` with its face renamed by `r`. -/
def relabelEdge (m : Nat) (r : Nat → Nat) (e : Nat) : Nat := r (e % m) + (e / m) * m

/-- The input `inp'` is the input `inp` with its faces listed in another
order: face `i` of `inp'` is face `p i` of `inp`, where `p` permutes the face
indices and `q` is its inverse, and the helper routines answer equivariantly:
the edge map, the incidence lists (in the same radial order, with the same
consistency flags), the component labels and the seeds of `inp'` are those of
`inp` under the renaming. -/
structure Relabelled (inp inp' : Input) (p q : Nat → Nat) : Prop where
  sameV : inp'.V = inp.V
  sameM : inp'.m = inp.m
  pLt : ∀ i < inp.m, p i < inp.m
  qLt : ∀ f < inp.m, q f < inp.m
  pq : ∀ f < inp.m, p (q f) = f
  qp : ∀ i < inp.m, q (p i) = i
  rows : ∀ i < inp.m, inp'.row i = inp.row (p i)
  edgeMap : ∀ e < 3 * inp.m, inp'.EMAP.getD e 0 = inp.EMAP.getD (relabelEdge inp.m p e) 0
  incidence : inp'.uE2E = inp.uE2E.map (List.map (relabelEdge inp.m q))
  flags : inp'.uE2C = inp.uE2C
  labels : ∀ i < inp.m, inp'.C.getD i 0 = inp.C.getD (p i) 0
  sizes : inp'.counts = inp.counts
  seeds : ∀ id < inp.ncc, inp'.outer_facet (inp'.IM id)
    = (q (inp.outer_facet (inp.IM id)).1, (inp.outer_facet (inp.IM id)).2)

/-- The simulation between the traversal states of the two runs: the state
`s'` is the state `s` with faces renamed by `q`. -/
structure Sim (inp : Input) (q : Nat → Nat) (s s' : State) : Prop where
  queue : s'.Q = s.Q.map (relabelEdge inp.m q)
  count : s'.FHcount = s.FHcount
  lenFH : s'.FH.length = inp.m
  lenEH : s'.EH.length = 3 * inp.m
  lenFlip : s'.flip.length = inp.m
  marksFH : ∀ f < inp.m, s'.FH.getD (q f) false = s.FH.getD f false
  marksEH : ∀ e < 3 * inp.m, s'.EH.getD (relabelEdge inp.m q e) false = s.EH.getD e false
  flips : ∀ f < inp.m, s'.flip.getD (q f) false = s.flip.getD f false

/-- The simulation between the marks of the two runs between two traversals. -/
structure GSim (inp : Input) (q : Nat → Nat) (g g' : Global) : Prop where
  lenFH : g'.FH.length = inp.m
  lenEH : g'.EH.length = 3 * inp.m
  lenFlip : g'.flip.length = inp.m
  marksFH : ∀ f < inp.m, g'.FH.getD (q f) false = g.FH.getD f false
  marksEH : ∀ e < 3 * inp.m, g'.EH.getD (relabelEdge inp.m q e) false = g.EH.getD e false
  flips : ∀ f < inp.m, g'.flip.getD (q f) false = g.flip.getD f false

/-- A permutation of three face indices: new face `i` is old face
`rotateFaces i`. -/
def rotateFaces (i : Nat) : Nat := ([1, 2, 0] : List Nat).getD i 0

/-- The inverse of `rotateFaces`. -/
def rotateFacesInv (f : Nat) : Nat := ([2, 0, 1] : List Nat).getD f 0

/-- The three nested triangles with the faces listed in the order given by
`rotateFaces`, the helper results renamed accordingly, and the same oracles. -/
def threeTrianglesRelabelled : Input :=
  { threeTriangles with
    F := [[3, 4, 5], [6, 7, 8], [0, 1, 2]]
    EMAP := [5, 8, 2, 4, 7, 1, 3, 6, 0]
    uE2E := [[8], [5], [2], [6], [3], [0], [7], [4], [1]]
    C := [1, 2, 0] }

/-- The half-edges pushed on the queue by the iteration of the traversal loop
that starts in state `s`: what the iteration appends to the rest of the
queue. -/
def pushedInStep (inp : Input) (s : State) : List Nat :=
  match s.Q with
  | [] => []
  | _ :: Q => (bfsStep inp s).Q.drop Q.length

/-- The half-edges pushed on the queue of a traversal that starts in state `s0`
(the three pushes of the seed included) up to its `k`-th iteration, in the
order of the pushes. -/
def pushedUpTo (inp : Input) (s0 : State) : Nat → List Nat
  | 0 => s0.Q
  | k + 1 => pushedUpTo inp s0 k ++ pushedInStep inp ((bfsStep inp)^[k] s0)

/-- All half-edges pushed during the run, component by component. -/
def runPushes (inp : Input) : List Nat :=
  (List.range inp.ncc).flatMap (fun id =>
    pushedUpTo inp (seedInit inp id (componentsLoop inp id)) (bfsFuel inp))

/-- The coordinates on axis `k` of the vertices referenced by the rows of
`A` (three per row). -/
def axisCoords (inp : Input) (A : List (List Nat)) (k : Nat) : List ℚ :=
  A.flatMap (fun row => (List.range 3).map (fun c => inp.Vat (row.getD c 0) k))

/-- The least entry of a non-empty list. -/
def listMin (l : List ℚ) : ℚ := l.foldl min (l.headD 0)

/-- The greatest entry of a non-empty list. -/
def listMax (l : List ℚ) : ℚ := l.foldl max (l.headD 0)

/-- The three nested triangles with an oracle that reports every sample
outside. -/
def looseTriangles : Input :=
  { threeTriangles with points_inside_component := fun _ q => q.map (fun _ => 0) }

/-- The three nested triangles with every seed flipped, so that the blocks
hold the reversed rows, and an oracle that reports, for these reversed
surfaces, the samples of the middle and the innermost triangle inside the
outermost and the sample of the innermost inside the middle one. -/
def flippedTriangles : Input :=
  { threeTriangles with
    outer_facet := fun IM => (IM.getD 0 0, true)
    points_inside_component := fun S q => q.map (fun p =>
      if (S = [[5, 4, 3]] ∧ (p = [2, 2, 0] ∨ p = [7/3, 7/3, 0])) ∨
        (S = [[8, 7, 6]] ∧ p = [7/3, 7/3, 0]) then 1 else 0) }

/-- Every undirected edge touched by component `id` has at most two incident
half-edges: the incidence list of each half-edge of a face labelled `id` has
at most two entries. -/
def ValenceAtMostTwo (inp : Input) (id : Nat) : Prop :=
  ∀ e < 3 * inp.m, inp.C.getD (e % inp.m) 0 = id → (inp.ue e).length ≤ 2

instance (inp : Input) (id : Nat) : Decidable (ValenceAtMostTwo inp id) := by
  unfold ValenceAtMostTwo; infer_instance

/-- The incidence lists hold half-edges of the mesh: every entry is below
`3*m`. -/
def IncidenceInRange (inp : Input) : Prop :=
  ∀ ue ∈ inp.uE2E, ∀ x ∈ ue, x < 3 * inp.m

instance (inp : Input) : Decidable (IncidenceInRange inp) := by
  unfold IncidenceInRange; infer_instance

/-- Every half-edge of a resolved face of component `id` is still queued or
lies on an undirected edge all of whose faces are resolved. -/
def EdgesCovered (inp : Input) (id : Nat) (s : State) : Prop :=
  ∀ f < inp.m, inp.C.getD f 0 = id → s.FH.getD f false = true → ∀ c < 3,
    f + c * inp.m ∈ s.Q ∨ ∀ x ∈ inp.ue (f + c * inp.m), s.FH.getD (x % inp.m) false = true

/-- The flips `σ` orient the faces listed in `R` consistently: any two distinct
half-edges of faces of `R` that join the same two vertices run in opposite
directions once their faces are oriented by `σ`.  Half-edges of faces outside
`R` are not constrained. -/
def ConsistentOn (inp : Input) (R : List Nat) (σ : List Bool) : Prop :=
  ∀ e1 < 3 * inp.m, ∀ e2 < 3 * inp.m, e1 ≠ e2 → e1 % inp.m ∈ R ∧ e2 % inp.m ∈ R →
    sameEndpoints inp e1 e2 →
    edgeSource inp (σ.getD (e1 % inp.m) false) (e1 % inp.m) (e1 / inp.m)
        = edgeDest inp (σ.getD (e2 % inp.m) false) (e2 % inp.m) (e2 / inp.m) ∧
      edgeDest inp (σ.getD (e1 % inp.m) false) (e1 % inp.m) (e1 / inp.m)
        = edgeSource inp (σ.getD (e2 % inp.m) false) (e2 % inp.m) (e2 / inp.m)

instance (inp : Input) (R : List Nat) (σ : List Bool) : Decidable (ConsistentOn inp R σ) := by
  unfold ConsistentOn
  refine @Nat.decidableBallLT _ _ (fun e1 _ => ?_)
  refine @Nat.decidableBallLT _ _ (fun e2 _ => ?_)
  infer_instance

/-- The barycentre of the triangle `row`, as computed in lines 403-406. -/
def barycenter (inp : Input) (row : List Nat) : List ℚ :=
  (List.range 3).map (fun k =>
    (inp.Vat (row.getD 0 0) k + inp.Vat (row.getD 1 0) k + inp.Vat (row.getD 2 0) k) / 3)

/-- The input `Y` is the input `X` with its components numbered in another
order: the faces, the edge tables and the seed routine are the same, and the
component of `X` with id `a` has the id `τ a` in `Y`, where `τ` permutes the
ids and `σ` is its inverse. -/
structure Renumbered (X Y : Input) (τ σ : Nat → Nat) : Prop where
  sameV : Y.V = X.V
  sameF : Y.F = X.F
  sameEMAP : Y.EMAP = X.EMAP
  sameuE2E : Y.uE2E = X.uE2E
  sameuE2C : Y.uE2C = X.uE2C
  sameSeed : Y.outer_facet = X.outer_facet
  sameNcc : Y.ncc = X.ncc
  τLt : ∀ a < X.ncc, τ a < X.ncc
  σLt : ∀ b < X.ncc, σ b < X.ncc
  τσ : ∀ b < X.ncc, τ (σ b) = b
  στ : ∀ a < X.ncc, σ (τ a) = a
  labels : ∀ f < X.m, Y.C.getD f 0 = τ (X.C.getD f 0)
  sizes : ∀ a < X.ncc, Y.counts.getD (τ a) 0 = X.counts.getD a 0

/-- The traversal states `s` and `t` have the same queue and the same marks and
flips on the faces and half-edges of the component labelled `id`. -/
structure Agree (inp : Input) (id : Nat) (s t : State) : Prop where
  queue : t.Q = s.Q
  lenFH : t.FH.length = s.FH.length
  lenEH : t.EH.length = s.EH.length
  lenFlip : t.flip.length = s.flip.length
  marksFH : ∀ f < inp.m, inp.C.getD f 0 = id → t.FH.getD f false = s.FH.getD f false
  marksEH : ∀ e < 3 * inp.m, inp.C.getD (e % inp.m) 0 = id →
    t.EH.getD e false = s.EH.getD e false
  flips : ∀ f < inp.m, inp.C.getD f 0 = id → t.flip.getD f false = s.flip.getD f false

/-- The answer of the point-in-solid routine does not depend on the order in
which the triangles of the surface are listed. -/
def OracleRowOrderFree (inp : Input) : Prop :=
  ∀ (S S' : List (List Nat)) (pts : List (List ℚ)), List.Perm S S' →
    inp.points_inside_component S pts = inp.points_inside_component S' pts

/-- The answer of the point-in-solid routine for a tested component does not
depend on the face that is sampled: for the barycentre of every triangle of
the block of `oid` the routine answers as for the sample point of `oid`. -/
def SampleIndependent (inp : Input) (vG : List (List (List Nat))) : Prop :=
  ∀ id < inp.ncc, ∀ oid < inp.ncc, ∀ r ∈ vG.getD oid [],
    ((inp.points_inside_component (vG.getD id []) [barycenter inp r]).getD 0 0 ≠ 0 ↔
      reportsInside inp vG id oid)

/-- The three nested triangles listed in the order given by `rotateFaces`, with
the components numbered in the order of their first face, as a labelling of
the new face list does: the outermost triangle is component `0`, the middle
one component `1`, the innermost component `2`. -/
def threeTrianglesRenumbered : Input :=
  { threeTrianglesRelabelled with C := [0, 1, 2] }

/-- Two triangles with a common edge, component `0`, and a triangle apart from
them, component `1`.  The point-in-solid routine reports the point `(1,1,0)`,
the barycentre of face `0`, inside the surface of component `1`, and no other
point inside any surface: component `0` straddles the surface of component
`1`. -/
def straddlingPair : Input :=
  { V := [[0, 0, 0], [3, 0, 0], [0, 3, 0], [3, 3, 0], [-9, -9, 0], [18, -9, 0], [-9, 18, 0]]
    F := [[0, 1, 2], [1, 3, 2], [4, 5, 6]]
    EMAP := [2, 4, 7, 1, 2, 6, 0, 3, 5]
    uE2E := [[6], [3], [0, 4], [7], [1], [8], [5], [2]]
    uE2C := [[true], [false], [true, false], [true], [false], [true], [false], [true]]
    C := [0, 0, 1]
    counts := [2, 1]
    outer_facet := fun IM => (IM.getD 0 0, false)
    points_inside_component := fun S q => q.map (fun p =>
      if [4, 5, 6] ∈ S ∧ p = [1, 1, 0] then 1 else 0) }

/-- The exchange of the faces `0` and `1`. -/
def swapFaces (i : Nat) : Nat := ([1, 0, 2] : List Nat).getD i 0

/-- The input `straddlingPair` with its first two faces exchanged: the same
triangles, the helper results renamed accordingly (the seed of component `0`
is the same triangle, now face `1`), and the same point-in-solid routine. -/
def straddlingPairSwapped : Input :=
  { straddlingPair with
    F := [[1, 3, 2], [0, 1, 2], [4, 5, 6]]
    EMAP := [4, 2, 7, 2, 1, 6, 3, 0, 5]
    uE2E := [[7], [4], [1, 3], [6], [0], [8], [5], [2]]
    outer_facet := fun IM => (IM.getD (if IM.length = 2 then 1 else 0) 0, false) }

/-- The three nested triangles of `threeTriangles` with a point-in-solid
routine whose containment is not transitive: it reports the sample of the
middle triangle inside the outermost and the sample of the innermost inside
the middle one, but not the sample of the innermost inside the outermost. -/
def brokenChain : Input :=
  { threeTriangles with
    points_inside_component := fun S q => q.map (fun p =>
      if ([3, 4, 5] ∈ S ∧ p = [2, 2, 0]) ∨ ([6, 7, 8] ∈ S ∧ p = [7/3, 7/3, 0]) then 1
      else 0) }

/-- The three nested triangles of `threeTriangles` with a point-in-solid
routine that reports every point inside every surface: any two components
contain each other. -/
def mutualTriangles : Input :=
  { threeTriangles with points_inside_component := fun _ q => q.map (fun _ => 1) }

/-- The exchange of the component ids `0` and `1`. -/
def swapFirstIds (a : Nat) : Nat := ([1, 0, 2] : List Nat).getD a 0

/-- The input `mutualTriangles` with the same face list and the ids `0` and `1`
of its components exchanged. -/
def mutualTrianglesRenumbered : Input :=
  { mutualTriangles with C := [1, 0, 2] }

/-- The exchange of the component ids `1` and `2`. -/
def swapIds (a : Nat) : Nat := ([0, 2, 1] : List Nat).getD a 0

/-- The input `brokenChain` with the same face list and the ids `1` and `2` of
its components exchanged. -/
def brokenChainRenumbered : Input :=
  { brokenChain with C := [0, 2, 1] }

end OuterHull

namespace StraightenSeams

/-!
# Seam straightening (`igl::straighten_seams`), the boundary half-edges

A shallow embedding of lines 53-79 and 125-135 of
`include/igl/straighten_seams.cpp`: the half-edge matrices `ET`, `EF`, the
selections `OF`, `OT` and the first marking of the sharp texture vertices `SV`.
Matrices are lists of rows; the boolean matrices `BT`, `BF` are the results of
the helper `on_boundary`, declared in another header.
-/

/-- The arguments `F`, `FT` of `straighten_seams`, the number of rows of `VT`,
and the results `BT`, `BF` of `on_boundary(FT,_,BT)` and `on_boundary(F,_,BF)`
(lines 57-58). -/
structure Input where
  /-- Triangles of the 3D mesh, indices into `V`. -/
  F : List (List Nat)
  /-- Triangles of the texture mesh, indices into `VT`. -/
  FT : List (List Nat)
  /-- The number of texture vertices, `VT.rows()`. -/
  VTrows : Nat
  /-- Per face and corner: is the half-edge on the boundary of the texture mesh. -/
  BT : List (List Bool)
  /-- Per face and corner: is the half-edge on the boundary of the 3D mesh. -/
  BF : List (List Bool)

/-- The column `M.col(c)` of an index matrix. -/
def col (M : List (List Nat)) (c : Nat) : List Nat := M.map (fun r => r.getD c 0)

/-- Lines 62-66: the matrix
`(MatrixX2I(M.rows()*3,2) << M.col(1),M.col(2),M.col(2),M.col(0),M.col(0),M.col(1))`:
three bands of `m` rows, band `c` holding the half-edges opposite corner `c`. -/
def halfEdgeMatrix (M : List (List Nat)) : List (List Nat) :=
  List.zipWith (fun a b => [a, b]) (col M 1) (col M 2) ++
    List.zipWith (fun a b => [a, b]) (col M 2) (col M 0) ++
    List.zipWith (fun a b => [a, b]) (col M 0) (col M 1)

/-- Lines 74-75: the column-major data of a boolean matrix with three columns
read as one vector, `Map(B.data(),B.size(),1)`. -/
def flattenColumns (B : List (List Bool)) : List Bool :=
  B.map (fun r => r.getD 0 false) ++ B.map (fun r => r.getD 1 false) ++
    B.map (fun r => r.getD 2 false)

/-- The call `igl::find(v)`: the indices of the set entries, increasing. -/
def find (v : List Bool) : List Nat :=
  (List.range v.length).filter (fun i => v.getD i false)

/-- The row selection `M(I,all)`. -/
def sliceRows (M : List (List Nat)) (I : List Nat) : List (List Nat) :=
  I.map (fun i => M.getD i [])

/-- Line 62: `ET`, the half-edges with indices into the texture mesh. -/
def ET (inp : Input) : List (List Nat) := halfEdgeMatrix inp.FT

/-- Line 65: `EF`, the half-edges with indices into the 3D mesh. -/
def EF (inp : Input) : List (List Nat) := halfEdgeMatrix inp.F

/-- Line 76: `vBT_i = igl::find(vBT)`. -/
def vBT_i (inp : Input) : List Nat := find (flattenColumns inp.BT)

/-- Line 77: `OF = EF(vBT_i,all)`. -/
def OF (inp : Input) : List (List Nat) := sliceRows (EF inp) (vBT_i inp)

/-- Line 78: `OT = EF(vBT_i,all)`. -/
def OT (inp : Input) : List (List Nat) := sliceRows (EF inp) (vBT_i inp)

/-- Line 120: `BTF = vBF(igl::find(vBT))`. -/
def BTF (inp : Input) : List Bool :=
  (vBT_i inp).map (fun i => (flattenColumns inp.BF).getD i false)

/-- Lines 125-135: `SV` after the loop over the texture-boundary half-edges;
the end points of every half-edge that is not on the boundary of the 3D mesh
are marked. -/
def SV (inp : Input) : List Bool :=
  (List.range (BTF inp).length).foldl
    (fun SV h =>
      if !((BTF inp).getD h false) then
        (SV.set ((OT inp).getD h [] |>.getD 0 0) true).set ((OT inp).getD h [] |>.getD 1 0) true
      else SV)
    (List.replicate inp.VTrows false)

/-- The rows of `ET` selected by the texture-boundary mask. -/
def textureBoundaryRows (inp : Input) : List (List Nat) := sliceRows (ET inp) (vBT_i inp)

/-- The marking of lines 125-135 run on a given list `O` of half-edges. -/
def markSharp (inp : Input) (O : List (List Nat)) : List Bool :=
  (List.range (BTF inp).length).foldl
    (fun SV h =>
      if !((BTF inp).getD h false) then
        (SV.set (O.getD h [] |>.getD 0 0) true).set (O.getD h [] |>.getD 1 0) true
      else SV)
    (List.replicate inp.VTrows false)

/-- Two triangles `(0,1,2)`, `(2,1,3)` that share the edge `{1,2}` in 3D and are
cut apart along it in the texture: texture triangles `(0,1,2)` and `(5,4,3)`
over six texture vertices. -/
def seamQuad : Input :=
  { F := [[0, 1, 2], [2, 1, 3]]
    FT := [[0, 1, 2], [5, 4, 3]]
    VTrows := 6
    BT := [[true, true, true], [true, true, true]]
    BF := [[false, true, true], [true, true, false]] }

end StraightenSeams

namespace Eigen

/-!
# Sparse matrices assembled from triplets

The part of `Eigen::SparseMatrix` used by `vector_area_matrix`: a matrix is
resized and filled with `setFromTriplets`, which sums the values of triplets
with the same coordinates.  Scalars are rationals.
-/

/-- An `Eigen::Triplet<Scalar>`: row, column and value. -/
structure Triplet where
  row : Nat
  col : Nat
  value : ℚ

/-- An `Eigen::SparseMatrix<Scalar>`: the dimensions and the coefficient at
each position. -/
structure SparseMatrix where
  rows : Nat
  cols : Nat
  coeff : Nat → Nat → ℚ

/-- The sum of the values of the triplets of `T` at the position `(r,c)`. -/
def tripletSum (T : List Triplet) (r c : Nat) : ℚ :=
  ((T.filter (fun t => t.row = r ∧ t.col = c)).map Triplet.value).sum

/-- The calls `A.resize(rows,cols); A.setFromTriplets(T.begin(),T.end())`: the
coefficient at a position is the sum of the values of the triplets there. -/
def setFromTriplets (rows cols : Nat) (T : List Triplet) : SparseMatrix :=
  { rows := rows, cols := cols, coeff := tripletSum T }

/-- The quadratic form `x^T A x`. -/
def quadraticForm (A : SparseMatrix) (x : List ℚ) : ℚ :=
  ∑ r in Finset.range A.rows, ∑ c in Finset.range A.cols,
    x.getD r 0 * A.coeff r c * x.getD c 0

/-- The sum of the coefficients of row `r`. -/
def rowSum (A : SparseMatrix) (r : Nat) : ℚ :=
  ∑ c in Finset.range A.cols, A.coeff r c

/-- The entry `r` of the product `A x`. -/
def mulVec (A : SparseMatrix) (x : List ℚ) (r : Nat) : ℚ :=
  ∑ c in Finset.range A.cols, A.coeff r c * x.getD c 0

end Eigen

namespace VectorAreaMatrix

/-!
# The vector area matrix (`igl::vector_area_matrix`)

A shallow embedding of `include/igl/vector_area_matrix.cpp`.  The list `E` of
boundary edges is the result of the helper `boundary_facets`, declared in
another header.
-/

/-- Line 22: `F.maxCoeff()`, the largest vertex index of the face list.  Eigen
leaves the value for a matrix without coefficients undefined; the fold starts
from `0`. -/
def maxCoeff (F : List (List Nat)) : Nat := (F.flatMap id).foldl max 0

/-- Lines 32-40: the four triplets pushed for every row `(i,j)` of `E`. -/
def tripletList (n : Nat) (E : List (List Nat)) : List Eigen.Triplet :=
  E.flatMap (fun e =>
    let i := e.getD 0 0
    let j := e.getD 1 0
    [{ row := i + n, col := j, value := -1/4 },
     { row := j, col := i + n, value := -1/4 },
     { row := i, col := j + n, value := 1/4 },
     { row := j + n, col := i, value := 1/4 }])

/-- Lines 17-45: `vector_area_matrix(F,A)`, with `boundary_facets` the helper
that returns the boundary edges of `F`. -/
def vector_area_matrix (boundary_facets : List (List Nat) → List (List Nat))
    (F : List (List Nat)) : Eigen.SparseMatrix :=
  let n := maxCoeff F + 1
  let E := boundary_facets F
  Eigen.setFromTriplets (n * 2) (n * 2) (tripletList n E)

/-- The end points of every row of `E` are vertex indices that occur in `F`. -/
def EdgesOfFaces (F E : List (List Nat)) : Prop :=
  ∀ e ∈ E, e.getD 0 0 ∈ F.flatMap id ∧ e.getD 1 0 ∈ F.flatMap id

instance (F E : List (List Nat)) : Decidable (EdgesOfFaces F E) := by
  unfold EdgesOfFaces; infer_instance

/-- The sum over the boundary edges `(i,j)` of `u_i*v_j - u_j*v_i`. -/
def boundarySum (E : List (List Nat)) (u v : List ℚ) : ℚ :=
  (E.map (fun e =>
    u.getD (e.getD 0 0) 0 * v.getD (e.getD 1 0) 0
      - u.getD (e.getD 1 0) 0 * v.getD (e.getD 0 0) 0)).sum

/-- All edges of the triangles of `F`, each in the orientation of its triangle; for
a single triangle these are its boundary edges. -/
def allEdges (F : List (List Nat)) : List (List Nat) :=
  F.flatMap (fun r => [[r.getD 0 0, r.getD 1 0], [r.getD 1 0, r.getD 2 0],
    [r.getD 2 0, r.getD 0 0]])

end VectorAreaMatrix

namespace NormalDerivative

/-!
# The normal derivative matrix (`igl::normal_derivative`)

A shallow embedding of `include/igl/normal_derivative.cpp`.  The function is a
template over the type `Scalar` of the entries of `DD`; the model takes the
arithmetic of `Scalar` as a parameter and is instantiated with the arithmetic
of `double`, for which the file instantiates the template, and with exact
rational arithmetic.  The matrix `C` of cotangent entries is the result of the
helper `cotmatrix_entries`, declared in another header; `Ele` and `C` are lists
of rows, `DDI` is kept as the list of its columns, the way the code fills it.
-/

/-- The arithmetic of the template parameter `Scalar` as far as the code uses
it: the value of an entry that received no triplet, the constants `1` and `-1`
of the diagonal of `S`, the sum of two values at the same position, and the
product of an entry of `C` with an entry of `S`. -/
structure Arith (S : Type) where
  zero : S
  one : S
  minusOne : S
  add : S → S → S
  mul : S → S → S

/-- An `Eigen::Triplet<Scalar>`: row, column and value. -/
structure Triplet (S : Type) where
  row : Nat
  col : Nat
  value : S

/-- An `Eigen::SparseMatrix<Scalar>`: the dimensions and the coefficient at
each position. -/
structure SparseMatrix (S : Type) where
  rows : Nat
  cols : Nat
  coeff : Nat → Nat → S

/-- The value stored for the triplet values `vs` of one position, in the order
of the triplet list: the first value is stored and every further one is added
to what is stored; a position without triplet reads as zero. -/
def sumDuplicates {S : Type} (A : Arith S) : List S → S
  | [] => A.zero
  | v :: vs => vs.foldl A.add v

/-- The triplets of `T` at the position `(r,c)`, in the order of `T`. -/
def tripletsAt {S : Type} (T : List (Triplet S)) (r c : Nat) : List (Triplet S) :=
  T.filter (fun t => t.row = r ∧ t.col = c)

/-- The coefficient at `(r,c)` after `setFromTriplets`: the values of the
triplets there, summed in the arithmetic of `Scalar`. -/
def tripletSum {S : Type} (A : Arith S) (T : List (Triplet S)) (r c : Nat) : S :=
  sumDuplicates A ((tripletsAt T r c).map Triplet.value)

/-- The calls `DD.resize(rows,cols); DD.setFromTriplets(IJV.begin(),IJV.end())`. -/
def setFromTriplets {S : Type} (A : Arith S) (rows cols : Nat) (T : List (Triplet S)) :
    SparseMatrix S :=
  { rows := rows, cols := cols, coeff := tripletSum A T }

/-- The arguments of `normal_derivative` as far as the code reads them, and the
result of `cotmatrix_entries(V,Ele,C)`. -/
structure Input (S : Type) where
  /-- The number of vertices, `n = V.rows()`. -/
  Vrows : Nat
  /-- The simplex size, `ss = Ele.cols()`. -/
  ss : Nat
  /-- The rows of `Ele`, vertex indices of each element. -/
  Ele : List (List Nat)
  /-- The rows of the cotangent matrix `C`. -/
  C : List (List S)

/-- The number of elements, `m = Ele.rows()`. -/
def Input.m {S : Type} (inp : Input S) : Nat := inp.Ele.length

/-- The column selection `M(all, cols)`. -/
def sliceCols {α : Type} (M : List (List α)) (cols : List Nat) (d : α) : List (List α) :=
  M.map (fun r => cols.map (fun c => r.getD c d))

/-- The entry `M(e,k)` of a matrix given by its rows. -/
def entry {α : Type} (M : List (List α)) (e k : Nat) (d : α) : α := (M.getD e []).getD k d

/-- Line 42: the columns of `Ele` that make up `DDJ` for tetrahedra. -/
def DDJcols4 : List Nat :=
  [1, 0, 2, 0, 3, 0, 2, 1, 3, 1, 0, 1, 3, 2, 0, 2, 1, 2, 0, 3, 1, 3, 2, 3]

/-- Line 55: the columns of `C` that make up `DDV` for tetrahedra. -/
def DDVcols4 : List Nat :=
  [2, 2, 1, 1, 3, 3, 0, 0, 4, 4, 2, 2, 5, 5, 1, 1, 0, 0, 3, 3, 4, 4, 5, 5]

/-- Line 72: the columns of `Ele` that make up `DDJ` for triangles. -/
def DDJcols3 : List Nat := [2, 0, 1, 0, 0, 1, 2, 1, 1, 2, 0, 2]

/-- Line 84: the columns of `C` that make up `DDV` for triangles. -/
def DDVcols3 : List Nat := [1, 1, 2, 2, 2, 2, 0, 0, 0, 0, 1, 1]

/-- Lines 43-51 and 73-81: the columns of `DDI`; for each `f < ss` the vector
`I = LinSpaced(m,0,m-1) + f*m` is written to the columns `f*reps + r`,
`r < reps`. -/
def DDI (m ss reps : Nat) : List (List Nat) :=
  (List.range ss).flatMap (fun f =>
    List.replicate reps ((List.range m).map (fun e => e + f * m)))

/-- Lines 52-53 and 82-83: the diagonal of `S`, the vector `(1,-1)` replicated
`reps` times. -/
def signs {S : Type} (A : Arith S) (reps : Nat) : List S :=
  (List.replicate reps [A.one, A.minusOne]).flatMap id

/-- Lines 54-56 and 84-85: `DDV = C(all, cols); DDV *= S`, the entry in column
`k` of the selection multiplied by the `k`-th diagonal entry of `S`. -/
def DDV {S : Type} (A : Arith S) (C : List (List S)) (cols : List Nat) (D : List S) :
    List (List S) :=
  (sliceCols C cols A.zero).map (fun r => List.zipWith A.mul r D)

/-- Lines 59-65 and 88-94: the triplets `(DDI(e,f), DDJ(e,f), DDV(e,f))`, the
loop over the columns `f` outside, the loop over the elements `e` inside. -/
def IJV {S : Type} (d : S) (m ncols : Nat) (I : List (List Nat)) (J : List (List Nat))
    (V : List (List S)) : List (Triplet S) :=
  (List.range ncols).flatMap (fun f =>
    (List.range m).map (fun e =>
      { row := (I.getD f []).getD e 0, col := entry J e f 0, value := entry V e f d }))

/-- The vector `IJV` at the call of `setFromTriplets`, for tetrahedra when
`ss = 4` and for triangles otherwise. -/
def triplets {S : Type} (A : Arith S) (inp : Input S) : List (Triplet S) :=
  if inp.ss = 4 then
    IJV A.zero inp.m (6 * 4) (DDI inp.m 4 6) (sliceCols inp.Ele DDJcols4 0)
      (DDV A inp.C DDVcols4 (signs A 12))
  else
    IJV A.zero inp.m 12 (DDI inp.m 3 4) (sliceCols inp.Ele DDJcols3 0)
      (DDV A inp.C DDVcols3 (signs A 6))

/-- Lines 18-101: `normal_derivative(V,Ele,DD)`; `none` when the simplex size is
neither `3` nor `4` (the `default` branch leaves `DD` untouched). -/
def normal_derivative {S : Type} (A : Arith S) (inp : Input S) : Option (SparseMatrix S) :=
  let m := inp.m
  let n := inp.Vrows
  if inp.ss = 4 then
    let DDJ := sliceCols inp.Ele DDJcols4 0
    some (setFromTriplets A (m * 4) n
      (IJV A.zero m (6 * 4) (DDI m 4 6) DDJ (DDV A inp.C DDVcols4 (signs A 12))))
  else if inp.ss = 3 then
    let DDJ := sliceCols inp.Ele DDJcols3 0
    some (setFromTriplets A (m * 3) n
      (IJV A.zero m 12 (DDI m 3 4) DDJ (DDV A inp.C DDVcols3 (signs A 6))))
  else none

/-- Every vertex index of every element is below the number of vertices. -/
def ElementsInRange {S : Type} (inp : Input S) : Prop :=
  ∀ r ∈ inp.Ele, ∀ j < inp.ss, r.getD j 0 < inp.Vrows

instance {S : Type} (inp : Input S) : Decidable (ElementsInRange inp) := by
  unfold ElementsInRange; infer_instance

/-! ## Two arithmetics -/

/-- Exact arithmetic on the rationals. -/
def exact : Arith ℚ :=
  { zero := 0, one := 1, minusOne := -1, add := fun x y => x + y, mul := fun x y => x * y }

/-- A value of the type `double` (IEEE 754 binary64): the finite value
`m * 2^e`, an infinity, or a NaN.  The two zeros are not distinguished, and a
finite value may be written with more than one exponent. -/
inductive Binary64 where
  | finite (m : Int) (e : Int)
  | inf (negative : Bool)
  | nan
  deriving DecidableEq

/-- The number of binary digits of `a`, counted with at most `fuel` halvings. -/
def bitLengthAux : Nat → Nat → Nat
  | 0, _ => 0
  | fuel + 1, a => if a = 0 then 0 else bitLengthAux fuel (a / 2) + 1

/-- The number of binary digits of `a`: `0` for `0`, and `k` when
`2^(k-1) ≤ a < 2^k`. -/
def bitLength (a : Nat) : Nat := bitLengthAux a a

/-- The `double` nearest to the real number `m * 2^e`, ties to the even
significand: at most `53` significant bits, the last of them of weight at least
`2^(-1074)`; a result of magnitude `2^1024` or more is an infinity. -/
def Binary64.round (m e : Int) : Binary64 :=
  let a := m.natAbs
  if a = 0 then .finite 0 0 else
    let bits : Int := bitLength a
    let e' := max e (max (bits + e - 53) (-1074))
    let s := (e' - e).toNat
    let q := a / 2 ^ s
    let r := a % 2 ^ s
    let q' := if 2 ^ s < 2 * r ∨ (2 * r = 2 ^ s ∧ q % 2 = 1) then q + 1 else q
    if 1024 < (bitLength q' : Int) + e' then .inf (decide (m < 0))
    else .finite (if m < 0 then -(q' : Int) else (q' : Int)) e'

/-- The sum of two values of type `double`, rounded to nearest. -/
def Binary64.add : Binary64 → Binary64 → Binary64
  | .nan, _ => .nan
  | _, .nan => .nan
  | .inf a, .inf b => if a = b then .inf a else .nan
  | .inf a, .finite _ _ => .inf a
  | .finite _ _, .inf b => .inf b
  | .finite m1 e1, .finite m2 e2 =>
    Binary64.round (m1 * 2 ^ (e1 - min e1 e2).toNat + m2 * 2 ^ (e2 - min e1 e2).toNat)
      (min e1 e2)

/-- The product of two values of type `double`, rounded to nearest. -/
def Binary64.mul : Binary64 → Binary64 → Binary64
  | .nan, _ => .nan
  | _, .nan => .nan
  | .inf a, .inf b => .inf (a != b)
  | .inf a, .finite m _ => if m = 0 then .nan else .inf (a != decide (m < 0))
  | .finite m _, .inf b => if m = 0 then .nan else .inf (decide (m < 0) != b)
  | .finite m1 e1, .finite m2 e2 => Binary64.round (m1 * m2) (e1 + e2)

/-- The value `m * 2^e` is a `double` as written: at most `53` significant
bits, exponent at least `-1074`, magnitude below `2^1024`. -/
def Binary64.Representable : Binary64 → Prop
  | .finite m e => m.natAbs < 2 ^ 53 ∧ -1074 ≤ e ∧ (bitLength m.natAbs : Int) + e ≤ 1024
  | _ => True

instance (x : Binary64) : Decidable x.Representable := by
  cases x <;> unfold Binary64.Representable <;> infer_instance

/-- Whether a value of type `double` is finite. -/
def Binary64.isFinite : Binary64 → Bool
  | .finite _ _ => true
  | _ => false

/-- The value of a finite `double` in units of `2^(-k)`, when it is a whole
number of units; nothing for an infinity or a NaN. -/
def Binary64.scaled (k : Nat) : Binary64 → Option Int
  | .finite m e =>
    if 0 ≤ e + k then some (m * 2 ^ (e + k).toNat)
    else if m % 2 ^ (-(e + k)).toNat = 0 then some (m / 2 ^ (-(e + k)).toNat) else none
  | _ => none

/-- The arithmetic of `double`. -/
def binary64 : Arith Binary64 :=
  { zero := .finite 0 0, one := .finite 1 0, minusOne := .finite (-1) 0,
    add := Binary64.add, mul := Binary64.mul }

/-! ## Arithmetic without rounding error

A valuation `φ` gives the exact value of a scalar in a commutative ring, or
nothing for a scalar without value. -/

/-- Multiplying `x` by `1` and by `-1` is exact: `x` has a value, the first
product has the same value and the second the opposite value. -/
def ScalesExactly {S R : Type} [Neg R] (A : Arith S) (φ : S → Option R) (x : S) : Prop :=
  (φ x).isSome = true ∧ φ (A.mul x A.one) = φ x ∧
    φ (A.mul x A.minusOne) = (φ x).map (fun q => -q)

instance {S R : Type} [Neg R] [DecidableEq R] (A : Arith S) (φ : S → Option R) (x : S) :
    Decidable (ScalesExactly A φ x) := by
  unfold ScalesExactly; infer_instance

/-- The zero of the arithmetic has the value `0`, and the products of zero and
of every entry of `C` with the diagonal of `S` are exact. -/
def SignsExact {S R : Type} [Neg R] [Zero R] (A : Arith S) (φ : S → Option R)
    (C : List (List S)) : Prop :=
  φ A.zero = some 0 ∧ ScalesExactly A φ A.zero ∧ ∀ r ∈ C, ∀ x ∈ r, ScalesExactly A φ x

instance {S R : Type} [Neg R] [Zero R] [DecidableEq R] (A : Arith S) (φ : S → Option R)
    (C : List (List S)) : Decidable (SignsExact A φ C) := by
  unfold SignsExact; infer_instance

/-- The sums of the triplets of `T` at the positions of a `rows` by `cols`
matrix are exact: the coefficient stored at a position has a value and it is
the sum of the values of the triplets there. -/
def ExactlySummed {S R : Type} [Zero R] [Add R] (A : Arith S) (φ : S → Option R)
    (T : List (Triplet S)) (rows cols : Nat) : Prop :=
  ∀ r < rows, ∀ c < cols,
    φ (tripletSum A T r c) = some (((tripletsAt T r c).map (fun t => (φ t.value).getD 0)).sum)

instance {S R : Type} [Zero R] [Add R] [DecidableEq R] (A : Arith S) (φ : S → Option R)
    (T : List (Triplet S)) (rows cols : Nat) : Decidable (ExactlySummed A φ T rows cols) := by
  unfold ExactlySummed; infer_instance

/-- The sum of the values of row `r` of `DD`. -/
def rowSum {S R : Type} [Zero R] [Add R] (φ : S → Option R) (DD : SparseMatrix S) (r : Nat) :
    R :=
  ((List.range DD.cols).map (fun c => (φ (DD.coeff r c)).getD 0)).sum

/-- The entry `r` of the exact product of the values of `DD` with the vector
`x`. -/
def mulVec {S R : Type} [Zero R] [Add R] [Mul R] (φ : S → Option R) (DD : SparseMatrix S)
    (x : List R) (r : Nat) : R :=
  ((List.range DD.cols).map (fun c => (φ (DD.coeff r c)).getD 0 * x.getD c 0)).sum

/-! ## Examples -/

/-- Two triangles over four vertices with cotangent entries `1..6`. -/
def twoTriangles : Input ℚ :=
  { Vrows := 4, ss := 3, Ele := [[0, 1, 2], [2, 1, 3]], C := [[1, 2, 3], [4, 5, 6]] }

/-- One tetrahedron with cotangent entries `1..6`, as values of type `double`. -/
def oneTet : Input Binary64 :=
  { Vrows := 4, ss := 4, Ele := [[0, 1, 2, 3]],
    C := [[.finite 1 0, .finite 2 0, .finite 3 0, .finite 4 0, .finite 5 0, .finite 6 0]] }

/-- The `double` nearest to `1/10`. -/
def tenth : Binary64 := .finite 3602879701896397 (-55)

/-- The `double` nearest to `1/5`. -/
def fifth : Binary64 := .finite 3602879701896397 (-54)

/-- One triangle over three vertices whose cotangent entries are the values of
type `double` nearest to `1`, `0.1` and `0.2`. -/
def roundedTriangle : Input Binary64 :=
  { Vrows := 3, ss := 3, Ele := [[0, 1, 2]], C := [[.finite 1 0, tenth, fifth]] }

/-- One triangle over three vertices whose cotangent entries are `1`, positive
infinity and the value of type `double` nearest to `0.2`. -/
def infiniteTriangle : Input Binary64 :=
  { Vrows := 3, ss := 3, Ele := [[0, 1, 2]], C := [[.finite 1 0, .inf false, fifth]] }

end NormalDerivative

namespace WindingNumberAABB

/-!
# The bounding-box hierarchy (`igl::WindingNumberAABB`)

A shallow embedding of `inside`, `compute_min_max_corners` and `grow` of
`include/igl/WindingNumberAABB.h`.

* Scalars are rationals.  The corners start at the two infinities of
  `std::numeric_limits`: a coordinate of `min_corner` is a rational or `+∞`
  (`WithTop ℚ`), a coordinate of `max_corner` a rational or `-∞` (`WithBot ℚ`).
* A `Point` has three coordinates; the vertex list `*Vptr` is a function from
  the vertex index, the face list `F` of a node a list of rows.
* The members of the base class `WindingNumberTree` and the helpers
  `barycenter`, `median`, declared in other headers, are fields of `Context`.
* The member `split_method` is an argument of `grow`: the node on which `grow`
  is called from outside has the method its owner has set, the children are
  built by the constructor of line 135, which sets `MEDIAN_ON_LONGEST_AXIS`.
* `compute_min_max_corners` also sets `center` and `radius`; they are not read
  by the functions embedded here and are left out.
-/

/-- A `Point`: a row of three scalars. -/
abbrev Point : Type := Fin 3 → ℚ

/-- The members `min_corner` and `max_corner`. -/
structure Corners where
  min_corner : Fin 3 → WithTop ℚ
  max_corner : Fin 3 → WithBot ℚ

/-- Lines 257-267: the loop of `inside` over the coordinates `l`; it returns
`false` at the first coordinate outside `[min_corner(i), max_corner(i)]`. -/
def insideLoop (c : Corners) (p : Point) : List (Fin 3) → Bool
  | [] => true
  | i :: rest =>
    if (p i : WithTop ℚ) < c.min_corner i ∨ (p i : WithBot ℚ) > c.max_corner i then false
    else insideLoop c p rest

/-- Lines 252-268: `inside(p)`. -/
def inside (c : Corners) (p : Point) : Bool := insideLoop c p (List.finRange 3)

/-- Lines 286-294: the update of the two corners by the vertex `v`, for the
three coordinates `d`. -/
def updateCorners (V : Nat → Point) (c : Corners) (v : Nat) : Corners :=
  { min_corner := fun d =>
      if (V v d : WithTop ℚ) < c.min_corner d then (V v d : WithTop ℚ) else c.min_corner d
    max_corner := fun d =>
      if (V v d : WithBot ℚ) > c.max_corner d then (V v d : WithBot ℚ) else c.max_corner d }

/-- Lines 274-278: the corners before the loop over the facets, `+∞` and `-∞`. -/
def initialCorners : Corners :=
  { min_corner := fun _ => ⊤, max_corner := fun _ => ⊥ }

/-- Lines 270-310: `compute_min_max_corners()` on a node with vertex list `V`
and face list `F`: the loop over the facets `i` and their corners `j`. -/
def compute_min_max_corners (V : Nat → Point) (F : List (List Nat)) : Corners :=
  F.foldl (fun c row => row.foldl (updateCorners V) c) initialCorners

/-- The enumeration `SplitMethod`. -/
inductive SplitMethod where
  | CENTER_ON_LONGEST_AXIS
  | MEDIAN_ON_LONGEST_AXIS
  | NUM_SPLIT_METHODS
deriving DecidableEq

/-- What a node of the hierarchy takes from outside the embedded file. -/
structure Context where
  /-- The vertex positions `*Vptr`. -/
  V : Nat → Point
  /-- The number of rows of the member `cap` of a node with face list `F`. -/
  cap_rows : List (List Nat) → Nat
  /-- The call `barycenter(V,F,BC)` as a function of `F`: one point per facet. -/
  barycenter : List (List Nat) → List Point
  /-- The call `median(BC.col(max_d),split_value)` as a function of the column. -/
  median : List ℚ → ℚ

/-- A node of the hierarchy: its face list and its children. -/
inductive Tree where
  | node (F : List (List Nat)) (children : List Tree) : Tree

/-- The face list of a node. -/
def Tree.F : Tree → List (List Nat)
  | Tree.node F _ => F

/-- The children of a node. -/
def Tree.children : Tree → List Tree
  | Tree.node _ children => children

/-- The macro `WindingNumberAABB_MIN_F` (line 91). -/
def WindingNumberAABB_MIN_F : Nat := 100

/-- Line 172: `max_corner[d] - min_corner[d]`; the difference of `-∞` and a
value, or of a value and `+∞`, is `-∞`. -/
def axisLength (c : Corners) (d : Fin 3) : WithBot ℚ :=
  match (c.max_corner d : Option ℚ), (c.min_corner d : Option ℚ) with
  | some a, some b => ((a - b : ℚ) : WithBot ℚ)
  | _, _ => ⊥

/-- Lines 167-177: the search for the longest direction; the pair
`(max_d, max_len)`, with `none` for `max_d = -1`. -/
def longestAxis (c : Corners) : Option (Fin 3) × WithBot ℚ :=
  (List.finRange 3).foldl
    (fun (st : Option (Fin 3) × WithBot ℚ) d =>
      if axisLength c d > st.2 then (some d, axisLength c d) else st)
    (none, ⊥)

/-- The coordinate `p(max_d)`; `0` for `max_d = -1`. -/
def coordAt (p : Point) (max_d : Option (Fin 3)) : ℚ :=
  match max_d with
  | some d => p d
  | none => 0

/-- Line 196: `0.5*(max_corner[max_d] + min_corner[max_d])`; `0` where the
corners are not numbers. -/
def centerOf (c : Corners) (max_d : Option (Fin 3)) : ℚ :=
  match max_d with
  | some d =>
    match (c.max_corner d : Option ℚ), (c.min_corner d : Option ℚ) with
    | some a, some b => 1 / 2 * (a + b)
    | _, _ => 0
  | none => 0

/-- Lines 185-198: the split value; the `default` label falls through to the
centre of the box. -/
def splitValue (ctx : Context) (split_method : SplitMethod) (c : Corners) (BC : List Point)
    (max_d : Option (Fin 3)) : ℚ :=
  match split_method with
  | SplitMethod.MEDIAN_ON_LONGEST_AXIS => ctx.median (BC.map (fun b => coordAt b max_d))
  | _ => centerOf c max_d

/-- Lines 202-212: the vector `id`, `0` (left) for the facets whose barycenter
coordinate is at most the split value and `1` (right) for the others. -/
def sides (F : List (List Nat)) (BC : List Point) (max_d : Option (Fin 3)) (split_value : ℚ) :
    List Nat :=
  (List.range F.length).map (fun i =>
    if coordAt (BC.getD i (fun _ => 0)) max_d ≤ split_value then 0 else 1)

/-- Lines 222-238: the rows of `F` whose entry of `id` is `side`, in the order
of the loop over `i`. -/
def rowsOfSide (F : List (List Nat)) (id : List Nat) (side : Nat) : List (List Nat) :=
  ((List.range F.length).filter (fun i => id.getD i 0 == side)).map (fun i => F.getD i [])

/-- The vector `id` of the node with face list `F` and method `split_method`. -/
def sidesOf (ctx : Context) (split_method : SplitMethod) (F : List (List Nat)) : List Nat :=
  let c := compute_min_max_corners ctx.V F
  let max_d := (longestAxis c).1
  let BC := ctx.barycenter F
  sides F BC max_d (splitValue ctx split_method c BC max_d)

/-- The barycenter coordinate `BC(i,max_d)` of facet `i` of the node with face
list `F`. -/
def splitCoord (ctx : Context) (F : List (List Nat)) (i : Nat) : ℚ :=
  coordAt ((ctx.barycenter F).getD i (fun _ => 0))
    (longestAxis (compute_min_max_corners ctx.V F)).1

/-- The split value of the node with face list `F` and method `split_method`. -/
def splitOf (ctx : Context) (split_method : SplitMethod) (F : List (List Nat)) : ℚ :=
  splitValue ctx split_method (compute_min_max_corners ctx.V F) (ctx.barycenter F)
    (longestAxis (compute_min_max_corners ctx.V F)).1

/-- Lines 148-250: `grow()` on a node with method `split_method` and face list
`F`, the recursion cut off after `fuel` nested calls (`none`).  The two
children are built by the constructor of lines 135-146, with the method
`MEDIAN_ON_LONGEST_AXIS`. -/
def grow (ctx : Context) : Nat → SplitMethod → List (List Nat) → Option Tree
  | 0, _, _ => none
  | fuel + 1, split_method, F =>
    if F.length ≤ WindingNumberAABB_MIN_F ∨ ((ctx.cap_rows F : Int) - 2 ≥ (F.length : Int)) then
      some (Tree.node F [])
    else
      let id := sidesOf ctx split_method F
      let lefts := id.count 0
      let rights := id.count 1
      if lefts = 0 ∨ rights = 0 then some (Tree.node F [])
      else
        let leftF := rowsOfSide F id 0
        let rightF := rowsOfSide F id 1
        match grow ctx fuel SplitMethod.MEDIAN_ON_LONGEST_AXIS leftF,
            grow ctx fuel SplitMethod.MEDIAN_ON_LONGEST_AXIS rightF with
        | some l, some r => some (Tree.node F [l, r])
        | _, _ => none

/-- A vertex list on the diagonal: vertex `v` lies at `(v, v, v)`. -/
def diagonalV : Nat → Point := fun v _ => (v : ℚ)

/-- A strip of `n` triangles `(i, i+1, i+2)`. -/
def strip (n : Nat) : List (List Nat) := (List.range n).map (fun i => [i, i + 1, i + 2])

/-- A context for the strip of `101` triangles over the diagonal: the
barycenter of a facet is the mean of its three vertices, the median of the
barycenter coordinates `1, ..., 101` is `51`, the cap has no rows. -/
def stripContext : Context :=
  { V := diagonalV
    cap_rows := fun _ => 0
    barycenter := fun F => F.map (fun row => fun d =>
      (diagonalV (row.getD 0 0) d + diagonalV (row.getD 1 0) d + diagonalV (row.getD 2 0) d) / 3)
    median := fun _ => 51 }

end WindingNumberAABB

namespace OuterHull

/-! ## List helpers -/

theorem getD_set_self {α : Type} (l : List α) (i : Nat) (a d : α) (h : i < l.length) :
    (l.set i a).getD i d = a := by
  simp [List.getD_eq_getElem?_getD, List.getElem?_set, h]

theorem getD_set_other {α : Type} (l : List α) (i j : Nat) (a d : α) (h : i ≠ j) :
    (l.set i a).getD j d = l.getD j d := by
  simp [List.getD_eq_getElem?_getD, List.getElem?_set, h]

theorem getD_set_true (l : List Bool) (i j : Nat) (h : l.getD j false = true) :
    (l.set i true).getD j false = true := by
  by_cases hij : i = j
  · subst hij
    have : i < l.length := by
      by_contra hlt
      rw [List.getD_eq_default _ _ (by omega)] at h
      cases h
    exact getD_set_self l i true false this
  · rw [getD_set_other l i j true false hij]; exact h

theorem getD_mem {α : Type} (l : List α) (i : Nat) (d : α) (h : i < l.length) :
    l.getD i d ∈ l := by
  rw [List.getD_eq_getElem _ _ h]
  exact List.getElem_mem h

/-! ## One step of the traversal -/

theorem nextFaceSearch_some (inp : Input) (FH : List Bool) (flipf : Bool) (e i : Nat)
    (h : nextFaceSearch inp FH flipf e = some i) :
    i = nfei_new (inp.diIM e) (inp.ue e).length
          ((inp.uE2C.getD (inp.EMAP.getD e 0) []).getD (inp.diIM e) false) 1 flipf ∧
      FH.getD ((inp.ue e).getD i 0 % inp.m) false = false := by
  unfold nextFaceSearch at h
  simp only at h
  split at h
  · split at h
    · rename_i h1
      injection h with h
      subst h
      refine ⟨rfl, ?_⟩
      simpa using h1
    · cases h
  · cases h

theorem nfei_new_lt (di val : Nat) (e_cons : Bool) (step : Nat) (flipf : Bool) (h : 0 < val) :
    nfei_new di val e_cons step flipf < val := Nat.mod_lt _ h

theorem bfsStep_nil (inp : Input) (s : State) (h : s.Q = []) : bfsStep inp s = s := by
  unfold bfsStep; rw [h]

/-- The three ways an iteration of the loop can go. -/
theorem bfsStep_cases (inp : Input) (s : State) (e : Nat) (Q : List Nat) (hQ : s.Q = e :: Q) :
    (s.EH.getD e false = true ∧ bfsStep inp s = { s with Q := Q }) ∨
    (s.EH.getD e false = false ∧
      nextFaceSearch inp s.FH (s.flip.getD (e % inp.m) false) e = none ∧
      bfsStep inp s = { s with Q := Q, EH := s.EH.set e true }) ∨
    (s.EH.getD e false = false ∧
      ∃ i, nextFaceSearch inp s.FH (s.flip.getD (e % inp.m) false) e = some i ∧
        bfsStep inp s = crossState inp s e Q ((inp.ue e).getD i 0)) := by
  unfold bfsStep
  rw [hQ]
  simp only
  by_cases hE : s.EH.getD e false = true
  · left; rw [if_pos hE]; exact ⟨hE, rfl⟩
  · right
    have hE' : s.EH.getD e false = false := by
      cases h : s.EH.getD e false
      · rfl
      · exact absurd h hE
    rw [if_neg hE]
    cases hn : nextFaceSearch inp s.FH (s.flip.getD (e % inp.m) false) e with
    | none => left; exact ⟨hE', rfl, rfl⟩
    | some i => right; exact ⟨hE', i, rfl, rfl⟩

theorem bfs_eq_iterate (inp : Input) (n : Nat) (s : State) :
    bfs inp n s = (bfsStep inp)^[n] s := by
  induction n generalizing s with
  | zero => rfl
  | succ n ih =>
    rw [bfs, Function.iterate_succ_apply]
    split
    · rename_i h
      rw [bfsStep_nil inp s h]
      clear ih
      induction n with
      | zero => rfl
      | succ n ih2 => rw [Function.iterate_succ_apply, bfsStep_nil inp s h]; exact ih2
    · exact ih _

theorem ue_mem_uE2E (inp : Input) (e : Nat) (h : inp.ue e ≠ []) : inp.ue e ∈ inp.uE2E := by
  unfold Input.ue at *
  by_cases hlt : inp.EMAP.getD e 0 < inp.uE2E.length
  · exact getD_mem _ _ _ hlt
  · rw [List.getD_eq_default _ _ (by omega)] at h
    exact absurd rfl h

theorem mod_add_mul (nf k m : Nat) (h : nf < m) : (nf + k * m) % m = nf := by
  rw [Nat.add_mul_mod_self_right, Nat.mod_eq_of_lt h]

theorem add_mul_lt (nf k m : Nat) (h : nf < m) (hk : k < 3) : nf + k * m < 3 * m := by
  have : k * m ≤ 2 * m := Nat.mul_le_mul_right m (by omega)
  omega

/-- What is known of the half-edge the traversal crosses to. -/
theorem cross_facts (inp : Input) (hL : EdgesListed inp) (hA : AdjacencyClosed inp)
    (FH : List Bool) (flipf : Bool) (e i : Nat) (he : e < 3 * inp.m)
    (h : nextFaceSearch inp FH flipf e = some i) :
    (inp.ue e).getD i 0 ∈ inp.ue e ∧
      inp.C.getD ((inp.ue e).getD i 0 % inp.m) 0 = inp.C.getD (e % inp.m) 0 ∧
      FH.getD ((inp.ue e).getD i 0 % inp.m) false = false := by
  obtain ⟨hi, hFH⟩ := nextFaceSearch_some inp FH flipf e i h
  have hmem : e ∈ inp.ue e := hL e he
  have hpos : 0 < (inp.ue e).length := List.length_pos_of_mem hmem
  have hilt : i < (inp.ue e).length := by rw [hi]; exact nfei_new_lt _ _ _ _ _ hpos
  have hx : (inp.ue e).getD i 0 ∈ inp.ue e := getD_mem _ _ _ hilt
  have hne : inp.ue e ≠ [] := List.ne_nil_of_length_pos hpos
  exact ⟨hx, hA _ (ue_mem_uE2E inp e hne) _ hx _ hmem, hFH⟩

theorem countP_range_update (p q : Nat → Bool) (n a : Nat) (ha : a < n)
    (hp : p a = false) (hq : q a = true) (hpq : ∀ x, x ≠ a → q x = p x) :
    (List.range n).countP q = (List.range n).countP p + 1 := by
  induction n with
  | zero => omega
  | succ n ih =>
    rw [List.range_succ, List.countP_append, List.countP_append]
    by_cases han : a = n
    · subst han
      have : (List.range a).countP q = (List.range a).countP p := by
        apply List.countP_congr
        intro x hx
        have : x ≠ a := by rw [List.mem_range] at hx; omega
        rw [hpq x this]
      rw [this]
      simp [hp, hq]
    · have := ih (by omega)
      rw [this]
      have hn : q n = p n := hpq n (fun h => han h.symm)
      have : List.countP q [n] = List.countP p [n] := by
        simp only [List.countP_cons, List.countP_nil, hn]
      omega

theorem pushUnvisited_mem (EH : List Bool) (Q : List Nat) (ne x : Nat)
    (h : x ∈ pushUnvisited EH Q ne) : x ∈ Q ∨ x = ne := by
  unfold pushUnvisited at h
  split at h
  · simpa using h
  · exact Or.inl h

theorem TInv_step (inp : Input) (hL : EdgesListed inp) (hA : AdjacencyClosed inp)
    (id : Nat) (g : Global) (s : State) (h : TInv inp id g s) :
    TInv inp id g (bfsStep inp s) := by
  cases hQ : s.Q with
  | nil => rw [bfsStep_nil inp s hQ]; exact h
  | cons e Q =>
    have heQ : e ∈ s.Q := by rw [hQ]; exact List.mem_cons_self _ _
    obtain ⟨he, heC⟩ := h.queue e heQ
    have hQsub : ∀ x ∈ Q, x ∈ s.Q := fun x hx => by rw [hQ]; exact List.mem_cons_of_mem _ hx
    have hm : 0 < inp.m := by omega
    rcases bfsStep_cases inp s e Q hQ with ⟨_, hs⟩ | ⟨_, _, hs⟩ | ⟨_, i, hn, hs⟩
    · rw [hs]
      exact ⟨h.lenFH, h.lenEH, h.lenFlip, fun x hx => h.queue x (hQsub x hx),
        fun x hx => h.owner x (hQsub x hx), h.frameFH, h.frameFlip, h.frameEH, h.count⟩
    · rw [hs]
      refine ⟨h.lenFH, ?_, h.lenFlip, fun x hx => h.queue x (hQsub x hx),
        fun x hx => h.owner x (hQsub x hx), h.frameFH, h.frameFlip, ?_, h.count⟩
      · simp only [List.length_set]; exact h.lenEH
      · intro x hx
        have : e ≠ x := by rintro rfl; exact hx heC
        simp only
        rw [getD_set_other _ _ _ _ _ this]
        exact h.frameEH x hx
    · obtain ⟨hxmem, hxC, hxFH⟩ := cross_facts inp hL hA s.FH _ e i he hn
      rw [hs]
      have hnf : (inp.ue e).getD i 0 % inp.m < inp.m := Nat.mod_lt _ hm
      have hnfC : inp.C.getD ((inp.ue e).getD i 0 % inp.m) 0 = id := by rw [hxC, heC]
      unfold crossState
      have hnfset : (s.FH.set ((inp.ue e).getD i 0 % inp.m) true).getD
          ((inp.ue e).getD i 0 % inp.m) false = true :=
        getD_set_self _ _ _ _ (by rw [h.lenFH]; exact hnf)
      refine ⟨?_, ?_, ?_, ?_, ?_, ?_, ?_, ?_, ?_⟩
      · simp only [List.length_set]; exact h.lenFH
      · simp only [List.length_set]; exact h.lenEH
      · simp only [List.length_set]; exact h.lenFlip
      · intro x hx
        simp only at hx
        rcases pushUnvisited_mem _ _ _ _ hx with hx | hx
        · rcases pushUnvisited_mem _ _ _ _ hx with hx | hx
          · exact h.queue x (hQsub x hx)
          · subst hx
            exact ⟨add_mul_lt _ _ _ hnf (Nat.mod_lt _ (by omega)),
              by rw [mod_add_mul _ _ _ hnf]; exact hnfC⟩
        · subst hx
          exact ⟨add_mul_lt _ _ _ hnf (Nat.mod_lt _ (by omega)),
            by rw [mod_add_mul _ _ _ hnf]; exact hnfC⟩
      · intro x hx
        simp only at hx ⊢
        rcases pushUnvisited_mem _ _ _ _ hx with hx | hx
        · rcases pushUnvisited_mem _ _ _ _ hx with hx | hx
          · exact getD_set_true _ _ _ (h.owner x (hQsub x hx))
          · subst hx
            rw [mod_add_mul _ _ _ hnf]; exact hnfset
        · subst hx
          rw [mod_add_mul _ _ _ hnf]; exact hnfset
      · intro f hf
        have : (inp.ue e).getD i 0 % inp.m ≠ f := by rintro rfl; exact hf hnfC
        simp only
        rw [getD_set_other _ _ _ _ _ this]
        exact h.frameFH f hf
      · intro f hf
        have : (inp.ue e).getD i 0 % inp.m ≠ f := by rintro rfl; exact hf hnfC
        simp only
        rw [getD_set_other _ _ _ _ _ this]
        exact h.frameFlip f hf
      · intro x hx
        have : e ≠ x := by rintro rfl; exact hx heC
        simp only
        rw [getD_set_other _ _ _ _ _ this]
        exact h.frameEH x hx
      · simp only
        rw [h.count]
        unfold resolvedCount
        symm
        apply countP_range_update _ _ inp.m _ hnf
        · rw [hxFH]; simp
        · rw [getD_set_self _ _ _ _ (by rw [h.lenFH]; exact hnf), hnfC]; simp
        · intro x hx
          rw [getD_set_other _ _ _ _ _ (fun h => hx h.symm)]

/-! ## Termination of the traversal loop -/

theorem count_false_set (l : List Bool) (i : Nat) (h : l.getD i false = false)
    (hi : i < l.length) : (l.set i true).count false + 1 = l.count false := by
  induction l generalizing i with
  | nil => simp at hi
  | cons a l ih =>
    cases i with
    | zero =>
      have : a = false := by simpa using h
      subst this
      simp
    | succ i =>
      have h' : l.getD i false = false := by simpa using h
      have hi' : i < l.length := by simpa using hi
      have := ih i h' hi'
      cases a <;> simp [List.count_cons] <;> omega

theorem pushUnvisited_length (EH : List Bool) (Q : List Nat) (ne : Nat) :
    (pushUnvisited EH Q ne).length ≤ Q.length + 1 := by
  unfold pushUnvisited
  split <;> simp

theorem bfsStep_lenFH (inp : Input) (s : State) : (bfsStep inp s).FH.length = s.FH.length := by
  cases hQ : s.Q with
  | nil => rw [bfsStep_nil inp s hQ]
  | cons e Q =>
    rcases bfsStep_cases inp s e Q hQ with ⟨_, hs⟩ | ⟨_, _, hs⟩ | ⟨_, i, _, hs⟩
    · rw [hs]
    · rw [hs]
    · rw [hs]; unfold crossState; simp only [List.length_set]

theorem measure_step (inp : Input) (s : State) (hm : 0 < inp.m) (hlen : s.FH.length = inp.m)
    (hQ : s.Q ≠ []) : (bfsStep inp s).measure < s.measure := by
  cases hQ' : s.Q with
  | nil => exact absurd hQ' hQ
  | cons e Q =>
    rcases bfsStep_cases inp s e Q hQ' with ⟨_, hs⟩ | ⟨_, _, hs⟩ | ⟨_, i, hn, hs⟩
    · rw [hs]; unfold State.measure; rw [hQ']; simp
    · rw [hs]; unfold State.measure; rw [hQ']; simp
    · obtain ⟨_, hFH⟩ := nextFaceSearch_some inp s.FH _ e i hn
      have hnf : (inp.ue e).getD i 0 % inp.m < s.FH.length := by
        rw [hlen]; exact Nat.mod_lt _ hm
      have hc := count_false_set s.FH _ hFH hnf
      rw [hs]
      unfold State.measure crossState
      rw [hQ']
      simp only [List.length_cons]
      have h1 := pushUnvisited_length (s.EH.set e true)
        (pushUnvisited (s.EH.set e true) Q
          ((inp.ue e).getD i 0 % inp.m + (((inp.ue e).getD i 0 / inp.m + 1) % 3) * inp.m))
        ((inp.ue e).getD i 0 % inp.m + (((inp.ue e).getD i 0 / inp.m + 2) % 3) * inp.m)
      have h2 := pushUnvisited_length (s.EH.set e true) Q
        ((inp.ue e).getD i 0 % inp.m + (((inp.ue e).getD i 0 / inp.m + 1) % 3) * inp.m)
      omega

/-- With fuel at least the measure of the state the loop runs until the queue
is empty. -/
theorem bfs_queue_empty (inp : Input) (hm : 0 < inp.m) (n : Nat) (s : State)
    (hlen : s.FH.length = inp.m) (hfuel : s.measure ≤ n) : (bfs inp n s).Q = [] := by
  induction n generalizing s with
  | zero =>
    rw [bfs]
    unfold State.measure at hfuel
    exact List.length_eq_zero.mp (by omega)
  | succ n ih =>
    rw [bfs]
    split
    · assumption
    · rename_i hQ
      apply ih
      · rw [bfsStep_lenFH, hlen]
      · have := measure_step inp s hm hlen hQ
        omega

theorem count_le_length_bool (l : List Bool) (b : Bool) : l.count b ≤ l.length :=
  List.count_le_length b l

/-- The fuel given to the loop of every component suffices. -/
theorem seedInit_measure (inp : Input) (id : Nat) (g : Global) (h : g.FH.length = inp.m) :
    (seedInit inp id g).measure ≤ bfsFuel inp := by
  unfold State.measure seedInit bfsFuel
  simp only [List.length_cons, List.length_nil]
  have := count_le_length_bool (g.FH.set (inp.outer_facet (inp.IM id)).1 true) false
  rw [List.length_set, h] at this
  omega

/-! ## The index lists `vIM` -/

theorem take_set_succ {α : Type} (l : List α) (i : Nat) (a : α) (h : i < l.length) :
    (l.set i a).take (i + 1) = l.take i ++ [a] := by
  induction l generalizing i with
  | nil => simp at h
  | cons b l ih =>
    cases i with
    | zero => simp
    | succ i =>
      have : i < l.length := by simpa using h
      simp [ih i this]

theorem filter_range_length_mono (p : Nat → Bool) (k n : Nat) (h : k ≤ n) :
    ((List.range k).filter p).length ≤ ((List.range n).filter p).length :=
  ((List.range_sublist.mpr h).filter p).length_le

theorem vIM_state_succ (inp : Input) (k : Nat) :
    vIM_state inp (k + 1) =
      ((vIM_state inp k).1.set (inp.C.getD k 0)
          (((vIM_state inp k).1.getD (inp.C.getD k 0) []).set
            ((vIM_state inp k).2.getD (inp.C.getD k 0) 0) k),
        (vIM_state inp k).2.set (inp.C.getD k 0)
          ((vIM_state inp k).2.getD (inp.C.getD k 0) 0 + 1)) := by
  unfold vIM_state
  rw [List.range_succ, List.foldl_append]
  rfl

theorem vIM_state_inv (inp : Input) (hLab : LabelsOK inp) (k : Nat) (hk : k ≤ inp.m) :
    (vIM_state inp k).1.length = inp.ncc ∧ (vIM_state inp k).2.length = inp.ncc ∧
    ∀ id < inp.ncc,
      (vIM_state inp k).2.getD id 0
          = ((List.range k).filter (fun f => inp.C.getD f 0 == id)).length ∧
      ((vIM_state inp k).1.getD id []).length = inp.counts.getD id 0 ∧
      ((vIM_state inp k).1.getD id []).take ((vIM_state inp k).2.getD id 0)
          = (List.range k).filter (fun f => inp.C.getD f 0 == id) := by
  induction k with
  | zero =>
    refine ⟨by simp [vIM_state, Input.ncc], by simp [vIM_state], ?_⟩
    intro id hid
    have h2 : (List.replicate inp.ncc 0).getD id 0 = 0 := by
      rw [List.getD_eq_getElem _ _ (by simpa using hid)]; simp
    have h1 : (inp.counts.map (fun n => List.replicate n 0)).getD id []
        = List.replicate (inp.counts.getD id 0) 0 := by
      have hid' : id < inp.counts.length := hid
      rw [List.getD_eq_getElem _ _ (by simpa using hid'), List.getD_eq_getElem _ _ hid']
      simp
    simp only [vIM_state, List.range_zero, List.foldl_nil, List.filter_nil, List.length_nil]
    rw [h2, h1]
    simp
  | succ k ih =>
    obtain ⟨ih1, ih2, ih3⟩ := ih (by omega)
    have hc : inp.C.getD k 0 < inp.ncc := hLab.1 k (by omega)
    rw [vIM_state_succ]
    refine ⟨by simp only [List.length_set]; exact ih1, by simp only [List.length_set]; exact ih2, ?_⟩
    intro id hid
    obtain ⟨ia, ib, ic⟩ := ih3 id hid
    by_cases hcid : inp.C.getD k 0 = id
    · obtain ⟨ja, jb, jc⟩ := ih3 _ hc
      have hlt : (vIM_state inp k).2.getD (inp.C.getD k 0) 0
          < ((vIM_state inp k).1.getD (inp.C.getD k 0) []).length := by
        rw [jb, hLab.2 _ hc, ja]
        unfold labelCount
        rw [List.countP_eq_length_filter]
        have hmono := filter_range_length_mono (fun f => inp.C.getD f 0 == inp.C.getD k 0)
          (k + 1) inp.m hk
        rw [List.range_succ, List.filter_append] at hmono
        simp [-List.getD_eq_getElem?_getD] at hmono
        omega
      subst hcid
      simp only
      rw [getD_set_self _ _ _ _ (by rw [ih2]; exact hc),
        getD_set_self _ _ _ _ (by rw [ih1]; exact hc)]
      refine ⟨?_, ?_, ?_⟩
      · rw [ja, List.range_succ, List.filter_append]; simp [-List.getD_eq_getElem?_getD]
      · rw [List.length_set]; exact jb
      · rw [take_set_succ _ _ _ hlt, jc, List.range_succ, List.filter_append]; simp [-List.getD_eq_getElem?_getD]
    · simp only
      rw [getD_set_other _ _ _ _ _ hcid, getD_set_other _ _ _ _ _ hcid]
      have hk' : (inp.C.getD k 0 == id) = false := by simpa using hcid
      refine ⟨?_, ib, ?_⟩
      · rw [ia, List.range_succ, List.filter_append]; simp [hk', -List.getD_eq_getElem?_getD]
      · rw [ic, List.range_succ, List.filter_append]; simp [hk', -List.getD_eq_getElem?_getD]

/-- Under a well-formed labelling `vIM[id]` lists the faces labelled `id` in
increasing order. -/
theorem IM_eq_filter (inp : Input) (hLab : LabelsOK inp) (id : Nat) (hid : id < inp.ncc) :
    inp.IM id = (List.range inp.m).filter (fun f => inp.C.getD f 0 == id) := by
  obtain ⟨_, _, h⟩ := vIM_state_inv inp hLab inp.m (le_refl _)
  obtain ⟨ha, hb, hc⟩ := h id hid
  have hIM : inp.IM id = (vIM_state inp inp.m).1.getD id [] := rfl
  rw [hIM, ← hc]
  symm
  apply List.take_of_length_le
  rw [hb, ha, hLab.2 id hid]
  unfold labelCount
  rw [List.countP_eq_length_filter]

/-! ## The position examined by the search -/

theorem nfei_new_one (d val : Nat) (e_cons flipf : Bool) (hval : 0 < val)
    (hbound : val < 2 ^ 31) (hd : d < val) :
    nfei_new d val e_cons 1 flipf = oneStepPosition d val e_cons flipf := by
  have h64 : (2 : Nat) ^ 64 = 18446744073709551616 := by norm_num
  have h31 : (2 : Nat) ^ 31 = 2147483648 := by norm_num
  rw [h31] at hbound
  unfold nfei_new oneStepPosition signU U64
  rw [h64]
  cases e_cons <;> cases flipf <;> simp only [Bool.not_true, Bool.not_false, Bool.xor_false,
    Bool.xor_true, Bool.false_xor, Bool.true_xor, if_true, if_false, Bool.false_eq_true]
  · have : ((d + 2 * val % 18446744073709551616) % 18446744073709551616 +
        (18446744073709551616 - 1) * 1 % 18446744073709551616 * 1 % 18446744073709551616)
          % 18446744073709551616 = (d + val - 1) + 1 * val := by omega
    rw [this, Nat.add_mul_mod_self_right]
  · have : ((d + 2 * val % 18446744073709551616) % 18446744073709551616 +
        (18446744073709551616 - 1) * 1 % 18446744073709551616 * (18446744073709551616 - 1)
          % 18446744073709551616) % 18446744073709551616 = (d + 1) + 2 * val := by
      norm_num
      omega
    rw [this, Nat.add_mul_mod_self_right]
  · have : ((d + 2 * val % 18446744073709551616) % 18446744073709551616 +
        1 * 1 % 18446744073709551616 * 1 % 18446744073709551616)
          % 18446744073709551616 = (d + 1) + 2 * val := by omega
    rw [this, Nat.add_mul_mod_self_right]
  · have : ((d + 2 * val % 18446744073709551616) % 18446744073709551616 +
        1 * 1 % 18446744073709551616 * (18446744073709551616 - 1) % 18446744073709551616)
          % 18446744073709551616 = (d + val - 1) + 1 * val := by omega
    rw [this, Nat.add_mul_mod_self_right]

theorem nextFaceSearch_eq (inp : Input) (FH : List Bool) (flipf : Bool) (e : Nat)
    (hval : 0 < (inp.ue e).length) (hbound : (inp.ue e).length < 2 ^ 31)
    (hd : inp.diIM e < (inp.ue e).length) :
    nextFaceSearch inp FH flipf e =
      if FH.getD ((inp.ue e).getD (oneStepPosition (inp.diIM e) (inp.ue e).length
          ((inp.uE2C.getD (inp.EMAP.getD e 0) []).getD (inp.diIM e) false) flipf) 0 % inp.m)
          false = true
      then none
      else some (oneStepPosition (inp.diIM e) (inp.ue e).length
          ((inp.uE2C.getD (inp.EMAP.getD e 0) []).getD (inp.diIM e) false) flipf) := by
  unfold nextFaceSearch
  simp only
  rw [if_pos (by omega), nfei_new_one _ _ _ _ hval hbound hd]
  cases FH.getD ((inp.ue e).getD (oneStepPosition (inp.diIM e) (inp.ue e).length
          ((inp.uE2C.getD (inp.EMAP.getD e 0) []).getD (inp.diIM e) false) flipf) 0 % inp.m)
          false <;> rfl

/-! ## The loop over components -/

theorem getD_replicate_false (n i : Nat) : (List.replicate n false).getD i false = false := by
  by_cases h : i < n
  · rw [List.getD_eq_getElem _ _ (by simpa using h)]; simp
  · rw [List.getD_eq_default _ _ (by simpa using h)]

theorem GInv_init (inp : Input) : GInv inp 0 (Global.init inp) := by
  refine ⟨by simp [Global.init], by simp [Global.init], by simp [Global.init],
    by simp [Global.init], by simp [Global.init], ?_, ?_, ?_, ?_⟩
  · intro f hf
    rw [show (Global.init inp).FH = List.replicate inp.m false from rfl,
      getD_replicate_false] at hf
    cases hf
  · intro e he
    rw [show (Global.init inp).EH = List.replicate (3 * inp.m) false from rfl,
      getD_replicate_false] at he
    cases he
  · intro id hid; omega
  · intro id hid; omega

theorem resolvedCount_zero (inp : Input) (id : Nat) (FH : List Bool)
    (h : ∀ f, FH.getD f false = true → inp.C.getD f 0 ≠ id) : resolvedCount inp id FH = 0 := by
  unfold resolvedCount
  rw [List.countP_eq_zero]
  intro f _ hf
  rw [Bool.and_eq_true] at hf
  exact h f hf.2 (by simpa using hf.1)

theorem TInv_seedInit (inp : Input) (hS : SeedsOK inp) (id : Nat) (hid : id < inp.ncc)
    (g : Global) (hg : GInv inp id g) : TInv inp id g (seedInit inp id g) := by
  obtain ⟨hlt, hC⟩ := hS id hid
  unfold seedInit
  have hset : (g.FH.set (inp.outer_facet (inp.IM id)).1 true).getD
      (inp.outer_facet (inp.IM id)).1 false = true :=
    getD_set_self _ _ _ _ (by rw [hg.lenFH]; exact hlt)
  refine ⟨?_, hg.lenEH, ?_, ?_, ?_, ?_, ?_, fun _ _ => rfl, ?_⟩
  · simp only [List.length_set]; exact hg.lenFH
  · simp only [List.length_set]; exact hg.lenFlip
  · intro e he
    simp only [List.mem_cons, List.mem_singleton, List.not_mem_nil, or_false] at he
    rcases he with rfl | rfl | rfl
    · exact ⟨add_mul_lt _ _ _ hlt (by omega), by rw [mod_add_mul _ _ _ hlt]; exact hC⟩
    · exact ⟨add_mul_lt _ _ _ hlt (by omega), by rw [mod_add_mul _ _ _ hlt]; exact hC⟩
    · exact ⟨add_mul_lt _ _ _ hlt (by omega), by rw [mod_add_mul _ _ _ hlt]; exact hC⟩
  · intro e he
    simp only [List.mem_cons, List.mem_singleton, List.not_mem_nil, or_false] at he
    rcases he with rfl | rfl | rfl
    · simp only; rw [mod_add_mul _ _ _ hlt]; exact hset
    · simp only; rw [mod_add_mul _ _ _ hlt]; exact hset
    · simp only; rw [mod_add_mul _ _ _ hlt]; exact hset
  · intro f hf
    have : (inp.outer_facet (inp.IM id)).1 ≠ f := by rintro rfl; exact hf hC
    simp only
    rw [getD_set_other _ _ _ _ _ this]
  · intro f hf
    have : (inp.outer_facet (inp.IM id)).1 ≠ f := by rintro rfl; exact hf hC
    simp only
    rw [getD_set_other _ _ _ _ _ this]
  · simp only
    have h0 : resolvedCount inp id g.FH = 0 :=
      resolvedCount_zero inp id g.FH (fun f hf => by have := hg.marksFH f hf; omega)
    have hseed : g.FH.getD (inp.outer_facet (inp.IM id)).1 false = false := by
      cases hb : g.FH.getD (inp.outer_facet (inp.IM id)).1 false
      · rfl
      · have := hg.marksFH _ hb; omega
    unfold resolvedCount at h0 ⊢
    rw [countP_range_update (fun f => inp.C.getD f 0 == id && g.FH.getD f false) _ inp.m _ hlt
      (by simp only [hseed, Bool.and_false])
      (by rw [getD_set_self _ _ _ _ (by rw [hg.lenFH]; exact hlt), hC]; simp)
      (fun x hx => by rw [getD_set_other _ _ _ _ _ (fun h => hx h.symm)]), h0]

theorem TInv_iterate (inp : Input) (hL : EdgesListed inp) (hA : AdjacencyClosed inp)
    (id : Nat) (g : Global) (n : Nat) (s : State) (h : TInv inp id g s) :
    TInv inp id g ((bfsStep inp)^[n] s) := by
  induction n generalizing s with
  | zero => exact h
  | succ n ih => rw [Function.iterate_succ_apply]; exact ih _ (TInv_step inp hL hA id g s h)

theorem TInv_bfs (inp : Input) (hL : EdgesListed inp) (hA : AdjacencyClosed inp)
    (id : Nat) (g : Global) (n : Nat) (s : State) (h : TInv inp id g s) :
    TInv inp id g (bfs inp n s) := by
  rw [bfs_eq_iterate]; exact TInv_iterate inp hL hA id g n s h

theorem resized_eq {α : Type} (n : Nat) (l : List α) (d : α) (h : l.length = n) :
    resized n l d = l := by
  unfold resized
  rw [h, Nat.sub_self]
  simp [← h]

theorem map_getD_range {α : Type} (l : List α) (d : α) :
    (List.range l.length).map (fun i => l.getD i d) = l := by
  apply List.ext_getElem
  · simp
  · intro i h1 h2
    simp only [List.getElem_map, List.getElem_range]
    exact List.getD_eq_getElem _ _ h2

theorem IM_length (inp : Input) (hLab : LabelsOK inp) (id : Nat) (hid : id < inp.ncc) :
    (inp.IM id).length = inp.counts.getD id 0 := by
  rw [IM_eq_filter inp hLab id hid, hLab.2 id hid]
  unfold labelCount
  rw [List.countP_eq_length_filter]

theorem mem_IM (inp : Input) (hLab : LabelsOK inp) (id : Nat) (hid : id < inp.ncc) (f : Nat) :
    f ∈ inp.IM id ↔ f < inp.m ∧ inp.C.getD f 0 = id := by
  rw [IM_eq_filter inp hLab id hid, List.mem_filter, List.mem_range]
  simp [-List.getD_eq_getElem?_getD]

/-- Under a well-formed labelling the rows gathered for a component are the
resolved faces of `vIM[id]`. -/
theorem gathered_eq (inp : Input) (hLab : LabelsOK inp) (id : Nat) (hid : id < inp.ncc)
    (s : State) : gathered inp id s = (inp.IM id).filter (fun f => s.FH.getD f false) := by
  unfold gathered
  rw [← IM_length inp hLab id hid, map_getD_range]

theorem gathered_length (inp : Input) (hLab : LabelsOK inp) (id : Nat) (hid : id < inp.ncc)
    (s : State) : (gathered inp id s).length = resolvedCount inp id s.FH := by
  rw [gathered_eq inp hLab id hid, IM_eq_filter inp hLab id hid, List.filter_filter]
  unfold resolvedCount
  rw [List.countP_eq_length_filter]
  congr 1
  apply List.filter_congr
  intro x _
  rw [Bool.and_comm]

theorem GInv_componentBody (inp : Input) (hL : EdgesListed inp) (hA : AdjacencyClosed inp)
    (hLab : LabelsOK inp) (hS : SeedsOK inp) (id : Nat) (hid : id < inp.ncc)
    (g : Global) (hg : GInv inp id g) : GInv inp (id + 1) (componentBody inp id g) := by
  have hT := TInv_bfs inp hL hA id g (bfsFuel inp) _ (TInv_seedInit inp hS id hid g hg)
  have hlenG : (gathered inp id (bfs inp (bfsFuel inp) (seedInit inp id g))).length
      = (bfs inp (bfsFuel inp) (seedInit inp id g)).FHcount := by
    rw [gathered_length inp hLab id hid, hT.count]
  unfold componentBody
  simp only
  rw [resized_eq _ _ _ hlenG, resized_eq _ _ _ (by rw [List.length_map]; exact hlenG)]
  refine ⟨hT.lenFH, hT.lenEH, hT.lenFlip, ?_, ?_, ?_, ?_, ?_, ?_⟩
  · simp only [List.length_set]; exact hg.lenvG
  · simp only [List.length_set]; exact hg.lenvJ
  · intro f hf
    by_cases hC : inp.C.getD f 0 = id
    · omega
    · rw [hT.frameFH f hC] at hf
      have := hg.marksFH f hf; omega
  · intro e he
    by_cases hC : inp.C.getD (e % inp.m) 0 = id
    · omega
    · rw [hT.frameEH e hC] at he
      have := hg.marksEH e he; omega
  · intro id' hid'
    simp only
    by_cases h : id = id'
    · subst h
      rw [getD_set_self _ _ _ _ (by rw [hg.lenvJ]; exact hid)]
      exact gathered_eq inp hLab id hid _
    · rw [getD_set_other _ _ _ _ _ h, hg.resJ id' (by omega)]
      apply List.filter_congr
      intro f hf
      have hfC := ((mem_IM inp hLab id' (by omega) f).mp hf).2
      rw [hT.frameFH f (by omega)]
  · intro id' hid'
    simp only
    by_cases h : id = id'
    · subst h
      rw [getD_set_self _ _ _ _ (by rw [hg.lenvG]; exact hid),
        getD_set_self _ _ _ _ (by rw [hg.lenvJ]; exact hid)]
    · rw [getD_set_other _ _ _ _ _ h, getD_set_other _ _ _ _ _ h, hg.resG id' (by omega)]
      apply List.map_congr_left
      intro f hf
      rw [hg.resJ id' (by omega)] at hf
      have hfC := ((mem_IM inp hLab id' (by omega) f).mp (List.mem_filter.mp hf).1).2
      unfold orientedRow
      rw [hT.frameFlip f (by omega)]

theorem GInv_componentsLoop (inp : Input) (hL : EdgesListed inp) (hA : AdjacencyClosed inp)
    (hLab : LabelsOK inp) (hS : SeedsOK inp) (k : Nat) (hk : k ≤ inp.ncc) :
    GInv inp k (componentsLoop inp k) := by
  induction k with
  | zero => exact GInv_init inp
  | succ k ih => exact GInv_componentBody inp hL hA hLab hS k (by omega) _ (ih (by omega))

/-! ## Shape of the results -/

theorem resized_length {α : Type} (n : Nat) (l : List α) (d : α) : (resized n l d).length = n := by
  unfold resized
  simp only [List.length_take, List.length_append, List.length_replicate]
  omega

theorem bfsStep_lenFlip (inp : Input) (s : State) :
    (bfsStep inp s).flip.length = s.flip.length := by
  cases hQ : s.Q with
  | nil => rw [bfsStep_nil inp s hQ]
  | cons e Q =>
    rcases bfsStep_cases inp s e Q hQ with ⟨_, hs⟩ | ⟨_, _, hs⟩ | ⟨_, i, _, hs⟩
    · rw [hs]
    · rw [hs]
    · rw [hs]; unfold crossState; simp only [List.length_set]

theorem bfs_lenFlip (inp : Input) (n : Nat) (s : State) :
    (bfs inp n s).flip.length = s.flip.length := by
  induction n generalizing s with
  | zero => rfl
  | succ n ih =>
    rw [bfs]
    split
    · rfl
    · rw [ih, bfsStep_lenFlip]

theorem getD_set_length {α : Type} (l : List (List α)) (i j : Nat) (a : List α) :
    ((l.set i a).getD j []).length = if i = j ∧ i < l.length then a.length else (l.getD j []).length := by
  by_cases hij : i = j
  · subst hij
    by_cases hlt : i < l.length
    · rw [getD_set_self _ _ _ _ hlt, if_pos ⟨rfl, hlt⟩]
    · rw [if_neg (fun h => hlt h.2), List.getD_eq_default _ _ (by rw [List.length_set]; omega),
        List.getD_eq_default _ _ (by omega)]
  · rw [getD_set_other _ _ _ _ _ hij, if_neg (fun h => hij h.1)]

theorem getD_replicate_nil {α : Type} (n i : Nat) :
    (List.replicate n ([] : List α)).getD i [] = [] := by
  by_cases h : i < n
  · rw [List.getD_eq_getElem _ _ (by simpa using h)]; simp
  · rw [List.getD_eq_default _ _ (by simpa using h)]

/-- The shape facts that hold for every input. -/
theorem componentsLoop_shape (inp : Input) (k : Nat) :
    (componentsLoop inp k).flip.length = inp.m ∧
      (componentsLoop inp k).vG.length = (componentsLoop inp k).vJ.length ∧
      ∀ id, ((componentsLoop inp k).vG.getD id []).length
        = ((componentsLoop inp k).vJ.getD id []).length := by
  induction k with
  | zero =>
    refine ⟨by simp [componentsLoop, Global.init], by simp [componentsLoop, Global.init], ?_⟩
    intro id
    simp only [componentsLoop, Global.init]
    rw [getD_replicate_nil, getD_replicate_nil]
    rfl
  | succ k ih =>
    obtain ⟨h1, h2, h3⟩ := ih
    refine ⟨?_, ?_, ?_⟩
    · show (bfs inp (bfsFuel inp) (seedInit inp k (componentsLoop inp k))).flip.length = inp.m
      rw [bfs_lenFlip]
      unfold seedInit
      simp only [List.length_set]
      exact h1
    · show (List.set _ _ _).length = (List.set _ _ _).length
      rw [List.length_set, List.length_set]; exact h2
    · intro id
      show ((List.set _ _ _).getD id []).length = ((List.set _ _ _).getD id []).length
      rw [getD_set_length, getD_set_length, resized_length, resized_length, h2, h3 id]

theorem flatMap_length_congr {α β γ : Type} (l : List α) (f : α → List β) (g : α → List γ)
    (h : ∀ a ∈ l, (f a).length = (g a).length) :
    (l.flatMap f).length = (l.flatMap g).length := by
  induction l with
  | nil => rfl
  | cons a l ih =>
    simp only [List.flatMap_cons, List.length_append]
    rw [h a (List.mem_cons_self _ _), ih (fun b hb => h b (List.mem_cons_of_mem _ hb))]

theorem flatMap_map_congr {α β γ : Type} (l : List α) (f : α → List β) (g : α → List γ)
    (φ : β → γ) (h : ∀ a ∈ l, g a = (f a).map φ) :
    l.flatMap g = (l.flatMap f).map φ := by
  induction l with
  | nil => rfl
  | cons a l ih =>
    simp only [List.flatMap_cons, List.map_append]
    rw [h a (List.mem_cons_self _ _), ih (fun b hb => h b (List.mem_cons_of_mem _ hb))]

/-- Under the side conditions on the helper results, `G` is `J` mapped through
the orientation recorded in `flip`. -/
theorem G_eq_map_J (inp : Input) (hL : EdgesListed inp) (hA : AdjacencyClosed inp)
    (hLab : LabelsOK inp) (hS : SeedsOK inp) :
    (outer_hull_legacy inp).G
      = (outer_hull_legacy inp).J.map (orientedRow inp (outer_hull_legacy inp).flip) := by
  have hg := GInv_componentsLoop inp hL hA hLab hS inp.ncc (le_refl _)
  unfold outer_hull_legacy collect
  simp only
  apply flatMap_map_congr
  intro id hid
  rw [List.mem_range] at hid
  split
  · exact hg.resG id hid
  · rfl

/-- Under the side conditions on the helper results, every entry of `J` is a
resolved face. -/
theorem mem_J (inp : Input) (hL : EdgesListed inp) (hA : AdjacencyClosed inp)
    (hLab : LabelsOK inp) (hS : SeedsOK inp) (j : Nat) (hj : j ∈ (outer_hull_legacy inp).J) :
    j < inp.m ∧ (componentsLoop inp inp.ncc).FH.getD j false = true := by
  have hg := GInv_componentsLoop inp hL hA hLab hS inp.ncc (le_refl _)
  unfold outer_hull_legacy collect at hj
  simp only [List.mem_flatMap, List.mem_range] at hj
  obtain ⟨id, hid, hj⟩ := hj
  split at hj
  · rw [hg.resJ id hid, List.mem_filter] at hj
    exact ⟨((mem_IM inp hLab id hid j).mp hj.1).1, hj.2⟩
  · cases hj

theorem J_nodup (inp : Input) (hL : EdgesListed inp) (hA : AdjacencyClosed inp)
    (hLab : LabelsOK inp) (hS : SeedsOK inp) : (outer_hull_legacy inp).J.Nodup := by
  have hg := GInv_componentsLoop inp hL hA hLab hS inp.ncc (le_refl _)
  unfold outer_hull_legacy collect
  simp only
  rw [List.nodup_flatMap]
  constructor
  · intro id hid
    rw [List.mem_range] at hid
    split
    · rw [hg.resJ id hid, IM_eq_filter inp hLab id hid]
      exact ((List.nodup_range _).filter _).filter _
    · exact List.nodup_nil
  · apply (List.nodup_range _).pairwise_of_forall_ne
    intro a ha b hb hab
    rw [List.mem_range] at ha hb
    intro x hxa hxb
    simp only at hxa hxb
    split at hxa
    · split at hxb
      · rw [hg.resJ a ha, List.mem_filter] at hxa
        rw [hg.resJ b hb, List.mem_filter] at hxb
        have h1 := ((mem_IM inp hLab a ha x).mp hxa.1).2
        have h2 := ((mem_IM inp hLab b hb x).mp hxb.1).2
        exact hab (h1.symm.trans h2)
      · cases hxb
    · cases hxa

/-! ## Resolved faces keep their marks and their flips -/

theorem bfsStep_resolved (inp : Input) (s : State) (f : Nat)
    (h : s.FH.getD f false = true) :
    (bfsStep inp s).FH.getD f false = true ∧
      (bfsStep inp s).flip.getD f false = s.flip.getD f false := by
  cases hQ : s.Q with
  | nil => rw [bfsStep_nil inp s hQ]; exact ⟨h, rfl⟩
  | cons e Q =>
    rcases bfsStep_cases inp s e Q hQ with ⟨_, hs⟩ | ⟨_, _, hs⟩ | ⟨_, i, hn, hs⟩
    · rw [hs]; exact ⟨h, rfl⟩
    · rw [hs]; exact ⟨h, rfl⟩
    · obtain ⟨_, hFH⟩ := nextFaceSearch_some inp s.FH _ e i hn
      have hne : (inp.ue e).getD i 0 % inp.m ≠ f := by
        rintro rfl; rw [hFH] at h; cases h
      rw [hs]
      unfold crossState
      exact ⟨getD_set_true _ _ _ h, getD_set_other _ _ _ _ _ hne⟩

theorem bfsStep_EH_mono (inp : Input) (s : State) (e : Nat)
    (h : s.EH.getD e false = true) : (bfsStep inp s).EH.getD e false = true := by
  cases hQ : s.Q with
  | nil => rw [bfsStep_nil inp s hQ]; exact h
  | cons e' Q =>
    rcases bfsStep_cases inp s e' Q hQ with ⟨_, hs⟩ | ⟨_, _, hs⟩ | ⟨_, i, hn, hs⟩
    · rw [hs]; exact h
    · rw [hs]; exact getD_set_true _ _ _ h
    · rw [hs]; unfold crossState; exact getD_set_true _ _ _ h

theorem iterate_resolved (inp : Input) (n : Nat) (s : State) (f : Nat)
    (h : s.FH.getD f false = true) :
    ((bfsStep inp)^[n] s).FH.getD f false = true ∧
      ((bfsStep inp)^[n] s).flip.getD f false = s.flip.getD f false := by
  induction n generalizing s with
  | zero => exact ⟨h, rfl⟩
  | succ n ih =>
    rw [Function.iterate_succ_apply]
    obtain ⟨h1, h2⟩ := bfsStep_resolved inp s f h
    obtain ⟨h3, h4⟩ := ih (bfsStep inp s) h1
    exact ⟨h3, h4.trans h2⟩

theorem iterate_of_empty (inp : Input) (n : Nat) (s : State) (h : s.Q = []) :
    (bfsStep inp)^[n] s = s := by
  induction n with
  | zero => rfl
  | succ n ih => rw [Function.iterate_succ_apply, bfsStep_nil inp s h]; exact ih

theorem SeedsOK_pos (inp : Input) (hS : SeedsOK inp) (id : Nat) (hid : id < inp.ncc) :
    0 < inp.m := by
  have := (hS id hid).1; omega

/-- The traversal of every component ends with an empty queue within the fuel
it is given. -/
theorem traversal_terminates (inp : Input) (hL : EdgesListed inp) (hA : AdjacencyClosed inp)
    (hLab : LabelsOK inp) (hS : SeedsOK inp) (id : Nat) (hid : id < inp.ncc) :
    (bfs inp (bfsFuel inp) (seedInit inp id (componentsLoop inp id))).Q = [] := by
  have hg := GInv_componentsLoop inp hL hA hLab hS id (by omega)
  have hT := TInv_seedInit inp hS id hid _ hg
  exact bfs_queue_empty inp (SeedsOK_pos inp hS id hid) _ _ hT.lenFH
    (seedInit_measure inp id _ hg.lenFH)

/-- After the fuel is spent the state no longer changes. -/
theorem traversalState_final (inp : Input) (hL : EdgesListed inp) (hA : AdjacencyClosed inp)
    (hLab : LabelsOK inp) (hS : SeedsOK inp) (id : Nat) (hid : id < inp.ncc) (j : Nat) :
    traversalState inp id (bfsFuel inp + j)
      = bfs inp (bfsFuel inp) (seedInit inp id (componentsLoop inp id)) := by
  unfold traversalState
  have hfin := traversal_terminates inp hL hA hLab hS id hid
  rw [bfs_eq_iterate] at hfin ⊢
  rw [Nat.add_comm, Function.iterate_add_apply]
  exact iterate_of_empty inp j _ hfin

theorem componentsLoop_succ_flip (inp : Input) (id : Nat) :
    (componentsLoop inp (id + 1)).flip
      = (bfs inp (bfsFuel inp) (seedInit inp id (componentsLoop inp id))).flip := rfl

theorem componentsLoop_succ_FH (inp : Input) (id : Nat) :
    (componentsLoop inp (id + 1)).FH
      = (bfs inp (bfsFuel inp) (seedInit inp id (componentsLoop inp id))).FH := rfl

theorem seed_unresolved (inp : Input) (hL : EdgesListed inp) (hA : AdjacencyClosed inp)
    (hLab : LabelsOK inp) (hS : SeedsOK inp) (id : Nat) (hid : id < inp.ncc) :
    (componentsLoop inp id).FH.getD (inp.outer_facet (inp.IM id)).1 false = false := by
  have hg := GInv_componentsLoop inp hL hA hLab hS id (by omega)
  cases hb : (componentsLoop inp id).FH.getD (inp.outer_facet (inp.IM id)).1 false
  · rfl
  · have := hg.marksFH _ hb
    have := (hS id hid).2
    omega

/-- A face resolved before component `id` is traversed keeps its mark and its
flip through that traversal. -/
theorem componentBody_resolved (inp : Input) (hL : EdgesListed inp) (hA : AdjacencyClosed inp)
    (hLab : LabelsOK inp) (hS : SeedsOK inp) (id : Nat) (hid : id < inp.ncc) (f : Nat)
    (h : (componentsLoop inp id).FH.getD f false = true) :
    (componentsLoop inp (id + 1)).FH.getD f false = true ∧
      (componentsLoop inp (id + 1)).flip.getD f false
        = (componentsLoop inp id).flip.getD f false := by
  have hg := GInv_componentsLoop inp hL hA hLab hS id (by omega)
  have hT := TInv_bfs inp hL hA id _ (bfsFuel inp) _ (TInv_seedInit inp hS id hid _ hg)
  have hC : inp.C.getD f 0 ≠ id := by have := hg.marksFH f h; omega
  rw [componentsLoop_succ_FH, componentsLoop_succ_flip, hT.frameFH f hC, hT.frameFlip f hC]
  exact ⟨h, rfl⟩

theorem componentsLoop_resolved (inp : Input) (hL : EdgesListed inp) (hA : AdjacencyClosed inp)
    (hLab : LabelsOK inp) (hS : SeedsOK inp) (k j : Nat) (hkj : k + j ≤ inp.ncc) (f : Nat)
    (h : (componentsLoop inp k).FH.getD f false = true) :
    (componentsLoop inp (k + j)).FH.getD f false = true ∧
      (componentsLoop inp (k + j)).flip.getD f false
        = (componentsLoop inp k).flip.getD f false := by
  induction j with
  | zero => exact ⟨h, rfl⟩
  | succ j ih =>
    obtain ⟨h1, h2⟩ := ih (by omega)
    obtain ⟨h3, h4⟩ := componentBody_resolved inp hL hA hLab hS (k + j) (by omega) f h1
    exact ⟨h3, h4.trans h2⟩

/-- The flip of a face that is resolved at some moment of the traversal of
component `id` is the flip that is returned. -/
theorem returned_flip_eq (inp : Input) (hL : EdgesListed inp) (hA : AdjacencyClosed inp)
    (hLab : LabelsOK inp) (hS : SeedsOK inp) (id : Nat) (hid : id < inp.ncc) (k f : Nat)
    (h : (traversalState inp id k).FH.getD f false = true) :
    (outer_hull_legacy inp).flip.getD f false = (traversalState inp id k).flip.getD f false := by
  have hfin := traversalState_final inp hL hA hLab hS id hid k
  have hiter := iterate_resolved inp (bfsFuel inp) (traversalState inp id k) f h
  have hadd : (bfsStep inp)^[bfsFuel inp] (traversalState inp id k)
      = traversalState inp id (bfsFuel inp + k) := by
    unfold traversalState
    rw [Function.iterate_add_apply]
  rw [hadd, hfin, ← componentsLoop_succ_FH, ← componentsLoop_succ_flip] at hiter
  have hrest := componentsLoop_resolved inp hL hA hLab hS (id + 1) (inp.ncc - (id + 1))
    (by omega) f hiter.1
  have hncc : id + 1 + (inp.ncc - (id + 1)) = inp.ncc := by omega
  rw [hncc] at hrest
  show (componentsLoop inp inp.ncc).flip.getD f false = _
  rw [hrest.2, hiter.2]

/-! ## Orientation across a crossed edge -/

theorem flip_choice_opposite (a b p q : Nat) (flipf : Bool) (hdist : a ≠ b)
    (hsame : (a = p ∧ b = q) ∨ (a = q ∧ b = p)) :
    (if flipf then b else a)
        = (if (if ((if flipf then (if flipf then a else b) else (if flipf then b else a)) == q)
            then flipf else !flipf) then p else q) ∧
      (if flipf then a else b)
        = (if (if ((if flipf then (if flipf then a else b) else (if flipf then b else a)) == q)
            then flipf else !flipf) then q else p) := by
  rcases hsame with ⟨rfl, rfl⟩ | ⟨rfl, rfl⟩ <;> cases flipf <;>
    simp [hdist, Ne.symm hdist]

/-- The flip given to the neighbour makes the two faces run along the common
edge in opposite directions. -/
theorem cross_opposite (inp : Input) (flipf : Bool) (f c nf nc : Nat)
    (hdist : inp.Fat f ((c + 1) % 3) ≠ inp.Fat f ((c + 2) % 3))
    (hsame : (inp.Fat f ((c + 1) % 3) = inp.Fat nf ((nc + 1) % 3) ∧
        inp.Fat f ((c + 2) % 3) = inp.Fat nf ((nc + 2) % 3)) ∨
      (inp.Fat f ((c + 1) % 3) = inp.Fat nf ((nc + 2) % 3) ∧
        inp.Fat f ((c + 2) % 3) = inp.Fat nf ((nc + 1) % 3))) :
    edgeSource inp flipf f c = edgeDest inp (neighborFlip inp flipf f c nf nc) nf nc ∧
      edgeDest inp flipf f c = edgeSource inp (neighborFlip inp flipf f c nf nc) nf nc := by
  have h := flip_choice_opposite _ _ _ _ flipf hdist hsame
  unfold neighborFlip edgeSource edgeDest
  simp only
  cases flipf
  · simp only [Bool.false_eq_true, if_false] at h ⊢
    exact ⟨h.1, h.2⟩
  · simp only [if_true] at h ⊢
    exact ⟨h.1, h.2⟩

theorem flip_choice_unique (a b p q : Nat) (x y : Bool) (hdist : a ≠ b)
    (h1 : (if x then b else a) = (if y then p else q))
    (h2 : (if x then a else b) = (if y then q else p)) :
    y = (if ((if x then (if x then a else b) else (if x then b else a)) == q)
      then x else !x) := by
  cases x <;> cases y <;> simp at h1 h2 ⊢
  · subst h1 h2; rfl
  · subst h1 h2; exact hdist
  · subst h1 h2; exact hdist
  · subst h1 h2; rfl

/-- The flip of the neighbour is the only one that makes the two faces run
along the common edge in opposite directions. -/
theorem opposite_unique (inp : Input) (a b : Bool) (f c nf nc : Nat)
    (hdist : inp.Fat f ((c + 1) % 3) ≠ inp.Fat f ((c + 2) % 3))
    (h : edgeSource inp a f c = edgeDest inp b nf nc ∧
      edgeDest inp a f c = edgeSource inp b nf nc) :
    b = neighborFlip inp a f c nf nc := by
  unfold neighborFlip edgeSource edgeDest at *
  simp only
  exact flip_choice_unique _ _ _ _ a b hdist h.1 h.2

theorem mod3_cases (c : Nat) :
    ((c + 1) % 3 = 1 ∧ (c + 2) % 3 = 2) ∨ ((c + 1) % 3 = 2 ∧ (c + 2) % 3 = 0) ∨
      ((c + 1) % 3 = 0 ∧ (c + 2) % 3 = 1) := by omega

theorem length_three {α : Type} (l : List α) (h : l.length = 3) : ∃ x y z, l = [x, y, z] := by
  match l, h with
  | [x, y, z], _ => exact ⟨x, y, z, rfl⟩

/-- The directed edge that the code attributes to the half-edge `(f,c)` under
the flip of `f` is a directed edge of the row written to `G` for `f`. -/
theorem edge_mem_directedEdges (inp : Input) (flip : List Bool) (f c : Nat)
    (hrow : (inp.row f).length = 3) :
    (edgeSource inp (flip.getD f false) f c, edgeDest inp (flip.getD f false) f c)
      ∈ directedEdges (orientedRow inp flip f) := by
  obtain ⟨x, y, z, hxyz⟩ := length_three _ hrow
  unfold edgeSource edgeDest orientedRow directedEdges Input.Fat
  rw [hxyz]
  rcases mod3_cases c with ⟨h1, h2⟩ | ⟨h1, h2⟩ | ⟨h1, h2⟩ <;> rw [h1, h2] <;>
    cases flip.getD f false <;> simp

theorem traversalState_succ (inp : Input) (id k : Nat) :
    traversalState inp id (k + 1) = bfsStep inp (traversalState inp id k) := by
  unfold traversalState
  rw [Function.iterate_succ_apply']

theorem TInv_traversalState (inp : Input) (hL : EdgesListed inp) (hA : AdjacencyClosed inp)
    (hLab : LabelsOK inp) (hS : SeedsOK inp) (id : Nat) (hid : id < inp.ncc) (k : Nat) :
    TInv inp id (componentsLoop inp id) (traversalState inp id k) :=
  TInv_iterate inp hL hA id _ k _
    (TInv_seedInit inp hS id hid _ (GInv_componentsLoop inp hL hA hLab hS id (by omega)))

/-- The flips of the two faces of a crossing right after the crossing. -/
theorem crossState_flips (inp : Input) (s : State) (e : Nat) (Q : List Nat) (max_ne : Nat)
    (hm : 0 < inp.m) (hlen : s.flip.length = inp.m)
    (hf : s.FH.getD (e % inp.m) false = true) (hnf : s.FH.getD (max_ne % inp.m) false = false) :
    (crossState inp s e Q max_ne).flip.getD (e % inp.m) false = s.flip.getD (e % inp.m) false ∧
    (crossState inp s e Q max_ne).flip.getD (max_ne % inp.m) false
      = neighborFlip inp (s.flip.getD (e % inp.m) false) (e % inp.m) (e / inp.m)
          (max_ne % inp.m) (max_ne / inp.m) := by
  have hne : max_ne % inp.m ≠ e % inp.m := by
    intro h; rw [h, hf] at hnf; cases hnf
  unfold crossState
  exact ⟨getD_set_other _ _ _ _ _ hne,
    getD_set_self _ _ _ _ (by rw [hlen]; exact Nat.mod_lt _ hm)⟩

/-! ## Which half-edges get marked -/

theorem halfedge_inj (m f f' c c' : Nat) (hf : f < m) (hf' : f' < m)
    (h : f + c * m = f' + c' * m) : f = f' ∧ c = c' := by
  have h1 : (f + c * m) % m = f := mod_add_mul f c m hf
  have h2 : (f' + c' * m) % m = f' := mod_add_mul f' c' m hf'
  have hff : f = f' := by rw [← h1, ← h2, h]
  subst hff
  have : c * m = c' * m := by omega
  exact ⟨rfl, Nat.eq_of_mul_eq_mul_right (by omega) this⟩

theorem pushUnvisited_fresh (EH : List Bool) (Q : List Nat) (ne : Nat)
    (h : EH.getD ne false = false) : pushUnvisited EH Q ne = Q ++ [ne] := by
  unfold pushUnvisited
  rw [h]; rfl

theorem MInv_seedInit (inp : Input) (hS : SeedsOK inp) (id : Nat) (hid : id < inp.ncc)
    (g : Global) (hg : GInv inp id g) :
    MInv inp id (inp.outer_facet (inp.IM id)).1 (seedInit inp id g) := by
  obtain ⟨hlt, hC⟩ := hS id hid
  have hm : 0 < inp.m := by omega
  have hEH : ∀ f c, f < inp.m → inp.C.getD f 0 = id → g.EH.getD (f + c * inp.m) false = false := by
    intro f c hf hfC
    cases hb : g.EH.getD (f + c * inp.m) false
    · rfl
    · have := hg.marksEH _ hb
      rw [mod_add_mul _ _ _ hf] at this
      omega
  have hset : (g.FH.set (inp.outer_facet (inp.IM id)).1 true).getD
      (inp.outer_facet (inp.IM id)).1 false = true :=
    getD_set_self _ _ _ _ (by rw [hg.lenFH]; exact hlt)
  unfold seedInit
  refine ⟨?_, ?_, hset, ?_, ?_, ?_⟩
  · simp only [List.nodup_cons, List.mem_cons, List.mem_singleton, List.not_mem_nil,
      List.nodup_nil, and_true, not_false_eq_true, or_false]
    omega
  · intro e he
    simp only [List.mem_cons, List.mem_singleton, List.not_mem_nil, or_false] at he
    rcases he with rfl | rfl | rfl <;> exact hEH _ _ hlt hC
  · intro f hf hfC hfFH c _
    simp only at hfFH ⊢
    have hne : f ≠ (inp.outer_facet (inp.IM id)).1 := by
      rintro rfl; rw [hset] at hfFH; cases hfFH
    refine ⟨hEH f c hf hfC, ?_⟩
    simp only [List.mem_cons, List.mem_singleton, List.not_mem_nil, or_false]
    rintro (h | h | h) <;> exact hne (halfedge_inj _ _ _ _ _ hf hlt h).1
  · intro c hc
    right
    simp only [List.mem_cons, List.mem_singleton, List.not_mem_nil, or_false]
    have : c = 0 ∨ c = 1 ∨ c = 2 := by omega
    rcases this with rfl | rfl | rfl
    · exact Or.inl rfl
    · exact Or.inr (Or.inl rfl)
    · exact Or.inr (Or.inr rfl)
  · intro f hf hfC hfFH hne
    simp only at hfFH
    rw [getD_set_other _ _ _ _ _ (fun h => hne h.symm)] at hfFH
    have := hg.marksFH f hfFH
    omega

theorem MInv_step (inp : Input) (hL : EdgesListed inp) (hA : AdjacencyClosed inp)
    (id seed : Nat) (g : Global) (s : State) (hT : TInv inp id g s) (h : MInv inp id seed s) :
    MInv inp id seed (bfsStep inp s) := by
  cases hQ : s.Q with
  | nil => rw [bfsStep_nil inp s hQ]; exact h
  | cons e Q =>
    have heQ : e ∈ s.Q := by rw [hQ]; exact List.mem_cons_self _ _
    obtain ⟨he, heC⟩ := hT.queue e heQ
    have hQsub : ∀ x ∈ Q, x ∈ s.Q := fun x hx => by rw [hQ]; exact List.mem_cons_of_mem _ hx
    have hm : 0 < inp.m := by omega
    have hnd : e ∉ Q ∧ Q.Nodup := by
      have := h.nodup; rw [hQ] at this; exact List.nodup_cons.mp this
    have heEH : (s.EH.set e true).getD e false = true :=
      getD_set_self _ _ _ _ (by rw [hT.lenEH]; exact he)
    -- a half-edge outside the queue keeps its mark
    have hkeep : ∀ x, x ∉ s.Q → (s.EH.set e true).getD x false = s.EH.getD x false := by
      intro x hx
      exact getD_set_other _ _ _ _ _ (by rintro rfl; exact hx heQ)
    -- a half-edge that was marked or queued is marked or in the rest of the queue
    have hpend : ∀ x, (s.EH.getD x false = true ∨ x ∈ s.Q) →
        ((s.EH.set e true).getD x false = true ∨ x ∈ Q) := by
      intro x hx
      rcases hx with hx | hx
      · exact Or.inl (getD_set_true _ _ _ hx)
      · rw [hQ] at hx
        rcases List.mem_cons.mp hx with rfl | hx
        · exact Or.inl heEH
        · exact Or.inr hx
    have hfreshQ : ∀ x ∈ Q, (s.EH.set e true).getD x false = false := by
      intro x hx
      rw [getD_set_other _ _ _ _ _ (by rintro rfl; exact hnd.1 hx)]
      exact h.fresh x (hQsub x hx)
    rcases bfsStep_cases inp s e Q hQ with ⟨hE, _⟩ | ⟨_, _, hs⟩ | ⟨_, i, hn, hs⟩
    · rw [h.fresh e heQ] at hE; cases hE
    · rw [hs]
      refine ⟨hnd.2, hfreshQ, h.seedFH, ?_, ?_, ?_⟩
      · intro f hf hfC hfFH c hc
        obtain ⟨h1, h2⟩ := h.unresolved f hf hfC hfFH c hc
        exact ⟨by simp only; rw [hkeep _ h2]; exact h1, fun hx => h2 (hQsub _ hx)⟩
      · intro c hc
        exact hpend _ (h.seedMarks c hc)
      · intro f hf hfC hfFH hne
        obtain ⟨nc, hnc, h1, h2, h3⟩ := h.entered f hf hfC hfFH hne
        exact ⟨nc, hnc, by simp only; rw [hkeep _ h2]; exact h1, fun hx => h2 (hQsub _ hx),
          fun c hc hcn => hpend _ (h3 c hc hcn)⟩
    · obtain ⟨_, hxC, hxFH⟩ := cross_facts inp hL hA s.FH _ e i he hn
      have hnf : (inp.ue e).getD i 0 % inp.m < inp.m := Nat.mod_lt _ hm
      have hnfC : inp.C.getD ((inp.ue e).getD i 0 % inp.m) 0 = id := by rw [hxC, heC]
      have hun := h.unresolved _ hnf hnfC hxFH
      have hne1 := hun (((inp.ue e).getD i 0 / inp.m + 1) % 3) (Nat.mod_lt _ (by omega))
      have hne2 := hun (((inp.ue e).getD i 0 / inp.m + 2) % 3) (Nat.mod_lt _ (by omega))
      have hQ' : (crossState inp s e Q ((inp.ue e).getD i 0)).Q
          = Q ++ [(inp.ue e).getD i 0 % inp.m + (((inp.ue e).getD i 0 / inp.m + 1) % 3) * inp.m,
              (inp.ue e).getD i 0 % inp.m + (((inp.ue e).getD i 0 / inp.m + 2) % 3) * inp.m] := by
        unfold crossState
        simp only
        rw [pushUnvisited_fresh _ _ _ (by rw [hkeep _ hne2.2]; exact hne2.1),
          pushUnvisited_fresh _ _ _ (by rw [hkeep _ hne1.2]; exact hne1.1)]
        simp
      have hmemQ' : ∀ x, x ∈ (crossState inp s e Q ((inp.ue e).getD i 0)).Q ↔
          x ∈ Q ∨ x = (inp.ue e).getD i 0 % inp.m
              + (((inp.ue e).getD i 0 / inp.m + 1) % 3) * inp.m ∨
            x = (inp.ue e).getD i 0 % inp.m
              + (((inp.ue e).getD i 0 / inp.m + 2) % 3) * inp.m := by
        intro x; rw [hQ']; simp
      have hEH' : (crossState inp s e Q ((inp.ue e).getD i 0)).EH = s.EH.set e true := rfl
      have hFH' : (crossState inp s e Q ((inp.ue e).getD i 0)).FH
          = s.FH.set ((inp.ue e).getD i 0 % inp.m) true := rfl
      have hnfset : (s.FH.set ((inp.ue e).getD i 0 % inp.m) true).getD
          ((inp.ue e).getD i 0 % inp.m) false = true :=
        getD_set_self _ _ _ _ (by rw [hT.lenFH]; exact hnf)
      rw [hs]
      refine ⟨?_, ?_, ?_, ?_, ?_, ?_⟩
      · rw [hQ', List.nodup_append]
        refine ⟨hnd.2, ?_, ?_⟩
        · simp only [List.nodup_cons, List.mem_singleton, List.not_mem_nil, List.nodup_nil,
            and_true, not_false_eq_true]
          intro heq
          have := (halfedge_inj _ _ _ _ _ hnf hnf heq).2
          omega
        · intro x hx hx'
          simp only [List.mem_cons, List.mem_singleton, List.not_mem_nil, or_false] at hx'
          rcases hx' with rfl | rfl
          · exact hne1.2 (hQsub _ hx)
          · exact hne2.2 (hQsub _ hx)
      · intro x hx
        rw [hEH']
        rcases (hmemQ' x).mp hx with hx | rfl | rfl
        · exact hfreshQ x hx
        · rw [hkeep _ hne1.2]; exact hne1.1
        · rw [hkeep _ hne2.2]; exact hne2.1
      · rw [hFH']; exact getD_set_true _ _ _ h.seedFH
      · intro f hf hfC hfFH c hc
        rw [hFH'] at hfFH
        have hfne : f ≠ (inp.ue e).getD i 0 % inp.m := by
          rintro rfl; rw [hnfset] at hfFH; cases hfFH
        rw [getD_set_other _ _ _ _ _ (fun h => hfne h.symm)] at hfFH
        obtain ⟨h1, h2⟩ := h.unresolved f hf hfC hfFH c hc
        refine ⟨by rw [hEH', hkeep _ h2]; exact h1, ?_⟩
        intro hx
        rcases (hmemQ' _).mp hx with hx | hx | hx
        · exact h2 (hQsub _ hx)
        · exact hfne (halfedge_inj _ _ _ _ _ hf hnf hx).1
        · exact hfne (halfedge_inj _ _ _ _ _ hf hnf hx).1
      · intro c hc
        rw [hEH']
        rcases hpend _ (h.seedMarks c hc) with h1 | h1
        · exact Or.inl h1
        · exact Or.inr ((hmemQ' _).mpr (Or.inl h1))
      · intro f hf hfC hfFH hne
        rw [hEH']
        by_cases hfnf : f = (inp.ue e).getD i 0 % inp.m
        · subst hfnf
          have hun0 := hun ((inp.ue e).getD i 0 / inp.m % 3) (Nat.mod_lt _ (by omega))
          refine ⟨(inp.ue e).getD i 0 / inp.m % 3, Nat.mod_lt _ (by omega),
            by rw [hkeep _ hun0.2]; exact hun0.1, ?_, ?_⟩
          · intro hx
            rcases (hmemQ' _).mp hx with hx | hx | hx
            · exact hun0.2 (hQsub _ hx)
            · have := (halfedge_inj _ _ _ _ _ hnf hnf hx).2; omega
            · have := (halfedge_inj _ _ _ _ _ hnf hnf hx).2; omega
          · intro c hc hcn
            right
            rw [hmemQ']
            have : c = ((inp.ue e).getD i 0 / inp.m + 1) % 3 ∨
                c = ((inp.ue e).getD i 0 / inp.m + 2) % 3 := by omega
            rcases this with h1 | h1
            · exact Or.inr (Or.inl (by rw [← h1]))
            · exact Or.inr (Or.inr (by rw [← h1]))
        · rw [hFH', getD_set_other _ _ _ _ _ (fun h => hfnf h.symm)] at hfFH
          obtain ⟨nc, hnc, h1, h2, h3⟩ := h.entered f hf hfC hfFH hne
          refine ⟨nc, hnc, by rw [hkeep _ h2]; exact h1, ?_, ?_⟩
          · intro hx
            rcases (hmemQ' _).mp hx with hx | hx | hx
            · exact h2 (hQsub _ hx)
            · exact hfnf (halfedge_inj _ _ _ _ _ hf hnf hx).1
            · exact hfnf (halfedge_inj _ _ _ _ _ hf hnf hx).1
          · intro c hc hcn
            rcases hpend _ (h3 c hc hcn) with h4 | h4
            · exact Or.inl h4
            · exact Or.inr ((hmemQ' _).mpr (Or.inl h4))

theorem MInv_traversalState (inp : Input) (hL : EdgesListed inp) (hA : AdjacencyClosed inp)
    (hLab : LabelsOK inp) (hS : SeedsOK inp) (id : Nat) (hid : id < inp.ncc) (k : Nat) :
    MInv inp id (inp.outer_facet (inp.IM id)).1 (traversalState inp id k) := by
  induction k with
  | zero =>
    exact MInv_seedInit inp hS id hid _ (GInv_componentsLoop inp hL hA hLab hS id (by omega))
  | succ k ih =>
    rw [traversalState_succ]
    exact MInv_step inp hL hA id _ _ _ (TInv_traversalState inp hL hA hLab hS id hid k) ih

theorem bfs_eq_traversalState (inp : Input) (id : Nat) :
    bfs inp (bfsFuel inp) (seedInit inp id (componentsLoop inp id))
      = traversalState inp id (bfsFuel inp) := by
  rw [bfs_eq_iterate]; rfl

/-! ## The position table `diIM` -/

theorem diIM_inner_succ (di ue : List Nat) (n : Nat) :
    diIM_inner di ue (n + 1) = (diIM_inner di ue n).set (ue.getD n 0) n := by
  unfold diIM_inner
  rw [List.range_succ, List.foldl_append]
  rfl

theorem diIM_inner_length (di ue : List Nat) (n : Nat) :
    (diIM_inner di ue n).length = di.length := by
  induction n with
  | zero => rfl
  | succ n ih => rw [diIM_inner_succ, List.length_set, ih]

theorem diIM_inner_other (di ue : List Nat) (n e : Nat) (h : ∀ j < n, ue.getD j 0 ≠ e) :
    (diIM_inner di ue n).getD e 0 = di.getD e 0 := by
  induction n with
  | zero => rfl
  | succ n ih =>
    rw [diIM_inner_succ, getD_set_other _ _ _ _ _ (h n (by omega))]
    exact ih (fun j hj => h j (by omega))

theorem nodup_getD_inj (l : List Nat) (hn : l.Nodup) (i j : Nat) (hi : i < l.length)
    (hj : j < l.length) (h : l.getD i 0 = l.getD j 0) : i = j := by
  rw [List.getD_eq_getElem _ _ hi, List.getD_eq_getElem _ _ hj] at h
  exact hn.getElem_inj_iff.mp h

theorem diIM_inner_at (di ue : List Nat) (hn : ue.Nodup) (n i e : Nat) (hi : i < n)
    (hnl : n ≤ ue.length) (hie : ue.getD i 0 = e) (he : e < di.length) :
    (diIM_inner di ue n).getD e 0 = i := by
  induction n with
  | zero => omega
  | succ n ih =>
    rw [diIM_inner_succ]
    by_cases hin : i = n
    · subst hin
      rw [hie]
      exact getD_set_self _ _ _ _ (by rw [diIM_inner_length]; exact he)
    · have hne : ue.getD n 0 ≠ e := by
        intro h
        exact hin (nodup_getD_inj ue hn i n (by omega) (by omega) (hie.trans h.symm))
      rw [getD_set_other _ _ _ _ _ hne]
      exact ih (by omega) (by omega)

theorem diIM_outer_other (L : List (List Nat)) (di : List Nat) (e : Nat)
    (h : ∀ l ∈ L, e ∉ l) :
    (L.foldl (fun di ue => diIM_inner di ue ue.length) di).getD e 0 = di.getD e 0 := by
  induction L generalizing di with
  | nil => rfl
  | cons l L ih =>
    rw [List.foldl_cons, ih _ (fun l' hl' => h l' (List.mem_cons_of_mem _ hl'))]
    apply diIM_inner_other
    intro j hj heq
    exact h l (List.mem_cons_self _ _) (by rw [← heq]; exact getD_mem _ _ _ hj)

theorem diIM_outer_at (L : List (List Nat)) (di : List Nat) (u i e : Nat)
    (hu : u < L.length) (hothers : ∀ u' < L.length, u' ≠ u → e ∉ L.getD u' [])
    (hn : (L.getD u []).Nodup) (hi : i < (L.getD u []).length)
    (hie : (L.getD u []).getD i 0 = e) (he : e < di.length) :
    (L.foldl (fun di ue => diIM_inner di ue ue.length) di).getD e 0 = i := by
  induction L generalizing di u with
  | nil => simp at hu
  | cons l L ih =>
    rw [List.foldl_cons]
    cases u with
    | zero =>
      have hrest : ∀ l' ∈ L, e ∉ l' := by
        intro l' hl'
        obtain ⟨n, hnlt, hnl⟩ := List.getElem_of_mem hl'
        have := hothers (n + 1) (by simp; omega) (by omega)
        rw [List.getD_eq_getElem _ _ (by simp; omega)] at this
        simp only [List.getElem_cons_succ] at this
        rw [hnl] at this
        exact this
      rw [diIM_outer_other L _ e hrest]
      have hl : (l :: L).getD 0 [] = l := rfl
      rw [hl] at hn hi hie
      exact diIM_inner_at di l hn l.length i e hi (le_refl _) hie he
    | succ u =>
      have hu' : u < L.length := by simpa using hu
      have hget : ∀ k, (l :: L).getD (k + 1) [] = L.getD k [] := fun k => rfl
      rw [hget] at hn hi hie
      apply ih _ u hu' _ hn hi hie (by rw [diIM_inner_length]; exact he)
      intro u' hu'lt hne
      have := hothers (u' + 1) (by simp; omega) (by omega)
      rw [hget] at this
      exact this

theorem diIM_build_eq (m : Nat) (L : List (List Nat)) :
    diIM_build m L
      = L.foldl (fun di ue => diIM_inner di ue ue.length) (List.replicate (3 * m) 0) := rfl

/-- With a consistent edge map, `diIM(e)` is the position of `e` in the
incidence list of its undirected edge. -/
theorem diIM_spec (inp : Input) (hE : EdgeMapOK inp) (e : Nat) (he : e < 3 * inp.m)
    (hmem : e ∈ inp.ue e) (hn : (inp.ue e).Nodup) :
    inp.diIM e < (inp.ue e).length ∧ (inp.ue e).getD (inp.diIM e) 0 = e := by
  obtain ⟨i, hi, hie⟩ := List.getElem_of_mem hmem
  have hu : inp.EMAP.getD e 0 < inp.uE2E.length := by
    by_contra hlt
    unfold Input.ue at hmem
    rw [List.getD_eq_default _ _ (by omega)] at hmem
    cases hmem
  have hd : inp.diIM e = i := by
    unfold Input.diIM
    rw [diIM_build_eq]
    apply diIM_outer_at inp.uE2E _ (inp.EMAP.getD e 0) i e hu _ hn hi
    · show (inp.ue e).getD i 0 = e
      rw [List.getD_eq_getElem _ _ hi]; exact hie
    · simp; exact he
    · intro u' hu' hne hmem'
      exact hne (hE u' hu' e hmem').symm
  rw [hd]
  exact ⟨hi, by rw [List.getD_eq_getElem _ _ hi]; exact hie⟩

/-! ## Closed, consistently oriented components are traversed completely -/

theorem ue_nonempty_lt (inp : Input) (e : Nat) (h : inp.ue e ≠ []) :
    inp.EMAP.getD e 0 < inp.uE2E.length := by
  by_contra hlt
  unfold Input.ue at h
  rw [List.getD_eq_default _ _ (by omega)] at h
  exact h rfl

theorem ue_eq_of_mem (inp : Input) (hE : EdgeMapOK inp) (e x : Nat) (hx : x ∈ inp.ue e) :
    inp.ue x = inp.ue e := by
  have hlt := ue_nonempty_lt inp e (List.ne_nil_of_mem hx)
  have := hE _ hlt x hx
  unfold Input.ue
  rw [this]

theorem half_edge_decomp (m e : Nat) : e % m + (e / m) * m = e := by
  rw [Nat.mul_comm]; exact Nat.mod_add_div e m

/-- On an edge with exactly two half-edges the search looks at the other
half-edge, whatever the direction. -/
theorem manifold_target (inp : Input) (hE : EdgeMapOK inp) (e e' : Nat) (he : e < 3 * inp.m)
    (hne : e' ≠ e) (hue : inp.ue e = [e, e'] ∨ inp.ue e = [e', e]) (e_cons flipf : Bool) :
    0 < (inp.ue e).length ∧ (inp.ue e).length < 2 ^ 31 ∧ inp.diIM e < (inp.ue e).length ∧
      (inp.ue e).getD (oneStepPosition (inp.diIM e) (inp.ue e).length e_cons flipf) 0 = e' := by
  have hmem : e ∈ inp.ue e := by rcases hue with h | h <;> rw [h] <;> simp
  have hnd : (inp.ue e).Nodup := by
    rcases hue with h | h <;> rw [h] <;> simp [hne, Ne.symm hne]
  obtain ⟨hd, hde⟩ := diIM_spec inp hE e he hmem hnd
  have hlen : (inp.ue e).length = 2 := by rcases hue with h | h <;> rw [h] <;> rfl
  rw [hlen] at hd ⊢
  refine ⟨by omega, by norm_num, hd, ?_⟩
  have hd01 : inp.diIM e = 0 ∨ inp.diIM e = 1 := by omega
  unfold oneStepPosition
  rcases hue with h | h <;> rw [h] at hde ⊢ <;> rcases hd01 with h0 | h0 <;> rw [h0] at hde ⊢
  · cases xor e_cons flipf <;> rfl
  · exact absurd hde hne
  · exact absurd hde hne
  · cases xor e_cons flipf <;> rfl

theorem crossState_Q (inp : Input) (s : State) (e : Nat) (Q : List Nat) (x : Nat)
    (h1 : (s.EH.set e true).getD (x % inp.m + ((x / inp.m + 1) % 3) * inp.m) false = false)
    (h2 : (s.EH.set e true).getD (x % inp.m + ((x / inp.m + 2) % 3) * inp.m) false = false) :
    (crossState inp s e Q x).Q
      = Q ++ [x % inp.m + ((x / inp.m + 1) % 3) * inp.m,
          x % inp.m + ((x / inp.m + 2) % 3) * inp.m] := by
  unfold crossState
  simp only
  rw [pushUnvisited_fresh _ _ _ h2, pushUnvisited_fresh _ _ _ h1]
  simp

theorem CInv_seedInit (inp : Input) (hS : SeedsOK inp) (id : Nat) (hid : id < inp.ncc)
    (g : Global) (hg : GInv inp id g) :
    CInv inp id (inp.outer_facet (inp.IM id)).2 (seedInit inp id g) := by
  obtain ⟨hlt, hC⟩ := hS id hid
  have hres : ∀ f < inp.m, inp.C.getD f 0 = id →
      (seedInit inp id g).FH.getD f false = true → f = (inp.outer_facet (inp.IM id)).1 := by
    intro f hf hfC hfFH
    by_contra hne
    unfold seedInit at hfFH
    simp only at hfFH
    rw [getD_set_other _ _ _ _ _ (fun h => hne h.symm)] at hfFH
    have := hg.marksFH f hfFH
    omega
  constructor
  · intro f hf hfC hfFH c hc
    left
    rw [hres f hf hfC hfFH]
    unfold seedInit
    simp only [List.mem_cons, List.mem_singleton, List.not_mem_nil, or_false]
    have : c = 0 ∨ c = 1 ∨ c = 2 := by omega
    rcases this with rfl | rfl | rfl
    · exact Or.inl rfl
    · exact Or.inr (Or.inl rfl)
    · exact Or.inr (Or.inr rfl)
  · intro f hf hfC hfFH
    rw [hres f hf hfC hfFH]
    unfold seedInit
    exact getD_set_self _ _ _ _ (by rw [hg.lenFlip]; exact hlt)

theorem neighborFlip_of_opposite (inp : Input) (flipf : Bool) (f c nf nc : Nat)
    (h : inp.Fat f ((c + 1) % 3) = inp.Fat nf ((nc + 2) % 3)) :
    neighborFlip inp flipf f c nf nc = flipf := by
  unfold neighborFlip edgeSource edgeDest
  cases flipf <;> simp [h]

theorem CInv_step (inp : Input) (hL : EdgesListed inp) (hA : AdjacencyClosed inp)
    (hE : EdgeMapOK inp) (id : Nat) (hM : ClosedOriented inp id) (seed : Nat) (ff : Bool)
    (g : Global) (s : State) (hT : TInv inp id g s) (hI : MInv inp id seed s)
    (h : CInv inp id ff s) : CInv inp id ff (bfsStep inp s) := by
  cases hQ : s.Q with
  | nil => rw [bfsStep_nil inp s hQ]; exact h
  | cons e Q =>
    have heQ : e ∈ s.Q := by rw [hQ]; exact List.mem_cons_self _ _
    obtain ⟨he, heC⟩ := hT.queue e heQ
    have hown := hT.owner e heQ
    have hQsub : ∀ x ∈ Q, x ∈ s.Q := fun x hx => by rw [hQ]; exact List.mem_cons_of_mem _ hx
    have hm : 0 < inp.m := by omega
    obtain ⟨e', he', hne, hue, hopp⟩ := hM e he heC
    obtain ⟨hval, hbound, hd, htarget⟩ := manifold_target inp hE e e' he hne hue
      ((inp.uE2C.getD (inp.EMAP.getD e 0) []).getD (inp.diIM e) false)
      (s.flip.getD (e % inp.m) false)
    have hsearch := nextFaceSearch_eq inp s.FH (s.flip.getD (e % inp.m) false) e hval hbound hd
    rw [htarget] at hsearch
    have hmemue : ∀ x ∈ inp.ue e, x = e ∨ x = e' := by
      intro x hx
      rcases hue with hu | hu <;> rw [hu] at hx <;> simp at hx <;> tauto
    have he'mem : e' ∈ inp.ue e := by rcases hue with hu | hu <;> rw [hu] <;> simp
    -- the old disjunction survives unless the half-edge is `e` itself
    have hold : ∀ (FH' : List Bool) (Q' : List Nat),
        (∀ x, s.FH.getD x false = true → FH'.getD x false = true) →
        (∀ x ∈ Q, x ∈ Q') →
        (∀ x ∈ inp.ue e, FH'.getD (x % inp.m) false = true) →
        ∀ f < inp.m, inp.C.getD f 0 = id → s.FH.getD f false = true → ∀ c < 3,
          f + c * inp.m ∈ Q' ∨
            ∀ x ∈ inp.ue (f + c * inp.m), FH'.getD (x % inp.m) false = true := by
      intro FH' Q' hmono hsub hdone f hf hfC hfFH c hc
      rcases h.closed f hf hfC hfFH c hc with h1 | h1
      · rw [hQ] at h1
        rcases List.mem_cons.mp h1 with h2 | h2
        · right; rw [h2]; exact hdone
        · exact Or.inl (hsub _ h2)
      · exact Or.inr (fun x hx => hmono _ (h1 x hx))
    rcases bfsStep_cases inp s e Q hQ with ⟨hEH, _⟩ | ⟨_, hnone, hs⟩ | ⟨_, i, hn, hs⟩
    · rw [hI.fresh e heQ] at hEH; cases hEH
    · rw [hs]
      rw [hsearch] at hnone
      have hFHe' : s.FH.getD (e' % inp.m) false = true := by
        by_contra hc
        rw [if_neg hc] at hnone
        cases hnone
      have hdone : ∀ x ∈ inp.ue e, s.FH.getD (x % inp.m) false = true := by
        intro x hx
        rcases hmemue x hx with rfl | rfl
        · exact hown
        · exact hFHe'
      exact ⟨hold s.FH Q (fun _ hx => hx) (fun _ hx => hx) hdone, h.flips⟩
    · rw [hsearch] at hn
      have hFHe' : s.FH.getD (e' % inp.m) false = false := by
        cases hb : s.FH.getD (e' % inp.m) false
        · rfl
        · rw [if_pos hb] at hn; cases hn
      rw [if_neg (by rw [hFHe']; exact Bool.false_ne_true)] at hn
      injection hn with hn
      have hx : (inp.ue e).getD i 0 = e' := by rw [← hn]; exact htarget
      rw [hx] at hs
      have hnf : e' % inp.m < inp.m := Nat.mod_lt _ hm
      have hnfC : inp.C.getD (e' % inp.m) 0 = id := by
        rw [← heC]
        have hne0 : inp.ue e ≠ [] := List.ne_nil_of_mem he'mem
        exact hA _ (ue_mem_uE2E inp e hne0) _ he'mem _ (hL e he)
      have hun := hI.unresolved _ hnf hnfC hFHe'
      have hne1 := hun ((e' / inp.m + 1) % 3) (Nat.mod_lt _ (by omega))
      have hne2 := hun ((e' / inp.m + 2) % 3) (Nat.mod_lt _ (by omega))
      have hkeep : ∀ x, x ∉ s.Q → (s.EH.set e true).getD x false = s.EH.getD x false := by
        intro x hx
        exact getD_set_other _ _ _ _ _ (by rintro rfl; exact hx heQ)
      have hQ' := crossState_Q inp s e Q e' (by rw [hkeep _ hne1.2]; exact hne1.1)
        (by rw [hkeep _ hne2.2]; exact hne2.1)
      have hFH' : (crossState inp s e Q e').FH = s.FH.set (e' % inp.m) true := rfl
      have hnfset : (s.FH.set (e' % inp.m) true).getD (e' % inp.m) false = true :=
        getD_set_self _ _ _ _ (by rw [hT.lenFH]; exact hnf)
      have hdone : ∀ x ∈ inp.ue e,
          (s.FH.set (e' % inp.m) true).getD (x % inp.m) false = true := by
        intro x hx
        rcases hmemue x hx with rfl | rfl
        · exact getD_set_true _ _ _ hown
        · exact hnfset
      rw [hs]
      constructor
      · intro f hf hfC hfFH c hc
        rw [hFH'] at hfFH ⊢
        rw [hQ']
        by_cases hfnf : f = e' % inp.m
        · subst hfnf
          have hnc : e' / inp.m < 3 := by
            apply Nat.div_lt_of_lt_mul; rw [Nat.mul_comm]; exact he'
          by_cases hc0 : c = e' / inp.m
          · right
            rw [hc0, half_edge_decomp, ue_eq_of_mem inp hE e e' he'mem]
            exact hdone
          · left
            have : c = (e' / inp.m + 1) % 3 ∨ c = (e' / inp.m + 2) % 3 := by
              generalize e' / inp.m = nc at hnc hc0 ⊢
              omega
            rcases this with h1 | h1 <;> rw [← h1] <;> simp
        · rw [getD_set_other _ _ _ _ _ (fun h => hfnf h.symm)] at hfFH
          exact hold _ _ (fun x hx => getD_set_true _ _ _ hx)
            (fun x hx => List.mem_append_left _ hx) hdone f hf hfC hfFH c hc
      · intro f hf hfC hfFH
        rw [hFH'] at hfFH
        show (s.flip.set (e' % inp.m) _).getD f false = ff
        by_cases hfnf : f = e' % inp.m
        · subst hfnf
          rw [getD_set_self _ _ _ _ (by rw [hT.lenFlip]; exact hnf),
            neighborFlip_of_opposite inp _ _ _ _ _ hopp.1]
          exact h.flips _ (Nat.mod_lt _ hm) heC hown
        · rw [getD_set_other _ _ _ _ _ (fun h => hfnf h.symm)] at hfFH ⊢
          exact h.flips f hf hfC hfFH

theorem CInv_traversalState (inp : Input) (hL : EdgesListed inp) (hA : AdjacencyClosed inp)
    (hLab : LabelsOK inp) (hS : SeedsOK inp) (hE : EdgeMapOK inp) (id : Nat)
    (hid : id < inp.ncc) (hM : ClosedOriented inp id) (k : Nat) :
    CInv inp id (inp.outer_facet (inp.IM id)).2 (traversalState inp id k) := by
  induction k with
  | zero =>
    exact CInv_seedInit inp hS id hid _ (GInv_componentsLoop inp hL hA hLab hS id (by omega))
  | succ k ih =>
    rw [traversalState_succ]
    exact CInv_step inp hL hA hE id hM _ _ _ _ (TInv_traversalState inp hL hA hLab hS id hid k)
      (MInv_traversalState inp hL hA hLab hS id hid k) ih

/-- A connected, closed, consistently oriented component is resolved entirely,
every face with the flip of the seed. -/
theorem component_complete (inp : Input) (hL : EdgesListed inp) (hA : AdjacencyClosed inp)
    (hLab : LabelsOK inp) (hS : SeedsOK inp) (hE : EdgeMapOK inp) (id : Nat)
    (hid : id < inp.ncc) (hM : ClosedOriented inp id) (hconn : ComponentConnected inp id)
    (f : Nat) (hf : f < inp.m) (hfC : inp.C.getD f 0 = id) :
    (componentsLoop inp (id + 1)).FH.getD f false = true ∧
      (componentsLoop inp (id + 1)).flip.getD f false = (inp.outer_facet (inp.IM id)).2 := by
  rw [componentsLoop_succ_FH, componentsLoop_succ_flip, bfs_eq_traversalState]
  have hC := CInv_traversalState inp hL hA hLab hS hE id hid hM (bfsFuel inp)
  have hI := MInv_traversalState inp hL hA hLab hS id hid (bfsFuel inp)
  have hQ : (traversalState inp id (bfsFuel inp)).Q = [] := by
    rw [← bfs_eq_traversalState]; exact traversal_terminates inp hL hA hLab hS id hid
  obtain ⟨hslt, hsC⟩ := hS id hid
  have hreach := hconn _ hslt f hf hsC hfC
  have hall : f < inp.m ∧ inp.C.getD f 0 = id ∧
      (traversalState inp id (bfsFuel inp)).FH.getD f false = true := by
    clear hf hfC
    induction hreach with
    | refl => exact ⟨hslt, hsC, hI.seedFH⟩
    | @tail b c0 _ hadj ih =>
      obtain ⟨hb, hbC, hbFH⟩ := ih
      obtain ⟨c, hc, x, hx, hxc⟩ := hadj
      have hm : 0 < inp.m := by omega
      refine ⟨by rw [← hxc]; exact Nat.mod_lt _ hm, ?_, ?_⟩
      · have hbe : b + c * inp.m < 3 * inp.m := add_mul_lt _ _ _ hb hc
        have := hA _ (ue_mem_uE2E inp _ (List.ne_nil_of_mem hx)) _ hx _ (hL _ hbe)
        rw [mod_add_mul _ _ _ hb, hxc] at this
        rw [this, hbC]
      · rcases hC.closed b hb hbC hbFH c hc with h1 | h1
        · rw [hQ] at h1; cases h1
        · rw [← hxc]; exact h1 x hx
  exact ⟨hall.2.2, hC.flips f hf hfC hall.2.2⟩

/-! ## Connectivity from a covering walk -/

theorem walk_connects (inp : Input) (l : List Nat) (h : walkLinked inp l = true) :
    ∀ a ∈ l, ∀ b ∈ l, Relation.ReflTransGen (faceAdjacent inp) a b := by
  induction l with
  | nil => intro a ha; cases ha
  | cons x rest ih =>
    -- `x` and every element of `rest` reach each other
    have hx : (∀ a ∈ rest, ∀ b ∈ rest, Relation.ReflTransGen (faceAdjacent inp) a b) ∧
        ∀ b ∈ rest, Relation.ReflTransGen (faceAdjacent inp) x b ∧
          Relation.ReflTransGen (faceAdjacent inp) b x := by
      cases rest with
      | nil => exact ⟨fun a ha => (by cases ha), fun b hb => (by cases hb)⟩
      | cons y rest' =>
        unfold walkLinked at h
        simp only [Bool.and_eq_true, decide_eq_true_eq] at h
        obtain ⟨⟨h1, h2⟩, h3⟩ := h
        have ih' := ih h3
        refine ⟨ih', ?_⟩
        intro b hb
        have hy : y ∈ y :: rest' := List.mem_cons_self _ _
        exact ⟨Relation.ReflTransGen.head h1 (ih' y hy b hb),
          Relation.ReflTransGen.tail (ih' b hb y hy) h2⟩
    intro a ha b hb
    rcases List.mem_cons.mp ha with rfl | ha' <;> rcases List.mem_cons.mp hb with rfl | hb'
    · exact Relation.ReflTransGen.refl
    · exact (hx.2 b hb').1
    · exact (hx.2 a ha').2
    · exact hx.1 a ha' b hb'

/-- A covering walk shows that the component is connected. -/
theorem connected_of_walk (inp : Input) (id : Nat) (walk : List Nat)
    (h : WalkCovers inp id walk) : ComponentConnected inp id := by
  intro f hf g hg hfC hgC
  exact walk_connects inp walk h.2 f (h.1 f hf hfC) g (h.1 g hg hgC)

/-! ## The results for a completely traversed component -/

theorem final_complete (inp : Input) (hL : EdgesListed inp) (hA : AdjacencyClosed inp)
    (hLab : LabelsOK inp) (hS : SeedsOK inp) (hE : EdgeMapOK inp) (id : Nat)
    (hid : id < inp.ncc) (hM : ClosedOriented inp id) (hconn : ComponentConnected inp id)
    (f : Nat) (hf : f < inp.m) (hfC : inp.C.getD f 0 = id) :
    (componentsLoop inp inp.ncc).FH.getD f false = true ∧
      (componentsLoop inp inp.ncc).flip.getD f false = (inp.outer_facet (inp.IM id)).2 := by
  obtain ⟨h1, h2⟩ := component_complete inp hL hA hLab hS hE id hid hM hconn f hf hfC
  have h := componentsLoop_resolved inp hL hA hLab hS (id + 1) (inp.ncc - (id + 1)) (by omega)
    f h1
  have hncc : id + 1 + (inp.ncc - (id + 1)) = inp.ncc := by omega
  rw [hncc] at h
  exact ⟨h.1, h.2.trans h2⟩

/-- The block of a connected, closed, consistently oriented component holds
all its faces, in increasing order, each in the orientation of the seed flip. -/
theorem final_rows (inp : Input) (hL : EdgesListed inp) (hA : AdjacencyClosed inp)
    (hLab : LabelsOK inp) (hS : SeedsOK inp) (hE : EdgeMapOK inp) (id : Nat)
    (hid : id < inp.ncc) (hM : ClosedOriented inp id) (hconn : ComponentConnected inp id) :
    (componentsLoop inp inp.ncc).vJ.getD id [] = inp.IM id ∧
      (componentsLoop inp inp.ncc).vG.getD id []
        = (inp.IM id).map (fun f =>
            if (inp.outer_facet (inp.IM id)).2 then (inp.row f).reverse else inp.row f) := by
  have hg := GInv_componentsLoop inp hL hA hLab hS inp.ncc (le_refl _)
  have hJ : (componentsLoop inp inp.ncc).vJ.getD id [] = inp.IM id := by
    rw [hg.resJ id hid, List.filter_eq_self]
    intro f hf
    obtain ⟨hflt, hfC⟩ := (mem_IM inp hLab id hid f).mp hf
    exact (final_complete inp hL hA hLab hS hE id hid hM hconn f hflt hfC).1
  refine ⟨hJ, ?_⟩
  rw [hg.resG id hid, hJ]
  apply List.map_congr_left
  intro f hf
  obtain ⟨hflt, hfC⟩ := (mem_IM inp hLab id hid f).mp hf
  unfold orientedRow
  rw [(final_complete inp hL hA hLab hS hE id hid hM hconn f hflt hfC).2]

theorem eq_replicate_false (l : List Bool) (n : Nat) (hlen : l.length = n)
    (h : ∀ i < n, l.getD i false = false) : l = List.replicate n false := by
  apply List.ext_getElem
  · simp [hlen]
  · intro i h1 h2
    have := h i (by omega)
    rw [List.getD_eq_getElem _ _ h1] at this
    simp [this]

/-- With a single component the nesting loop keeps it. -/
theorem nestLoop_single (inp : Input) (vG : List (List (List Nat))) (hncc : inp.ncc = 1) :
    (nestLoop inp vG inp.ncc).keep = [true] := by
  have hun : unresolvedOf inp vG [true] 0 = [] := by
    unfold unresolvedOf
    rw [hncc]
    show List.filter _ [0] = []
    simp
  rw [hncc]
  show (nestBody inp vG 0 { keep := List.replicate inp.ncc true, calls := [] }).keep = [true]
  rw [hncc]
  unfold nestBody
  simp only [List.replicate]
  rw [hun]
  rfl

/-! ## From the face list to the edge tables -/

theorem two_element_list (l : List Nat) (a b : Nat) (hab : a ≠ b) (hn : l.Nodup)
    (h : ∀ x, x ∈ l ↔ x = a ∨ x = b) : l = [a, b] ∨ l = [b, a] := by
  match l, hn, h with
  | [], _, h => exact absurd ((h a).mpr (Or.inl rfl)) (List.not_mem_nil _)
  | [x], _, h =>
    have h1 := (h a).mpr (Or.inl rfl)
    have h2 := (h b).mpr (Or.inr rfl)
    simp at h1 h2
    exact absurd (h1.trans h2.symm) hab
  | [x, y], hn, h =>
    have hx := (h x).mp (by simp)
    have hy := (h y).mp (by simp)
    simp at hn
    rcases hx with rfl | rfl <;> rcases hy with rfl | rfl
    · exact absurd rfl hn
    · exact Or.inl rfl
    · exact Or.inr rfl
    · exact absurd rfl hn
  | x :: y :: z :: l, hn, h =>
    have hx := (h x).mp (by simp)
    have hy := (h y).mp (by simp)
    have hz := (h z).mp (by simp)
    simp at hn
    omega

theorem sameEndpoints_of_opposite (inp : Input) (e e' : Nat) (h : oppositeHalfEdges inp e e') :
    sameEndpoints inp e e' := Or.inr h

theorem closedOriented_of_tables (inp : Input) (hT : EdgeTablesValid inp) (id : Nat)
    (hP : EdgePairing inp id) : ClosedOriented inp id := by
  obtain ⟨hL, hE, hN, hS⟩ := hT
  intro e he heC
  obtain ⟨e', he', hne, hopp, huniq⟩ := hP e he heC
  refine ⟨e', he', hne, ?_, hopp⟩
  have hmem : e ∈ inp.ue e := hL e he
  have hin : inp.ue e ∈ inp.uE2E := ue_mem_uE2E inp e (List.ne_nil_of_mem hmem)
  have hEM : inp.EMAP.getD e 0 = inp.EMAP.getD e' 0 :=
    (hS e he e' he').mpr (sameEndpoints_of_opposite inp e e' hopp)
  have hmem' : e' ∈ inp.ue e := by
    have := hL e' he'
    unfold Input.ue at this ⊢
    rw [hEM]; exact this
  apply two_element_list _ _ _ (Ne.symm hne) (hN _ hin).1
  intro x
  constructor
  · intro hx
    have hxlt := (hN _ hin).2 x hx
    have hxE : inp.EMAP.getD x 0 = inp.EMAP.getD e 0 :=
      hE _ (ue_nonempty_lt inp e (List.ne_nil_of_mem hmem)) x hx
    exact huniq x hxlt ((hS e he x hxlt).mp hxE.symm)
  · rintro (rfl | rfl)
    · exact hmem
    · exact hmem'

theorem adjacencyClosed_of_tables (inp : Input) (hT : EdgeTablesValid inp)
    (hLF : LabelsFollowEdges inp) : AdjacencyClosed inp := by
  obtain ⟨_, hE, hN, hS⟩ := hT
  intro ue hue e1 h1 e2 h2
  obtain ⟨u, hu, hueq⟩ := List.getElem_of_mem hue
  have hget : inp.uE2E.getD u [] = ue := by rw [List.getD_eq_getElem _ _ hu]; exact hueq
  have hE1 := hE u hu e1 (by rw [hget]; exact h1)
  have hE2 := hE u hu e2 (by rw [hget]; exact h2)
  have hlt1 := (hN ue hue).2 e1 h1
  have hlt2 := (hN ue hue).2 e2 h2
  exact hLF e1 hlt1 e2 hlt2 ((hS e1 hlt1 e2 hlt2).mp (hE1.trans hE2.symm))

theorem faceAdjacent_of_shareEdge (inp : Input) (hT : EdgeTablesValid inp) (f g : Nat)
    (hf : f < inp.m) (hg : g < inp.m) (h : shareEdge inp f g) : faceAdjacent inp f g := by
  obtain ⟨hL, _, _, hS⟩ := hT
  obtain ⟨c, hc, c', hc', hsame⟩ := h
  have h1 : f + c * inp.m < 3 * inp.m := add_mul_lt _ _ _ hf hc
  have h2 : g + c' * inp.m < 3 * inp.m := add_mul_lt _ _ _ hg hc'
  refine ⟨c, hc, g + c' * inp.m, ?_, mod_add_mul _ _ _ hg⟩
  have hEM := (hS _ h1 _ h2).mpr hsame
  have := hL _ h2
  unfold Input.ue at this ⊢
  rw [hEM]; exact this

theorem walkLinked_of_walkShares (inp : Input) (hT : EdgeTablesValid inp) (walk : List Nat)
    (h : walkShares inp walk = true) : walkLinked inp walk = true := by
  induction walk with
  | nil => rfl
  | cons a rest ih =>
    cases rest with
    | nil => rfl
    | cons b rest' =>
      unfold walkShares at h
      simp only [Bool.and_eq_true, decide_eq_true_eq] at h
      obtain ⟨⟨⟨⟨ha, hb⟩, hab⟩, hba⟩, hrest⟩ := h
      unfold walkLinked
      simp only [Bool.and_eq_true, decide_eq_true_eq]
      exact ⟨⟨faceAdjacent_of_shareEdge inp hT a b ha hb hab,
        faceAdjacent_of_shareEdge inp hT b a hb ha hba⟩, ih hrest⟩

theorem connected_of_walkShares (inp : Input) (hT : EdgeTablesValid inp) (id : Nat)
    (walk : List Nat) (hcover : ∀ f < inp.m, inp.C.getD f 0 = id → f ∈ walk)
    (h : walkShares inp walk = true) : ComponentConnected inp id :=
  connected_of_walk inp id walk ⟨hcover, walkLinked_of_walkShares inp hT walk h⟩

/-! ### Properties that depend on the face list and the labelling only -/

theorem EdgePairing_congr (inp inp' : Input) (hF : inp.F = inp'.F) (hC : inp.C = inp'.C)
    (id : Nat) (h : EdgePairing inp' id) : EdgePairing inp id := by
  cases inp; cases inp'
  simp only at hF hC
  subst hF hC
  exact h

theorem LabelsFollowEdges_congr (inp inp' : Input) (hF : inp.F = inp'.F) (hC : inp.C = inp'.C)
    (h : LabelsFollowEdges inp') : LabelsFollowEdges inp := by
  cases inp; cases inp'
  simp only at hF hC
  subst hF hC
  exact h

theorem walkShares_congr (inp inp' : Input) (hF : inp.F = inp'.F) (walk : List Nat) :
    walkShares inp walk = walkShares inp' walk := by
  cases inp; cases inp'
  simp only at hF
  subst hF
  induction walk with
  | nil => rfl
  | cons a rest ih =>
    cases rest with
    | nil => rfl
    | cons b rest' =>
      unfold walkShares
      rw [ih]
      rfl

theorem LabelsOK_congr (inp inp' : Input) (hF : inp.F = inp'.F) (hC : inp.C = inp'.C)
    (hc : inp.counts = inp'.counts) (h : LabelsOK inp') : LabelsOK inp := by
  cases inp; cases inp'
  simp only at hF hC hc
  subst hF hC hc
  exact h

theorem IM_congr (inp inp' : Input) (hF : inp.F = inp'.F) (hC : inp.C = inp'.C)
    (hc : inp.counts = inp'.counts) (id : Nat) : inp.IM id = inp'.IM id := by
  cases inp; cases inp'
  simp only at hF hC hc
  subst hF hC hc
  rfl

/-! ## The nesting loop for two components with overlapping boxes -/

theorem unresolvedOf_two_zero (inp : Input) (vG : List (List (List Nat))) (hncc : inp.ncc = 2)
    (hbb : has_overlapping_bbox inp (vG.getD 0 []) (vG.getD 1 []) = true) :
    unresolvedOf inp vG [true, true] 0 = [1] := by
  unfold unresolvedOf
  rw [hncc]
  show List.filter _ [0, 1] = [1]
  simp [-List.getD_eq_getElem?_getD, hbb]

theorem unresolvedOf_two_one (inp : Input) (vG : List (List (List Nat))) (hncc : inp.ncc = 2)
    (hbb : has_overlapping_bbox inp (vG.getD 1 []) (vG.getD 0 []) = true) :
    unresolvedOf inp vG [true, true] 1 = [0] := by
  unfold unresolvedOf
  rw [hncc]
  show List.filter _ [0, 1] = [0]
  simp [-List.getD_eq_getElem?_getD, hbb]

theorem discardInside_single (oid : Nat) (inside : List Int) (keep : List Bool) :
    discardInside [oid] inside keep
      = if inside.getD 0 0 ≠ 0 then keep.set oid false else keep := rfl

/-- The keep-set for two components whose boxes overlap. -/
theorem nestLoop_two (inp : Input) (vG : List (List (List Nat))) (hncc : inp.ncc = 2)
    (hbb01 : has_overlapping_bbox inp (vG.getD 0 []) (vG.getD 1 []) = true)
    (hbb10 : has_overlapping_bbox inp (vG.getD 1 []) (vG.getD 0 []) = true) :
    (nestLoop inp vG inp.ncc).keep =
      if (inp.points_inside_component (vG.getD 0 []) [queryPoint inp vG 1]).getD 0 0 ≠ 0 then
        [true, false]
      else if (inp.points_inside_component (vG.getD 1 []) [queryPoint inp vG 0]).getD 0 0 ≠ 0
      then [false, true]
      else [true, true] := by
  have h0 : (nestLoop inp vG 0).keep = [true, true] := by
    show List.replicate inp.ncc true = _
    rw [hncc]; rfl
  have h1 : (nestLoop inp vG 1).keep =
      if (inp.points_inside_component (vG.getD 0 []) [queryPoint inp vG 1]).getD 0 0 ≠ 0 then
        [true, false] else [true, true] := by
    show (nestBody inp vG 0 (nestLoop inp vG 0)).keep = _
    unfold nestBody
    rw [h0]
    simp only [List.getD_cons_zero, Bool.not_true, Bool.false_eq_true, if_false]
    rw [unresolvedOf_two_zero inp vG hncc hbb01, discardInside_single]
    rfl
  rw [hncc]
  show (nestBody inp vG 1 (nestLoop inp vG 1)).keep = _
  by_cases hin : (inp.points_inside_component (vG.getD 0 []) [queryPoint inp vG 1]).getD 0 0
      ≠ 0
  · rw [if_pos hin] at h1 ⊢
    unfold nestBody
    rw [h1, if_pos (by decide)]
    exact h1
  · rw [if_neg hin] at h1 ⊢
    unfold nestBody
    rw [h1, if_neg (by decide)]
    simp only
    rw [unresolvedOf_two_one inp vG hncc hbb10, discardInside_single]
    rfl

theorem collect_two {α : Type} (keep : List Bool) (v : List (List α)) :
    collect 2 keep v
      = (if keep.getD 0 false then v.getD 0 [] else [])
        ++ (if keep.getD 1 false then v.getD 1 [] else []) := by
  unfold collect
  have hr : List.range 2 = [0, 1] := rfl
  rw [hr]
  simp only [List.flatMap_cons, List.flatMap_nil, List.append_nil]

/-! ## The two nested cubes -/

theorem has_overlapping_bbox_congr (inp inp' : Input) (hV : inp.V = inp'.V)
    (A B : List (List Nat)) :
    has_overlapping_bbox inp A B = has_overlapping_bbox inp' A B := by
  cases inp; cases inp'
  simp only at hV
  subst hV
  rfl

theorem queryPoint_congr (inp inp' : Input) (hV : inp.V = inp'.V)
    (vG : List (List (List Nat))) (oid : Nat) :
    queryPoint inp vG oid = queryPoint inp' vG oid := by
  cases inp; cases inp'
  simp only at hV
  subst hV
  rfl

theorem bounding_box_outerCube :
    bounding_box (nestedCubes true) outerCube = ([-1, -1, -1], [1, 1, 1]) := by
  simp [bounding_box, Input.Vat, nestedCubes, cubesV, outerCube, List.range_succ, min_def,
    max_def]
  norm_num

theorem bounding_box_innerCube :
    bounding_box (nestedCubes true) innerCube = ([-1/2, -1/2, -1/2], [1/2, 1/2, 1/2]) := by
  simp [bounding_box, Input.Vat, nestedCubes, cubesV, innerCube, List.range_succ, min_def,
    max_def]
  norm_num

theorem cubes_boxes_overlap (inp : Input) (hV : inp.V = cubesV) :
    has_overlapping_bbox inp outerCube innerCube = true ∧
      has_overlapping_bbox inp innerCube outerCube = true := by
  rw [has_overlapping_bbox_congr inp (nestedCubes true) hV,
    has_overlapping_bbox_congr inp (nestedCubes true) hV]
  unfold has_overlapping_bbox
  simp only [bounding_box_outerCube, bounding_box_innerCube]
  constructor
  · simp [maxCoeff, List.range_succ]
    norm_num
  · simp [maxCoeff, List.range_succ]
    norm_num

theorem cubes_samples (inp : Input) (hV : inp.V = cubesV) (vG : List (List (List Nat)))
    (oid : Nat) :
    (vG.getD oid [] = outerCube → queryPoint inp vG oid = outerSample) ∧
      (vG.getD oid [] = innerCube → queryPoint inp vG oid = innerSample) := by
  rw [queryPoint_congr inp (nestedCubes true) hV]
  constructor
  · intro h
    unfold queryPoint
    rw [h]
    simp [Input.Vat, nestedCubes, cubesV, outerCube, outerSample, List.range_succ]
    norm_num
  · intro h
    unfold queryPoint
    rw [h]
    simp [Input.Vat, nestedCubes, cubesV, innerCube, innerSample, List.range_succ]
    norm_num

/-! ## Orientable meshes are oriented consistently -/

theorem neighborFlip_eq (inp : Input) (a : Bool) (f c nf nc : Nat) :
    neighborFlip inp a f c nf nc
      = if inp.Fat f ((c + 1) % 3) = inp.Fat nf ((nc + 2) % 3) then a else !a := by
  unfold neighborFlip edgeSource edgeDest
  cases a <;> simp

theorem OInv_seedInit (inp : Input) (hS : SeedsOK inp) (id : Nat) (hid : id < inp.ncc)
    (σ : List Bool) (g : Global) (hg : GInv inp id g) :
    OInv inp id σ ((inp.outer_facet (inp.IM id)).2
      != σ.getD (inp.outer_facet (inp.IM id)).1 false) (seedInit inp id g) := by
  obtain ⟨hlt, hC⟩ := hS id hid
  intro f hf hfC hfFH
  have hfs : f = (inp.outer_facet (inp.IM id)).1 := by
    by_contra hne
    unfold seedInit at hfFH
    simp only at hfFH
    rw [getD_set_other _ _ _ _ _ (fun h => hne h.symm)] at hfFH
    have := hg.marksFH f hfFH
    omega
  rw [hfs]
  unfold seedInit
  simp only
  rw [getD_set_self _ _ _ _ (by rw [hg.lenFlip]; exact hlt)]

theorem OInv_step (inp : Input) (hTab : EdgeTablesValid inp) (hA : AdjacencyClosed inp)
    (hN : NonDegenerate inp) (id : Nat) (R : List Nat) (σ : List Bool)
    (hσ : ConsistentOn inp R σ) (κ : Bool) (g : Global) (s : State) (hT : TInv inp id g s)
    (hR : ∀ f < inp.m, inp.C.getD f 0 = id → (bfsStep inp s).FH.getD f false = true → f ∈ R)
    (h : OInv inp id σ κ s) :
    OInv inp id σ κ (bfsStep inp s) := by
  cases hQ : s.Q with
  | nil => rw [bfsStep_nil inp s hQ]; exact h
  | cons e Q =>
    have heQ : e ∈ s.Q := by rw [hQ]; exact List.mem_cons_self _ _
    obtain ⟨he, heC⟩ := hT.queue e heQ
    have hown := hT.owner e heQ
    have hm : 0 < inp.m := by omega
    rcases bfsStep_cases inp s e Q hQ with ⟨_, hs⟩ | ⟨_, _, hs⟩ | ⟨_, i, hn, hs⟩
    · rw [hs]; exact h
    · rw [hs]; exact h
    · obtain ⟨hL, hE, hNd, hSE⟩ := hTab
      obtain ⟨hxmem, hxC, hxFH⟩ := cross_facts inp hL hA s.FH _ e i he hn
      have hxlt : (inp.ue e).getD i 0 < 3 * inp.m :=
        (hNd _ (ue_mem_uE2E inp e (List.ne_nil_of_mem hxmem))).2 _ hxmem
      have hxE : inp.EMAP.getD ((inp.ue e).getD i 0) 0 = inp.EMAP.getD e 0 :=
        hE _ (ue_nonempty_lt inp e (List.ne_nil_of_mem hxmem)) _ hxmem
      have hsame : sameEndpoints inp e ((inp.ue e).getD i 0) :=
        (hSE e he _ hxlt).mp hxE.symm
      have hne : e ≠ (inp.ue e).getD i 0 := by
        intro heq
        rw [← heq, hown] at hxFH
        cases hxFH
      have hnf : (inp.ue e).getD i 0 % inp.m < inp.m := Nat.mod_lt _ hm
      have heR : e % inp.m ∈ R :=
        hR _ (Nat.mod_lt _ hm) heC (bfsStep_resolved inp s _ hown).1
      have hxR : (inp.ue e).getD i 0 % inp.m ∈ R := by
        apply hR _ hnf (hxC.trans heC)
        rw [hs]
        show (s.FH.set ((inp.ue e).getD i 0 % inp.m) true).getD _ false = true
        rw [getD_set_self _ _ _ _ (by rw [hT.lenFH]; exact hnf)]
      have hopp := hσ e he _ hxlt hne ⟨heR, hxR⟩ hsame
      have hσnf := opposite_unique inp _ _ _ _ _ _ (hN e he) hopp
      rw [hs]
      intro f hf hfC hfFH
      have hFH' : (crossState inp s e Q ((inp.ue e).getD i 0)).FH
          = s.FH.set ((inp.ue e).getD i 0 % inp.m) true := rfl
      rw [hFH'] at hfFH
      show ((s.flip.set ((inp.ue e).getD i 0 % inp.m) _).getD f false != σ.getD f false) = κ
      by_cases hfnf : f = (inp.ue e).getD i 0 % inp.m
      · subst hfnf
        rw [getD_set_self _ _ _ _ (by rw [hT.lenFlip]; exact hnf), hσnf, neighborFlip_eq,
          neighborFlip_eq]
        have hκ := h _ (Nat.mod_lt _ hm) heC hown
        rw [← hκ]
        split <;> cases s.flip.getD (e % inp.m) false <;>
          cases σ.getD (e % inp.m) false <;> rfl
      · rw [getD_set_other _ _ _ _ _ (fun h => hfnf h.symm)] at hfFH ⊢
        exact h f hf hfC hfFH

/-- A face resolved at some moment of the traversal of component `id` is resolved
in the result. -/
theorem traversal_resolved_final (inp : Input) (hL : EdgesListed inp)
    (hA : AdjacencyClosed inp) (hLab : LabelsOK inp) (hS : SeedsOK inp) (id : Nat)
    (hid : id < inp.ncc) (k f : Nat)
    (h : (traversalState inp id k).FH.getD f false = true) :
    (componentsLoop inp inp.ncc).FH.getD f false = true := by
  have hfin := traversalState_final inp hL hA hLab hS id hid k
  have hiter := iterate_resolved inp (bfsFuel inp) (traversalState inp id k) f h
  have hadd : (bfsStep inp)^[bfsFuel inp] (traversalState inp id k)
      = traversalState inp id (bfsFuel inp + k) := by
    unfold traversalState
    rw [Function.iterate_add_apply]
  rw [hadd, hfin, ← componentsLoop_succ_FH, ← componentsLoop_succ_flip] at hiter
  have hrest := componentsLoop_resolved inp hL hA hLab hS (id + 1) (inp.ncc - (id + 1))
    (by omega) f hiter.1
  have hncc : id + 1 + (inp.ncc - (id + 1)) = inp.ncc := by omega
  rw [hncc] at hrest
  exact hrest.1

theorem OInv_traversalState (inp : Input) (hTab : EdgeTablesValid inp)
    (hA : AdjacencyClosed inp) (hLab : LabelsOK inp) (hS : SeedsOK inp)
    (hN : NonDegenerate inp) (R : List Nat) (σ : List Bool) (hσ : ConsistentOn inp R σ)
    (id : Nat) (hid : id < inp.ncc)
    (hR : ∀ f < inp.m, inp.C.getD f 0 = id →
      (componentsLoop inp inp.ncc).FH.getD f false = true → f ∈ R) (k : Nat) :
    OInv inp id σ ((inp.outer_facet (inp.IM id)).2
      != σ.getD (inp.outer_facet (inp.IM id)).1 false) (traversalState inp id k) := by
  induction k with
  | zero =>
    exact OInv_seedInit inp hS id hid σ _
      (GInv_componentsLoop inp hTab.1 hA hLab hS id (by omega))
  | succ k ih =>
    rw [traversalState_succ]
    refine OInv_step inp hTab hA hN id R σ hσ _ _ _
      (TInv_traversalState inp hTab.1 hA hLab hS id hid k) ?_ ih
    intro f hf hfC hfFH
    rw [← traversalState_succ] at hfFH
    exact hR f hf hfC (traversal_resolved_final inp hTab.1 hA hLab hS id hid (k + 1) f hfFH)

/-- In the result, the flips of the resolved faces of one component differ from
`σ` by a constant, when `σ` orients a list `R` holding the resolved faces of
that component consistently. -/
theorem final_flip_orientable (inp : Input) (hTab : EdgeTablesValid inp)
    (hA : AdjacencyClosed inp) (hLab : LabelsOK inp) (hS : SeedsOK inp)
    (hN : NonDegenerate inp) (R : List Nat) (σ : List Bool) (hσ : ConsistentOn inp R σ)
    (f : Nat) (hf : f < inp.m)
    (hR : ∀ f' < inp.m, inp.C.getD f' 0 = inp.C.getD f 0 →
      (componentsLoop inp inp.ncc).FH.getD f' false = true → f' ∈ R)
    (hfFH : (componentsLoop inp inp.ncc).FH.getD f false = true) :
    ((outer_hull_legacy inp).flip.getD f false != σ.getD f false)
      = ((inp.outer_facet (inp.IM (inp.C.getD f 0))).2
          != σ.getD (inp.outer_facet (inp.IM (inp.C.getD f 0))).1 false) := by
  have hL := hTab.1
  have hid : inp.C.getD f 0 < inp.ncc := hLab.1 f hf
  have hO := OInv_traversalState inp hTab hA hLab hS hN R σ hσ _ hid hR (bfsFuel inp)
  have hT := TInv_traversalState inp hL hA hLab hS _ hid (bfsFuel inp)
  -- `f` is resolved when the traversal of its component ends
  have hres : (traversalState inp (inp.C.getD f 0) (bfsFuel inp)).FH.getD f false = true := by
    rw [← bfs_eq_traversalState, ← componentsLoop_succ_FH]
    cases hb : (componentsLoop inp (inp.C.getD f 0 + 1)).FH.getD f false
    · exfalso
      -- no later traversal resolves it either
      have hlater : ∀ j, inp.C.getD f 0 + 1 + j ≤ inp.ncc →
          (componentsLoop inp (inp.C.getD f 0 + 1 + j)).FH.getD f false = false := by
        intro j
        induction j with
        | zero => intro _; exact hb
        | succ j ih =>
          intro hj
          have hT' := TInv_bfs inp hL hA (inp.C.getD f 0 + 1 + j) _ (bfsFuel inp) _
            (TInv_seedInit inp hS _ (by omega) _
              (GInv_componentsLoop inp hL hA hLab hS _ (by omega)))
          show (componentsLoop inp (inp.C.getD f 0 + 1 + j + 1)).FH.getD f false = false
          rw [componentsLoop_succ_FH, hT'.frameFH f (by omega)]
          exact ih (by omega)
      have := hlater (inp.ncc - (inp.C.getD f 0 + 1)) (by omega)
      have hncc : inp.C.getD f 0 + 1 + (inp.ncc - (inp.C.getD f 0 + 1)) = inp.ncc := by omega
      rw [hncc, hfFH] at this
      cases this
    · rfl
  rw [returned_flip_eq inp hL hA hLab hS _ hid (bfsFuel inp) f hres]
  exact hO f hf rfl hres

theorem directedEdges_orientedRow (inp : Input) (flip : List Bool) (f : Nat)
    (hrow : (inp.row f).length = 3) (d : Nat × Nat)
    (hd : d ∈ directedEdges (orientedRow inp flip f)) :
    ∃ c < 3, d = (edgeSource inp (flip.getD f false) f c,
      edgeDest inp (flip.getD f false) f c) := by
  obtain ⟨x, y, z, hxyz⟩ := length_three _ hrow
  unfold orientedRow directedEdges at hd
  unfold edgeSource edgeDest Input.Fat
  rw [hxyz] at hd ⊢
  cases hfl : flip.getD f false <;> rw [hfl] at hd <;>
    simp only [Bool.false_eq_true, if_false, if_true, List.reverse_cons, List.reverse_nil,
      List.nil_append, List.cons_append, List.getD_cons_zero, List.getD_cons_succ,
      List.mem_cons, List.mem_singleton, List.not_mem_nil, or_false] at hd
  · rcases hd with rfl | rfl | rfl
    · exact ⟨2, by omega, rfl⟩
    · exact ⟨0, by omega, rfl⟩
    · exact ⟨1, by omega, rfl⟩
  · rcases hd with rfl | rfl | rfl
    · exact ⟨0, by omega, rfl⟩
    · exact ⟨2, by omega, rfl⟩
    · exact ⟨1, by omega, rfl⟩

/-! ### The nesting loop: general facts -/

theorem getD_set_false (l : List Bool) (i c : Nat) :
    (l.set i false).getD c false = true ↔ l.getD c false = true ∧ i ≠ c := by
  by_cases h : i = c
  · subst h
    by_cases hi : i < l.length
    · rw [getD_set_self l i false false hi]; simp
    · have h1 : (l.set i false).getD i false = false := by
        apply List.getD_eq_default; simp; omega
      rw [h1]; simp
  · rw [getD_set_other l i c false false h]; simp [h]

theorem discardInside_length (unresolved : List Nat) (inside : List Int) (keep : List Bool) :
    (discardInside unresolved inside keep).length = keep.length := by
  unfold discardInside
  generalize (List.range unresolved.length) = r
  induction r generalizing keep with
  | nil => rfl
  | cons i r ih =>
    rw [List.foldl_cons, ih]
    split
    · simp
    · rfl

theorem discardFold_getD (unresolved : List Nat) (inside : List Int) (r : List Nat)
    (keep : List Bool) (c : Nat) :
    (r.foldl (fun keep i => if inside.getD i 0 ≠ 0 then keep.set (unresolved.getD i 0) false
      else keep) keep).getD c false = true ↔
      keep.getD c false = true ∧ ∀ i ∈ r, unresolved.getD i 0 = c → inside.getD i 0 = 0 := by
  induction r generalizing keep with
  | nil => simp
  | cons i r ih =>
    rw [List.foldl_cons, ih]
    by_cases hi : inside.getD i 0 ≠ 0
    · rw [if_pos hi, getD_set_false]
      constructor
      · rintro ⟨⟨h1, h2⟩, h3⟩
        refine ⟨h1, fun j hj hc => ?_⟩
        rcases List.mem_cons.mp hj with rfl | hj
        · exact absurd hc h2
        · exact h3 j hj hc
      · rintro ⟨h1, h3⟩
        refine ⟨⟨h1, fun hc => hi (h3 i (List.mem_cons_self _ _) hc)⟩, fun j hj hc =>
          h3 j (List.mem_cons_of_mem _ hj) hc⟩
    · rw [if_neg hi]
      have hi0 : inside.getD i 0 = 0 := not_not.mp hi
      constructor
      · rintro ⟨h1, h3⟩
        refine ⟨h1, fun j hj hc => ?_⟩
        rcases List.mem_cons.mp hj with rfl | hj
        · exact hi0
        · exact h3 j hj hc
      · rintro ⟨h1, h3⟩
        exact ⟨h1, fun j hj hc => h3 j (List.mem_cons_of_mem _ hj) hc⟩

/-- An entry of `keep` survives the inner loop iff it was set and no tested position naming it
was reported inside. -/
theorem discardInside_getD (unresolved : List Nat) (inside : List Int) (keep : List Bool)
    (c : Nat) :
    (discardInside unresolved inside keep).getD c false = true ↔
      keep.getD c false = true ∧
        ∀ i < unresolved.length, unresolved.getD i 0 = c → inside.getD i 0 = 0 := by
  unfold discardInside
  rw [discardFold_getD]
  simp [List.mem_range]

theorem mem_unresolvedOf (inp : Input) (vG : List (List (List Nat))) (keep : List Bool)
    (id oid : Nat) :
    oid ∈ unresolvedOf inp vG keep id ↔
      oid < inp.ncc ∧ oid ≠ id ∧ keep.getD oid false = true ∧
        has_overlapping_bbox inp (vG.getD id []) (vG.getD oid []) = true := by
  unfold unresolvedOf
  rw [List.mem_filter, List.mem_range]
  by_cases h1 : id = oid
  · subst h1; simp
  · have h2 : oid ≠ id := fun h => h1 h.symm
    cases hk : keep.getD oid false <;> simp [h1, h2, hk]

theorem unresolvedOf_nodup (inp : Input) (vG : List (List (List Nat))) (keep : List Bool)
    (id : Nat) : (unresolvedOf inp vG keep id).Nodup :=
  List.Nodup.filter _ (List.nodup_range _)

theorem nestBody_skip (inp : Input) (vG : List (List (List Nat))) (id : Nat) (n : Nest)
    (h : n.keep.getD id false = false) : nestBody inp vG id n = n := by
  unfold nestBody
  rw [h]; rfl

theorem nestBody_test (inp : Input) (vG : List (List (List Nat))) (id : Nat) (n : Nest)
    (h : n.keep.getD id false = true) :
    nestBody inp vG id n =
      { keep := discardInside (unresolvedOf inp vG n.keep id)
          (inp.points_inside_component (vG.getD id [])
            ((unresolvedOf inp vG n.keep id).map (queryPoint inp vG))) n.keep
        calls := n.calls ++ [(id, unresolvedOf inp vG n.keep id,
          (unresolvedOf inp vG n.keep id).map (queryPoint inp vG))] } := by
  unfold nestBody
  rw [h]; rfl

theorem nestBody_keep_length (inp : Input) (vG : List (List (List Nat))) (id : Nat) (n : Nest) :
    (nestBody inp vG id n).keep.length = n.keep.length := by
  cases h : n.keep.getD id false
  · rw [nestBody_skip inp vG id n h]
  · rw [nestBody_test inp vG id n h]; exact discardInside_length _ _ _

theorem nestLoop_keep_length (inp : Input) (vG : List (List (List Nat))) (k : Nat) :
    (nestLoop inp vG k).keep.length = inp.ncc := by
  induction k with
  | zero => simp [nestLoop]
  | succ k ih => rw [nestLoop, nestBody_keep_length, ih]

/-- One round of the nesting loop never sets an entry of `keep`. -/
theorem nestBody_keep_mono (inp : Input) (vG : List (List (List Nat))) (id : Nat) (n : Nest)
    (c : Nat) (h : (nestBody inp vG id n).keep.getD c false = true) :
    n.keep.getD c false = true := by
  cases hk : n.keep.getD id false
  · rw [nestBody_skip inp vG id n hk] at h; exact h
  · rw [nestBody_test inp vG id n hk] at h
    exact ((discardInside_getD _ _ _ _).mp h).1

theorem nestLoop_keep_mono (inp : Input) (vG : List (List (List Nat))) (k j : Nat) (hkj : k ≤ j)
    (c : Nat) (h : (nestLoop inp vG j).keep.getD c false = true) :
    (nestLoop inp vG k).keep.getD c false = true := by
  induction j with
  | zero =>
    have : k = 0 := by omega
    subst this; exact h
  | succ j ih =>
    rcases Nat.eq_or_lt_of_le hkj with rfl | hlt
    · exact h
    · exact ih (by omega) (nestBody_keep_mono inp vG j _ c h)

theorem nestLoop_keep_bound (inp : Input) (vG : List (List (List Nat))) (k c : Nat)
    (h : (nestLoop inp vG k).keep.getD c false = true) : c < inp.ncc := by
  by_contra hc
  have : (nestLoop inp vG k).keep.getD c false = false := by
    apply List.getD_eq_default
    rw [nestLoop_keep_length]; omega
  rw [this] at h; cases h

/-! ### Components with pairwise disjoint boxes -/

theorem unresolvedOf_disjoint (inp : Input) (vG : List (List (List Nat)))
    (hno : BoxesDisjoint inp vG) (keep : List Bool) (id : Nat) (hid : id < inp.ncc) :
    unresolvedOf inp vG keep id = [] := by
  apply List.eq_nil_iff_forall_not_mem.mpr
  intro oid h
  obtain ⟨h1, h2, _, h4⟩ := (mem_unresolvedOf inp vG keep id oid).mp h
  rw [hno id hid oid h1 (fun h => h2 h.symm)] at h4
  cases h4

theorem getD_replicate_true (n c : Nat) (h : c < n) :
    (List.replicate n true).getD c false = true := by
  rw [List.getD_eq_getElem _ _ (by simpa using h)]
  simp

/-- With pairwise disjoint boxes the nesting loop keeps every component, and calls the
point-in-solid routine once in every round, with no query point. -/
theorem nestLoop_disjoint (inp : Input) (vG : List (List (List Nat)))
    (hno : BoxesDisjoint inp vG) (k : Nat) (hk : k ≤ inp.ncc) :
    nestLoop inp vG k =
      { keep := List.replicate inp.ncc true
        calls := (List.range k).map (fun id => (id, [], [])) } := by
  induction k with
  | zero => rfl
  | succ k ih =>
    rw [nestLoop, ih (by omega), nestBody_test _ _ _ _ (getD_replicate_true _ _ (by omega))]
    simp only [unresolvedOf_disjoint inp vG hno _ k (by omega)]
    rw [List.range_succ, List.map_append]
    rfl

theorem collect_all {α : Type} (ncc : Nat) (v : List (List α)) :
    collect ncc (List.replicate ncc true) v = (List.range ncc).flatMap (fun id => v.getD id []) := by
  unfold collect
  apply List.flatMap_congr
  intro id hid
  rw [getD_replicate_true _ _ (List.mem_range.mp hid)]
  rfl

/-! ### The traversal does not consult the point-in-solid oracle -/

theorem bfs_oracle (inp : Input) (pic : List (List Nat) → List (List ℚ) → List Int)
    (n : Nat) (s : State) :
    bfs { inp with points_inside_component := pic } n s = bfs inp n s := by
  have hstep : ∀ s, bfsStep { inp with points_inside_component := pic } s = bfsStep inp s :=
    fun _ => rfl
  induction n generalizing s with
  | zero => rfl
  | succ n ih =>
    unfold bfs
    rw [hstep, ih]

theorem componentBody_oracle (inp : Input) (pic : List (List Nat) → List (List ℚ) → List Int)
    (k : Nat) (g : Global) :
    componentBody { inp with points_inside_component := pic } k g = componentBody inp k g := by
  have hseed : seedInit { inp with points_inside_component := pic } k g = seedInit inp k g := rfl
  have hg : ∀ s, gathered { inp with points_inside_component := pic } k s = gathered inp k s :=
    fun _ => rfl
  have hfuel : bfsFuel { inp with points_inside_component := pic } = bfsFuel inp := rfl
  have hrow : orientedRow { inp with points_inside_component := pic } = orientedRow inp := rfl
  unfold componentBody
  simp only [bfs_oracle, hseed, hg, hfuel, hrow]

theorem componentsLoop_oracle (inp : Input) (pic : List (List Nat) → List (List ℚ) → List Int)
    (k : Nat) :
    componentsLoop { inp with points_inside_component := pic } k = componentsLoop inp k := by
  induction k with
  | zero => rfl
  | succ k ih => rw [componentsLoop, componentsLoop, ih, componentBody_oracle]

/-- With pairwise disjoint boxes the result is the concatenation of all blocks. -/
theorem outer_hull_disjoint (inp : Input)
    (hno : BoxesDisjoint inp (componentsLoop inp inp.ncc).vG) :
    outer_hull_legacy inp =
      { G := (List.range inp.ncc).flatMap (fun id => (componentsLoop inp inp.ncc).vG.getD id [])
        J := (List.range inp.ncc).flatMap (fun id => (componentsLoop inp inp.ncc).vJ.getD id [])
        flip := (componentsLoop inp inp.ncc).flip } := by
  unfold outer_hull_legacy
  simp only [nestLoop_disjoint inp _ hno inp.ncc (le_refl _), collect_all]

/-- Under the side conditions on the helper results, every resolved face has its index in
`J`. -/
theorem resolved_mem_J_of_kept (inp : Input) (hL : EdgesListed inp) (hA : AdjacencyClosed inp)
    (hLab : LabelsOK inp) (hS : SeedsOK inp) (f : Nat) (hf : f < inp.m)
    (hFH : (componentsLoop inp inp.ncc).FH.getD f false = true)
    (hkeep : (nestLoop inp (componentsLoop inp inp.ncc).vG inp.ncc).keep.getD
      (inp.C.getD f 0) false = true) :
    f ∈ (outer_hull_legacy inp).J := by
  have hg := GInv_componentsLoop inp hL hA hLab hS inp.ncc (le_refl _)
  have hid := hLab.1 f hf
  unfold outer_hull_legacy collect
  simp only [List.mem_flatMap, List.mem_range]
  refine ⟨inp.C.getD f 0, hid, ?_⟩
  rw [if_pos hkeep, hg.resJ _ hid, List.mem_filter]
  exact ⟨(mem_IM inp hLab _ hid f).mpr ⟨hf, rfl⟩, hFH⟩

/-! ### The log of calls of the point-in-solid routine -/

/-- Every logged call was made in the round of its tester, by a tester kept at that moment,
for the list `unresolved` of that round. -/
theorem nestLoop_calls (inp : Input) (vG : List (List (List Nat))) (k : Nat)
    (call : Nat × List Nat × List (List ℚ)) (h : call ∈ (nestLoop inp vG k).calls) :
    call.1 < k ∧ (nestLoop inp vG call.1).keep.getD call.1 false = true ∧
      call.2.1 = unresolvedOf inp vG (nestLoop inp vG call.1).keep call.1 ∧
      call.2.2 = call.2.1.map (queryPoint inp vG) := by
  induction k with
  | zero => simp [nestLoop] at h
  | succ k ih =>
    rw [nestLoop] at h
    cases hk : (nestLoop inp vG k).keep.getD k false
    · rw [nestBody_skip _ _ _ _ hk] at h
      obtain ⟨h1, h2⟩ := ih h
      exact ⟨by omega, h2⟩
    · rw [nestBody_test _ _ _ _ hk] at h
      simp only [List.mem_append, List.mem_singleton] at h
      rcases h with h | h
      · obtain ⟨h1, h2⟩ := ih h
        exact ⟨by omega, h2⟩
      · subst h
        exact ⟨by simp, hk, rfl, rfl⟩

/-- A tester kept in its round is logged with the list `unresolved` of that round. -/
theorem nestLoop_called (inp : Input) (vG : List (List (List Nat))) (k id : Nat) (hid : id < k)
    (h : (nestLoop inp vG id).keep.getD id false = true) :
    (id, unresolvedOf inp vG (nestLoop inp vG id).keep id,
      (unresolvedOf inp vG (nestLoop inp vG id).keep id).map (queryPoint inp vG))
        ∈ (nestLoop inp vG k).calls := by
  induction k with
  | zero => omega
  | succ k ih =>
    rw [nestLoop]
    rcases Nat.eq_or_lt_of_le (Nat.lt_succ_iff.mp hid) with rfl | hlt
    · rw [nestBody_test _ _ _ _ h]
      simp
    · have := ih hlt
      cases hk : (nestLoop inp vG k).keep.getD k false
      · rw [nestBody_skip _ _ _ _ hk]; exact this
      · rw [nestBody_test _ _ _ _ hk]
        exact List.mem_append_left _ this

/-! ### The nesting loop with an oracle that answers point by point -/

/-- One round of the nesting loop, entry by entry. -/
theorem nestBody_keep_getD (inp : Input) (hbf : OracleBatchFree inp)
    (vG : List (List (List Nat))) (id : Nat) (n : Nest) (c : Nat) :
    (nestBody inp vG id n).keep.getD c false = true ↔
      n.keep.getD c false = true ∧
        ¬ (n.keep.getD id false = true ∧ c < inp.ncc ∧ c ≠ id ∧ containsComp inp vG id c) := by
  cases hk : n.keep.getD id false
  · rw [nestBody_skip _ _ _ _ hk]
    simp
  · rw [nestBody_test _ _ _ _ hk, discardInside_getD]
    simp only
    constructor
    · rintro ⟨h1, h2⟩
      refine ⟨h1, ?_⟩
      rintro ⟨_, hc, hne, hov, hrep⟩
      have hmem : c ∈ unresolvedOf inp vG n.keep id :=
        (mem_unresolvedOf inp vG n.keep id c).mpr ⟨hc, hne, h1, hov⟩
      obtain ⟨i, hi, hget⟩ := List.getElem_of_mem hmem
      have hgetD : (unresolvedOf inp vG n.keep id).getD i 0 = c := by
        rw [List.getD_eq_getElem _ _ hi]; exact hget
      have h0 := h2 i hi hgetD
      rw [hbf _ _ i (by simpa using hi)] at h0
      have hq : ((unresolvedOf inp vG n.keep id).map (queryPoint inp vG)).getD i []
          = queryPoint inp vG c := by
        rw [List.getD_eq_getElem _ _ (by simpa using hi)]
        simp [hget]
      rw [hq] at h0
      exact hrep h0
    · rintro ⟨h1, h2⟩
      refine ⟨h1, fun i hi hget => ?_⟩
      by_contra h0
      have hmem : c ∈ unresolvedOf inp vG n.keep id := by
        rw [← hget]; exact getD_mem _ _ _ hi
      obtain ⟨hc, hne, _, hov⟩ := (mem_unresolvedOf inp vG n.keep id c).mp hmem
      apply h2
      refine ⟨trivial, hc, hne, hov, ?_⟩
      unfold reportsInside
      rw [hbf _ _ i (by simpa using hi)] at h0
      have hq : ((unresolvedOf inp vG n.keep id).map (queryPoint inp vG)).getD i []
          = queryPoint inp vG c := by
        rw [List.getD_eq_getElem _ _ (by simpa using hi)]
        have : (unresolvedOf inp vG n.keep id)[i] = c := by
          rw [← hget, List.getD_eq_getElem _ _ hi]
        simp [this]
      rw [hq] at h0
      exact h0

/-- A discarded component was reported inside a tester that was kept in its own round. -/
theorem discarded_has_container (inp : Input) (hbf : OracleBatchFree inp)
    (vG : List (List (List Nat))) (k c : Nat) (hc : c < inp.ncc)
    (h : (nestLoop inp vG k).keep.getD c false = false) :
    ∃ d < k, d ≠ c ∧ (nestLoop inp vG d).keep.getD d false = true ∧ containsComp inp vG d c := by
  induction k with
  | zero =>
    rw [nestLoop] at h
    simp only at h
    rw [getD_replicate_true _ _ hc] at h
    cases h
  | succ k ih =>
    cases hprev : (nestLoop inp vG k).keep.getD c false
    · obtain ⟨d, hd, h2⟩ := ih hprev
      exact ⟨d, by omega, h2⟩
    · rw [nestLoop] at h
      have hnot : ¬ ((nestBody inp vG k (nestLoop inp vG k)).keep.getD c false = true) := by
        rw [h]; simp
      rw [nestBody_keep_getD inp hbf] at hnot
      simp only [hprev, true_and, not_not] at hnot
      obtain ⟨h1, _, h3, h4⟩ := hnot
      exact ⟨k, by omega, fun h => h3 h.symm, h1, h4⟩

/-- A tester that is kept in its own round discards every component it contains. -/
theorem tester_discards (inp : Input) (hbf : OracleBatchFree inp)
    (vG : List (List (List Nat))) (k d c : Nat) (hd : d < k) (hc : c < inp.ncc) (hne : d ≠ c)
    (hkept : (nestLoop inp vG d).keep.getD d false = true) (hcon : containsComp inp vG d c) :
    (nestLoop inp vG k).keep.getD c false = false := by
  have hstep : (nestLoop inp vG (d + 1)).keep.getD c false = false := by
    rw [nestLoop]
    have hnot : ¬ ((nestBody inp vG d (nestLoop inp vG d)).keep.getD c false = true) := by
      rw [nestBody_keep_getD inp hbf]
      rintro ⟨_, h2⟩
      exact h2 ⟨hkept, hc, fun h => hne h.symm, hcon⟩
    simpa using hnot
  by_contra hk
  have hk' : (nestLoop inp vG k).keep.getD c false = true := by simpa using hk
  have := nestLoop_keep_mono inp vG (d + 1) k (by omega) c hk'
  rw [hstep] at this
  cases this

/-- In a finite transitive irreflexive relation everything that lies below something lies
below something maximal. -/
theorem exists_maximal_above (n : Nat) (R : Nat → Nat → Prop) [DecidableRel R]
    (hirr : ∀ a < n, ¬ R a a)
    (htr : ∀ a < n, ∀ b < n, ∀ c < n, R a b → R b c → R a c)
    (c : Nat) (hc : c < n) (N : Nat) :
    ∀ d < n, ((Finset.range n).filter (fun e => R e d)).card ≤ N → R d c →
      ∃ t < n, R t c ∧ ∀ e < n, ¬ R e t := by
  induction N with
  | zero =>
    intro d hd hcard hR
    refine ⟨d, hd, hR, fun e he hRe => ?_⟩
    have hmem : e ∈ (Finset.range n).filter (fun e => R e d) := by
      simp [he, hRe]
    have := Finset.card_pos.mpr ⟨e, hmem⟩
    omega
  | succ N ih =>
    intro d hd hcard hR
    by_cases hmax : ∀ e < n, ¬ R e d
    · exact ⟨d, hd, hR, hmax⟩
    · push_neg at hmax
      obtain ⟨e, he, hRe⟩ := hmax
      apply ih e he _ (htr e he d hd c hc hRe hR)
      have hss : (Finset.range n).filter (fun x => R x e) ⊂ (Finset.range n).filter (fun x => R x d) := by
        rw [Finset.ssubset_iff_of_subset]
        · refine ⟨e, by simp [he, hRe], ?_⟩
          simp only [Finset.mem_filter, Finset.mem_range, not_and]
          exact fun _ => hirr e he
        · intro x hx
          simp only [Finset.mem_filter, Finset.mem_range] at hx ⊢
          exact ⟨hx.1, htr x hx.1 e he d hd hx.2 hRe⟩
      have := Finset.card_lt_card hss
      omega

/-! ### The three nested triangles -/

theorem batchFree_of_map (inp : Input) (g : List (List Nat) → List ℚ → Int)
    (h : ∀ S pts, inp.points_inside_component S pts = pts.map (g S)) : OracleBatchFree inp := by
  intro S pts i hi
  rw [h, h]
  rw [List.getD_eq_getElem _ _ (by simpa using hi), List.getD_eq_getElem _ _ hi]
  simp

theorem threeTriangles_batchFree : OracleBatchFree threeTriangles :=
  batchFree_of_map threeTriangles _ (fun _ _ => rfl)

theorem threeTriangles_vG :
    (componentsLoop threeTriangles threeTriangles.ncc).vG
      = [[[0, 1, 2]], [[3, 4, 5]], [[6, 7, 8]]] := by
  decide

theorem threeTriangles_box (x : Nat) (hx : x < 3) :
    bounding_box threeTriangles
      (([[[0, 1, 2]], [[3, 4, 5]], [[6, 7, 8]]] : List (List (List Nat))).getD x [])
      = (([([2, 2, 0], [3, 3, 0]), ([0, 0, 0], [9, 9, 0]), ([1, 1, 0], [4, 4, 0])] :
          List (List ℚ × List ℚ)).getD x ([], [])) := by
  interval_cases x <;>
    simp [bounding_box, Input.Vat, threeTriangles, List.range_succ, min_def, max_def] <;>
    norm_num

theorem threeTriangles_boxes (x y : Nat) (hx : x < 3) (hy : y < 3) :
    has_overlapping_bbox threeTriangles
      ((componentsLoop threeTriangles threeTriangles.ncc).vG.getD x [])
      ((componentsLoop threeTriangles threeTriangles.ncc).vG.getD y []) = true := by
  rw [threeTriangles_vG]
  unfold has_overlapping_bbox
  simp only [threeTriangles_box x hx, threeTriangles_box y hy]
  interval_cases x <;> interval_cases y <;>
    simp [maxCoeff, List.range_succ] <;> norm_num

theorem threeTriangles_reports (x y : Nat) (hx : x < 3) (hy : y < 3) :
    reportsInside threeTriangles (componentsLoop threeTriangles threeTriangles.ncc).vG x y ↔
      (x = 1 ∧ y = 2) ∨ (x = 1 ∧ y = 0) ∨ (x = 2 ∧ y = 0) := by
  rw [threeTriangles_vG]
  interval_cases x <;> interval_cases y <;>
    simp [reportsInside, queryPoint, Input.Vat, threeTriangles, List.range_succ] <;> norm_num

theorem threeTriangles_contains (x y : Nat) (hx : x < 3) (hy : y < 3) :
    containsComp threeTriangles (componentsLoop threeTriangles threeTriangles.ncc).vG x y ↔
      (x = 1 ∧ y = 2) ∨ (x = 1 ∧ y = 0) ∨ (x = 2 ∧ y = 0) := by
  unfold containsComp
  rw [threeTriangles_boxes x y hx hy, threeTriangles_reports x y hx hy]
  simp

/-! ### Renaming half-edges -/

theorem div_add_mul (a k m : Nat) (h : a < m) : (a + k * m) / m = k := by
  have hm : 0 < m := by omega
  rw [Nat.add_mul_div_right _ _ hm, Nat.div_eq_of_lt h, Nat.zero_add]

theorem relabelEdge_mod (m : Nat) (r : Nat → Nat) (e : Nat) (h : r (e % m) < m) :
    relabelEdge m r e % m = r (e % m) := mod_add_mul _ _ _ h

theorem relabelEdge_div (m : Nat) (r : Nat → Nat) (e : Nat) (h : r (e % m) < m) :
    relabelEdge m r e / m = e / m := div_add_mul _ _ _ h

theorem div_lt_three (m e : Nat) (he : e < 3 * m) : e / m < 3 := by
  have hm : 0 < m := by omega
  exact (Nat.div_lt_iff_lt_mul hm).mpr he

theorem relabelEdge_lt (m : Nat) (r : Nat → Nat) (hr : ∀ f < m, r f < m) (e : Nat)
    (he : e < 3 * m) : relabelEdge m r e < 3 * m := by
  have hm : 0 < m := by omega
  exact add_mul_lt _ _ _ (hr _ (Nat.mod_lt _ hm)) (div_lt_three m e he)

theorem relabelEdge_inv (m : Nat) (r r' : Nat → Nat) (hr : ∀ f < m, r f < m)
    (hinv : ∀ f < m, r' (r f) = f) (e : Nat) (he : e < 3 * m) :
    relabelEdge m r' (relabelEdge m r e) = e := by
  have hm : 0 < m := by omega
  have h1 := hr _ (Nat.mod_lt e hm)
  show r' (relabelEdge m r e % m) + (relabelEdge m r e / m) * m = e
  rw [relabelEdge_mod m r e h1, relabelEdge_div m r e h1, hinv _ (Nat.mod_lt e hm)]
  exact Nat.mod_add_div' e m

theorem relabelEdge_corner (m : Nat) (r : Nat → Nat) (f k : Nat) (hf : f < m) :
    relabelEdge m r (f + k * m) = r f + k * m := by
  unfold relabelEdge
  rw [mod_add_mul _ _ _ hf, div_add_mul _ _ _ hf]

theorem relabelEdge_inj (m : Nat) (r r' : Nat → Nat) (hr : ∀ f < m, r f < m)
    (hinv : ∀ f < m, r' (r f) = f) (x y : Nat) (hx : x < 3 * m) (hy : y < 3 * m)
    (h : relabelEdge m r x = relabelEdge m r y) : x = y := by
  rw [← relabelEdge_inv m r r' hr hinv x hx, ← relabelEdge_inv m r r' hr hinv y hy, h]

/-- Writing at renamed positions keeps two lists related by the renaming. -/
theorem getD_set_sim {α : Type} (l l' : List α) (r : Nat → Nat) (n : Nat) (d a : α)
    (hlen : l.length = n) (hlen' : l'.length = n) (hr : ∀ x < n, r x < n)
    (hinj : ∀ x < n, ∀ y < n, r x = r y → x = y)
    (h : ∀ x < n, l'.getD (r x) d = l.getD x d) (i : Nat) (hi : i < n) :
    ∀ x < n, (l'.set (r i) a).getD (r x) d = (l.set i a).getD x d := by
  intro x hx
  by_cases hix : i = x
  · subst hix
    rw [getD_set_self _ _ _ _ (by rw [hlen']; exact hr i hi),
      getD_set_self _ _ _ _ (by rw [hlen]; exact hi)]
  · have hne : r i ≠ r x := fun heq => hix (hinj i hi x hx heq)
    rw [getD_set_other _ _ _ _ _ hne, getD_set_other _ _ _ _ _ hix]
    exact h x hx

theorem pushUnvisited_map (EH EH' : List Bool) (Q : List Nat) (r : Nat → Nat) (ne : Nat)
    (h : EH'.getD (r ne) false = EH.getD ne false) :
    pushUnvisited EH' (Q.map r) (r ne) = (pushUnvisited EH Q ne).map r := by
  unfold pushUnvisited
  rw [h]
  split <;> simp

/-! ### The helper results of a relabelled input -/

theorem relabelled_ncc (inp inp' : Input) (p q : Nat → Nat) (hR : Relabelled inp inp' p q) :
    inp'.ncc = inp.ncc := by
  unfold Input.ncc
  rw [hR.sizes]

theorem ue_bound (inp : Input) (hN : ∀ ue ∈ inp.uE2E, ue.Nodup ∧ ∀ x ∈ ue, x < 3 * inp.m)
    (e x : Nat) (hx : x ∈ inp.ue e) : x < 3 * inp.m :=
  (hN _ (ue_mem_uE2E inp e (List.ne_nil_of_mem hx))).2 x hx

theorem ue_nodup (inp : Input) (hN : ∀ ue ∈ inp.uE2E, ue.Nodup ∧ ∀ x ∈ ue, x < 3 * inp.m)
    (e : Nat) : (inp.ue e).Nodup := by
  by_cases h : inp.ue e = []
  · rw [h]; exact List.nodup_nil
  · exact (hN _ (ue_mem_uE2E inp e h)).1

theorem getD_map_nil {α β : Type} (L : List (List α)) (f : α → β) (u : Nat) :
    (L.map (List.map f)).getD u [] = (L.getD u []).map f := by
  have := @List.getD_map _ _ L [] u (List.map f)
  simpa using this

theorem ue_relabel (inp inp' : Input) (p q : Nat → Nat) (hR : Relabelled inp inp' p q)
    (e : Nat) (he : e < 3 * inp.m) :
    inp'.ue (relabelEdge inp.m q e) = (inp.ue e).map (relabelEdge inp.m q) := by
  unfold Input.ue
  rw [hR.edgeMap _ (relabelEdge_lt _ _ hR.qLt e he),
    relabelEdge_inv _ q p hR.qLt hR.pq e he, hR.incidence, getD_map_nil]

theorem row_relabel (inp inp' : Input) (p q : Nat → Nat) (hR : Relabelled inp inp' p q)
    (f : Nat) (hf : f < inp.m) : inp'.row (q f) = inp.row f := by
  rw [hR.rows _ (hR.qLt f hf), hR.pq f hf]

theorem Fat_relabel (inp inp' : Input) (p q : Nat → Nat) (hR : Relabelled inp inp' p q)
    (f : Nat) (hf : f < inp.m) (c : Nat) : inp'.Fat (q f) c = inp.Fat f c := by
  unfold Input.Fat
  rw [row_relabel inp inp' p q hR f hf]

theorem label_relabel (inp inp' : Input) (p q : Nat → Nat) (hR : Relabelled inp inp' p q)
    (f : Nat) (hf : f < inp.m) : inp'.C.getD (q f) 0 = inp.C.getD f 0 := by
  rw [hR.labels _ (hR.qLt f hf), hR.pq f hf]

theorem relabelled_EdgesListed (inp inp' : Input) (p q : Nat → Nat)
    (hR : Relabelled inp inp' p q) (hL : EdgesListed inp) : EdgesListed inp' := by
  intro e he
  rw [hR.sameM] at he
  have hpe := relabelEdge_lt _ _ hR.pLt e he
  have hinv := relabelEdge_inv _ p q hR.pLt hR.qp e he
  have h := ue_relabel inp inp' p q hR _ hpe
  rw [hinv] at h
  rw [h]
  have := List.mem_map_of_mem (relabelEdge inp.m q) (hL _ hpe)
  rw [hinv] at this
  exact this

theorem relabelled_tables (inp inp' : Input) (p q : Nat → Nat) (hR : Relabelled inp inp' p q)
    (hN : ∀ ue ∈ inp.uE2E, ue.Nodup ∧ ∀ x ∈ ue, x < 3 * inp.m) :
    ∀ ue ∈ inp'.uE2E, ue.Nodup ∧ ∀ x ∈ ue, x < 3 * inp'.m := by
  intro ue hue
  rw [hR.incidence, List.mem_map] at hue
  obtain ⟨ue0, hue0, rfl⟩ := hue
  obtain ⟨hnd, hb⟩ := hN ue0 hue0
  constructor
  · apply List.Nodup.map_on _ hnd
    intro x hx y hy hxy
    exact relabelEdge_inj _ q p hR.qLt hR.pq x y (hb x hx) (hb y hy) hxy
  · intro x hx
    rw [List.mem_map] at hx
    obtain ⟨y, hy, rfl⟩ := hx
    rw [hR.sameM]
    exact relabelEdge_lt _ _ hR.qLt y (hb y hy)

theorem relabelled_EdgeMapOK (inp inp' : Input) (p q : Nat → Nat)
    (hR : Relabelled inp inp' p q) (hE : EdgeMapOK inp)
    (hN : ∀ ue ∈ inp.uE2E, ue.Nodup ∧ ∀ x ∈ ue, x < 3 * inp.m) : EdgeMapOK inp' := by
  intro u hu x hx
  rw [hR.incidence, List.length_map] at hu
  rw [hR.incidence, getD_map_nil, List.mem_map] at hx
  obtain ⟨y, hy, rfl⟩ := hx
  have hmem : inp.uE2E.getD u [] ∈ inp.uE2E := getD_mem _ _ _ hu
  have hyb := (hN _ hmem).2 y hy
  rw [hR.edgeMap _ (relabelEdge_lt _ _ hR.qLt y hyb), relabelEdge_inv _ q p hR.qLt hR.pq y hyb]
  exact hE u hu y hy

theorem relabelled_AdjacencyClosed (inp inp' : Input) (p q : Nat → Nat)
    (hR : Relabelled inp inp' p q) (hA : AdjacencyClosed inp)
    (hN : ∀ ue ∈ inp.uE2E, ue.Nodup ∧ ∀ x ∈ ue, x < 3 * inp.m) : AdjacencyClosed inp' := by
  intro ue hue e1 he1 e2 he2
  rw [hR.incidence, List.mem_map] at hue
  obtain ⟨ue0, hue0, rfl⟩ := hue
  rw [List.mem_map] at he1 he2
  obtain ⟨x1, hx1, rfl⟩ := he1
  obtain ⟨x2, hx2, rfl⟩ := he2
  have hb1 := (hN _ hue0).2 x1 hx1
  have hb2 := (hN _ hue0).2 x2 hx2
  have hm : 0 < inp.m := by omega
  rw [hR.sameM, relabelEdge_mod _ _ _ (hR.qLt _ (Nat.mod_lt _ hm)),
    relabelEdge_mod _ _ _ (hR.qLt _ (Nat.mod_lt _ hm)),
    label_relabel inp inp' p q hR _ (Nat.mod_lt _ hm),
    label_relabel inp inp' p q hR _ (Nat.mod_lt _ hm)]
  exact hA ue0 hue0 x1 hx1 x2 hx2

/-- A permutation of the indices below `m` permutes the list `0, ..., m-1`. -/
theorem range_map_perm (m : Nat) (p q : Nat → Nat) (hp : ∀ i < m, p i < m)
    (hq : ∀ f < m, q f < m) (hpq : ∀ f < m, p (q f) = f) (hqp : ∀ i < m, q (p i) = i) :
    List.Perm ((List.range m).map p) (List.range m) := by
  rw [List.perm_ext_iff_of_nodup _ (List.nodup_range m)]
  · intro a
    rw [List.mem_map, List.mem_range]
    constructor
    · rintro ⟨i, hi, rfl⟩
      exact hp i (List.mem_range.mp hi)
    · intro ha
      exact ⟨q a, List.mem_range.mpr (hq a ha), hpq a ha⟩
  · apply List.Nodup.map_on _ (List.nodup_range m)
    intro x hx y hy hxy
    rw [← hqp x (List.mem_range.mp hx), ← hqp y (List.mem_range.mp hy), hxy]

theorem relabelled_LabelsOK (inp inp' : Input) (p q : Nat → Nat)
    (hR : Relabelled inp inp' p q) (hLab : LabelsOK inp) : LabelsOK inp' := by
  have hncc := relabelled_ncc inp inp' p q hR
  constructor
  · intro f hf
    rw [hR.sameM] at hf
    rw [hR.labels f hf, hncc]
    exact hLab.1 _ (hR.pLt f hf)
  · intro id hid
    rw [hncc] at hid
    rw [hR.sizes, hLab.2 id hid]
    unfold labelCount
    rw [hR.sameM]
    have h1 : (List.range inp.m).countP (fun f => inp'.C.getD f 0 == id)
        = (List.range inp.m).countP ((fun f => inp.C.getD f 0 == id) ∘ p) := by
      apply List.countP_congr
      intro i hi
      simp only [Function.comp]
      rw [hR.labels i (List.mem_range.mp hi)]
    rw [h1, ← List.countP_map]
    exact ((range_map_perm inp.m p q hR.pLt hR.qLt hR.pq hR.qp).countP_eq _).symm

theorem relabelled_SeedsOK (inp inp' : Input) (p q : Nat → Nat)
    (hR : Relabelled inp inp' p q) (hS : SeedsOK inp) : SeedsOK inp' := by
  intro id hid
  rw [relabelled_ncc inp inp' p q hR] at hid
  obtain ⟨h1, h2⟩ := hS id hid
  rw [hR.seeds id hid, hR.sameM]
  exact ⟨hR.qLt _ h1, by rw [label_relabel inp inp' p q hR _ h1]; exact h2⟩

/-- The position of a half-edge in its incidence list is the same in both inputs. -/
theorem diIM_relabel (inp inp' : Input) (p q : Nat → Nat) (hR : Relabelled inp inp' p q)
    (hL : EdgesListed inp) (hE : EdgeMapOK inp)
    (hN : ∀ ue ∈ inp.uE2E, ue.Nodup ∧ ∀ x ∈ ue, x < 3 * inp.m) (e : Nat)
    (he : e < 3 * inp.m) : inp'.diIM (relabelEdge inp.m q e) = inp.diIM e := by
  have hqe := relabelEdge_lt _ _ hR.qLt e he
  have hqe' : relabelEdge inp.m q e < 3 * inp'.m := by rw [hR.sameM]; exact hqe
  obtain ⟨h1, h2⟩ := diIM_spec inp hE e he (hL e he) (ue_nodup inp hN e)
  have hN' := relabelled_tables inp inp' p q hR hN
  obtain ⟨h3, h4⟩ := diIM_spec inp' (relabelled_EdgeMapOK inp inp' p q hR hE hN) _ hqe'
    (relabelled_EdgesListed inp inp' p q hR hL _ hqe') (ue_nodup inp' hN' _)
  have hue := ue_relabel inp inp' p q hR e he
  have hlen : (inp'.ue (relabelEdge inp.m q e)).length = (inp.ue e).length := by
    rw [hue, List.length_map]
  apply nodup_getD_inj _ (ue_nodup inp' hN' (relabelEdge inp.m q e)) _ _ h3 (by rw [hlen]; exact h1)
  rw [h4, hue, List.getD_eq_getElem _ _ (by rw [List.length_map]; exact h1), List.getElem_map,
    ← List.getD_eq_getElem _ 0 h1, h2]

/-! ### The traversal of a relabelled input -/

theorem getD_map_relabel (l : List Nat) (r : Nat → Nat) (i : Nat) (hi : i < l.length) :
    (l.map r).getD i 0 = r (l.getD i 0) := by
  rw [List.getD_eq_getElem _ _ (by rw [List.length_map]; exact hi), List.getElem_map,
    List.getD_eq_getElem _ _ hi]

/-- The search for the next face gives the same position in both inputs, and the half-edge
at that position is the renamed one. -/
theorem nextFaceSearch_relabel (inp inp' : Input) (p q : Nat → Nat)
    (hR : Relabelled inp inp' p q) (hL : EdgesListed inp) (hE : EdgeMapOK inp)
    (hN : ∀ ue ∈ inp.uE2E, ue.Nodup ∧ ∀ x ∈ ue, x < 3 * inp.m)
    (FH FH' : List Bool) (hFH : ∀ f < inp.m, FH'.getD (q f) false = FH.getD f false)
    (flipf : Bool) (e : Nat) (he : e < 3 * inp.m) :
    nextFaceSearch inp' FH' flipf (relabelEdge inp.m q e) = nextFaceSearch inp FH flipf e ∧
    ∀ i, nextFaceSearch inp FH flipf e = some i →
      (inp'.ue (relabelEdge inp.m q e)).getD i 0
        = relabelEdge inp.m q ((inp.ue e).getD i 0) ∧ (inp.ue e).getD i 0 < 3 * inp.m := by
  have hm : 0 < inp.m := by omega
  have hue := ue_relabel inp inp' p q hR e he
  have hpos : 0 < (inp.ue e).length := List.length_pos_of_mem (hL e he)
  have hqe := relabelEdge_lt _ _ hR.qLt e he
  have hEM : inp'.EMAP.getD (relabelEdge inp.m q e) 0 = inp.EMAP.getD e 0 := by
    rw [hR.edgeMap _ hqe, relabelEdge_inv _ q p hR.qLt hR.pq e he]
  have htarget : ∀ i < (inp.ue e).length,
      (inp'.ue (relabelEdge inp.m q e)).getD i 0 = relabelEdge inp.m q ((inp.ue e).getD i 0) ∧
        (inp.ue e).getD i 0 < 3 * inp.m := by
    intro i hi
    rw [hue, getD_map_relabel _ _ _ hi]
    exact ⟨rfl, ue_bound inp hN e _ (getD_mem _ _ _ hi)⟩
  constructor
  · unfold nextFaceSearch
    simp only
    rw [diIM_relabel inp inp' p q hR hL hE hN e he, hEM, hR.flags, hR.sameM]
    have hlen : (inp'.ue (relabelEdge inp.m q e)).length = (inp.ue e).length := by
      rw [hue, List.length_map]
    rw [hlen]
    have hi := nfei_new_lt (inp.diIM e) (inp.ue e).length
      ((inp.uE2C.getD (inp.EMAP.getD e 0) []).getD (inp.diIM e) false) 1 flipf hpos
    obtain ⟨ht, hb⟩ := htarget _ hi
    rw [ht, relabelEdge_mod _ _ _ (hR.qLt _ (Nat.mod_lt _ hm)), hFH _ (Nat.mod_lt _ hm)]
  · intro i hi
    obtain ⟨hi', _⟩ := nextFaceSearch_some inp FH flipf e i hi
    exact htarget i (by rw [hi']; exact nfei_new_lt _ _ _ _ _ hpos)

theorem bfsStep_visited (inp : Input) (s : State) (e : Nat) (Q : List Nat) (hQ : s.Q = e :: Q)
    (h : s.EH.getD e false = true) : bfsStep inp s = { s with Q := Q } := by
  unfold bfsStep
  rw [hQ]
  simp only
  rw [if_pos h]

theorem bfsStep_none (inp : Input) (s : State) (e : Nat) (Q : List Nat) (hQ : s.Q = e :: Q)
    (h : s.EH.getD e false = false)
    (hn : nextFaceSearch inp s.FH (s.flip.getD (e % inp.m) false) e = none) :
    bfsStep inp s = { s with Q := Q, EH := s.EH.set e true } := by
  unfold bfsStep
  rw [hQ]
  simp only
  rw [if_neg (by rw [h]; exact Bool.false_ne_true), hn]
  rfl

theorem bfsStep_some (inp : Input) (s : State) (e : Nat) (Q : List Nat) (hQ : s.Q = e :: Q)
    (h : s.EH.getD e false = false) (i : Nat)
    (hn : nextFaceSearch inp s.FH (s.flip.getD (e % inp.m) false) e = some i) :
    bfsStep inp s = crossState inp s e Q ((inp.ue e).getD i 0) := by
  unfold bfsStep
  rw [hQ]
  simp only
  rw [if_neg (by rw [h]; exact Bool.false_ne_true), hn]
  rfl

theorem neighborFlip_relabel (inp inp' : Input) (p q : Nat → Nat)
    (hR : Relabelled inp inp' p q) (flipf : Bool) (f c nf nc : Nat) (hf : f < inp.m)
    (hnf : nf < inp.m) :
    neighborFlip inp' flipf (q f) c (q nf) nc = neighborFlip inp flipf f c nf nc := by
  unfold neighborFlip edgeSource edgeDest
  simp only [Fat_relabel inp inp' p q hR f hf, Fat_relabel inp inp' p q hR nf hnf]

/-- One iteration of the traversal loop preserves the simulation. -/
theorem Sim_step (inp inp' : Input) (p q : Nat → Nat) (hR : Relabelled inp inp' p q)
    (hL : EdgesListed inp) (hE : EdgeMapOK inp)
    (hN : ∀ ue ∈ inp.uE2E, ue.Nodup ∧ ∀ x ∈ ue, x < 3 * inp.m)
    (id : Nat) (g : Global) (s s' : State) (hT : TInv inp id g s) (h : Sim inp q s s') :
    Sim inp q (bfsStep inp s) (bfsStep inp' s') := by
  cases hQ : s.Q with
  | nil =>
    have hQ' : s'.Q = [] := by rw [h.queue, hQ]; rfl
    rw [bfsStep_nil inp s hQ, bfsStep_nil inp' s' hQ']
    exact h
  | cons e Q =>
    have hQ' : s'.Q = relabelEdge inp.m q e :: Q.map (relabelEdge inp.m q) := by
      rw [h.queue, hQ]; rfl
    have he : e < 3 * inp.m := (hT.queue e (by rw [hQ]; exact List.mem_cons_self _ _)).1
    have hm : 0 < inp.m := by omega
    have hf : e % inp.m < inp.m := Nat.mod_lt _ hm
    have hEH := h.marksEH e he
    have hqe_mod : relabelEdge inp.m q e % inp'.m = q (e % inp.m) := by
      rw [hR.sameM]; exact relabelEdge_mod _ _ _ (hR.qLt _ hf)
    have hqe_div : relabelEdge inp.m q e / inp'.m = e / inp.m := by
      rw [hR.sameM]; exact relabelEdge_div _ _ _ (hR.qLt _ hf)
    have hflip : s'.flip.getD (relabelEdge inp.m q e % inp'.m) false
        = s.flip.getD (e % inp.m) false := by
      rw [hqe_mod]; exact h.flips _ hf
    have hinjE : ∀ x < 3 * inp.m, ∀ y < 3 * inp.m,
        relabelEdge inp.m q x = relabelEdge inp.m q y → x = y :=
      fun x hx y hy => relabelEdge_inj _ q p hR.qLt hR.pq x y hx hy
    have hinjF : ∀ x < inp.m, ∀ y < inp.m, q x = q y → x = y := by
      intro x hx y hy hxy
      rw [← hR.pq x hx, ← hR.pq y hy, hxy]
    have hEH2 : ∀ y < 3 * inp.m,
        (s'.EH.set (relabelEdge inp.m q e) true).getD (relabelEdge inp.m q y) false
          = (s.EH.set e true).getD y false :=
      getD_set_sim s.EH s'.EH _ _ false true hT.lenEH h.lenEH
        (fun x hx => relabelEdge_lt _ _ hR.qLt x hx) hinjE h.marksEH e he
    obtain ⟨hsearch, htarget⟩ := nextFaceSearch_relabel inp inp' p q hR hL hE hN s.FH s'.FH
      h.marksFH (s.flip.getD (e % inp.m) false) e he
    rcases bfsStep_cases inp s e Q hQ with ⟨hv, hs⟩ | ⟨hv, hn, hs⟩ | ⟨hv, i, hn, hs⟩
    · rw [hs, bfsStep_visited inp' s' _ _ hQ' (by rw [hEH]; exact hv)]
      exact ⟨rfl, h.count, h.lenFH, h.lenEH, h.lenFlip, h.marksFH, h.marksEH, h.flips⟩
    · rw [hs, bfsStep_none inp' s' _ _ hQ' (by rw [hEH]; exact hv)
        (by rw [hflip, hsearch]; exact hn)]
      exact ⟨rfl, h.count, h.lenFH, by simp only [List.length_set]; exact h.lenEH, h.lenFlip,
        h.marksFH, hEH2, h.flips⟩
    · obtain ⟨hx', hxb⟩ := htarget i hn
      rw [hs, bfsStep_some inp' s' _ _ hQ' (by rw [hEH]; exact hv) i
        (by rw [hflip, hsearch]; exact hn), hx']
      have hnf : (inp.ue e).getD i 0 % inp.m < inp.m := Nat.mod_lt _ hm
      have hqx_mod : relabelEdge inp.m q ((inp.ue e).getD i 0) % inp'.m
          = q ((inp.ue e).getD i 0 % inp.m) := by
        rw [hR.sameM]; exact relabelEdge_mod _ _ _ (hR.qLt _ hnf)
      have hqx_div : relabelEdge inp.m q ((inp.ue e).getD i 0) / inp'.m
          = (inp.ue e).getD i 0 / inp.m := by
        rw [hR.sameM]; exact relabelEdge_div _ _ _ (hR.qLt _ hnf)
      have hcorner : ∀ k, q ((inp.ue e).getD i 0 % inp.m) + k * inp'.m
          = relabelEdge inp.m q ((inp.ue e).getD i 0 % inp.m + k * inp.m) := by
        intro k
        rw [hR.sameM, relabelEdge_corner _ _ _ _ hnf]
      have hk : ∀ k, (k % 3) < 3 := fun k => Nat.mod_lt _ (by omega)
      unfold crossState
      simp only [hqe_mod, hqe_div, hqx_mod, hqx_div, hcorner]
      refine ⟨?_, ?_, ?_, ?_, ?_, ?_, hEH2, ?_⟩
      · rw [pushUnvisited_map (s.EH.set e true) _ _ _ _
            (hEH2 _ (add_mul_lt _ _ _ hnf (hk _)))]
        rw [pushUnvisited_map (s.EH.set e true) _ _ _ _
            (hEH2 _ (add_mul_lt _ _ _ hnf (hk _)))]
      · rw [h.count]
      · simp only [List.length_set]; exact h.lenFH
      · simp only [List.length_set]; exact h.lenEH
      · simp only [List.length_set]; exact h.lenFlip
      · exact getD_set_sim s.FH s'.FH q _ false true hT.lenFH h.lenFH hR.qLt hinjF h.marksFH _ hnf
      · rw [h.flips _ hf, neighborFlip_relabel inp inp' p q hR _ _ _ _ _ hf hnf]
        exact getD_set_sim s.flip s'.flip q _ false _ hT.lenFlip h.lenFlip hR.qLt hinjF h.flips
          _ hnf

theorem Sim_iterate (inp inp' : Input) (p q : Nat → Nat) (hR : Relabelled inp inp' p q)
    (hL : EdgesListed inp) (hA : AdjacencyClosed inp) (hE : EdgeMapOK inp)
    (hN : ∀ ue ∈ inp.uE2E, ue.Nodup ∧ ∀ x ∈ ue, x < 3 * inp.m)
    (id : Nat) (g : Global) (n : Nat) (s s' : State) (hT : TInv inp id g s)
    (h : Sim inp q s s') :
    Sim inp q ((bfsStep inp)^[n] s) ((bfsStep inp')^[n] s') := by
  induction n generalizing s s' with
  | zero => exact h
  | succ n ih =>
    rw [Function.iterate_succ_apply, Function.iterate_succ_apply]
    exact ih _ _ (TInv_step inp hL hA id g s hT) (Sim_step inp inp' p q hR hL hE hN id g s s' hT h)

theorem Sim_seedInit (inp inp' : Input) (p q : Nat → Nat) (hR : Relabelled inp inp' p q)
    (hS : SeedsOK inp) (id : Nat) (hid : id < inp.ncc) (g g' : Global)
    (hg : GInv inp id g) (h : GSim inp q g g') :
    Sim inp q (seedInit inp id g) (seedInit inp' id g') := by
  obtain ⟨hlt, _⟩ := hS id hid
  have hinjF : ∀ x < inp.m, ∀ y < inp.m, q x = q y → x = y := by
    intro x hx y hy hxy
    rw [← hR.pq x hx, ← hR.pq y hy, hxy]
  unfold seedInit
  simp only [hR.seeds id hid, hR.sameM]
  refine ⟨?_, rfl, ?_, h.lenEH, ?_, ?_, h.marksEH, ?_⟩
  · simp only [List.map_cons, List.map_nil]
    rw [relabelEdge_corner _ _ _ _ hlt, relabelEdge_corner _ _ _ _ hlt,
      relabelEdge_corner _ _ _ _ hlt]
  · simp only [List.length_set]; exact h.lenFH
  · simp only [List.length_set]; exact h.lenFlip
  · exact getD_set_sim g.FH g'.FH q _ false true hg.lenFH h.lenFH hR.qLt hinjF h.marksFH _ hlt
  · exact getD_set_sim g.flip g'.flip q _ false _ hg.lenFlip h.lenFlip hR.qLt hinjF h.flips
      _ hlt

theorem relabelled_bfsFuel (inp inp' : Input) (p q : Nat → Nat) (hR : Relabelled inp inp' p q) :
    bfsFuel inp' = bfsFuel inp := by
  unfold bfsFuel
  rw [hR.sameM]

/-- The marks of the two runs are related by the renaming after every number of
components. -/
theorem GSim_componentsLoop (inp inp' : Input) (p q : Nat → Nat)
    (hR : Relabelled inp inp' p q) (hL : EdgesListed inp) (hA : AdjacencyClosed inp)
    (hLab : LabelsOK inp) (hS : SeedsOK inp) (hE : EdgeMapOK inp)
    (hN : ∀ ue ∈ inp.uE2E, ue.Nodup ∧ ∀ x ∈ ue, x < 3 * inp.m) (k : Nat) (hk : k ≤ inp.ncc) :
    GSim inp q (componentsLoop inp k) (componentsLoop inp' k) := by
  induction k with
  | zero =>
    show GSim inp q (Global.init inp) (Global.init inp')
    unfold Global.init
    simp only [hR.sameM]
    have hrep : ∀ n i j, (List.replicate n false).getD i false
        = (List.replicate n false).getD j false := by
      intro n i j
      rw [getD_replicate_false, getD_replicate_false]
    exact ⟨by simp, by simp, by simp, fun _ _ => hrep _ _ _, fun _ _ => hrep _ _ _,
      fun _ _ => hrep _ _ _⟩
  | succ k ih =>
    have hg := GInv_componentsLoop inp hL hA hLab hS k (by omega)
    have hT := TInv_seedInit inp hS k (by omega) _ hg
    have hsim := Sim_iterate inp inp' p q hR hL hA hE hN k _ (bfsFuel inp) _ _ hT
      (Sim_seedInit inp inp' p q hR hS k (by omega) _ _ hg (ih (by omega)))
    rw [← bfs_eq_iterate, ← bfs_eq_iterate] at hsim
    rw [componentsLoop, componentsLoop]
    unfold componentBody
    simp only [relabelled_bfsFuel inp inp' p q hR]
    exact ⟨hsim.lenFH, hsim.lenEH, hsim.lenFlip, hsim.marksFH, hsim.marksEH, hsim.flips⟩

/-! ### The blocks of a relabelled input -/

theorem orientedRow_relabel (inp inp' : Input) (p q : Nat → Nat)
    (hR : Relabelled inp inp' p q) (flip flip' : List Bool)
    (hflip : ∀ f < inp.m, flip'.getD (q f) false = flip.getD f false) (f : Nat)
    (hf : f < inp.m) : orientedRow inp' flip' (q f) = orientedRow inp flip f := by
  unfold orientedRow
  rw [hflip f hf, row_relabel inp inp' p q hR f hf]

/-- The block of indices of a component in the run on the relabelled input is, up to order,
the renamed block of the run on the original input; the block of rows is the same up to
order. -/
theorem blocks_relabel (inp inp' : Input) (p q : Nat → Nat)
    (hR : Relabelled inp inp' p q) (hL : EdgesListed inp) (hA : AdjacencyClosed inp)
    (hLab : LabelsOK inp) (hS : SeedsOK inp) (hE : EdgeMapOK inp)
    (hN : ∀ ue ∈ inp.uE2E, ue.Nodup ∧ ∀ x ∈ ue, x < 3 * inp.m) (id : Nat)
    (hid : id < inp.ncc) :
    List.Perm ((componentsLoop inp' inp'.ncc).vJ.getD id [])
      (((componentsLoop inp inp.ncc).vJ.getD id []).map q) ∧
    List.Perm ((componentsLoop inp' inp'.ncc).vG.getD id [])
      ((componentsLoop inp inp.ncc).vG.getD id []) := by
  have hncc := relabelled_ncc inp inp' p q hR
  have hL' := relabelled_EdgesListed inp inp' p q hR hL
  have hA' := relabelled_AdjacencyClosed inp inp' p q hR hA hN
  have hLab' := relabelled_LabelsOK inp inp' p q hR hLab
  have hS' := relabelled_SeedsOK inp inp' p q hR hS
  have hg := GInv_componentsLoop inp hL hA hLab hS inp.ncc (le_refl _)
  have hg' := GInv_componentsLoop inp' hL' hA' hLab' hS' inp'.ncc (le_refl _)
  have hsim : GSim inp q (componentsLoop inp inp.ncc) (componentsLoop inp' inp'.ncc) := by
    rw [hncc]
    exact GSim_componentsLoop inp inp' p q hR hL hA hLab hS hE hN inp.ncc (le_refl _)
  have hid' : id < inp'.ncc := by rw [hncc]; exact hid
  have hmemJ : ∀ f, f ∈ (componentsLoop inp inp.ncc).vJ.getD id [] → f < inp.m := by
    intro f hf
    rw [hg.resJ id hid, List.mem_filter, mem_IM inp hLab id hid] at hf
    exact hf.1.1
  have hJ : List.Perm ((componentsLoop inp' inp'.ncc).vJ.getD id [])
      (((componentsLoop inp inp.ncc).vJ.getD id []).map q) := by
    rw [List.perm_ext_iff_of_nodup]
    · intro a
      rw [hg'.resJ id hid', List.mem_filter, mem_IM inp' hLab' id hid', List.mem_map, hR.sameM]
      constructor
      · rintro ⟨⟨ha, hC⟩, hFH⟩
        refine ⟨p a, ?_, hR.qp a ha⟩
        rw [hg.resJ id hid, List.mem_filter, mem_IM inp hLab id hid]
        refine ⟨⟨hR.pLt a ha, ?_⟩, ?_⟩
        · rw [← hR.labels a ha]; exact hC
        · rw [← hsim.marksFH _ (hR.pLt a ha), hR.qp a ha]; exact hFH
      · rintro ⟨f, hf, rfl⟩
        rw [hg.resJ id hid, List.mem_filter, mem_IM inp hLab id hid] at hf
        obtain ⟨⟨hfm, hC⟩, hFH⟩ := hf
        refine ⟨⟨hR.qLt f hfm, ?_⟩, ?_⟩
        · rw [label_relabel inp inp' p q hR f hfm]; exact hC
        · rw [hsim.marksFH f hfm]; exact hFH
    · rw [hg'.resJ id hid', IM_eq_filter inp' hLab' id hid']
      exact List.Nodup.filter _ (List.Nodup.filter _ (List.nodup_range _))
    · apply List.Nodup.map_on
      · intro x hx y hy hxy
        rw [← hR.pq x (hmemJ x hx), ← hR.pq y (hmemJ y hy), hxy]
      · rw [hg.resJ id hid, IM_eq_filter inp hLab id hid]
        exact List.Nodup.filter _ (List.Nodup.filter _ (List.nodup_range _))
  refine ⟨hJ, ?_⟩
  rw [hg'.resG id hid', hg.resG id hid]
  have h1 := hJ.map (orientedRow inp' (componentsLoop inp' inp'.ncc).flip)
  rw [List.map_map] at h1
  have h2 : List.map (orientedRow inp' (componentsLoop inp' inp'.ncc).flip ∘ q)
      ((componentsLoop inp inp.ncc).vJ.getD id [])
      = List.map (orientedRow inp (componentsLoop inp inp.ncc).flip)
        ((componentsLoop inp inp.ncc).vJ.getD id []) := by
    apply List.map_congr_left
    intro f hf
    exact orientedRow_relabel inp inp' p q hR _ _ hsim.flips f (hmemJ f hf)
  rw [h2] at h1
  exact h1

/-! ### The bounding box does not depend on the order of the rows -/

/-- The box after one more row, in closed form. -/
theorem bounding_box_row (inp : Input) (BB : List ℚ × List ℚ) (row : List Nat) :
    (List.range 3).foldl
      (fun BB c =>
        let v := row.getD c 0
        ((List.range 3).map (fun k => min (BB.1.getD k 0) (inp.Vat v k)),
         (List.range 3).map (fun k => max (BB.2.getD k 0) (inp.Vat v k))))
      BB
    = ((List.range 3).map (fun k => min (min (min (BB.1.getD k 0) (inp.Vat (row.getD 0 0) k))
          (inp.Vat (row.getD 1 0) k)) (inp.Vat (row.getD 2 0) k)),
       (List.range 3).map (fun k => max (max (max (BB.2.getD k 0) (inp.Vat (row.getD 0 0) k))
          (inp.Vat (row.getD 1 0) k)) (inp.Vat (row.getD 2 0) k))) := by
  have h3 : List.range 3 = [0, 1, 2] := rfl
  rw [h3]
  rfl

theorem bounding_box_perm (inp : Input) (A A' : List (List Nat)) (h : List.Perm A A') :
    bounding_box inp A = bounding_box inp A' := by
  unfold bounding_box
  apply List.Perm.foldl_eq' h
  intro x _ y _ z
  simp only [bounding_box_row]
  have h3 : List.range 3 = [0, 1, 2] := rfl
  rw [h3]
  simp only [List.map_cons, List.map_nil, List.getD_cons_zero, List.getD_cons_succ]
  simp only [min_assoc, min_comm, min_left_comm, max_assoc, max_comm, max_left_comm]

theorem has_overlapping_bbox_perm (inp inp' : Input) (hV : inp'.V = inp.V)
    (A A' B B' : List (List Nat)) (hA : List.Perm A' A) (hB : List.Perm B' B) :
    has_overlapping_bbox inp' A' B' = has_overlapping_bbox inp A B := by
  rw [has_overlapping_bbox_congr inp' inp hV]
  unfold has_overlapping_bbox
  rw [bounding_box_perm inp A' A hA, bounding_box_perm inp B' B hB]

/-! ### Nesting and collection for a relabelled input -/

/-- If the box test and the oracle answer alike for two families of blocks, the nesting loop
keeps the same components. -/
theorem nestLoop_keep_congr (inp inp' : Input) (vG vG' : List (List (List Nat)))
    (hncc : inp'.ncc = inp.ncc)
    (hbox : ∀ id < inp.ncc, ∀ oid < inp.ncc,
      has_overlapping_bbox inp' (vG'.getD id []) (vG'.getD oid [])
        = has_overlapping_bbox inp (vG.getD id []) (vG.getD oid []))
    (hin : ∀ id < inp.ncc, ∀ U : List Nat, (∀ oid ∈ U, oid < inp.ncc) →
      inp'.points_inside_component (vG'.getD id []) (U.map (queryPoint inp' vG'))
        = inp.points_inside_component (vG.getD id []) (U.map (queryPoint inp vG)))
    (k : Nat) (hk : k ≤ inp.ncc) :
    (nestLoop inp' vG' k).keep = (nestLoop inp vG k).keep := by
  induction k with
  | zero =>
    rw [nestLoop, nestLoop]
    simp only [hncc]
  | succ k ih =>
    have ih' := ih (by omega)
    rw [nestLoop, nestLoop]
    cases hkeep : (nestLoop inp vG k).keep.getD k false
    · rw [nestBody_skip inp vG k _ hkeep, nestBody_skip inp' vG' k _ (by rw [ih']; exact hkeep)]
      exact ih'
    · rw [nestBody_test inp vG k _ hkeep, nestBody_test inp' vG' k _ (by rw [ih']; exact hkeep)]
      simp only
      have hU : unresolvedOf inp' vG' (nestLoop inp' vG' k).keep k
          = unresolvedOf inp vG (nestLoop inp vG k).keep k := by
        unfold unresolvedOf
        rw [hncc, ih']
        apply List.filter_congr
        intro oid hoid
        rw [hbox k (by omega) oid (List.mem_range.mp hoid)]
      rw [hU, ih', hin k (by omega) _
        (fun oid hoid => ((mem_unresolvedOf inp vG _ k oid).mp hoid).1)]

theorem collect_perm {α : Type} (ncc : Nat) (keep : List Bool) (v v' : List (List α))
    (h : ∀ id < ncc, List.Perm (v'.getD id []) (v.getD id [])) :
    List.Perm (collect ncc keep v') (collect ncc keep v) := by
  unfold collect
  apply List.Perm.flatMap_left
  intro id hid
  split
  · exact h id (List.mem_range.mp hid)
  · exact List.Perm.refl _

theorem collect_map {α β : Type} (ncc : Nat) (keep : List Bool) (v : List (List α))
    (f : α → β) : (collect ncc keep v).map f = collect ncc keep (v.map (List.map f)) := by
  unfold collect
  rw [List.map_flatMap]
  apply List.flatMap_congr
  intro id _
  split
  · exact (getD_map_nil v f id).symm
  · rfl

/-! ### The nesting loop for arbitrary oracle answers -/

/-- The tester of a round is not discarded in its own round. -/
theorem tester_survives (inp : Input) (vG : List (List (List Nat))) (k : Nat)
    (h : (nestLoop inp vG k).keep.getD k false = true) :
    (nestLoop inp vG (k + 1)).keep.getD k false = true := by
  rw [nestLoop, nestBody_test _ _ _ _ h, discardInside_getD]
  refine ⟨h, fun i hi hget => ?_⟩
  have hmem : k ∈ unresolvedOf inp vG (nestLoop inp vG k).keep k := by
    have := getD_mem (unresolvedOf inp vG (nestLoop inp vG k).keep k) i 0 hi
    rw [hget] at this
    exact this
  exact absurd rfl ((mem_unresolvedOf inp vG _ k k).mp hmem).2.1

/-- After `k ≥ 1` rounds one of the first `k` components is kept. -/
theorem nestLoop_some_kept (inp : Input) (vG : List (List (List Nat))) (k : Nat)
    (hk : 1 ≤ k) (hkn : k ≤ inp.ncc) :
    ∃ c < k, (nestLoop inp vG k).keep.getD c false = true := by
  induction k with
  | zero => omega
  | succ k ih =>
    cases hkeep : (nestLoop inp vG k).keep.getD k false
    · have hk1 : 1 ≤ k := by
        rcases Nat.eq_zero_or_pos k with rfl | h
        · rw [nestLoop] at hkeep
          simp only at hkeep
          rw [getD_replicate_true _ _ (by omega)] at hkeep
          cases hkeep
        · exact h
      obtain ⟨c, hc, hck⟩ := ih hk1 (by omega)
      refine ⟨c, by omega, ?_⟩
      rw [nestLoop, nestBody_skip _ _ _ _ hkeep]
      exact hck
    · exact ⟨k, by omega, tester_survives inp vG k hkeep⟩

/-- What the round of a tester `id` that is kept at the end says about a component `oid`
that is kept at the end too. -/
theorem kept_pair_round (inp : Input) (vG : List (List (List Nat))) (id oid : Nat)
    (hid : id < inp.ncc) (hoid : oid < inp.ncc) (hne : id ≠ oid)
    (hk : (nestLoop inp vG inp.ncc).keep.getD id false = true)
    (hko : (nestLoop inp vG inp.ncc).keep.getD oid false = true)
    (hbox : has_overlapping_bbox inp (vG.getD id []) (vG.getD oid []) = true) :
    oid ∈ unresolvedOf inp vG (nestLoop inp vG id).keep id ∧
    ∀ i < (unresolvedOf inp vG (nestLoop inp vG id).keep id).length,
      (unresolvedOf inp vG (nestLoop inp vG id).keep id).getD i 0 = oid →
      (inp.points_inside_component (vG.getD id [])
        ((unresolvedOf inp vG (nestLoop inp vG id).keep id).map (queryPoint inp vG))).getD i 0
          = 0 := by
  have h1 := nestLoop_keep_mono inp vG id inp.ncc (by omega) id hk
  have h2 := nestLoop_keep_mono inp vG id inp.ncc (by omega) oid hko
  have h3 := nestLoop_keep_mono inp vG (id + 1) inp.ncc (by omega) oid hko
  refine ⟨(mem_unresolvedOf inp vG _ id oid).mpr ⟨hoid, fun h => hne h.symm, h2, hbox⟩, ?_⟩
  rw [nestLoop, nestBody_test _ _ _ _ h1, discardInside_getD] at h3
  exact h3.2

/-- The seed of every component is resolved at the end of the run. -/
theorem seed_resolved_final (inp : Input) (hL : EdgesListed inp) (hA : AdjacencyClosed inp)
    (hLab : LabelsOK inp) (hS : SeedsOK inp) (id : Nat) (hid : id < inp.ncc) :
    (componentsLoop inp inp.ncc).FH.getD (inp.outer_facet (inp.IM id)).1 false = true := by
  have hg := GInv_componentsLoop inp hL hA hLab hS id (by omega)
  have h0 : (seedInit inp id (componentsLoop inp id)).FH.getD (inp.outer_facet (inp.IM id)).1
      false = true := by
    unfold seedInit
    exact getD_set_self _ _ _ _ (by rw [hg.lenFH]; exact (hS id hid).1)
  have h1 : (componentsLoop inp (id + 1)).FH.getD (inp.outer_facet (inp.IM id)).1 false
      = true := by
    rw [componentsLoop_succ_FH, bfs_eq_iterate]
    exact (iterate_resolved inp _ _ _ h0).1
  have h2 := (componentsLoop_resolved inp hL hA hLab hS (id + 1) (inp.ncc - (id + 1)) (by omega)
    _ h1).1
  have hsum : id + 1 + (inp.ncc - (id + 1)) = inp.ncc := by omega
  rw [hsum] at h2
  exact h2

/-! ### A flip is set only on a resolved face -/

theorem getD_set_eq {α : Type} (l : List α) (i j : Nat) (a d : α) :
    (l.set i a).getD j d = if i = j ∧ i < l.length then a else l.getD j d := by
  by_cases hij : i = j
  · subst hij
    by_cases hi : i < l.length
    · rw [getD_set_self _ _ _ _ hi, if_pos ⟨rfl, hi⟩]
    · rw [if_neg (fun h => hi h.2), List.getD_eq_default _ _ (by simp; omega),
        List.getD_eq_default _ _ (by omega)]
  · rw [getD_set_other _ _ _ _ _ hij, if_neg (fun h => hij h.1)]

/-- Writing `true` into `FH` and any value into `flip` at the same index keeps
"flip set implies resolved". -/
theorem flip_marks_set (FH flip : List Bool) (i : Nat) (v : Bool)
    (hlen : FH.length = flip.length)
    (h : ∀ f, flip.getD f false = true → FH.getD f false = true) (f : Nat)
    (hf : (flip.set i v).getD f false = true) : (FH.set i true).getD f false = true := by
  rw [getD_set_eq] at hf ⊢
  by_cases hc : i = f ∧ i < flip.length
  · rw [if_pos (by rw [hlen]; exact hc)]
  · rw [if_neg hc] at hf
    split
    · rfl
    · exact h f hf

theorem bfsStep_flip_marks (inp : Input) (s : State) (hlen : s.FH.length = s.flip.length)
    (h : ∀ f, s.flip.getD f false = true → s.FH.getD f false = true) :
    (bfsStep inp s).FH.length = (bfsStep inp s).flip.length ∧
    ∀ f, (bfsStep inp s).flip.getD f false = true → (bfsStep inp s).FH.getD f false = true := by
  cases hQ : s.Q with
  | nil => rw [bfsStep_nil inp s hQ]; exact ⟨hlen, h⟩
  | cons e Q =>
    rcases bfsStep_cases inp s e Q hQ with ⟨_, hs⟩ | ⟨_, _, hs⟩ | ⟨_, i, _, hs⟩
    · rw [hs]; exact ⟨hlen, h⟩
    · rw [hs]; exact ⟨hlen, h⟩
    · rw [hs]
      unfold crossState
      exact ⟨by simp only [List.length_set]; exact hlen,
        fun f hf => flip_marks_set _ _ _ _ hlen h f hf⟩

theorem iterate_flip_marks (inp : Input) (n : Nat) (s : State)
    (hlen : s.FH.length = s.flip.length)
    (h : ∀ f, s.flip.getD f false = true → s.FH.getD f false = true) :
    ((bfsStep inp)^[n] s).FH.length = ((bfsStep inp)^[n] s).flip.length ∧
    ∀ f, ((bfsStep inp)^[n] s).flip.getD f false = true →
      ((bfsStep inp)^[n] s).FH.getD f false = true := by
  induction n generalizing s with
  | zero => exact ⟨hlen, h⟩
  | succ n ih =>
    rw [Function.iterate_succ_apply]
    obtain ⟨h1, h2⟩ := bfsStep_flip_marks inp s hlen h
    exact ih _ h1 h2

/-- For every input, after any number of components a flip is set only on a resolved
face. -/
theorem componentsLoop_flip_marks (inp : Input) (k : Nat) :
    (componentsLoop inp k).FH.length = (componentsLoop inp k).flip.length ∧
    ∀ f, (componentsLoop inp k).flip.getD f false = true →
      (componentsLoop inp k).FH.getD f false = true := by
  induction k with
  | zero =>
    constructor
    · simp [componentsLoop, Global.init]
    · intro f hf
      have : (componentsLoop inp 0).flip.getD f false = false := getD_replicate_false _ _
      rw [this] at hf
      cases hf
  | succ k ih =>
    obtain ⟨hlen, h⟩ := ih
    have h0 : (seedInit inp k (componentsLoop inp k)).FH.length
        = (seedInit inp k (componentsLoop inp k)).flip.length ∧
        ∀ f, (seedInit inp k (componentsLoop inp k)).flip.getD f false = true →
          (seedInit inp k (componentsLoop inp k)).FH.getD f false = true := by
      unfold seedInit
      exact ⟨by simp only [List.length_set]; exact hlen,
        fun f hf => flip_marks_set _ _ _ _ hlen h f hf⟩
    have := iterate_flip_marks inp (bfsFuel inp) _ h0.1 h0.2
    rw [← bfs_eq_iterate] at this
    exact this

/-- For every input, a face resolved after `k` components is resolved after any later
number of components. -/
theorem componentsLoop_FH_mono (inp : Input) (k j : Nat) (f : Nat)
    (h : (componentsLoop inp k).FH.getD f false = true) :
    (componentsLoop inp (k + j)).FH.getD f false = true := by
  induction j with
  | zero => exact h
  | succ j ih =>
    show (componentsLoop inp (k + j + 1)).FH.getD f false = true
    rw [componentsLoop_succ_FH, bfs_eq_iterate]
    apply (iterate_resolved inp _ _ f _).1
    unfold seedInit
    exact getD_set_true _ _ _ ih

/-! ### The bounding box in closed form -/

theorem getD_map_range3 (g : Nat → ℚ) (k : Nat) (hk : k < 3) :
    ((List.range 3).map g).getD k 0 = g k := by
  interval_cases k <;> rfl

/-- The fold of `bounding_box` from a box given by its coordinate functions. -/
theorem bounding_box_fold (inp : Input) (A : List (List Nat)) (lo hi : Nat → ℚ) :
    A.foldl
      (fun BB row =>
        (List.range 3).foldl
          (fun BB c =>
            let v := row.getD c 0
            ((List.range 3).map (fun k => min (BB.1.getD k 0) (inp.Vat v k)),
             (List.range 3).map (fun k => max (BB.2.getD k 0) (inp.Vat v k))))
          BB)
      ((List.range 3).map lo, (List.range 3).map hi)
    = ((List.range 3).map (fun k => (axisCoords inp A k).foldl min (lo k)),
       (List.range 3).map (fun k => (axisCoords inp A k).foldl max (hi k))) := by
  induction A generalizing lo hi with
  | nil => rfl
  | cons row A ih =>
    rw [List.foldl_cons, bounding_box_row]
    have h1 : (List.range 3).map (fun k => min (min (min (((List.range 3).map lo, (List.range 3).map hi).1.getD k 0)
        (inp.Vat (row.getD 0 0) k)) (inp.Vat (row.getD 1 0) k)) (inp.Vat (row.getD 2 0) k))
        = (List.range 3).map (fun k => min (min (min (lo k)
        (inp.Vat (row.getD 0 0) k)) (inp.Vat (row.getD 1 0) k)) (inp.Vat (row.getD 2 0) k)) := by
      apply List.map_congr_left
      intro k hk
      simp only
      rw [getD_map_range3 lo k (List.mem_range.mp hk)]
    have h2 : (List.range 3).map (fun k => max (max (max (((List.range 3).map lo, (List.range 3).map hi).2.getD k 0)
        (inp.Vat (row.getD 0 0) k)) (inp.Vat (row.getD 1 0) k)) (inp.Vat (row.getD 2 0) k))
        = (List.range 3).map (fun k => max (max (max (hi k)
        (inp.Vat (row.getD 0 0) k)) (inp.Vat (row.getD 1 0) k)) (inp.Vat (row.getD 2 0) k)) := by
      apply List.map_congr_left
      intro k hk
      simp only
      rw [getD_map_range3 hi k (List.mem_range.mp hk)]
    rw [h1, h2, ih]
    rfl

theorem bounding_box_eq (inp : Input) (A : List (List Nat)) :
    bounding_box inp A
      = ((List.range 3).map (fun k =>
          (axisCoords inp A k).foldl min 100000000000000000000000000),
         (List.range 3).map (fun k =>
          (axisCoords inp A k).foldl max (-100000000000000000000000000))) := by
  unfold bounding_box
  exact bounding_box_fold inp A (fun _ => 100000000000000000000000000)
    (fun _ => -100000000000000000000000000)

theorem foldl_min_le_init (l : List ℚ) (a : ℚ) : l.foldl min a ≤ a := by
  induction l generalizing a with
  | nil => exact le_refl _
  | cons x l ih => exact le_trans (ih _) (min_le_left _ _)

theorem foldl_max_ge_init (l : List ℚ) (a : ℚ) : a ≤ l.foldl max a := by
  induction l generalizing a with
  | nil => exact le_refl _
  | cons x l ih => exact le_trans (le_max_left _ _) (ih _)

theorem foldl_min_le_mem (l : List ℚ) (a x : ℚ) (hx : x ∈ l) : l.foldl min a ≤ x := by
  induction l generalizing a with
  | nil => cases hx
  | cons y l ih =>
    rcases List.mem_cons.mp hx with rfl | h
    · rw [List.foldl_cons]; exact le_trans (foldl_min_le_init _ _) (min_le_right _ _)
    · exact ih _ h

theorem foldl_max_ge_mem (l : List ℚ) (a x : ℚ) (hx : x ∈ l) : x ≤ l.foldl max a := by
  induction l generalizing a with
  | nil => cases hx
  | cons y l ih =>
    rcases List.mem_cons.mp hx with rfl | h
    · rw [List.foldl_cons]; exact le_trans (le_max_right _ _) (foldl_max_ge_init _ _)
    · exact ih _ h

theorem foldl_min_mem (l : List ℚ) (a : ℚ) : l.foldl min a = a ∨ l.foldl min a ∈ l := by
  induction l generalizing a with
  | nil => exact Or.inl rfl
  | cons y l ih =>
    rcases ih (min a y) with h | h
    · rw [List.foldl_cons, h]
      rcases min_choice a y with h' | h'
      · exact Or.inl h'
      · right; rw [h']; exact List.mem_cons_self _ _
    · exact Or.inr (List.mem_cons_of_mem _ h)

theorem foldl_max_mem (l : List ℚ) (a : ℚ) : l.foldl max a = a ∨ l.foldl max a ∈ l := by
  induction l generalizing a with
  | nil => exact Or.inl rfl
  | cons y l ih =>
    rcases ih (max a y) with h | h
    · rw [List.foldl_cons, h]
      rcases max_choice a y with h' | h'
      · exact Or.inl h'
      · right; rw [h']; exact List.mem_cons_self _ _
    · exact Or.inr (List.mem_cons_of_mem _ h)

/-- The value `listMin l` is an entry of a non-empty `l` and a lower bound of `l`. -/
theorem listMin_spec (l : List ℚ) (hl : l ≠ []) :
    listMin l ∈ l ∧ ∀ x ∈ l, listMin l ≤ x := by
  cases l with
  | nil => exact absurd rfl hl
  | cons y t =>
    unfold listMin
    refine ⟨?_, fun x hx => foldl_min_le_mem _ _ x hx⟩
    rcases foldl_min_mem (y :: t) y with h | h
    · simp only [List.headD_cons]; rw [h]; exact List.mem_cons_self _ _
    · exact h

/-- The value `listMax l` is an entry of a non-empty `l` and an upper bound of `l`. -/
theorem listMax_spec (l : List ℚ) (hl : l ≠ []) :
    listMax l ∈ l ∧ ∀ x ∈ l, x ≤ listMax l := by
  cases l with
  | nil => exact absurd rfl hl
  | cons y t =>
    unfold listMax
    refine ⟨?_, fun x hx => foldl_max_ge_mem _ _ x hx⟩
    rcases foldl_max_mem (y :: t) y with h | h
    · simp only [List.headD_cons]; rw [h]; exact List.mem_cons_self _ _
    · exact h

theorem foldl_min_eq_listMin (l : List ℚ) (hl : l ≠ []) (B : ℚ) (hB : ∀ x ∈ l, x ≤ B) :
    l.foldl min B = listMin l := by
  obtain ⟨hmem, hle⟩ := listMin_spec l hl
  apply le_antisymm
  · exact foldl_min_le_mem l B _ hmem
  · rcases foldl_min_mem l B with h | h
    · rw [h]; exact hB _ hmem
    · exact hle _ h

theorem foldl_max_eq_listMax (l : List ℚ) (hl : l ≠ []) (B : ℚ) (hB : ∀ x ∈ l, B ≤ x) :
    l.foldl max B = listMax l := by
  obtain ⟨hmem, hle⟩ := listMax_spec l hl
  apply le_antisymm
  · rcases foldl_max_mem l B with h | h
    · rw [h]; exact hB _ hmem
    · exact hle _ h
  · exact foldl_max_ge_mem l B _ hmem

theorem axisCoords_ne_nil (inp : Input) (A : List (List Nat)) (hA : A ≠ []) (k : Nat) :
    axisCoords inp A k ≠ [] := by
  cases A with
  | nil => exact absurd rfl hA
  | cons row A =>
    unfold axisCoords
    rw [List.flatMap_cons]
    have h3 : List.range 3 = [0, 1, 2] := rfl
    rw [h3]
    simp

theorem maxCoeff_pos (g : Nat → ℚ) :
    maxCoeff ((List.range 3).map g) > 0 ↔ ∃ k < 3, g k > 0 := by
  unfold maxCoeff
  rw [getD_map_range3 g 0 (by omega), getD_map_range3 g 1 (by omega),
    getD_map_range3 g 2 (by omega)]
  constructor
  · intro h
    rcases lt_max_iff.mp h with h | h
    · rcases lt_max_iff.mp h with h | h
      · exact ⟨0, by omega, h⟩
      · exact ⟨1, by omega, h⟩
    · exact ⟨2, by omega, h⟩
  · rintro ⟨k, hk, h⟩
    interval_cases k
    · exact lt_max_iff.mpr (Or.inl (lt_max_iff.mpr (Or.inl h)))
    · exact lt_max_iff.mpr (Or.inl (lt_max_iff.mpr (Or.inr h)))
    · exact lt_max_iff.mpr (Or.inr h)

/-! ### The half-edges pushed on the queue -/

theorem pushUnvisited_append (EH : List Bool) (Q : List Nat) (ne : Nat) :
    ∃ L, pushUnvisited EH Q ne = Q ++ L ∧ L.length ≤ 1 := by
  unfold pushUnvisited
  split
  · exact ⟨[ne], rfl, by simp⟩
  · exact ⟨[], by simp, by simp⟩

theorem pushedInStep_nil (inp : Input) (s : State) (h : s.Q = []) : pushedInStep inp s = [] := by
  unfold pushedInStep
  rw [h]

theorem pushedInStep_cons (inp : Input) (s : State) (e : Nat) (Q : List Nat)
    (h : s.Q = e :: Q) : pushedInStep inp s = (bfsStep inp s).Q.drop Q.length := by
  unfold pushedInStep
  rw [h]

/-- An iteration leaves the rest of the queue followed by what it pushes; it pushes at most
two half-edges, and only when it resolves a face. -/
theorem bfsStep_Q (inp : Input) (s : State) (e : Nat) (Q : List Nat) (hQ : s.Q = e :: Q) :
    (bfsStep inp s).Q = Q ++ pushedInStep inp s ∧
    (pushedInStep inp s).length + 2 * s.FHcount ≤ 2 * (bfsStep inp s).FHcount := by
  rw [pushedInStep_cons inp s e Q hQ]
  rcases bfsStep_cases inp s e Q hQ with ⟨_, hs⟩ | ⟨_, _, hs⟩ | ⟨_, i, _, hs⟩
  · rw [hs]; simp
  · rw [hs]; simp
  · rw [hs]
    unfold crossState
    simp only
    obtain ⟨L1, h1, hl1⟩ := pushUnvisited_append (s.EH.set e true) Q
      ((inp.ue e).getD i 0 % inp.m + (((inp.ue e).getD i 0 / inp.m + 1) % 3) * inp.m)
    rw [h1]
    obtain ⟨L2, h2, hl2⟩ := pushUnvisited_append (s.EH.set e true) (Q ++ L1)
      ((inp.ue e).getD i 0 % inp.m + (((inp.ue e).getD i 0 / inp.m + 2) % 3) * inp.m)
    rw [h2, List.append_assoc, List.drop_left]
    refine ⟨rfl, ?_⟩
    rw [List.length_append]
    omega

theorem pushedInStep_length (inp : Input) (s : State) :
    (pushedInStep inp s).length + 2 * s.FHcount ≤ 2 * (bfsStep inp s).FHcount := by
  cases hQ : s.Q with
  | nil => rw [pushedInStep_nil inp s hQ, bfsStep_nil inp s hQ]; simp
  | cons e Q => exact (bfsStep_Q inp s e Q hQ).2

/-- For every input, the pushes of a traversal are bounded by the faces it resolves. -/
theorem pushedUpTo_length (inp : Input) (s0 : State) (k : Nat) :
    (pushedUpTo inp s0 k).length + 2 * s0.FHcount
      ≤ s0.Q.length + 2 * ((bfsStep inp)^[k] s0).FHcount := by
  induction k with
  | zero => exact le_refl _
  | succ k ih =>
    rw [pushedUpTo, List.length_append, Function.iterate_succ_apply']
    have := pushedInStep_length inp ((bfsStep inp)^[k] s0)
    omega

theorem count_false_lt (l : List Bool) (i : Nat) (h : l.getD i false = true) :
    l.count false + 1 ≤ l.length := by
  induction l generalizing i with
  | nil => simp at h
  | cons a l ih =>
    cases i with
    | zero =>
      have : a = true := by simpa using h
      subst this
      have := count_le_length_bool l false
      simp [List.count_cons]
      omega
    | succ i =>
      have h' : l.getD i false = true := by simpa using h
      have := ih i h'
      cases a <;> simp [List.count_cons] <;> omega

/-- The counter of resolved faces never exceeds the number of marks that are set. -/
theorem bfsStep_count_bound (inp : Input) (s : State) (hm : 0 < inp.m)
    (hlen : s.FH.length = inp.m) (h : s.FHcount + s.FH.count false ≤ inp.m) :
    (bfsStep inp s).FHcount + (bfsStep inp s).FH.count false ≤ inp.m ∧
      s.FHcount ≤ (bfsStep inp s).FHcount := by
  cases hQ : s.Q with
  | nil => rw [bfsStep_nil inp s hQ]; exact ⟨h, le_refl _⟩
  | cons e Q =>
    rcases bfsStep_cases inp s e Q hQ with ⟨_, hs⟩ | ⟨_, _, hs⟩ | ⟨_, i, hn, hs⟩
    · rw [hs]; exact ⟨h, le_refl _⟩
    · rw [hs]; exact ⟨h, le_refl _⟩
    · obtain ⟨_, hFH⟩ := nextFaceSearch_some inp s.FH _ e i hn
      have hnf : (inp.ue e).getD i 0 % inp.m < s.FH.length := by
        rw [hlen]; exact Nat.mod_lt _ hm
      have hc := count_false_set s.FH _ hFH hnf
      rw [hs]
      unfold crossState
      simp only
      omega

theorem iterate_count_bound (inp : Input) (n : Nat) (s : State) (hm : 0 < inp.m)
    (hlen : s.FH.length = inp.m) (h : s.FHcount + s.FH.count false ≤ inp.m) :
    ((bfsStep inp)^[n] s).FHcount + ((bfsStep inp)^[n] s).FH.count false ≤ inp.m ∧
      s.FHcount ≤ ((bfsStep inp)^[n] s).FHcount := by
  induction n generalizing s with
  | zero => exact ⟨h, le_refl _⟩
  | succ n ih =>
    rw [Function.iterate_succ_apply]
    obtain ⟨h1, h2⟩ := bfsStep_count_bound inp s hm hlen h
    obtain ⟨h3, h4⟩ := ih (bfsStep inp s) (by rw [bfsStep_lenFH]; exact hlen) h1
    exact ⟨h3, le_trans h2 h4⟩

/-- For every input the marks `FH` of the run have `m` entries. -/
theorem componentsLoop_lenFH (inp : Input) (k : Nat) :
    (componentsLoop inp k).FH.length = inp.m := by
  rw [(componentsLoop_flip_marks inp k).1, (componentsLoop_shape inp k).1]

/-- C1: when the helper results are well formed (every half-edge is listed by
its undirected edge, the labelling is adjacency-closed with correct counts and
every seed lies in its component), row `i` of `G` is row `J[i]` of `F` with its
vertex indices in reversed order if the returned `flip[J[i]]` is true, and row
`J[i]` of `F` unchanged if it is false. -/
theorem C1_rows_follow_flip (inp : Input) (hL : EdgesListed inp) (hA : AdjacencyClosed inp)
    (hLab : LabelsOK inp) (hS : SeedsOK inp) (i : Nat)
    (hi : i < (outer_hull_legacy inp).G.length) :
    ((outer_hull_legacy inp).flip.getD ((outer_hull_legacy inp).J.getD i 0) false = true →
        (outer_hull_legacy inp).G.getD i []
          = (inp.row ((outer_hull_legacy inp).J.getD i 0)).reverse) ∧
    ((outer_hull_legacy inp).flip.getD ((outer_hull_legacy inp).J.getD i 0) false = false →
        (outer_hull_legacy inp).G.getD i [] = inp.row ((outer_hull_legacy inp).J.getD i 0)) := by
  have hG := G_eq_map_J inp hL hA hLab hS
  have hiJ : i < (outer_hull_legacy inp).J.length := by
    rw [hG, List.length_map] at hi; exact hi
  have hrow : (outer_hull_legacy inp).G.getD i []
      = orientedRow inp (outer_hull_legacy inp).flip ((outer_hull_legacy inp).J.getD i 0) := by
    rw [List.getD_eq_getElem _ _ hi, List.getD_eq_getElem _ _ hiJ]
    simp only [hG, List.getElem_map]
  rw [hrow]
  unfold orientedRow
  constructor
  · intro h; rw [if_pos h]
  · intro h; rw [if_neg (by rw [h]; exact Bool.false_ne_true)]

/-- C1 at the three-page book: row `1` of `G` is face `1` reversed. -/
theorem C1_rows_follow_flip_witness :
    (EdgesListed bookMesh ∧ AdjacencyClosed bookMesh ∧ LabelsOK bookMesh ∧ SeedsOK bookMesh ∧
      1 < (outer_hull_legacy bookMesh).G.length) ∧
    (((outer_hull_legacy bookMesh).flip.getD ((outer_hull_legacy bookMesh).J.getD 1 0) false
          = true →
        (outer_hull_legacy bookMesh).G.getD 1 []
          = (bookMesh.row ((outer_hull_legacy bookMesh).J.getD 1 0)).reverse) ∧
    ((outer_hull_legacy bookMesh).flip.getD ((outer_hull_legacy bookMesh).J.getD 1 0) false
          = false →
        (outer_hull_legacy bookMesh).G.getD 1 []
          = bookMesh.row ((outer_hull_legacy bookMesh).J.getD 1 0))) :=
  ⟨by decide, C1_rows_follow_flip bookMesh (by decide) (by decide) (by decide) (by decide) 1
    (by decide)⟩

/-- C2: `G` and `J` have the same number of rows and `flip` has `m` entries
for every input; when the helper results are well formed, every entry of `J` is
a face index below `m` and no face index occurs twice in `J`. -/
theorem C2_output_shape (inp : Input) :
    (outer_hull_legacy inp).G.length = (outer_hull_legacy inp).J.length ∧
    (outer_hull_legacy inp).flip.length = inp.m ∧
    (EdgesListed inp → AdjacencyClosed inp → LabelsOK inp → SeedsOK inp →
      (∀ j ∈ (outer_hull_legacy inp).J, j < inp.m) ∧ (outer_hull_legacy inp).J.Nodup) := by
  obtain ⟨h1, _, h3⟩ := componentsLoop_shape inp inp.ncc
  refine ⟨?_, h1, ?_⟩
  · unfold outer_hull_legacy collect
    simp only
    apply flatMap_length_congr
    intro id _
    split
    · exact h3 id
    · rfl
  · intro hL hA hLab hS
    exact ⟨fun j hj => (mem_J inp hL hA hLab hS j hj).1, J_nodup inp hL hA hLab hS⟩

/-- C2 at the three-page book. -/
theorem C2_output_shape_witness :
    (EdgesListed bookMesh ∧ AdjacencyClosed bookMesh ∧ LabelsOK bookMesh ∧ SeedsOK bookMesh) ∧
    (∀ j ∈ (outer_hull_legacy bookMesh).J, j < bookMesh.m) ∧
      (outer_hull_legacy bookMesh).J.Nodup :=
  ⟨by decide, (C2_output_shape bookMesh).2.2 (by decide) (by decide) (by decide) (by decide)⟩

/-- C3, as the code has it: when the dequeued half-edge `e` is not yet visited
(its edge having between `1` and `2^31 - 1` half-edges and `diIM(e)` being a
position of the list), only the half-edge one step from the position of `e`, in
the chosen direction, is examined.  If its face is not resolved the traversal
crosses into it; if it is resolved the edge gets no successor, whatever the
other faces of the walk are. -/
theorem C3_next_face_is_one_step (inp : Input) (s : State) (e : Nat) (Q : List Nat)
    (hQ : s.Q = e :: Q) (hE : s.EH.getD e false = false)
    (hval : 0 < (inp.ue e).length) (hbound : (inp.ue e).length < 2 ^ 31)
    (hd : inp.diIM e < (inp.ue e).length) :
    (s.FH.getD ((inp.ue e).getD (oneStepPosition (inp.diIM e) (inp.ue e).length
          ((inp.uE2C.getD (inp.EMAP.getD e 0) []).getD (inp.diIM e) false)
          (s.flip.getD (e % inp.m) false)) 0 % inp.m) false = false →
      bfsStep inp s = crossState inp s e Q
        ((inp.ue e).getD (oneStepPosition (inp.diIM e) (inp.ue e).length
          ((inp.uE2C.getD (inp.EMAP.getD e 0) []).getD (inp.diIM e) false)
          (s.flip.getD (e % inp.m) false)) 0)) ∧
    (s.FH.getD ((inp.ue e).getD (oneStepPosition (inp.diIM e) (inp.ue e).length
          ((inp.uE2C.getD (inp.EMAP.getD e 0) []).getD (inp.diIM e) false)
          (s.flip.getD (e % inp.m) false)) 0 % inp.m) false = true →
      bfsStep inp s = { s with Q := Q, EH := s.EH.set e true }) := by
  have hsearch := nextFaceSearch_eq inp s.FH (s.flip.getD (e % inp.m) false) e hval hbound hd
  constructor
  · intro h
    rw [if_neg (by rw [h]; exact Bool.false_ne_true)] at hsearch
    rcases bfsStep_cases inp s e Q hQ with ⟨h1, _⟩ | ⟨_, h1, _⟩ | ⟨_, i, h1, hs⟩
    · rw [hE] at h1; cases h1
    · rw [hsearch] at h1; cases h1
    · rw [hsearch] at h1
      injection h1 with h1
      rw [hs, ← h1]
  · intro h
    rw [if_pos h] at hsearch
    rcases bfsStep_cases inp s e Q hQ with ⟨h1, _⟩ | ⟨_, _, hs⟩ | ⟨_, i, h1, _⟩
    · rw [hE] at h1; cases h1
    · exact hs
    · rw [hsearch] at h1; cases h1

/-- C3 at the mesh with the interior triangle, six iterations into the
traversal: half-edge `11` of face `1` is dequeued, the face one step away is
face `0`, already resolved, and the edge gets no successor. -/
theorem C3_next_face_is_one_step_witness :
    ((traversalState finMesh 0 6).Q = 11 :: [5, 10] ∧
      (traversalState finMesh 0 6).EH.getD 11 false = false ∧
      0 < (finMesh.ue 11).length ∧ (finMesh.ue 11).length < 2 ^ 31 ∧
      finMesh.diIM 11 < (finMesh.ue 11).length) ∧
    (((traversalState finMesh 0 6).FH.getD ((finMesh.ue 11).getD
          (oneStepPosition (finMesh.diIM 11) (finMesh.ue 11).length
            ((finMesh.uE2C.getD (finMesh.EMAP.getD 11 0) []).getD (finMesh.diIM 11) false)
            ((traversalState finMesh 0 6).flip.getD (11 % finMesh.m) false)) 0 % finMesh.m)
          false = false →
        bfsStep finMesh (traversalState finMesh 0 6)
          = crossState finMesh (traversalState finMesh 0 6) 11 [5, 10]
            ((finMesh.ue 11).getD (oneStepPosition (finMesh.diIM 11) (finMesh.ue 11).length
              ((finMesh.uE2C.getD (finMesh.EMAP.getD 11 0) []).getD (finMesh.diIM 11) false)
              ((traversalState finMesh 0 6).flip.getD (11 % finMesh.m) false)) 0)) ∧
      ((traversalState finMesh 0 6).FH.getD ((finMesh.ue 11).getD
          (oneStepPosition (finMesh.diIM 11) (finMesh.ue 11).length
            ((finMesh.uE2C.getD (finMesh.EMAP.getD 11 0) []).getD (finMesh.diIM 11) false)
            ((traversalState finMesh 0 6).flip.getD (11 % finMesh.m) false)) 0 % finMesh.m)
          false = true →
        bfsStep finMesh (traversalState finMesh 0 6)
          = { traversalState finMesh 0 6 with
              Q := [5, 10], EH := (traversalState finMesh 0 6).EH.set 11 true })) :=
  ⟨by decide, C3_next_face_is_one_step finMesh (traversalState finMesh 0 6) 11 [5, 10]
    (by decide) (by decide) (by decide) (by decide) (by decide)⟩

/-- C3 as stated fails: in the same state the walk around the edge of the
dequeued, unvisited half-edge `11` contains a half-edge whose face is not
resolved (position `1`, half-edge `14` of face `4`), so the rule of the
specification selects it; the code finds no successor and resolves no face. -/
theorem C3_counterexample :
    (traversalState finMesh 0 6).Q.head? = some 11 ∧
    (traversalState finMesh 0 6).EH.getD 11 false = false ∧
    walkFirstUnresolved finMesh (traversalState finMesh 0 6).FH
      ((traversalState finMesh 0 6).flip.getD (11 % finMesh.m) false) 11 = some 1 ∧
    (finMesh.ue 11).getD 1 0 % finMesh.m = 4 ∧
    (traversalState finMesh 0 6).FH.getD 4 false = false ∧
    nextFaceSearch finMesh (traversalState finMesh 0 6).FH
      ((traversalState finMesh 0 6).flip.getD (11 % finMesh.m) false) 11 = none ∧
    (bfsStep finMesh (traversalState finMesh 0 6)).FH = (traversalState finMesh 0 6).FH ∧
    (outer_hull_legacy finMesh).flip.length = 5 ∧ (outer_hull_legacy finMesh).J = [0, 1, 2, 3] := by
  decide

/-- C4: in a run with well-formed helper results, whenever an iteration of
the traversal crosses from the half-edge `e = (f,c)` to the half-edge
`(nf,nc)`, the two joining the same two distinct vertices, the faces `f` and
`nf`, oriented by the returned flips, run along that edge in opposite
directions: source and destination of the edge according to `f` are
destination and source according to `nf`, and these directed edges belong to
the rows that `flip` selects for `f` and `nf` (the row of `F`, reversed when
the flip is set). -/
theorem C4_crossing_opposite (inp : Input) (hL : EdgesListed inp) (hA : AdjacencyClosed inp)
    (hLab : LabelsOK inp) (hS : SeedsOK inp) (id : Nat) (hid : id < inp.ncc)
    (k e i : Nat) (Q : List Nat)
    (hQ : (traversalState inp id k).Q = e :: Q)
    (hE : (traversalState inp id k).EH.getD e false = false)
    (hn : nextFaceSearch inp (traversalState inp id k).FH
      ((traversalState inp id k).flip.getD (e % inp.m) false) e = some i)
    (hdist : halfEdgeSrc inp e ≠ halfEdgeDst inp e)
    (hsame : sameEndpoints inp e ((inp.ue e).getD i 0))
    (hrow : (inp.row (e % inp.m)).length = 3)
    (hrow' : (inp.row ((inp.ue e).getD i 0 % inp.m)).length = 3) :
    edgeSource inp ((outer_hull_legacy inp).flip.getD (e % inp.m) false) (e % inp.m) (e / inp.m)
      = edgeDest inp ((outer_hull_legacy inp).flip.getD ((inp.ue e).getD i 0 % inp.m) false)
          ((inp.ue e).getD i 0 % inp.m) ((inp.ue e).getD i 0 / inp.m) ∧
    edgeDest inp ((outer_hull_legacy inp).flip.getD (e % inp.m) false) (e % inp.m) (e / inp.m)
      = edgeSource inp ((outer_hull_legacy inp).flip.getD ((inp.ue e).getD i 0 % inp.m) false)
          ((inp.ue e).getD i 0 % inp.m) ((inp.ue e).getD i 0 / inp.m) ∧
    (edgeSource inp ((outer_hull_legacy inp).flip.getD (e % inp.m) false) (e % inp.m)
        (e / inp.m),
      edgeDest inp ((outer_hull_legacy inp).flip.getD (e % inp.m) false) (e % inp.m)
        (e / inp.m))
      ∈ directedEdges (orientedRow inp (outer_hull_legacy inp).flip (e % inp.m)) ∧
    (edgeDest inp ((outer_hull_legacy inp).flip.getD (e % inp.m) false) (e % inp.m)
        (e / inp.m),
      edgeSource inp ((outer_hull_legacy inp).flip.getD (e % inp.m) false) (e % inp.m)
        (e / inp.m))
      ∈ directedEdges (orientedRow inp (outer_hull_legacy inp).flip
          ((inp.ue e).getD i 0 % inp.m)) := by
  have hT := TInv_traversalState inp hL hA hLab hS id hid k
  have hm := SeedsOK_pos inp hS id hid
  have hf : (traversalState inp id k).FH.getD (e % inp.m) false = true :=
    hT.owner e (by rw [hQ]; exact List.mem_cons_self _ _)
  obtain ⟨_, hnf⟩ := nextFaceSearch_some inp _ _ e i hn
  have hstep : traversalState inp id (k + 1)
      = crossState inp (traversalState inp id k) e Q ((inp.ue e).getD i 0) := by
    rw [traversalState_succ]
    rcases bfsStep_cases inp _ e Q hQ with ⟨h1, _⟩ | ⟨_, h1, _⟩ | ⟨_, i', h1, hs⟩
    · rw [hE] at h1; cases h1
    · rw [hn] at h1; cases h1
    · rw [hn] at h1; injection h1 with h1; rw [hs, h1]
  obtain ⟨hflf, hflnf⟩ := crossState_flips inp (traversalState inp id k) e Q
    ((inp.ue e).getD i 0) hm hT.lenFlip hf hnf
  rw [← hstep] at hflf hflnf
  have hFHf : (traversalState inp id (k + 1)).FH.getD (e % inp.m) false = true := by
    rw [traversalState_succ]; exact (bfsStep_resolved inp _ _ hf).1
  have hFHnf : (traversalState inp id (k + 1)).FH.getD ((inp.ue e).getD i 0 % inp.m) false
      = true := by
    rw [hstep]
    unfold crossState
    exact getD_set_self _ _ _ _ (by rw [hT.lenFH]; exact Nat.mod_lt _ hm)
  have hfinf := returned_flip_eq inp hL hA hLab hS id hid (k + 1) _ hFHf
  have hfinnf := returned_flip_eq inp hL hA hLab hS id hid (k + 1) _ hFHnf
  rw [hflf] at hfinf
  rw [hflnf, ← hfinf] at hfinnf
  have hopp := cross_opposite inp ((outer_hull_legacy inp).flip.getD (e % inp.m) false)
    (e % inp.m) (e / inp.m) ((inp.ue e).getD i 0 % inp.m) ((inp.ue e).getD i 0 / inp.m)
    hdist hsame
  rw [← hfinnf] at hopp
  refine ⟨hopp.1, hopp.2, edge_mem_directedEdges inp _ _ _ hrow, ?_⟩
  rw [hopp.1, hopp.2]
  exact edge_mem_directedEdges inp _ _ _ hrow'

/-- C4 at the three-page book: the third iteration crosses from half-edge `6`
of face `0` to half-edge `7` of face `1`, both running from vertex `0` to
vertex `1` in `F`. -/
theorem C4_crossing_opposite_witness :
    (EdgesListed bookMesh ∧ AdjacencyClosed bookMesh ∧ LabelsOK bookMesh ∧ SeedsOK bookMesh ∧
      0 < bookMesh.ncc ∧ (traversalState bookMesh 0 2).Q = 6 :: [] ∧
      (traversalState bookMesh 0 2).EH.getD 6 false = false ∧
      nextFaceSearch bookMesh (traversalState bookMesh 0 2).FH
        ((traversalState bookMesh 0 2).flip.getD (6 % bookMesh.m) false) 6 = some 1 ∧
      halfEdgeSrc bookMesh 6 ≠ halfEdgeDst bookMesh 6 ∧
      sameEndpoints bookMesh 6 ((bookMesh.ue 6).getD 1 0) ∧
      (bookMesh.row (6 % bookMesh.m)).length = 3 ∧
      (bookMesh.row ((bookMesh.ue 6).getD 1 0 % bookMesh.m)).length = 3) ∧
    edgeSource bookMesh ((outer_hull_legacy bookMesh).flip.getD (6 % bookMesh.m) false)
        (6 % bookMesh.m) (6 / bookMesh.m)
      = edgeDest bookMesh
          ((outer_hull_legacy bookMesh).flip.getD ((bookMesh.ue 6).getD 1 0 % bookMesh.m) false)
          ((bookMesh.ue 6).getD 1 0 % bookMesh.m) ((bookMesh.ue 6).getD 1 0 / bookMesh.m) :=
  ⟨by decide, (C4_crossing_opposite bookMesh (by decide) (by decide) (by decide) (by decide) 0
    (by decide) 2 6 1 [] (by decide) (by decide) (by decide) (by decide) (by decide)
    (by decide) (by decide)).1⟩

theorem add_mul_div (m f c : Nat) (hf : f < m) : (f + c * m) / m = c := by
  rw [Nat.add_mul_div_right _ _ (by omega), Nat.div_eq_of_lt hf, Nat.zero_add]

theorem sameEndpoints_of_oriented (inp : Input) (a b : Bool) (f c g c' : Nat) (hf : f < inp.m)
    (hg : g < inp.m)
    (h1 : edgeSource inp a f c = edgeSource inp b g c')
    (h2 : edgeDest inp a f c = edgeDest inp b g c') :
    sameEndpoints inp (f + c * inp.m) (g + c' * inp.m) := by
  unfold sameEndpoints halfEdgeSrc halfEdgeDst
  rw [mod_add_mul _ _ _ hf, mod_add_mul _ _ _ hg, add_mul_div _ _ _ hf, add_mul_div _ _ _ hg]
  simp only [edgeSource, edgeDest] at h1 h2
  cases a <;> cases b <;> simp only [Bool.false_eq_true, if_false, if_true] at h1 h2
  · exact Or.inl ⟨h1, h2⟩
  · exact Or.inr ⟨h1, h2⟩
  · exact Or.inr ⟨h2, h1⟩
  · exact Or.inl ⟨h2, h1⟩

theorem degenerate_of_source_eq_dest (inp : Input) (b : Bool) (g c : Nat) (hg : g < inp.m)
    (h : edgeSource inp b g c = edgeDest inp b g c) :
    halfEdgeSrc inp (g + c * inp.m) = halfEdgeDst inp (g + c * inp.m) := by
  unfold halfEdgeSrc halfEdgeDst
  rw [mod_add_mul _ _ _ hg, add_mul_div _ _ _ hg]
  simp only [edgeSource, edgeDest] at h
  cases b <;> simp only [Bool.false_eq_true, if_false, if_true] at h
  · exact h
  · exact h.symm

/-- A flip assignment that orients the whole mesh consistently orients every
list of faces consistently. -/
theorem ConsistentOn_of_ConsistentUnder (inp : Input) (R : List Nat) (σ : List Bool)
    (h : ConsistentUnder inp σ) : ConsistentOn inp R σ :=
  fun e1 h1 e2 h2 hne _ hsame => h e1 h1 e2 h2 hne hsame

/-- An output face belongs to a kept component. -/
theorem kept_of_mem_J (inp : Input) (hL : EdgesListed inp) (hA : AdjacencyClosed inp)
    (hLab : LabelsOK inp) (hS : SeedsOK inp) (j : Nat) (hj : j ∈ (outer_hull_legacy inp).J) :
    (nestLoop inp (componentsLoop inp inp.ncc).vG inp.ncc).keep.getD (inp.C.getD j 0) false
      = true := by
  have hg := GInv_componentsLoop inp hL hA hLab hS inp.ncc (le_refl _)
  unfold outer_hull_legacy collect at hj
  simp only [List.mem_flatMap, List.mem_range] at hj
  obtain ⟨id, hid, hj⟩ := hj
  split at hj
  · rename_i hk
    rw [hg.resJ id hid, List.mem_filter] at hj
    rw [((mem_IM inp hLab id hid j).mp hj.1).2]
    exact hk
  · cases hj

/-- When the output faces can be oriented consistently, two distinct output rows
have no directed edge in common. -/
theorem no_common_directed_edge (inp : Input) (hTab : EdgeTablesValid inp)
    (hA : AdjacencyClosed inp) (hLab : LabelsOK inp) (hS : SeedsOK inp)
    (hTri : TrianglesOK inp) (hN : NonDegenerate inp) (σ : List Bool)
    (hσ : ConsistentOn inp (outer_hull_legacy inp).J σ) (i j : Nat) (hij : i ≠ j)
    (hi : i < (outer_hull_legacy inp).G.length) (hj : j < (outer_hull_legacy inp).G.length)
    (d : Nat × Nat) (hdi : d ∈ directedEdges ((outer_hull_legacy inp).G.getD i []))
    (hdj : d ∈ directedEdges ((outer_hull_legacy inp).G.getD j [])) : False := by
  obtain ⟨hL, hE, hNd, hSE⟩ := hTab
  have hTab : EdgeTablesValid inp := ⟨hL, hE, hNd, hSE⟩
  have hG := G_eq_map_J inp hL hA hLab hS
  have hiJ : i < (outer_hull_legacy inp).J.length := by
    rw [hG, List.length_map] at hi; exact hi
  have hjJ : j < (outer_hull_legacy inp).J.length := by
    rw [hG, List.length_map] at hj; exact hj
  have hrowi : (outer_hull_legacy inp).G.getD i []
      = orientedRow inp (outer_hull_legacy inp).flip ((outer_hull_legacy inp).J.getD i 0) := by
    rw [List.getD_eq_getElem _ _ hi, List.getD_eq_getElem _ _ hiJ]
    simp only [hG, List.getElem_map]
  have hrowj : (outer_hull_legacy inp).G.getD j []
      = orientedRow inp (outer_hull_legacy inp).flip ((outer_hull_legacy inp).J.getD j 0) := by
    rw [List.getD_eq_getElem _ _ hj, List.getD_eq_getElem _ _ hjJ]
    simp only [hG, List.getElem_map]
  rw [hrowi] at hdi
  rw [hrowj] at hdj
  have hfg : (outer_hull_legacy inp).J.getD i 0 ≠ (outer_hull_legacy inp).J.getD j 0 := by
    intro h
    rw [List.getD_eq_getElem _ _ hiJ, List.getD_eq_getElem _ _ hjJ] at h
    exact hij ((J_nodup inp hL hA hLab hS).getElem_inj_iff.mp h)
  have hfJ := getD_mem (outer_hull_legacy inp).J i 0 hiJ
  have hgJ := getD_mem (outer_hull_legacy inp).J j 0 hjJ
  generalize (outer_hull_legacy inp).J.getD i 0 = f at *
  generalize (outer_hull_legacy inp).J.getD j 0 = g at *
  obtain ⟨hf, hfFH⟩ := mem_J inp hL hA hLab hS _ hfJ
  obtain ⟨hg, hgFH⟩ := mem_J inp hL hA hLab hS _ hgJ
  have hkeepf := kept_of_mem_J inp hL hA hLab hS f hfJ
  have hkeepg := kept_of_mem_J inp hL hA hLab hS g hgJ
  have hrowf : (inp.row f).length = 3 := hTri _ (getD_mem inp.F f [] hf)
  have hrowg : (inp.row g).length = 3 := hTri _ (getD_mem inp.F g [] hg)
  obtain ⟨c, hc, hdc⟩ := directedEdges_orientedRow inp _ f hrowf d hdi
  obtain ⟨c', hc', hdc'⟩ := directedEdges_orientedRow inp _ g hrowg d hdj
  rw [hdc] at hdc'
  injection hdc' with hsrc hdst
  have he1 : f + c * inp.m < 3 * inp.m := add_mul_lt _ _ _ hf hc
  have he2 : g + c' * inp.m < 3 * inp.m := add_mul_lt _ _ _ hg hc'
  have hne : f + c * inp.m ≠ g + c' * inp.m :=
    fun h => hfg (halfedge_inj _ _ _ _ _ hf hg h).1
  have hsame := sameEndpoints_of_oriented inp _ _ f c g c' hf hg hsrc hdst
  -- the two faces carry the same label
  have hEM := (hSE _ he1 _ he2).mpr hsame
  have hlab : inp.C.getD f 0 = inp.C.getD g 0 := by
    have h1 := hL _ he1
    have h2 : g + c' * inp.m ∈ inp.ue (f + c * inp.m) := by
      have := hL _ he2
      unfold Input.ue at this ⊢
      rw [hEM]; exact this
    have := hA _ (ue_mem_uE2E inp _ (List.ne_nil_of_mem h1)) _ h1 _ h2
    rw [mod_add_mul _ _ _ hf, mod_add_mul _ _ _ hg] at this
    exact this
  have hκf := final_flip_orientable inp hTab hA hLab hS hN _ σ hσ f hf
    (fun f' hf' hC hFH => resolved_mem_J_of_kept inp hL hA hLab hS f' hf' hFH
      (by rw [hC]; exact hkeepf)) hfFH
  have hκg := final_flip_orientable inp hTab hA hLab hS hN _ σ hσ g hg
    (fun f' hf' hC hFH => resolved_mem_J_of_kept inp hL hA hLab hS f' hf' hFH
      (by rw [hC]; exact hkeepg)) hgFH
  rw [hlab, ← hκg] at hκf
  have hopp := hσ _ he1 _ he2 hne ⟨by rw [mod_add_mul _ _ _ hf]; exact hfJ,
    by rw [mod_add_mul _ _ _ hg]; exact hgJ⟩ hsame
  rw [mod_add_mul _ _ _ hf, mod_add_mul _ _ _ hg, add_mul_div _ _ _ hf,
    add_mul_div _ _ _ hg] at hopp
  apply hN _ he2
  apply degenerate_of_source_eq_dest inp ((outer_hull_legacy inp).flip.getD g false) g c' hg
  rw [← hsrc]
  generalize (outer_hull_legacy inp).flip.getD f false = a at *
  generalize (outer_hull_legacy inp).flip.getD g false = b at *
  generalize σ.getD f false = sf at *
  generalize σ.getD g false = sg at *
  cases a <;> cases b <;> cases sf <;> cases sg <;> simp at hκf
  all_goals first
    | exact hopp.1
    | exact hopp.2

/-- C6, as the code has it: with well-formed helper results the traversal of
component `id` ends with an empty queue; every face it has resolved is
labelled `id`; the rows gathered for the component are the resolved faces among
those labelled `id`, one row each, `FHcount` in number, and `FHcount` is at
most `counts[id]` (it need not reach it). -/
theorem C6_resolved_within_component (inp : Input) (hL : EdgesListed inp)
    (hA : AdjacencyClosed inp) (hLab : LabelsOK inp) (hS : SeedsOK inp) (id : Nat)
    (hid : id < inp.ncc) :
    (bfs inp (bfsFuel inp) (seedInit inp id (componentsLoop inp id))).Q = [] ∧
    (∀ f, (componentsLoop inp id).FH.getD f false = false →
      (bfs inp (bfsFuel inp) (seedInit inp id (componentsLoop inp id))).FH.getD f false = true →
      inp.C.getD f 0 = id) ∧
    (componentsLoop inp (id + 1)).vJ.getD id []
      = (inp.IM id).filter (fun f =>
          (bfs inp (bfsFuel inp) (seedInit inp id (componentsLoop inp id))).FH.getD f false) ∧
    ((componentsLoop inp (id + 1)).vJ.getD id []).length
      = (bfs inp (bfsFuel inp) (seedInit inp id (componentsLoop inp id))).FHcount ∧
    ((componentsLoop inp (id + 1)).vG.getD id []).length
      = (bfs inp (bfsFuel inp) (seedInit inp id (componentsLoop inp id))).FHcount ∧
    (bfs inp (bfsFuel inp) (seedInit inp id (componentsLoop inp id))).FHcount
      ≤ inp.counts.getD id 0 := by
  have hg := GInv_componentsLoop inp hL hA hLab hS id (by omega)
  have hg' := GInv_componentsLoop inp hL hA hLab hS (id + 1) (by omega)
  have hT := TInv_bfs inp hL hA id _ (bfsFuel inp) _ (TInv_seedInit inp hS id hid _ hg)
  have hJ := hg'.resJ id (by omega)
  rw [componentsLoop_succ_FH] at hJ
  have hlen : ((componentsLoop inp (id + 1)).vJ.getD id []).length
      = (bfs inp (bfsFuel inp) (seedInit inp id (componentsLoop inp id))).FHcount := by
    rw [hJ, ← gathered_eq inp hLab id hid, gathered_length inp hLab id hid, hT.count]
  refine ⟨traversal_terminates inp hL hA hLab hS id hid, ?_, hJ, hlen, ?_, ?_⟩
  · intro f h0 h1
    by_contra hC
    rw [hT.frameFH f hC, h0] at h1
    cases h1
  · rw [(componentsLoop_shape inp (id + 1)).2.2 id]; exact hlen
  · rw [hT.count, hLab.2 id hid]
    unfold resolvedCount labelCount
    apply List.countP_mono_left
    intro f _ hf
    rw [Bool.and_eq_true] at hf
    exact hf.1

/-- C6 at the mesh with the interior triangle. -/
theorem C6_resolved_within_component_witness :
    (EdgesListed finMesh ∧ AdjacencyClosed finMesh ∧ LabelsOK finMesh ∧ SeedsOK finMesh ∧
      0 < finMesh.ncc) ∧
    (bfs finMesh (bfsFuel finMesh) (seedInit finMesh 0 (componentsLoop finMesh 0))).FHcount
      ≤ finMesh.counts.getD 0 0 :=
  ⟨by decide, (C6_resolved_within_component finMesh (by decide) (by decide) (by decide)
    (by decide) 0 (by decide)).2.2.2.2.2⟩

/-- C6 as stated fails: on the tetrahedron with an interior triangle (a
well-formed, adjacency-closed input with one component) the traversal ends with
an empty queue while face `4`, labelled `0`, is not resolved; the component
yields `4` rows and `counts[0]` is `5`. -/
theorem C6_counterexample :
    (EdgesListed finMesh ∧ AdjacencyClosed finMesh ∧ LabelsOK finMesh ∧ SeedsOK finMesh) ∧
    (bfs finMesh (bfsFuel finMesh) (seedInit finMesh 0 (componentsLoop finMesh 0))).Q = [] ∧
    finMesh.C.getD 4 0 = 0 ∧
    (bfs finMesh (bfsFuel finMesh) (seedInit finMesh 0 (componentsLoop finMesh 0))).FH.getD 4
      false = false ∧
    ((componentsLoop finMesh 1).vJ.getD 0 []).length = 4 ∧
    finMesh.counts.getD 0 0 = 5 := by
  decide

/-- C7, as the code has it: in a run with well-formed helper results no
half-edge of component `id` is marked before its traversal; a mark, once set,
stays set, so no half-edge is marked twice; and when the traversal ends the
three half-edges of the seed are marked, of every other resolved face exactly
two half-edges are marked and one (that of corner `nc`, through which the face
was entered) is not, and no half-edge of an unresolved face is marked. -/
theorem C7_marked_half_edges (inp : Input) (hL : EdgesListed inp) (hA : AdjacencyClosed inp)
    (hLab : LabelsOK inp) (hS : SeedsOK inp) (id : Nat) (hid : id < inp.ncc) :
    (∀ f < inp.m, inp.C.getD f 0 = id → ∀ c < 3,
      (componentsLoop inp id).EH.getD (f + c * inp.m) false = false) ∧
    (∀ k e, (traversalState inp id k).EH.getD e false = true →
      (traversalState inp id (k + 1)).EH.getD e false = true) ∧
    (∀ c < 3, (traversalState inp id (bfsFuel inp)).EH.getD
      ((inp.outer_facet (inp.IM id)).1 + c * inp.m) false = true) ∧
    (∀ f < inp.m, inp.C.getD f 0 = id →
      (traversalState inp id (bfsFuel inp)).FH.getD f false = true →
      f ≠ (inp.outer_facet (inp.IM id)).1 →
      ∃ nc < 3, ∀ c < 3,
        (traversalState inp id (bfsFuel inp)).EH.getD (f + c * inp.m) false = decide (c ≠ nc)) ∧
    (∀ f < inp.m, inp.C.getD f 0 = id →
      (traversalState inp id (bfsFuel inp)).FH.getD f false = false →
      ∀ c < 3, (traversalState inp id (bfsFuel inp)).EH.getD (f + c * inp.m) false = false) := by
  have hg := GInv_componentsLoop inp hL hA hLab hS id (by omega)
  have hM := MInv_traversalState inp hL hA hLab hS id hid (bfsFuel inp)
  have hQ : (traversalState inp id (bfsFuel inp)).Q = [] := by
    rw [← bfs_eq_traversalState]; exact traversal_terminates inp hL hA hLab hS id hid
  refine ⟨?_, ?_, ?_, ?_, ?_⟩
  · intro f hf hfC c _
    cases hb : (componentsLoop inp id).EH.getD (f + c * inp.m) false
    · rfl
    · have := hg.marksEH _ hb
      rw [mod_add_mul _ _ _ hf] at this
      omega
  · intro k e h
    rw [traversalState_succ]
    exact bfsStep_EH_mono inp _ e h
  · intro c hc
    rcases hM.seedMarks c hc with h | h
    · exact h
    · rw [hQ] at h; cases h
  · intro f hf hfC hfFH hne
    obtain ⟨nc, hnc, h1, _, h3⟩ := hM.entered f hf hfC hfFH hne
    refine ⟨nc, hnc, ?_⟩
    intro c hc
    by_cases hcn : c = nc
    · subst hcn
      rw [h1]; simp
    · rcases h3 c hc hcn with h | h
      · rw [h]; simp [hcn]
      · rw [hQ] at h; cases h
  · intro f hf hfC hfFH c hc
    exact (hM.unresolved f hf hfC hfFH c hc).1

/-- C7 at the tetrahedron: face `3`, resolved and not the seed, has exactly
one unmarked half-edge when the traversal ends. -/
theorem C7_marked_half_edges_witness :
    (EdgesListed tetraMesh ∧ AdjacencyClosed tetraMesh ∧ LabelsOK tetraMesh ∧
      SeedsOK tetraMesh ∧ 0 < tetraMesh.ncc ∧ 3 < tetraMesh.m ∧ tetraMesh.C.getD 3 0 = 0 ∧
      (traversalState tetraMesh 0 (bfsFuel tetraMesh)).FH.getD 3 false = true ∧
      3 ≠ (tetraMesh.outer_facet (tetraMesh.IM 0)).1) ∧
    ∃ nc < 3, ∀ c < 3,
      (traversalState tetraMesh 0 (bfsFuel tetraMesh)).EH.getD (3 + c * tetraMesh.m) false
        = decide (c ≠ nc) :=
  ⟨by decide, (C7_marked_half_edges tetraMesh (by decide) (by decide) (by decide) (by decide) 0
    (by decide)).2.2.2.1 3 (by decide) (by decide) (by decide) (by decide)⟩

/-- C7 as stated fails: on the tetrahedron (well-formed, one component) the
traversal ends with an empty queue and every face resolved, while half-edge
`7 = (3,1)` of face `3` is unmarked in every state of the traversal: it is
marked zero times, not once. -/
theorem C7_counterexample :
    (EdgesListed tetraMesh ∧ AdjacencyClosed tetraMesh ∧ LabelsOK tetraMesh ∧
      SeedsOK tetraMesh) ∧
    (traversalState tetraMesh 0 (bfsFuel tetraMesh)).Q = [] ∧
    tetraMesh.C.getD 3 0 = 0 ∧
    (traversalState tetraMesh 0 (bfsFuel tetraMesh)).FH.getD 3 false = true ∧
    (∀ k < bfsFuel tetraMesh + 1, (traversalState tetraMesh 0 k).EH.getD (3 + 1 * tetraMesh.m)
      false = false) := by
  decide

/-- C8: with an adjacency-closed labelling, well-formed helper results and each
seed in its own component, a flip entry is written only for a face that is not
yet resolved, and the write resolves it: the seed of a component is unresolved
when its flip is written, and so is the face `nf` of every crossing.  A face
resolved earlier keeps its mark and its flip through the seed write and through
every iteration of the traversal, and the returned `flip[f]` is the value `f`
had at any moment from its resolution on. -/
theorem C8_flip_written_once (inp : Input) (hL : EdgesListed inp) (hA : AdjacencyClosed inp)
    (hLab : LabelsOK inp) (hS : SeedsOK inp) (id : Nat) (hid : id < inp.ncc) (f : Nat) :
    (componentsLoop inp id).FH.getD (inp.outer_facet (inp.IM id)).1 false = false ∧
    (∀ k e i Q, (traversalState inp id k).Q = e :: Q →
      (traversalState inp id k).EH.getD e false = false →
      nextFaceSearch inp (traversalState inp id k).FH
        ((traversalState inp id k).flip.getD (e % inp.m) false) e = some i →
      (traversalState inp id k).FH.getD ((inp.ue e).getD i 0 % inp.m) false = false ∧
        (traversalState inp id (k + 1)).FH.getD ((inp.ue e).getD i 0 % inp.m) false = true) ∧
    ((componentsLoop inp id).FH.getD f false = true →
      (seedInit inp id (componentsLoop inp id)).FH.getD f false = true ∧
      (seedInit inp id (componentsLoop inp id)).flip.getD f false
        = (componentsLoop inp id).flip.getD f false) ∧
    (∀ k, (traversalState inp id k).FH.getD f false = true →
      (traversalState inp id (k + 1)).FH.getD f false = true ∧
      (traversalState inp id (k + 1)).flip.getD f false
          = (traversalState inp id k).flip.getD f false ∧
        (outer_hull_legacy inp).flip.getD f false
          = (traversalState inp id k).flip.getD f false) := by
  have hseed := seed_unresolved inp hL hA hLab hS id hid
  refine ⟨hseed, ?_, ?_, ?_⟩
  · intro k e i Q hQ hE hn
    have hT := TInv_traversalState inp hL hA hLab hS id hid k
    have hm := SeedsOK_pos inp hS id hid
    obtain ⟨_, hnf⟩ := nextFaceSearch_some inp _ _ e i hn
    refine ⟨hnf, ?_⟩
    rw [traversalState_succ]
    rcases bfsStep_cases inp _ e Q hQ with ⟨h1, _⟩ | ⟨_, h1, _⟩ | ⟨_, i', h1, hs⟩
    · rw [hE] at h1; cases h1
    · rw [hn] at h1; cases h1
    · rw [hn] at h1
      injection h1 with h1
      rw [hs, ← h1]
      unfold crossState
      exact getD_set_self _ _ _ _ (by rw [hT.lenFH]; exact Nat.mod_lt _ hm)
  · intro h
    have hne : (inp.outer_facet (inp.IM id)).1 ≠ f := by
      rintro rfl; rw [hseed] at h; cases h
    exact ⟨getD_set_true _ _ _ h, getD_set_other _ _ _ _ _ hne⟩
  · intro k h
    rw [traversalState_succ]
    exact ⟨(bfsStep_resolved inp _ f h).1, (bfsStep_resolved inp _ f h).2,
      returned_flip_eq inp hL hA hLab hS id hid k f h⟩

/-- C8 at the three-page book: face `1`, resolved with flip `true` by the third
iteration, has `flip = true` in the result. -/
theorem C8_flip_written_once_witness :
    (EdgesListed bookMesh ∧ AdjacencyClosed bookMesh ∧ LabelsOK bookMesh ∧ SeedsOK bookMesh ∧
      0 < bookMesh.ncc ∧ (traversalState bookMesh 0 3).FH.getD 1 false = true ∧
      (traversalState bookMesh 0 3).flip.getD 1 false = true) ∧
    (outer_hull_legacy bookMesh).flip.getD 1 false
      = (traversalState bookMesh 0 3).flip.getD 1 false :=
  ⟨by decide, ((C8_flip_written_once bookMesh (by decide) (by decide) (by decide) (by decide) 0
    (by decide) 1).2.2.2 3 (by decide)).2.2⟩

/-- C9: if the input is a single component (`ncc = 1`, labels and counts
well formed, the edge map consistent) that is connected and in which every
undirected edge has exactly two incident half-edges running in opposite
directions, and the seed returned by `outer_facet` is a face with
`flip = false`, then `G` is `F`, `J` is `(0, 1, ..., m-1)` and `flip` is false
for every face. -/
theorem C9_closure (inp : Input) (hLab : LabelsOK inp) (hncc : inp.ncc = 1)
    (hE : EdgeMapOK inp) (hM : ClosedOriented inp 0) (hconn : ComponentConnected inp 0)
    (hseed : (inp.outer_facet (inp.IM 0)).1 < inp.m)
    (hflip : (inp.outer_facet (inp.IM 0)).2 = false) :
    outer_hull_legacy inp
      = { G := inp.F, J := List.range inp.m, flip := List.replicate inp.m false } := by
  have hm : 0 < inp.m := by omega
  have hC0 : ∀ f < inp.m, inp.C.getD f 0 = 0 := by
    intro f hf
    have := hLab.1 f hf
    omega
  have hL : EdgesListed inp := by
    intro e he
    obtain ⟨e', _, _, hue, _⟩ := hM e he (hC0 _ (Nat.mod_lt _ hm))
    rcases hue with h | h <;> rw [h] <;> simp
  have hA : AdjacencyClosed inp := by
    intro ue _ e1 _ e2 _
    rw [hC0 _ (Nat.mod_lt _ hm), hC0 _ (Nat.mod_lt _ hm)]
  have hS : SeedsOK inp := by
    intro id hid
    have : id = 0 := by omega
    subst this
    exact ⟨hseed, hC0 _ hseed⟩
  have hid : 0 < inp.ncc := by omega
  obtain ⟨hJ, hG⟩ := final_rows inp hL hA hLab hS hE 0 hid hM hconn
  have hIM : inp.IM 0 = List.range inp.m := by
    rw [IM_eq_filter inp hLab 0 hid, List.filter_eq_self]
    intro f hf
    rw [List.mem_range] at hf
    rw [hC0 f hf]; rfl
  rw [hflip, hIM] at hG
  rw [hIM] at hJ
  have hrows : (List.range inp.m).map (fun f => inp.row f) = inp.F := map_getD_range inp.F []
  simp only [Bool.false_eq_true, if_false] at hG
  rw [hrows] at hG
  have hflips : (componentsLoop inp inp.ncc).flip = List.replicate inp.m false := by
    apply eq_replicate_false _ _ (componentsLoop_shape inp inp.ncc).1
    intro f hf
    rw [(final_complete inp hL hA hLab hS hE 0 hid hM hconn f hf (hC0 f hf)).2, hflip]
  unfold outer_hull_legacy
  simp only
  rw [nestLoop_single inp _ hncc, hflips]
  unfold collect
  rw [hncc]
  rw [hncc] at hJ hG
  have hr : List.range 1 = [0] := rfl
  rw [hr]
  simp only [List.flatMap_cons, List.flatMap_nil, List.append_nil]
  have hk : [true].getD 0 false = true := rfl
  rw [if_pos hk, if_pos hk, hJ, hG]

/-- The tetrahedron is connected: the walk `0, 1, 2, 3` covers it. -/
theorem tetraMesh_connected : ComponentConnected tetraMesh 0 :=
  connected_of_walk tetraMesh 0 [0, 1, 2, 3] (by decide)

/-- C9 at the tetrahedron. -/
theorem C9_closure_witness :
    (LabelsOK tetraMesh ∧ tetraMesh.ncc = 1 ∧ EdgeMapOK tetraMesh ∧ ClosedOriented tetraMesh 0 ∧
      (tetraMesh.outer_facet (tetraMesh.IM 0)).1 < tetraMesh.m ∧
      (tetraMesh.outer_facet (tetraMesh.IM 0)).2 = false) ∧
    outer_hull_legacy tetraMesh
      = { G := tetraMesh.F, J := List.range tetraMesh.m,
          flip := List.replicate tetraMesh.m false } :=
  ⟨by decide, C9_closure tetraMesh (by decide) (by decide) (by decide) (by decide)
    tetraMesh_connected (by decide) (by decide)⟩

set_option maxRecDepth 100000 in
/-- Both cubes of the nesting scenario are traversed completely and without
flips; their blocks are the two face lists. -/
theorem cubes_components (inp : Input) (outerFirst : Bool) (hF : inp.F = cubesF)
    (hT : EdgeTablesValid inp) (hC : inp.C = cubesLabels outerFirst)
    (hcounts : inp.counts = [12, 12]) (hS : SeedsOK inp)
    (hflip : ∀ id < 2, (inp.outer_facet (inp.IM id)).2 = false) :
    (componentsLoop inp inp.ncc).flip = List.replicate 24 false ∧
    (componentsLoop inp inp.ncc).vG.getD (if outerFirst then 0 else 1) [] = outerCube ∧
    (componentsLoop inp inp.ncc).vG.getD (if outerFirst then 1 else 0) [] = innerCube ∧
    (componentsLoop inp inp.ncc).vJ.getD (if outerFirst then 0 else 1) [] = List.range 12 := by
  have hF' : inp.F = (nestedCubes outerFirst).F := hF
  have hC' : inp.C = (nestedCubes outerFirst).C := hC
  have hc' : inp.counts = (nestedCubes outerFirst).counts := hcounts
  have hncc : inp.ncc = 2 := by unfold Input.ncc; rw [hcounts]; rfl
  have hm : inp.m = 24 := by unfold Input.m; rw [hF]; rfl
  have hLab : LabelsOK inp :=
    LabelsOK_congr inp _ hF' hC' hc' (by cases outerFirst <;> decide)
  have hA : AdjacencyClosed inp :=
    adjacencyClosed_of_tables inp hT
      (LabelsFollowEdges_congr inp _ hF' hC' (by cases outerFirst <;> decide))
  have hM : ∀ id < 2, ClosedOriented inp id := by
    intro id hid
    apply closedOriented_of_tables inp hT id
    apply EdgePairing_congr inp _ hF' hC'
    have : id = 0 ∨ id = 1 := by omega
    rcases this with rfl | rfl <;> cases outerFirst <;> decide
  have hcover : ∀ id < 2, ∀ f < inp.m, inp.C.getD f 0 = id →
      f ∈ (if (id == 0) = outerFirst then [0, 1, 5, 4, 3, 2, 8, 9, 6, 7, 11, 10]
        else [12, 13, 17, 16, 15, 14, 20, 21, 18, 19, 23, 22]) := by
    rw [hm, hC]
    intro id hid
    have : id = 0 ∨ id = 1 := by omega
    rcases this with rfl | rfl <;> cases outerFirst <;> decide
  have hconn : ∀ id < 2, ComponentConnected inp id := by
    intro id hid
    apply connected_of_walkShares inp hT id _ (hcover id hid)
    rw [walkShares_congr inp (nestedCubes true) hF]
    split <;> decide
  obtain ⟨hL, hE, _, _⟩ := hT
  have hrows : ∀ id < 2, (componentsLoop inp inp.ncc).vJ.getD id [] = inp.IM id ∧
      (componentsLoop inp inp.ncc).vG.getD id [] = (inp.IM id).map (fun f => inp.row f) := by
    intro id hid
    obtain ⟨h1, h2⟩ := final_rows inp hL hA hLab hS hE id (by omega) (hM id hid) (hconn id hid)
    rw [hflip id hid] at h2
    exact ⟨h1, h2⟩
  have hrow : ∀ l : List Nat, l.map (fun f => inp.row f) = l.map (fun f => cubesF.getD f []) := by
    intro l
    unfold Input.row
    rw [hF]
  have hIM : ∀ id, inp.IM id = (nestedCubes outerFirst).IM id :=
    fun id => IM_congr inp _ hF' hC' hc' id
  refine ⟨?_, ?_, ?_, ?_⟩
  · apply eq_replicate_false _ _ (by rw [(componentsLoop_shape inp inp.ncc).1, hm])
    intro f hf
    have hlab : inp.C.getD f 0 < 2 := by rw [← hncc]; exact hLab.1 f (by omega)
    rw [(final_complete inp hL hA hLab hS hE _ (by omega) (hM _ hlab) (hconn _ hlab) f
      (by omega) rfl).2, hflip _ hlab]
  · cases outerFirst
    · show (componentsLoop inp inp.ncc).vG.getD 1 [] = _
      rw [(hrows 1 (by omega)).2, hIM, hrow]; decide
    · show (componentsLoop inp inp.ncc).vG.getD 0 [] = _
      rw [(hrows 0 (by omega)).2, hIM, hrow]; decide
  · cases outerFirst
    · show (componentsLoop inp inp.ncc).vG.getD 0 [] = _
      rw [(hrows 0 (by omega)).2, hIM, hrow]; decide
    · show (componentsLoop inp inp.ncc).vG.getD 1 [] = _
      rw [(hrows 1 (by omega)).2, hIM, hrow]; decide
  · cases outerFirst
    · show (componentsLoop inp inp.ncc).vJ.getD 1 [] = _
      rw [(hrows 1 (by omega)).1, hIM]; decide
    · show (componentsLoop inp inp.ncc).vJ.getD 0 [] = _
      rw [(hrows 0 (by omega)).1, hIM]; decide

/-- C10: for the two origin-centred cubes of side `2` and side `1`, each given
by its twelve outward triangles, with edge tables that are a unique-edge map of
the face list, a seed oracle that returns a face of the component with
`flip = false`, and a point-in-solid oracle that reports the sample of the
inner cube inside the outer cube and the sample of the outer cube not inside
the inner cube, `G` is the twelve triangles of the outer cube, `J` their
indices `0, ..., 11`, and all flips are false, whether the outer cube is
component `0` (`outerFirst`) or component `1`. -/
theorem C10_nested_cubes (inp : Input) (outerFirst : Bool) (hV : inp.V = cubesV)
    (hF : inp.F = cubesF) (hT : EdgeTablesValid inp) (hC : inp.C = cubesLabels outerFirst)
    (hcounts : inp.counts = [12, 12]) (hS : SeedsOK inp)
    (hflip : ∀ id < 2, (inp.outer_facet (inp.IM id)).2 = false)
    (hin : (inp.points_inside_component outerCube [innerSample]).getD 0 0 ≠ 0)
    (hout : (inp.points_inside_component innerCube [outerSample]).getD 0 0 = 0) :
    outer_hull_legacy inp
      = { G := outerCube, J := List.range 12, flip := List.replicate 24 false } := by
  obtain ⟨hfl, hGo, hGi, hJo⟩ := cubes_components inp outerFirst hF hT hC hcounts hS hflip
  have hncc : inp.ncc = 2 := by unfold Input.ncc; rw [hcounts]; rfl
  obtain ⟨hbb1, hbb2⟩ := cubes_boxes_overlap inp hV
  have hlen := (componentsLoop_shape inp inp.ncc).2.2
  unfold outer_hull_legacy
  simp only
  rw [hfl]
  cases outerFirst
  · simp only [Bool.false_eq_true, if_false] at hGo hGi hJo
    have hk : (nestLoop inp (componentsLoop inp inp.ncc).vG inp.ncc).keep = [false, true] := by
      rw [nestLoop_two inp _ hncc (by rw [hGo, hGi]; exact hbb2) (by rw [hGo, hGi]; exact hbb1),
        (cubes_samples inp hV _ 1).1 hGo, (cubes_samples inp hV _ 0).2 hGi, hGo, hGi,
        if_neg (by rw [hout]; exact fun h => h rfl), if_pos hin]
    rw [hk, hncc, collect_two, collect_two]
    have h0 : ([false, true] : List Bool).getD 0 false = false := rfl
    have h1 : ([false, true] : List Bool).getD 1 false = true := rfl
    simp only [h0, h1, Bool.false_eq_true, if_false, if_true, List.nil_append]
    rw [hncc] at hGo hJo
    rw [hGo, hJo]
  · simp only [if_true] at hGo hGi hJo
    have hk : (nestLoop inp (componentsLoop inp inp.ncc).vG inp.ncc).keep = [true, false] := by
      rw [nestLoop_two inp _ hncc (by rw [hGo, hGi]; exact hbb1) (by rw [hGo, hGi]; exact hbb2),
        (cubes_samples inp hV _ 1).2 hGi, hGo, if_pos hin]
    rw [hk, hncc, collect_two, collect_two]
    have h0 : ([true, false] : List Bool).getD 0 false = true := rfl
    have h1 : ([true, false] : List Bool).getD 1 false = false := rfl
    simp only [h0, h1, Bool.false_eq_true, if_false, if_true, List.append_nil]
    rw [hncc] at hGo hJo
    rw [hGo, hJo]

set_option maxRecDepth 100000 in
/-- C10 with the inner cube as component `0`. -/
theorem C10_nested_cubes_witness :
    ((nestedCubes false).V = cubesV ∧ (nestedCubes false).F = cubesF ∧
      EdgeTablesValid (nestedCubes false) ∧ (nestedCubes false).C = cubesLabels false ∧
      (nestedCubes false).counts = [12, 12] ∧ SeedsOK (nestedCubes false) ∧
      (∀ id < 2, ((nestedCubes false).outer_facet ((nestedCubes false).IM id)).2 = false)) ∧
    outer_hull_legacy (nestedCubes false)
      = { G := outerCube, J := List.range 12, flip := List.replicate 24 false } :=
  ⟨⟨rfl, rfl, by decide, rfl, rfl, by decide, by decide⟩,
    C10_nested_cubes (nestedCubes false) false rfl rfl (by decide) rfl rfl (by decide)
      (by decide) (by simp [nestedCubes]) (by simp [nestedCubes, innerSample, outerSample])⟩

theorem bounding_box_apart_outer :
    bounding_box apartCubes outerCube = ([-1, -1, -1], [1, 1, 1]) := by
  simp [bounding_box, Input.Vat, apartCubes, apartV, outerCube, List.range_succ, min_def,
    max_def]
  norm_num

theorem bounding_box_apart_inner :
    bounding_box apartCubes innerCube = ([7/2, -1/2, -1/2], [9/2, 1/2, 1/2]) := by
  simp [bounding_box, Input.Vat, apartCubes, apartV, innerCube, List.range_succ, min_def,
    max_def]
  norm_num

set_option maxRecDepth 100000 in
theorem apartCubes_disjoint :
    BoxesDisjoint apartCubes (componentsLoop apartCubes apartCubes.ncc).vG := by
  obtain ⟨_, h0, h1, _⟩ := cubes_components apartCubes true rfl (by decide) rfl rfl (by decide)
    (by decide)
  simp only [if_true] at h0 h1
  have hncc : apartCubes.ncc = 2 := rfl
  intro id hid oid hoid hne
  rw [hncc] at hid hoid
  have hcases : (id = 0 ∧ oid = 1) ∨ (id = 1 ∧ oid = 0) := by omega
  rcases hcases with ⟨rfl, rfl⟩ | ⟨rfl, rfl⟩
  · rw [h0, h1]
    unfold has_overlapping_bbox
    simp only [bounding_box_apart_outer, bounding_box_apart_inner]
    simp [maxCoeff, List.range_succ]
    norm_num
  · rw [h0, h1]
    unfold has_overlapping_bbox
    simp only [bounding_box_apart_outer, bounding_box_apart_inner]
    simp [maxCoeff, List.range_succ]
    norm_num

/-- C11: if no two distinct components have overlapping bounding boxes, then
every component is kept, whatever the point-in-solid oracle is (replacing the
oracle does not change the result), `G` and `J` are the concatenations of the
blocks of all components, and, when the helper results are well formed, every
resolved face has its index in `J` and its oriented row in `G`. -/
theorem C11_disjoint_boxes_keep_all (inp : Input)
    (hno : BoxesDisjoint inp (componentsLoop inp inp.ncc).vG) :
    (∀ id < inp.ncc,
      (nestLoop inp (componentsLoop inp inp.ncc).vG inp.ncc).keep.getD id false = true) ∧
    (∀ pic, outer_hull_legacy { inp with points_inside_component := pic }
      = outer_hull_legacy inp) ∧
    (outer_hull_legacy inp).G
      = (List.range inp.ncc).flatMap (fun id => (componentsLoop inp inp.ncc).vG.getD id []) ∧
    (outer_hull_legacy inp).J
      = (List.range inp.ncc).flatMap (fun id => (componentsLoop inp inp.ncc).vJ.getD id []) ∧
    (EdgesListed inp → AdjacencyClosed inp → LabelsOK inp → SeedsOK inp →
      ∀ f < inp.m, (componentsLoop inp inp.ncc).FH.getD f false = true →
        f ∈ (outer_hull_legacy inp).J ∧
          orientedRow inp (outer_hull_legacy inp).flip f ∈ (outer_hull_legacy inp).G) := by
  have hkeep : ∀ id < inp.ncc,
      (nestLoop inp (componentsLoop inp inp.ncc).vG inp.ncc).keep.getD id false = true := by
    intro id hid
    rw [nestLoop_disjoint inp _ hno inp.ncc (le_refl _)]
    exact getD_replicate_true _ _ hid
  refine ⟨hkeep, ?_, ?_, ?_, ?_⟩
  · intro pic
    have hno' : BoxesDisjoint { inp with points_inside_component := pic }
        (componentsLoop { inp with points_inside_component := pic } inp.ncc).vG := by
      rw [componentsLoop_oracle]
      exact hno
    rw [outer_hull_disjoint inp hno, outer_hull_disjoint _ hno']
    have hn : ({ inp with points_inside_component := pic } : Input).ncc = inp.ncc := rfl
    rw [hn, componentsLoop_oracle]
  · rw [outer_hull_disjoint inp hno]
  · rw [outer_hull_disjoint inp hno]
  · intro hL hA hLab hS f hf hFH
    have hJ := resolved_mem_J_of_kept inp hL hA hLab hS f hf hFH (hkeep _ (hLab.1 f hf))
    refine ⟨hJ, ?_⟩
    rw [G_eq_map_J inp hL hA hLab hS]
    exact List.mem_map_of_mem _ hJ

/-- C11 on two cubes that lie apart, with an oracle that answers "inside" for
every query: both components are kept, and the result is the same with any
other oracle. -/
theorem C11_disjoint_boxes_keep_all_witness :
    BoxesDisjoint apartCubes (componentsLoop apartCubes apartCubes.ncc).vG ∧
    (∀ id < apartCubes.ncc, (nestLoop apartCubes (componentsLoop apartCubes apartCubes.ncc).vG
      apartCubes.ncc).keep.getD id false = true) ∧
    (∀ pic, outer_hull_legacy { apartCubes with points_inside_component := pic }
      = outer_hull_legacy apartCubes) :=
  ⟨apartCubes_disjoint, (C11_disjoint_boxes_keep_all apartCubes apartCubes_disjoint).1,
    (C11_disjoint_boxes_keep_all apartCubes apartCubes_disjoint).2.1⟩

/-- C12: let the point-in-solid routine answer each query point independently
of the batch it is sent in, and let `containsComp id oid` (the boxes of `id`
and `oid` overlap and the oracle reports the sample point of `oid` inside the
surface of `id`) be irreflexive, asymmetric and transitive on the components.
Then after the nesting loop a component is discarded iff some component kept
at the end contains it, and it is kept iff no other component contains it. -/
theorem C12_strict_order_keep (inp : Input) (vG : List (List (List Nat)))
    (hbf : OracleBatchFree inp)
    (hirr : ∀ a < inp.ncc, ¬ containsComp inp vG a a)
    (hasym : ∀ a < inp.ncc, ∀ b < inp.ncc, containsComp inp vG a b → ¬ containsComp inp vG b a)
    (htr : ∀ a < inp.ncc, ∀ b < inp.ncc, ∀ c < inp.ncc,
      containsComp inp vG a b → containsComp inp vG b c → containsComp inp vG a c)
    (c : Nat) (hc : c < inp.ncc) :
    ((nestLoop inp vG inp.ncc).keep.getD c false = false ↔
      ∃ d < inp.ncc, (nestLoop inp vG inp.ncc).keep.getD d false = true ∧
        containsComp inp vG d c) ∧
    ((nestLoop inp vG inp.ncc).keep.getD c false = true ↔
      ∀ d < inp.ncc, d ≠ c → ¬ containsComp inp vG d c) := by
  have _ := hasym
  have hmax : ∀ t < inp.ncc, (∀ e < inp.ncc, ¬ containsComp inp vG e t) →
      (nestLoop inp vG inp.ncc).keep.getD t false = true := by
    intro t ht hnone
    by_contra hk
    have hk' : (nestLoop inp vG inp.ncc).keep.getD t false = false := by simpa using hk
    obtain ⟨d, hd, _, _, hcon⟩ := discarded_has_container inp hbf vG inp.ncc t ht hk'
    exact hnone d hd hcon
  have hfind : ∀ d < inp.ncc, containsComp inp vG d c →
      ∃ t < inp.ncc, (nestLoop inp vG inp.ncc).keep.getD t false = true ∧
        containsComp inp vG t c := by
    intro d hd hcon
    obtain ⟨t, ht, htc, htmax⟩ := exists_maximal_above inp.ncc (containsComp inp vG) hirr htr c hc
      _ d hd (le_refl _) hcon
    exact ⟨t, ht, hmax t ht htmax, htc⟩
  have hdisc : ∀ t < inp.ncc, (nestLoop inp vG inp.ncc).keep.getD t false = true →
      containsComp inp vG t c → (nestLoop inp vG inp.ncc).keep.getD c false = false := by
    intro t ht hkept hcon
    have hne : t ≠ c := by rintro rfl; exact hirr t ht hcon
    exact tester_discards inp hbf vG inp.ncc t c ht hc hne
      (nestLoop_keep_mono inp vG t inp.ncc (by omega) t hkept) hcon
  constructor
  · constructor
    · intro hk
      obtain ⟨d, hd, _, _, hcon⟩ := discarded_has_container inp hbf vG inp.ncc c hc hk
      exact hfind d hd hcon
    · rintro ⟨t, ht, hkept, hcon⟩
      exact hdisc t ht hkept hcon
  · constructor
    · intro hk d hd _ hcon
      obtain ⟨t, ht, hkept, htc⟩ := hfind d hd hcon
      rw [hdisc t ht hkept htc] at hk
      cases hk
    · intro hnone
      by_contra hk
      have hk' : (nestLoop inp vG inp.ncc).keep.getD c false = false := by simpa using hk
      obtain ⟨d, hd, hne, _, hcon⟩ := discarded_has_container inp hbf vG inp.ncc c hc hk'
      exact hnone d hd hne hcon

/-- C12 on the three nested triangles: the middle triangle (component `2`) is
discarded, because the outermost triangle (component `1`), kept at the end,
contains it. -/
theorem C12_strict_order_keep_witness :
    OracleBatchFree threeTriangles ∧
    (∀ a < threeTriangles.ncc, ¬ containsComp threeTriangles
      (componentsLoop threeTriangles threeTriangles.ncc).vG a a) ∧
    (∀ a < threeTriangles.ncc, ∀ b < threeTriangles.ncc,
      containsComp threeTriangles (componentsLoop threeTriangles threeTriangles.ncc).vG a b →
        ¬ containsComp threeTriangles (componentsLoop threeTriangles threeTriangles.ncc).vG b a) ∧
    (∀ a < threeTriangles.ncc, ∀ b < threeTriangles.ncc, ∀ c < threeTriangles.ncc,
      containsComp threeTriangles (componentsLoop threeTriangles threeTriangles.ncc).vG a b →
        containsComp threeTriangles (componentsLoop threeTriangles threeTriangles.ncc).vG b c →
        containsComp threeTriangles (componentsLoop threeTriangles threeTriangles.ncc).vG a c) ∧
    2 < threeTriangles.ncc ∧
    ((nestLoop threeTriangles (componentsLoop threeTriangles threeTriangles.ncc).vG
        threeTriangles.ncc).keep.getD 2 false = false ↔
      ∃ d < threeTriangles.ncc,
        (nestLoop threeTriangles (componentsLoop threeTriangles threeTriangles.ncc).vG
          threeTriangles.ncc).keep.getD d false = true ∧
        containsComp threeTriangles (componentsLoop threeTriangles threeTriangles.ncc).vG d 2) :=
  have hirr : ∀ a < threeTriangles.ncc, ¬ containsComp threeTriangles
      (componentsLoop threeTriangles threeTriangles.ncc).vG a a := fun a ha => by
    rw [threeTriangles_contains a a ha ha]; omega
  have hasym : ∀ a < threeTriangles.ncc, ∀ b < threeTriangles.ncc,
      containsComp threeTriangles (componentsLoop threeTriangles threeTriangles.ncc).vG a b →
        ¬ containsComp threeTriangles (componentsLoop threeTriangles threeTriangles.ncc).vG b a :=
    fun a ha b hb => by
      rw [threeTriangles_contains a b ha hb, threeTriangles_contains b a hb ha]; omega
  have htr : ∀ a < threeTriangles.ncc, ∀ b < threeTriangles.ncc, ∀ c < threeTriangles.ncc,
      containsComp threeTriangles (componentsLoop threeTriangles threeTriangles.ncc).vG a b →
        containsComp threeTriangles (componentsLoop threeTriangles threeTriangles.ncc).vG b c →
        containsComp threeTriangles (componentsLoop threeTriangles threeTriangles.ncc).vG a c :=
    fun a ha b hb c hc => by
      rw [threeTriangles_contains a b ha hb, threeTriangles_contains b c hb hc,
        threeTriangles_contains a c ha hc]; omega
  ⟨threeTriangles_batchFree, hirr, hasym, htr, by decide,
    (C12_strict_order_keep threeTriangles _ threeTriangles_batchFree hirr hasym htr 2
      (by decide)).1⟩

/-- C13: let the point-in-solid routine answer each query point independently
of the batch, let there be three components whose boxes overlap pairwise, and
let `a`, `b`, `c` be any assignment of the ids `0, 1, 2` such that the oracle
reports the samples of `b` and `c` inside `a`, the sample of `c` inside `b`, and
no other sample inside another component. Then the final keep-set is `{a}`. -/
theorem C13_three_level_nesting (inp : Input) (vG : List (List (List Nat)))
    (hbf : OracleBatchFree inp) (hncc : inp.ncc = 3) (a b c : Nat)
    (ha : a < 3) (hb : b < 3) (hc : c < 3) (hab : a ≠ b) (hac : a ≠ c) (hbc : b ≠ c)
    (hbox : ∀ x < 3, ∀ y < 3, x ≠ y →
      has_overlapping_bbox inp (vG.getD x []) (vG.getD y []) = true)
    (hAB : reportsInside inp vG a b) (hAC : reportsInside inp vG a c)
    (hBC : reportsInside inp vG b c) (hBA : ¬ reportsInside inp vG b a)
    (hCA : ¬ reportsInside inp vG c a) (hCB : ¬ reportsInside inp vG c b) :
    ∀ x < 3, ((nestLoop inp vG inp.ncc).keep.getD x false = true ↔ x = a) := by
  have _ := hBC
  have _ := hCB
  have hka : (nestLoop inp vG inp.ncc).keep.getD a false = true := by
    by_contra hk
    have hk' : (nestLoop inp vG inp.ncc).keep.getD a false = false := by simpa using hk
    obtain ⟨d, hd, hne, _, hcon⟩ := discarded_has_container inp hbf vG inp.ncc a
      (by omega) hk'
    have hd' : d = b ∨ d = c := by omega
    rcases hd' with rfl | rfl
    · exact hBA hcon.2
    · exact hCA hcon.2
  have hka' : (nestLoop inp vG a).keep.getD a false = true :=
    nestLoop_keep_mono inp vG a inp.ncc (by omega) a hka
  have hkb : (nestLoop inp vG inp.ncc).keep.getD b false = false :=
    tester_discards inp hbf vG inp.ncc a b (by omega) (by omega) hab hka'
      ⟨hbox a ha b hb hab, hAB⟩
  have hkc : (nestLoop inp vG inp.ncc).keep.getD c false = false :=
    tester_discards inp hbf vG inp.ncc a c (by omega) (by omega) hac hka'
      ⟨hbox a ha c hc hac, hAC⟩
  intro x hx
  have hx' : x = a ∨ x = b ∨ x = c := by omega
  rcases hx' with h | h | h
  · rw [h]; exact ⟨fun _ => rfl, fun _ => hka⟩
  · rw [h, hkb]; exact ⟨fun h => (by cases h), fun h => absurd h.symm hab⟩
  · rw [h, hkc]; exact ⟨fun h => (by cases h), fun h => absurd h.symm hac⟩

/-- C13 on the three nested triangles, where the outermost triangle is
component `1`, the middle one component `2`, the innermost component `0`. -/
theorem C13_three_level_nesting_witness :
    OracleBatchFree threeTriangles ∧ threeTriangles.ncc = 3 ∧
    (∀ x < 3, ∀ y < 3, x ≠ y → has_overlapping_bbox threeTriangles
      ((componentsLoop threeTriangles threeTriangles.ncc).vG.getD x [])
      ((componentsLoop threeTriangles threeTriangles.ncc).vG.getD y []) = true) ∧
    (reportsInside threeTriangles (componentsLoop threeTriangles threeTriangles.ncc).vG 1 2 ∧
      reportsInside threeTriangles (componentsLoop threeTriangles threeTriangles.ncc).vG 1 0 ∧
      reportsInside threeTriangles (componentsLoop threeTriangles threeTriangles.ncc).vG 2 0 ∧
      ¬ reportsInside threeTriangles (componentsLoop threeTriangles threeTriangles.ncc).vG 2 1 ∧
      ¬ reportsInside threeTriangles (componentsLoop threeTriangles threeTriangles.ncc).vG 0 1 ∧
      ¬ reportsInside threeTriangles (componentsLoop threeTriangles threeTriangles.ncc).vG 0 2) ∧
    ∀ x < 3, ((nestLoop threeTriangles (componentsLoop threeTriangles threeTriangles.ncc).vG
      threeTriangles.ncc).keep.getD x false = true ↔ x = 1) :=
  have hr := fun x y hx hy => threeTriangles_reports x y hx hy
  ⟨threeTriangles_batchFree, rfl, fun x hx y hy _ => threeTriangles_boxes x y hx hy,
    ⟨(hr 1 2 (by decide) (by decide)).mpr (by decide),
      (hr 1 0 (by decide) (by decide)).mpr (by decide),
      (hr 2 0 (by decide) (by decide)).mpr (by decide),
      fun h => absurd ((hr 2 1 (by decide) (by decide)).mp h) (by decide),
      fun h => absurd ((hr 0 1 (by decide) (by decide)).mp h) (by decide),
      fun h => absurd ((hr 0 2 (by decide) (by decide)).mp h) (by decide)⟩,
    C13_three_level_nesting threeTriangles _ threeTriangles_batchFree rfl 1 2 0
      (by decide) (by decide) (by decide) (by decide) (by decide) (by decide)
      (fun x hx y hy _ => threeTriangles_boxes x y hx hy)
      ((hr 1 2 (by decide) (by decide)).mpr (by decide))
      ((hr 1 0 (by decide) (by decide)).mpr (by decide))
      ((hr 2 0 (by decide) (by decide)).mpr (by decide))
      (fun h => absurd ((hr 2 1 (by decide) (by decide)).mp h) (by decide))
      (fun h => absurd ((hr 0 1 (by decide) (by decide)).mp h) (by decide))
      (fun h => absurd ((hr 0 2 (by decide) (by decide)).mp h) (by decide))⟩

/-- C14: every call of `points_inside_component` made by the nesting loop (for
the surface `vG[id]` of the tester `id` logged with it) carries exactly the
sample points of the components in its list `unresolved`, and every `oid` in
that list differs from `id`, has a box overlapping the box of `id`, and was
kept, as `id` was, at the moment of the call. So a component `oid` whose box
does not overlap the box of `id` is never among the components whose sample is
sent with the surface of `id`. -/
theorem C14_queries_only_overlapping (inp : Input) (vG : List (List (List Nat)))
    (call : Nat × List Nat × List (List ℚ))
    (h : call ∈ (nestLoop inp vG inp.ncc).calls) :
    call.2.2 = call.2.1.map (queryPoint inp vG) ∧
    (nestLoop inp vG call.1).keep.getD call.1 false = true ∧
    (∀ oid ∈ call.2.1, oid ≠ call.1 ∧
      has_overlapping_bbox inp (vG.getD call.1 []) (vG.getD oid []) = true ∧
      (nestLoop inp vG call.1).keep.getD oid false = true) ∧
    (∀ oid, has_overlapping_bbox inp (vG.getD call.1 []) (vG.getD oid []) = false →
      oid ∉ call.2.1) := by
  obtain ⟨_, hkept, hU, hq⟩ := nestLoop_calls inp vG inp.ncc call h
  refine ⟨hq, hkept, ?_, ?_⟩
  · intro oid hoid
    rw [hU] at hoid
    obtain ⟨_, h2, h3, h4⟩ := (mem_unresolvedOf inp vG _ _ oid).mp hoid
    exact ⟨h2, h4, h3⟩
  · intro oid hbox hoid
    rw [hU] at hoid
    obtain ⟨_, _, _, h4⟩ := (mem_unresolvedOf inp vG _ _ oid).mp hoid
    rw [hbox] at h4
    cases h4

/-- C14 on the call made for the first tester of the three nested triangles. -/
theorem C14_queries_only_overlapping_witness :
    ((0, unresolvedOf threeTriangles (componentsLoop threeTriangles threeTriangles.ncc).vG
        (nestLoop threeTriangles (componentsLoop threeTriangles threeTriangles.ncc).vG 0).keep 0,
      (unresolvedOf threeTriangles (componentsLoop threeTriangles threeTriangles.ncc).vG
        (nestLoop threeTriangles (componentsLoop threeTriangles threeTriangles.ncc).vG 0).keep
          0).map (queryPoint threeTriangles
            (componentsLoop threeTriangles threeTriangles.ncc).vG))
      ∈ (nestLoop threeTriangles (componentsLoop threeTriangles threeTriangles.ncc).vG
          threeTriangles.ncc).calls) ∧
    ∀ oid ∈ unresolvedOf threeTriangles (componentsLoop threeTriangles threeTriangles.ncc).vG
        (nestLoop threeTriangles (componentsLoop threeTriangles threeTriangles.ncc).vG 0).keep 0,
      oid ≠ 0 ∧
      has_overlapping_bbox threeTriangles
        ((componentsLoop threeTriangles threeTriangles.ncc).vG.getD 0 [])
        ((componentsLoop threeTriangles threeTriangles.ncc).vG.getD oid []) = true ∧
      (nestLoop threeTriangles (componentsLoop threeTriangles threeTriangles.ncc).vG 0).keep.getD
        oid false = true :=
  ⟨nestLoop_called threeTriangles _ threeTriangles.ncc 0 (by decide) (by decide),
    (C14_queries_only_overlapping threeTriangles _ _
      (nestLoop_called threeTriangles _ threeTriangles.ncc 0 (by decide) (by decide))).2.2.1⟩

/-- C15 (amended): for an input in which no two distinct components have
overlapping bounding boxes, `points_inside_component` is invoked once for every
component, in the order of the ids, each time with an empty list of query
points: no point is put to the oracle. -/
theorem C15_calls_without_query_points (inp : Input)
    (hno : BoxesDisjoint inp (componentsLoop inp inp.ncc).vG) :
    (nestLoop inp (componentsLoop inp inp.ncc).vG inp.ncc).calls
      = (List.range inp.ncc).map (fun id => (id, [], [])) ∧
    ∀ call ∈ (nestLoop inp (componentsLoop inp inp.ncc).vG inp.ncc).calls, call.2.2 = [] := by
  rw [nestLoop_disjoint inp _ hno inp.ncc (le_refl _)]
  refine ⟨rfl, ?_⟩
  intro call hcall
  simp only [List.mem_map] at hcall
  obtain ⟨id, _, rfl⟩ := hcall
  rfl

/-- C15 (amended) on two cubes that lie apart. -/
theorem C15_calls_without_query_points_witness :
    BoxesDisjoint apartCubes (componentsLoop apartCubes apartCubes.ncc).vG ∧
    (nestLoop apartCubes (componentsLoop apartCubes apartCubes.ncc).vG apartCubes.ncc).calls
      = (List.range apartCubes.ncc).map (fun id => (id, [], [])) :=
  ⟨apartCubes_disjoint, (C15_calls_without_query_points apartCubes apartCubes_disjoint).1⟩

/-- C15 as stated fails: for the two cubes that lie apart no two components
have overlapping boxes, and `points_inside_component` is invoked twice (once
with the surface of each cube and no query point), not zero times. -/
theorem C15_counterexample :
    BoxesDisjoint apartCubes (componentsLoop apartCubes apartCubes.ncc).vG ∧
    (nestLoop apartCubes (componentsLoop apartCubes apartCubes.ncc).vG apartCubes.ncc).calls
      = [(0, [], []), (1, [], [])] ∧
    (nestLoop apartCubes (componentsLoop apartCubes apartCubes.ncc).vG
      apartCubes.ncc).calls.length ≠ 0 := by
  refine ⟨apartCubes_disjoint, ?_, ?_⟩
  · rw [nestLoop_disjoint apartCubes _ apartCubes_disjoint apartCubes.ncc (le_refl _)]
    rfl
  · rw [nestLoop_disjoint apartCubes _ apartCubes_disjoint apartCubes.ncc (le_refl _)]
    decide

/-- C16: in the nesting loop an entry of `keep` that is set after a round was
set before it (entries only change from true to false); and once `keep[c]` is
false after `k` rounds it stays false, and in no later round (a call is
logged with its tester, the id of its round) is `c` the tester or among the
components whose sample is sent. -/
theorem C16_keep_only_decreases (inp : Input) (vG : List (List (List Nat))) :
    (∀ k c, (nestLoop inp vG (k + 1)).keep.getD c false = true →
      (nestLoop inp vG k).keep.getD c false = true) ∧
    (∀ k c, (nestLoop inp vG k).keep.getD c false = false →
      ∀ j, k ≤ j → (nestLoop inp vG j).keep.getD c false = false ∧
        ∀ call ∈ (nestLoop inp vG j).calls, k ≤ call.1 → call.1 ≠ c ∧ c ∉ call.2.1) := by
  have hstay : ∀ k c, (nestLoop inp vG k).keep.getD c false = false →
      ∀ j, k ≤ j → (nestLoop inp vG j).keep.getD c false = false := by
    intro k c hk j hkj
    by_contra hj
    have hj' : (nestLoop inp vG j).keep.getD c false = true := by
      cases h : (nestLoop inp vG j).keep.getD c false
      · exact absurd h hj
      · rfl
    rw [nestLoop_keep_mono inp vG k j hkj c hj'] at hk
    cases hk
  refine ⟨fun k c h => nestLoop_keep_mono inp vG k (k + 1) (by omega) c h, ?_⟩
  intro k c hk j hkj
  refine ⟨hstay k c hk j hkj, ?_⟩
  intro call hcall hround
  obtain ⟨_, hkept, hU, _⟩ := nestLoop_calls inp vG j call hcall
  have hc := hstay k c hk call.1 hround
  constructor
  · intro heq
    rw [heq] at hc hkept
    rw [hc] at hkept
    cases hkept
  · intro hmem
    rw [hU] at hmem
    obtain ⟨_, _, h3, _⟩ := (mem_unresolvedOf inp vG _ _ c).mp hmem
    rw [hc] at h3
    cases h3

/-- C16 on the three nested triangles: the innermost triangle (component `0`)
is discarded in the round of the outermost (component `1`) and plays no part
in the round of component `2`. -/
theorem C16_keep_only_decreases_witness :
    (nestLoop threeTriangles (componentsLoop threeTriangles threeTriangles.ncc).vG 2).keep.getD 0
      false = false ∧
    ((nestLoop threeTriangles (componentsLoop threeTriangles threeTriangles.ncc).vG 3).keep.getD 0
      false = false ∧
    ∀ call ∈ (nestLoop threeTriangles (componentsLoop threeTriangles threeTriangles.ncc).vG
        3).calls,
      2 ≤ call.1 → call.1 ≠ 0 ∧ 0 ∉ call.2.1) :=
  have hkept : (nestLoop threeTriangles (componentsLoop threeTriangles threeTriangles.ncc).vG
      1).keep.getD 1 false = true := by
    by_contra hk
    obtain ⟨d, hd, hne, _, hcon⟩ := discarded_has_container threeTriangles
      threeTriangles_batchFree _ 1 1 (by decide) (by simpa using hk)
    rw [threeTriangles_contains d 1 (by omega) (by decide)] at hcon
    omega
  have h0 : (nestLoop threeTriangles (componentsLoop threeTriangles threeTriangles.ncc).vG
      2).keep.getD 0 false = false :=
    tester_discards threeTriangles threeTriangles_batchFree _ 2 1 0 (by decide) (by decide)
      (by decide) hkept ((threeTriangles_contains 1 0 (by decide) (by decide)).mpr (by decide))
  ⟨h0, (C16_keep_only_decreases threeTriangles _).2 2 0 h0 3 (by decide)⟩

/-- C17: with well-formed helper results, `J` is the concatenation, over the
kept components in increasing id, of the resolved faces labelled with that id,
listed in increasing face index; each such block is strictly increasing. -/
theorem C17_J_blocks (inp : Input) (hL : EdgesListed inp) (hA : AdjacencyClosed inp)
    (hLab : LabelsOK inp) (hS : SeedsOK inp) :
    (outer_hull_legacy inp).J = (List.range inp.ncc).flatMap (fun id =>
      if (nestLoop inp (componentsLoop inp inp.ncc).vG inp.ncc).keep.getD id false then
        (List.range inp.m).filter (fun f =>
          inp.C.getD f 0 == id && (componentsLoop inp inp.ncc).FH.getD f false)
      else []) ∧
    ∀ id, List.Pairwise (fun f f' => f < f') ((List.range inp.m).filter (fun f =>
      inp.C.getD f 0 == id && (componentsLoop inp inp.ncc).FH.getD f false)) := by
  have hg := GInv_componentsLoop inp hL hA hLab hS inp.ncc (le_refl _)
  constructor
  · unfold outer_hull_legacy collect
    simp only
    apply List.flatMap_congr
    intro id hid
    rw [List.mem_range] at hid
    rw [hg.resJ id hid, IM_eq_filter inp hLab id hid, List.filter_filter]
    congr 1
    apply List.filter_congr
    intro f _
    exact Bool.and_comm _ _
  · intro id
    exact List.Pairwise.filter _ (List.pairwise_lt_range _)

/-- C17 on the tetrahedron with an interior triangle: the block of the single
component is `0, 1, 2, 3`. -/
theorem C17_J_blocks_witness :
    (EdgesListed finMesh ∧ AdjacencyClosed finMesh ∧ LabelsOK finMesh ∧ SeedsOK finMesh) ∧
    (outer_hull_legacy finMesh).J = [0, 1, 2, 3] ∧
    (outer_hull_legacy finMesh).J = (List.range finMesh.ncc).flatMap (fun id =>
      if (nestLoop finMesh (componentsLoop finMesh finMesh.ncc).vG finMesh.ncc).keep.getD id
          false then
        (List.range finMesh.m).filter (fun f =>
          finMesh.C.getD f 0 == id && (componentsLoop finMesh finMesh.ncc).FH.getD f false)
      else []) :=
  ⟨by decide, by decide,
    (C17_J_blocks finMesh (by decide) (by decide) (by decide) (by decide)).1⟩

/-! ## Renumbering the components -/

theorem renumbered_m (X Y : Input) (τ σ : Nat → Nat) (h : Renumbered X Y τ σ) : Y.m = X.m := by
  unfold Input.m
  rw [h.sameF]

/-- The traversal step reads the face list and the edge tables only. -/
theorem bfsStep_tables (X Y : Input) (hF : Y.F = X.F) (hE : Y.EMAP = X.EMAP)
    (hU : Y.uE2E = X.uE2E) (hC : Y.uE2C = X.uE2C) (s : State) : bfsStep Y s = bfsStep X s := by
  cases X; cases Y
  simp only at hF hE hU hC
  subst hF hE hU hC
  rfl

theorem iterate_tables (X Y : Input) (hF : Y.F = X.F) (hE : Y.EMAP = X.EMAP)
    (hU : Y.uE2E = X.uE2E) (hC : Y.uE2C = X.uE2C) (n : Nat) (s : State) :
    (bfsStep Y)^[n] s = (bfsStep X)^[n] s := by
  have : bfsStep Y = bfsStep X := funext (bfsStep_tables X Y hF hE hU hC)
  rw [this]

theorem ue_tables (X Y : Input) (hE : Y.EMAP = X.EMAP) (hU : Y.uE2E = X.uE2E) (e : Nat) :
    Y.ue e = X.ue e := by
  unfold Input.ue
  rw [hE, hU]

theorem orientedRow_tables (X Y : Input) (hF : Y.F = X.F) (flip flip' : List Bool) (f : Nat)
    (h : flip'.getD f false = flip.getD f false) :
    orientedRow Y flip' f = orientedRow X flip f := by
  unfold orientedRow Input.row
  rw [hF, h]

theorem renumbered_EdgesListed (X Y : Input) (τ σ : Nat → Nat) (h : Renumbered X Y τ σ)
    (hL : EdgesListed X) : EdgesListed Y := by
  intro e he
  rw [renumbered_m X Y τ σ h] at he
  rw [ue_tables X Y h.sameEMAP h.sameuE2E]
  exact hL e he

theorem renumbered_AdjacencyClosed (X Y : Input) (τ σ : Nat → Nat) (h : Renumbered X Y τ σ)
    (hN : ∀ ue ∈ X.uE2E, ue.Nodup ∧ ∀ x ∈ ue, x < 3 * X.m) (hA : AdjacencyClosed X) :
    AdjacencyClosed Y := by
  intro ue hue e1 h1 e2 h2
  rw [h.sameuE2E] at hue
  have hm : 0 < X.m := by
    have := (hN ue hue).2 e1 h1
    omega
  rw [renumbered_m X Y τ σ h, h.labels _ (Nat.mod_lt _ hm), h.labels _ (Nat.mod_lt _ hm),
    hA ue hue e1 h1 e2 h2]

theorem renumbered_label_iff (X Y : Input) (τ σ : Nat → Nat) (h : Renumbered X Y τ σ)
    (hLab : LabelsOK X) (f : Nat) (hf : f < X.m) (a : Nat) (ha : a < X.ncc) :
    Y.C.getD f 0 = τ a ↔ X.C.getD f 0 = a := by
  rw [h.labels f hf]
  constructor
  · intro heq
    have := congrArg σ heq
    rw [h.στ _ (hLab.1 f hf), h.στ a ha] at this
    exact this
  · intro heq
    rw [heq]

theorem renumbered_LabelsOK (X Y : Input) (τ σ : Nat → Nat) (h : Renumbered X Y τ σ)
    (hLab : LabelsOK X) : LabelsOK Y := by
  have hm := renumbered_m X Y τ σ h
  constructor
  · intro f hf
    rw [hm] at hf
    rw [h.sameNcc, h.labels f hf]
    exact h.τLt _ (hLab.1 f hf)
  · intro id hid
    rw [h.sameNcc] at hid
    have h1 := h.sizes (σ id) (h.σLt id hid)
    rw [h.τσ id hid] at h1
    rw [h1, hLab.2 _ (h.σLt id hid)]
    unfold labelCount
    rw [hm]
    apply List.countP_congr
    intro f hf
    have hf' := List.mem_range.mp hf
    have := renumbered_label_iff X Y τ σ h hLab f hf' (σ id) (h.σLt id hid)
    rw [h.τσ id hid] at this
    simp only [beq_iff_eq]
    exact this.symm

/-- The faces of component `a` of `X` are the faces of component `τ a` of `Y`. -/
theorem renumbered_IM (X Y : Input) (τ σ : Nat → Nat) (h : Renumbered X Y τ σ)
    (hLab : LabelsOK X) (a : Nat) (ha : a < X.ncc) : Y.IM (τ a) = X.IM a := by
  have hLab' := renumbered_LabelsOK X Y τ σ h hLab
  rw [IM_eq_filter Y hLab' (τ a) (by rw [h.sameNcc]; exact h.τLt a ha),
    IM_eq_filter X hLab a ha, renumbered_m X Y τ σ h]
  apply List.filter_congr
  intro f hf
  have hf' := List.mem_range.mp hf
  have := renumbered_label_iff X Y τ σ h hLab f hf' a ha
  by_cases hx : X.C.getD f 0 = a
  · rw [beq_iff_eq.mpr hx, beq_iff_eq.mpr (this.mpr hx)]
  · rw [beq_eq_false_iff_ne.mpr hx, beq_eq_false_iff_ne.mpr (fun h' => hx (this.mp h'))]

theorem renumbered_SeedsOK (X Y : Input) (τ σ : Nat → Nat) (h : Renumbered X Y τ σ)
    (hLab : LabelsOK X) (hS : SeedsOK X) : SeedsOK Y := by
  intro id hid
  rw [h.sameNcc] at hid
  have hIM := renumbered_IM X Y τ σ h hLab (σ id) (h.σLt id hid)
  rw [h.τσ id hid] at hIM
  obtain ⟨h1, h2⟩ := hS (σ id) (h.σLt id hid)
  rw [hIM, h.sameSeed, renumbered_m X Y τ σ h]
  refine ⟨h1, ?_⟩
  rw [h.labels _ h1, h2, h.τσ id hid]

/-! ## The traversal of a component reads the marks of that component only -/

theorem getD_set_agree {α : Type} (l l' : List α) (i : Nat) (v d : α)
    (hlen : l'.length = l.length) (j : Nat) (h : l'.getD j d = l.getD j d) :
    (l'.set i v).getD j d = (l.set i v).getD j d := by
  rw [getD_set_eq, getD_set_eq, hlen, h]

theorem nextFaceSearch_agree (inp : Input) (hL : EdgesListed inp) (hA : AdjacencyClosed inp)
    (id : Nat) (FH FH' : List Bool)
    (hFH : ∀ f < inp.m, inp.C.getD f 0 = id → FH'.getD f false = FH.getD f false)
    (flipf : Bool) (e : Nat) (he : e < 3 * inp.m) (heC : inp.C.getD (e % inp.m) 0 = id) :
    nextFaceSearch inp FH' flipf e = nextFaceSearch inp FH flipf e := by
  have hm : 0 < inp.m := by omega
  have hmem : e ∈ inp.ue e := hL e he
  have hpos : 0 < (inp.ue e).length := List.length_pos_of_mem hmem
  have hne : inp.ue e ≠ [] := List.ne_nil_of_length_pos hpos
  unfold nextFaceSearch
  simp only
  have hx : (inp.ue e).getD (nfei_new (inp.diIM e) (inp.ue e).length
      ((inp.uE2C.getD (inp.EMAP.getD e 0) []).getD (inp.diIM e) false) 1 flipf) 0 ∈ inp.ue e :=
    getD_mem _ _ _ (nfei_new_lt _ _ _ _ _ hpos)
  have hlab := hA _ (ue_mem_uE2E inp e hne) _ hx _ hmem
  rw [hFH _ (Nat.mod_lt _ hm) (hlab.trans heC)]

theorem Agree_step (inp : Input) (hL : EdgesListed inp) (hA : AdjacencyClosed inp) (id : Nat)
    (g : Global) (s t : State) (hT : TInv inp id g s) (h : Agree inp id s t) :
    Agree inp id (bfsStep inp s) (bfsStep inp t) := by
  cases hQ : s.Q with
  | nil =>
    rw [bfsStep_nil inp s hQ, bfsStep_nil inp t (by rw [h.queue, hQ])]
    exact h
  | cons e Q =>
    have hQt : t.Q = e :: Q := by rw [h.queue, hQ]
    have heQ : e ∈ s.Q := by rw [hQ]; exact List.mem_cons_self _ _
    obtain ⟨he, heC⟩ := hT.queue e heQ
    have hm : 0 < inp.m := by omega
    have hEHe := h.marksEH e he heC
    have hflipe := h.flips _ (Nat.mod_lt _ hm) heC
    have hsearch := nextFaceSearch_agree inp hL hA id s.FH t.FH h.marksFH
      (s.flip.getD (e % inp.m) false) e he heC
    have hEHset : ∀ e' < 3 * inp.m, inp.C.getD (e' % inp.m) 0 = id →
        (t.EH.set e true).getD e' false = (s.EH.set e true).getD e' false :=
      fun e' he' hC' => getD_set_agree _ _ _ _ _ h.lenEH e' (h.marksEH e' he' hC')
    rcases bfsStep_cases inp s e Q hQ with ⟨hv, hs⟩ | ⟨hv, hn, hs⟩ | ⟨hv, i, hn, hs⟩
    · rw [hs, bfsStep_visited inp t e Q hQt (by rw [hEHe]; exact hv)]
      exact ⟨rfl, h.lenFH, h.lenEH, h.lenFlip, h.marksFH, h.marksEH, h.flips⟩
    · rw [hs, bfsStep_none inp t e Q hQt (by rw [hEHe]; exact hv)
        (by rw [hflipe, hsearch]; exact hn)]
      refine ⟨rfl, h.lenFH, ?_, h.lenFlip, h.marksFH, hEHset, h.flips⟩
      show (t.EH.set e true).length = (s.EH.set e true).length
      rw [List.length_set, List.length_set, h.lenEH]
    · rw [hs, bfsStep_some inp t e Q hQt (by rw [hEHe]; exact hv) i
        (by rw [hflipe, hsearch]; exact hn)]
      obtain ⟨hxmem, hxC, _⟩ := cross_facts inp hL hA s.FH _ e i he hn
      have hnf : (inp.ue e).getD i 0 % inp.m < inp.m := Nat.mod_lt _ hm
      have hnfC : inp.C.getD ((inp.ue e).getD i 0 % inp.m) 0 = id := hxC.trans heC
      have hpush : ∀ (Q0 : List Nat) (k : Nat),
          pushUnvisited (t.EH.set e true) Q0 ((inp.ue e).getD i 0 % inp.m + (k % 3) * inp.m)
            = pushUnvisited (s.EH.set e true) Q0
                ((inp.ue e).getD i 0 % inp.m + (k % 3) * inp.m) := by
        intro Q0 k
        unfold pushUnvisited
        rw [hEHset _ (add_mul_lt _ _ _ hnf (Nat.mod_lt _ (by omega)))
          (by rw [mod_add_mul _ _ _ hnf]; exact hnfC)]
      refine ⟨?_, ?_, ?_, ?_, ?_, hEHset, ?_⟩
      · show pushUnvisited (t.EH.set e true) (pushUnvisited (t.EH.set e true) Q _) _
          = pushUnvisited (s.EH.set e true) (pushUnvisited (s.EH.set e true) Q _) _
        rw [hpush, hpush]
      · show (t.FH.set _ true).length = (s.FH.set _ true).length
        rw [List.length_set, List.length_set, h.lenFH]
      · show (t.EH.set e true).length = (s.EH.set e true).length
        rw [List.length_set, List.length_set, h.lenEH]
      · show (t.flip.set _ _).length = (s.flip.set _ _).length
        rw [List.length_set, List.length_set, h.lenFlip]
      · intro f hf hC
        exact getD_set_agree _ _ _ _ _ h.lenFH f (h.marksFH f hf hC)
      · intro f hf hC
        show (t.flip.set _ (neighborFlip inp (t.flip.getD (e % inp.m) false) _ _ _ _)).getD f false
          = (s.flip.set _ (neighborFlip inp (s.flip.getD (e % inp.m) false) _ _ _ _)).getD f
              false
        rw [hflipe]
        exact getD_set_agree _ _ _ _ _ h.lenFlip f (h.flips f hf hC)

theorem Agree_iterate (inp : Input) (hL : EdgesListed inp) (hA : AdjacencyClosed inp)
    (id : Nat) (g : Global) (n : Nat) (s t : State) (hT : TInv inp id g s)
    (h : Agree inp id s t) :
    Agree inp id ((bfsStep inp)^[n] s) ((bfsStep inp)^[n] t) := by
  induction n generalizing s t with
  | zero => exact h
  | succ n ih =>
    rw [Function.iterate_succ_apply, Function.iterate_succ_apply]
    exact ih _ _ (TInv_step inp hL hA id g s hT) (Agree_step inp hL hA id g s t hT h)

/-! ## The result of a component does not depend on its number -/

/-- The marks and flips of a face are final once its component has been
traversed. -/
theorem final_marks_component (inp : Input) (hL : EdgesListed inp) (hA : AdjacencyClosed inp)
    (hLab : LabelsOK inp) (hS : SeedsOK inp) (f : Nat) (hf : f < inp.m) :
    (componentsLoop inp inp.ncc).FH.getD f false
        = (componentsLoop inp (inp.C.getD f 0 + 1)).FH.getD f false ∧
      (componentsLoop inp inp.ncc).flip.getD f false
        = (componentsLoop inp (inp.C.getD f 0 + 1)).flip.getD f false := by
  have hid : inp.C.getD f 0 < inp.ncc := hLab.1 f hf
  have hlater : ∀ j, inp.C.getD f 0 + 1 + j ≤ inp.ncc →
      (componentsLoop inp (inp.C.getD f 0 + 1 + j)).FH.getD f false
          = (componentsLoop inp (inp.C.getD f 0 + 1)).FH.getD f false ∧
        (componentsLoop inp (inp.C.getD f 0 + 1 + j)).flip.getD f false
          = (componentsLoop inp (inp.C.getD f 0 + 1)).flip.getD f false := by
    intro j
    induction j with
    | zero => intro _; exact ⟨rfl, rfl⟩
    | succ j ih =>
      intro hj
      have hT' := TInv_bfs inp hL hA (inp.C.getD f 0 + 1 + j) _ (bfsFuel inp) _
        (TInv_seedInit inp hS _ (by omega) _
          (GInv_componentsLoop inp hL hA hLab hS _ (by omega)))
      obtain ⟨ih1, ih2⟩ := ih (by omega)
      constructor
      · show (componentsLoop inp (inp.C.getD f 0 + 1 + j + 1)).FH.getD f false = _
        rw [componentsLoop_succ_FH, hT'.frameFH f (by omega)]
        exact ih1
      · show (componentsLoop inp (inp.C.getD f 0 + 1 + j + 1)).flip.getD f false = _
        rw [componentsLoop_succ_flip, hT'.frameFlip f (by omega)]
        exact ih2
  have := hlater (inp.ncc - (inp.C.getD f 0 + 1)) (by omega)
  have hncc : inp.C.getD f 0 + 1 + (inp.ncc - (inp.C.getD f 0 + 1)) = inp.ncc := by omega
  rw [hncc] at this
  exact this

/-- Before the traversal of a component none of its faces and half-edges is
marked or flipped. -/
theorem unmarked_before (inp : Input) (hL : EdgesListed inp) (hA : AdjacencyClosed inp)
    (hLab : LabelsOK inp) (hS : SeedsOK inp) (id : Nat) (hid : id < inp.ncc) :
    (∀ f, inp.C.getD f 0 = id → (componentsLoop inp id).FH.getD f false = false) ∧
    (∀ e, inp.C.getD (e % inp.m) 0 = id → (componentsLoop inp id).EH.getD e false = false) ∧
    (∀ f, inp.C.getD f 0 = id → (componentsLoop inp id).flip.getD f false = false) := by
  have hg := GInv_componentsLoop inp hL hA hLab hS id (by omega)
  have hFH : ∀ f, inp.C.getD f 0 = id → (componentsLoop inp id).FH.getD f false = false := by
    intro f hC
    cases hb : (componentsLoop inp id).FH.getD f false
    · rfl
    · have := hg.marksFH f hb
      omega
  refine ⟨hFH, ?_, ?_⟩
  · intro e hC
    cases hb : (componentsLoop inp id).EH.getD e false
    · rfl
    · have := hg.marksEH e hb
      omega
  · intro f hC
    cases hb : (componentsLoop inp id).flip.getD f false
    · rfl
    · have := (componentsLoop_flip_marks inp id).2 f hb
      rw [hFH f hC] at this
      cases this

/-- The traversal of component `a` of `X` and the traversal of the same
component, numbered `τ a`, of `Y` start in agreement. -/
theorem Agree_seedInit (X Y : Input) (τ σ : Nat → Nat) (h : Renumbered X Y τ σ)
    (hL : EdgesListed X) (hA : AdjacencyClosed X) (hLab : LabelsOK X) (hS : SeedsOK X)
    (hN : ∀ ue ∈ X.uE2E, ue.Nodup ∧ ∀ x ∈ ue, x < 3 * X.m) (a : Nat) (ha : a < X.ncc) :
    Agree X a (seedInit X a (componentsLoop X a)) (seedInit Y (τ a) (componentsLoop Y (τ a))) := by
  have hm := renumbered_m X Y τ σ h
  have hL' := renumbered_EdgesListed X Y τ σ h hL
  have hA' := renumbered_AdjacencyClosed X Y τ σ h hN hA
  have hLab' := renumbered_LabelsOK X Y τ σ h hLab
  have hS' := renumbered_SeedsOK X Y τ σ h hLab hS
  have hτa : τ a < Y.ncc := by rw [h.sameNcc]; exact h.τLt a ha
  have hg := GInv_componentsLoop X hL hA hLab hS a (by omega)
  have hg' := GInv_componentsLoop Y hL' hA' hLab' hS' (τ a) (by omega)
  obtain ⟨u1, u2, u3⟩ := unmarked_before X hL hA hLab hS a ha
  obtain ⟨v1, v2, v3⟩ := unmarked_before Y hL' hA' hLab' hS' (τ a) hτa
  have hseed : Y.outer_facet (Y.IM (τ a)) = X.outer_facet (X.IM a) := by
    rw [renumbered_IM X Y τ σ h hLab a ha, h.sameSeed]
  have hlabY : ∀ f < X.m, X.C.getD f 0 = a → Y.C.getD f 0 = τ a := fun f hf hC =>
    (renumbered_label_iff X Y τ σ h hLab f hf a ha).mpr hC
  unfold seedInit
  rw [hseed, hm]
  refine ⟨rfl, ?_, ?_, ?_, ?_, ?_, ?_⟩
  · show (List.set _ _ _).length = (List.set _ _ _).length
    rw [List.length_set, List.length_set, hg.lenFH, hg'.lenFH, hm]
  · show (componentsLoop Y (τ a)).EH.length = (componentsLoop X a).EH.length
    rw [hg.lenEH, hg'.lenEH, hm]
  · show (List.set _ _ _).length = (List.set _ _ _).length
    rw [List.length_set, List.length_set, hg.lenFlip, hg'.lenFlip, hm]
  · intro f hf hC
    apply getD_set_agree _ _ _ _ _ (by rw [hg.lenFH, hg'.lenFH, hm])
    rw [u1 f hC, v1 f (hlabY f hf hC)]
  · intro e he hC
    show (componentsLoop Y (τ a)).EH.getD e false = (componentsLoop X a).EH.getD e false
    have hm0 : 0 < X.m := by omega
    rw [u2 e hC, v2 e (by rw [hm]; exact hlabY _ (Nat.mod_lt _ hm0) hC)]
  · intro f hf hC
    apply getD_set_agree _ _ _ _ _ (by rw [hg.lenFlip, hg'.lenFlip, hm])
    rw [u3 f hC, v3 f (hlabY f hf hC)]

/-- In the result, the marks and flips of a face are the same in both
numberings of the components. -/
theorem renumbered_marks (X Y : Input) (τ σ : Nat → Nat) (h : Renumbered X Y τ σ)
    (hL : EdgesListed X) (hA : AdjacencyClosed X) (hLab : LabelsOK X) (hS : SeedsOK X)
    (hN : ∀ ue ∈ X.uE2E, ue.Nodup ∧ ∀ x ∈ ue, x < 3 * X.m) (f : Nat) (hf : f < X.m) :
    (componentsLoop Y Y.ncc).FH.getD f false = (componentsLoop X X.ncc).FH.getD f false ∧
      (componentsLoop Y Y.ncc).flip.getD f false
        = (componentsLoop X X.ncc).flip.getD f false := by
  have hm := renumbered_m X Y τ σ h
  have hL' := renumbered_EdgesListed X Y τ σ h hL
  have hA' := renumbered_AdjacencyClosed X Y τ σ h hN hA
  have hLab' := renumbered_LabelsOK X Y τ σ h hLab
  have hS' := renumbered_SeedsOK X Y τ σ h hLab hS
  have ha : X.C.getD f 0 < X.ncc := hLab.1 f hf
  obtain ⟨x1, x2⟩ := final_marks_component X hL hA hLab hS f hf
  obtain ⟨y1, y2⟩ := final_marks_component Y hL' hA' hLab' hS' f (by rw [hm]; exact hf)
  have hT := TInv_seedInit X hS _ ha _ (GInv_componentsLoop X hL hA hLab hS _ (by omega))
  have hAg := Agree_iterate X hL hA _ _ (bfsFuel X) _ _ hT
    (Agree_seedInit X Y τ σ h hL hA hLab hS hN _ ha)
  have hAg' : Agree X (X.C.getD f 0)
      (bfs X (bfsFuel X) (seedInit X (X.C.getD f 0) (componentsLoop X (X.C.getD f 0))))
      (bfs Y (bfsFuel X)
        (seedInit Y (τ (X.C.getD f 0)) (componentsLoop Y (τ (X.C.getD f 0))))) := by
    rw [bfs_eq_iterate, bfs_eq_iterate, iterate_tables X Y h.sameF h.sameEMAP h.sameuE2E
      h.sameuE2C]
    exact hAg
  have hfuel : bfsFuel Y = bfsFuel X := by unfold bfsFuel; rw [hm]
  rw [x1, x2, y1, y2, h.labels f hf, componentsLoop_succ_FH, componentsLoop_succ_FH,
    componentsLoop_succ_flip, componentsLoop_succ_flip, hfuel]
  exact ⟨hAg'.marksFH f hf rfl, hAg'.flips f hf rfl⟩

/-- The blocks of component `a` of `X` are the blocks of component `τ a` of
`Y`. -/
theorem renumbered_blocks (X Y : Input) (τ σ : Nat → Nat) (h : Renumbered X Y τ σ)
    (hL : EdgesListed X) (hA : AdjacencyClosed X) (hLab : LabelsOK X) (hS : SeedsOK X)
    (hN : ∀ ue ∈ X.uE2E, ue.Nodup ∧ ∀ x ∈ ue, x < 3 * X.m) (a : Nat) (ha : a < X.ncc) :
    (componentsLoop Y Y.ncc).vJ.getD (τ a) [] = (componentsLoop X X.ncc).vJ.getD a [] ∧
      (componentsLoop Y Y.ncc).vG.getD (τ a) [] = (componentsLoop X X.ncc).vG.getD a [] := by
  have hL' := renumbered_EdgesListed X Y τ σ h hL
  have hA' := renumbered_AdjacencyClosed X Y τ σ h hN hA
  have hLab' := renumbered_LabelsOK X Y τ σ h hLab
  have hS' := renumbered_SeedsOK X Y τ σ h hLab hS
  have hτa : τ a < Y.ncc := by rw [h.sameNcc]; exact h.τLt a ha
  have hg := GInv_componentsLoop X hL hA hLab hS X.ncc (le_refl _)
  have hg' := GInv_componentsLoop Y hL' hA' hLab' hS' Y.ncc (le_refl _)
  have hJ : (componentsLoop Y Y.ncc).vJ.getD (τ a) [] = (componentsLoop X X.ncc).vJ.getD a [] := by
    rw [hg.resJ a ha, hg'.resJ (τ a) hτa, renumbered_IM X Y τ σ h hLab a ha]
    apply List.filter_congr
    intro f hf
    have hf' := ((mem_IM X hLab a ha f).mp hf).1
    rw [(renumbered_marks X Y τ σ h hL hA hLab hS hN f hf').1]
  refine ⟨hJ, ?_⟩
  rw [hg.resG a ha, hg'.resG (τ a) hτa, hJ]
  apply List.map_congr_left
  intro f hf
  rw [hg.resJ a ha, List.mem_filter] at hf
  have hf' := ((mem_IM X hLab a ha f).mp hf.1).1
  exact orientedRow_tables X Y h.sameF _ _ f
    (renumbered_marks X Y τ σ h hL hA hLab hS hN f hf').2

/-! ## The nesting step does not depend on the numbering -/

/-- Where containment between distinct components is asymmetric and transitive,
a component is kept iff no other component contains it. -/
theorem keep_iff_no_container (inp : Input) (vG : List (List (List Nat)))
    (hbf : OracleBatchFree inp)
    (hasym : ∀ a < inp.ncc, ∀ b < inp.ncc, a ≠ b →
      containsComp inp vG a b → ¬ containsComp inp vG b a)
    (htr : ∀ a < inp.ncc, ∀ b < inp.ncc, ∀ c < inp.ncc, a ≠ b → b ≠ c → a ≠ c →
      containsComp inp vG a b → containsComp inp vG b c → containsComp inp vG a c)
    (c : Nat) (hc : c < inp.ncc) :
    (nestLoop inp vG inp.ncc).keep.getD c false = true ↔
      ∀ d < inp.ncc, d ≠ c → ¬ containsComp inp vG d c := by
  have hirr' : ∀ a < inp.ncc, ¬ (a ≠ a ∧ containsComp inp vG a a) := fun a _ h => h.1 rfl
  have htr' : ∀ a < inp.ncc, ∀ b < inp.ncc, ∀ c < inp.ncc,
      (a ≠ b ∧ containsComp inp vG a b) → (b ≠ c ∧ containsComp inp vG b c) →
      (a ≠ c ∧ containsComp inp vG a c) := by
    intro a ha b hb c hc hab hbc
    have hac : a ≠ c := by
      rintro rfl
      exact hasym a ha b hb hab.1 hab.2 hbc.2
    exact ⟨hac, htr a ha b hb c hc hab.1 hbc.1 hac hab.2 hbc.2⟩
  have hmax : ∀ t < inp.ncc, (∀ e < inp.ncc, ¬ (e ≠ t ∧ containsComp inp vG e t)) →
      (nestLoop inp vG inp.ncc).keep.getD t false = true := by
    intro t ht hnone
    by_contra hk
    have hk' : (nestLoop inp vG inp.ncc).keep.getD t false = false := by simpa using hk
    obtain ⟨d, hd, hne, _, hcon⟩ := discarded_has_container inp hbf vG inp.ncc t ht hk'
    exact hnone d hd ⟨hne, hcon⟩
  have hfind : ∀ d < inp.ncc, d ≠ c → containsComp inp vG d c →
      ∃ t < inp.ncc, (nestLoop inp vG inp.ncc).keep.getD t false = true ∧
        t ≠ c ∧ containsComp inp vG t c := by
    intro d hd hne hcon
    obtain ⟨t, ht, htc, htmax⟩ := exists_maximal_above inp.ncc
      (fun a b => a ≠ b ∧ containsComp inp vG a b) hirr' htr' c hc _ d hd (le_refl _)
      ⟨hne, hcon⟩
    exact ⟨t, ht, hmax t ht htmax, htc.1, htc.2⟩
  have hdisc : ∀ t < inp.ncc, (nestLoop inp vG inp.ncc).keep.getD t false = true → t ≠ c →
      containsComp inp vG t c → (nestLoop inp vG inp.ncc).keep.getD c false = false := by
    intro t ht hkept hne hcon
    exact tester_discards inp hbf vG inp.ncc t c ht hc hne
      (nestLoop_keep_mono inp vG t inp.ncc (by omega) t hkept) hcon
  constructor
  · intro hk d hd hne hcon
    obtain ⟨t, ht, hkept, hne', htc⟩ := hfind d hd hne hcon
    rw [hdisc t ht hkept hne' htc] at hk
    cases hk
  · intro hnone
    by_contra hk
    have hk' : (nestLoop inp vG inp.ncc).keep.getD c false = false := by simpa using hk
    obtain ⟨d, hd, hne, _, hcon⟩ := discarded_has_container inp hbf vG inp.ncc c hc hk'
    exact hnone d hd hne hcon

theorem queryPoint_eq_barycenter (inp : Input) (vG : List (List (List Nat))) (oid : Nat) :
    queryPoint inp vG oid = barycenter inp ((vG.getD oid []).getD 0 []) := rfl

theorem barycenter_congr (inp inp' : Input) (hV : inp'.V = inp.V) (row : List Nat) :
    barycenter inp' row = barycenter inp row := by
  cases inp; cases inp'
  simp only at hV
  subst hV
  rfl

/-- Containment between two components is the same in both runs when the
blocks agree up to the order of their rows, the oracle does not depend on that
order and answers alike for every triangle of a tested component. -/
theorem containsComp_transfer (inp inp' : Input) (τ : Nat → Nat)
    (vG vG' : List (List (List Nat))) (hV : inp'.V = inp.V)
    (hO : inp'.points_inside_component = inp.points_inside_component)
    (hrow : OracleRowOrderFree inp) (hsamp : SampleIndependent inp vG)
    (hblocks : ∀ a < inp.ncc, List.Perm (vG'.getD (τ a) []) (vG.getD a []))
    (a b : Nat) (ha : a < inp.ncc) (hb : b < inp.ncc) :
    containsComp inp' vG' (τ a) (τ b) ↔ containsComp inp vG a b := by
  unfold containsComp
  rw [has_overlapping_bbox_perm inp inp' hV _ _ _ _ (hblocks a ha) (hblocks b hb)]
  apply and_congr_right
  intro _
  unfold reportsInside
  rw [hO, hrow _ _ _ (hblocks a ha), queryPoint_eq_barycenter, barycenter_congr inp inp' hV]
  cases hrows : vG'.getD (τ b) [] with
  | nil =>
    have hnil : vG.getD b [] = [] := by
      have := hblocks b hb
      rw [hrows] at this
      exact this.nil_eq.symm
    rw [queryPoint_eq_barycenter, hnil]
  | cons r rest =>
    have hr : r ∈ vG.getD b [] := by
      have := hblocks b hb
      rw [hrows] at this
      exact this.subset (List.mem_cons_self _ _)
    exact hsamp a ha b hb r hr

/-- The components kept by the nesting loop are the same in both runs. -/
theorem keep_transfer (inp inp' : Input) (τ σ : Nat → Nat) (vG vG' : List (List (List Nat)))
    (hV : inp'.V = inp.V) (hncc : inp'.ncc = inp.ncc)
    (hO : inp'.points_inside_component = inp.points_inside_component)
    (hτ : ∀ a < inp.ncc, τ a < inp.ncc) (hσ : ∀ b < inp.ncc, σ b < inp.ncc)
    (hτσ : ∀ b < inp.ncc, τ (σ b) = b) (hστ : ∀ a < inp.ncc, σ (τ a) = a)
    (hbf : OracleBatchFree inp) (hrow : OracleRowOrderFree inp)
    (hsamp : SampleIndependent inp vG)
    (hasym : ∀ a < inp.ncc, ∀ b < inp.ncc, a ≠ b →
      containsComp inp vG a b → ¬ containsComp inp vG b a)
    (htr : ∀ a < inp.ncc, ∀ b < inp.ncc, ∀ c < inp.ncc, a ≠ b → b ≠ c → a ≠ c →
      containsComp inp vG a b → containsComp inp vG b c → containsComp inp vG a c)
    (hblocks : ∀ a < inp.ncc, List.Perm (vG'.getD (τ a) []) (vG.getD a []))
    (a : Nat) (ha : a < inp.ncc) :
    (nestLoop inp' vG' inp'.ncc).keep.getD (τ a) false
      = (nestLoop inp vG inp.ncc).keep.getD a false := by
  have htrans := containsComp_transfer inp inp' τ vG vG' hV hO hrow hsamp hblocks
  have hback : ∀ x < inp.ncc, ∀ y < inp.ncc,
      (containsComp inp' vG' x y ↔ containsComp inp vG (σ x) (σ y)) := by
    intro x hx y hy
    have := htrans (σ x) (σ y) (hσ x hx) (hσ y hy)
    rw [hτσ x hx, hτσ y hy] at this
    exact this
  have hbf' : OracleBatchFree inp' := by
    intro S pts i hi
    rw [hO]
    exact hbf S pts i hi
  have hσinj : ∀ x < inp.ncc, ∀ y < inp.ncc, x ≠ y → σ x ≠ σ y := by
    intro x hx y hy hne heq
    apply hne
    rw [← hτσ x hx, ← hτσ y hy, heq]
  have hasym' : ∀ x < inp'.ncc, ∀ y < inp'.ncc, x ≠ y →
      containsComp inp' vG' x y → ¬ containsComp inp' vG' y x := by
    intro x hx y hy hne
    rw [hncc] at hx hy
    rw [hback x hx y hy, hback y hy x hx]
    exact hasym _ (hσ x hx) _ (hσ y hy) (hσinj x hx y hy hne)
  have htr' : ∀ x < inp'.ncc, ∀ y < inp'.ncc, ∀ z < inp'.ncc, x ≠ y → y ≠ z → x ≠ z →
      containsComp inp' vG' x y → containsComp inp' vG' y z → containsComp inp' vG' x z := by
    intro x hx y hy z hz hxy hyz hxz
    rw [hncc] at hx hy hz
    rw [hback x hx y hy, hback y hy z hz, hback x hx z hz]
    exact htr _ (hσ x hx) _ (hσ y hy) _ (hσ z hz) (hσinj x hx y hy hxy) (hσinj y hy z hz hyz)
      (hσinj x hx z hz hxz)
  have h1 := keep_iff_no_container inp vG hbf hasym htr a ha
  have h2 := keep_iff_no_container inp' vG' hbf' hasym' htr' (τ a) (by rw [hncc]; exact hτ a ha)
  have hiff : (nestLoop inp' vG' inp'.ncc).keep.getD (τ a) false = true ↔
      (nestLoop inp vG inp.ncc).keep.getD a false = true := by
    rw [h1, h2, hncc]
    constructor
    · intro h d hd hne hcon
      apply h (τ d) (hτ d hd) (fun heq => hne (by
        have := congrArg σ heq
        rw [hστ d hd, hστ a ha] at this
        exact this))
      exact (htrans d a hd ha).mpr hcon
    · intro h x hx hne hcon
      apply h (σ x) (hσ x hx) (fun heq => hne (by rw [← hτσ x hx, heq]))
      have := (hback x hx (τ a) (hτ a ha)).mp hcon
      rw [hστ a ha] at this
      exact this
  cases hk : (nestLoop inp vG inp.ncc).keep.getD a false
  · cases hk' : (nestLoop inp' vG' inp'.ncc).keep.getD (τ a) false
    · rfl
    · rw [hiff.mp hk'] at hk
      cases hk
  · exact hiff.mpr hk

/-- The concatenation of the kept blocks is the same up to order when the
blocks and the kept components correspond under a renumbering. -/
theorem collect_reindex {α : Type} (n : Nat) (τ σ : Nat → Nat) (keep keep' : List Bool)
    (v v' : List (List α)) (hτ : ∀ a < n, τ a < n) (hσ : ∀ b < n, σ b < n)
    (hτσ : ∀ b < n, τ (σ b) = b) (hστ : ∀ a < n, σ (τ a) = a)
    (hkeep : ∀ a < n, keep'.getD (τ a) false = keep.getD a false)
    (hv : ∀ a < n, List.Perm (v'.getD (τ a) []) (v.getD a [])) :
    List.Perm (collect n keep' v') (collect n keep v) := by
  unfold collect
  have h1 := (range_map_perm n τ σ hτ hσ hτσ hστ).symm
  refine (List.Perm.flatMap_right _ h1).trans ?_
  rw [List.flatMap_map]
  apply List.Perm.flatMap_left
  intro a ha
  have ha' := List.mem_range.mp ha
  rw [hkeep a ha']
  split
  · exact hv a ha'
  · exact List.Perm.refl _

/-! ## The examples of relabelling -/

theorem mem_collect {α : Type} (n : Nat) (keep : List Bool) (v : List (List α)) (t : α) :
    t ∈ collect n keep v ↔ ∃ id < n, keep.getD id false = true ∧ t ∈ v.getD id [] := by
  unfold collect
  rw [List.mem_flatMap]
  constructor
  · rintro ⟨id, hid, ht⟩
    split at ht
    · rename_i hk
      exact ⟨id, List.mem_range.mp hid, hk, ht⟩
    · cases ht
  · rintro ⟨id, hid, hk, ht⟩
    exact ⟨id, List.mem_range.mpr hid, by rw [if_pos hk]; exact ht⟩

/-! ### The three nested triangles, renumbered -/

theorem threeTriangles_relabelled :
    Relabelled threeTriangles threeTrianglesRelabelled rotateFaces rotateFacesInv :=
  ⟨rfl, rfl, by decide, by decide, by decide, by decide, by decide, by decide, by decide, rfl,
    by decide, rfl, by decide⟩

theorem threeTriangles_renumbered :
    Renumbered threeTrianglesRelabelled threeTrianglesRenumbered rotateFacesInv rotateFaces :=
  ⟨rfl, rfl, rfl, rfl, rfl, rfl, rfl, by decide, by decide, by decide, by decide, by decide,
    by decide⟩

theorem threeTriangles_rowOrderFree : OracleRowOrderFree threeTriangles := by
  intro S S' pts hperm
  have h1 : ∀ a : List Nat, S = [a] ↔ S' = [a] := by
    intro a
    constructor
    · intro h
      rw [h] at hperm
      exact List.perm_singleton.mp hperm.symm
    · intro h
      rw [h] at hperm
      exact List.perm_singleton.mp hperm
  show pts.map _ = pts.map _
  simp only [h1]

theorem threeTriangles_sampleIndependent :
    SampleIndependent threeTriangles (componentsLoop threeTriangles threeTriangles.ncc).vG := by
  rw [threeTriangles_vG]
  intro id _ oid hoid r hr
  have hoid' : oid < 3 := hoid
  unfold reportsInside
  rw [queryPoint_eq_barycenter]
  interval_cases oid <;>
    · simp only [List.getD_cons_zero, List.getD_cons_succ, List.mem_singleton] at hr
      rw [hr]
      rfl

/-! ### The straddling pair -/

theorem straddlingPair_relabelled :
    Relabelled straddlingPair straddlingPairSwapped swapFaces swapFaces :=
  ⟨rfl, rfl, by decide, by decide, by decide, by decide, by decide, by decide, by decide, rfl,
    by decide, rfl, by decide⟩

theorem renumbered_refl (X : Input) : Renumbered X X (fun a => a) (fun a => a) :=
  ⟨rfl, rfl, rfl, rfl, rfl, rfl, rfl, fun _ h => h, fun _ h => h, fun _ _ => rfl,
    fun _ _ => rfl, fun _ _ => rfl, fun _ _ => rfl⟩

theorem straddlingPair_batchFree : OracleBatchFree straddlingPair :=
  batchFree_of_map straddlingPair _ (fun _ _ => rfl)

theorem straddlingPair_rowOrderFree : OracleRowOrderFree straddlingPair := by
  intro S S' pts hperm
  show pts.map _ = pts.map _
  simp only [hperm.mem_iff]

theorem straddlingPair_vG :
    (componentsLoop straddlingPair straddlingPair.ncc).vG
      = [[[0, 1, 2], [1, 3, 2]], [[4, 5, 6]]] := by
  decide

theorem straddlingPairSwapped_vG :
    (componentsLoop straddlingPairSwapped straddlingPairSwapped.ncc).vG
      = [[[1, 3, 2], [0, 1, 2]], [[4, 5, 6]]] := by
  decide

theorem straddlingPair_reports (x y : Nat) (hx : x < 2) (hy : y < 2) :
    reportsInside straddlingPair (componentsLoop straddlingPair straddlingPair.ncc).vG x y ↔
      (x = 1 ∧ y = 0) := by
  rw [straddlingPair_vG]
  interval_cases x <;> interval_cases y <;>
    simp [reportsInside, queryPoint, Input.Vat, straddlingPair, List.range_succ]
  all_goals norm_num

theorem straddlingPairSwapped_reports (x y : Nat) (hx : x < 2) (hy : y < 2) :
    ¬ reportsInside straddlingPairSwapped
      (componentsLoop straddlingPairSwapped straddlingPairSwapped.ncc).vG x y := by
  rw [straddlingPairSwapped_vG]
  interval_cases x <;> interval_cases y <;>
    simp [reportsInside, queryPoint, Input.Vat, straddlingPairSwapped, straddlingPair,
      List.range_succ] <;> norm_num

theorem straddlingPair_box :
    has_overlapping_bbox straddlingPair [[4, 5, 6]] [[0, 1, 2], [1, 3, 2]] = true := by
  simp [has_overlapping_bbox, bounding_box, maxCoeff, Input.Vat, straddlingPair,
    List.range_succ, min_def, max_def]
  norm_num

theorem straddlingPair_contains (x y : Nat) (hx : x < 2) (hy : y < 2) :
    containsComp straddlingPair (componentsLoop straddlingPair straddlingPair.ncc).vG x y ↔
      (x = 1 ∧ y = 0) := by
  unfold containsComp
  rw [straddlingPair_reports x y hx hy]
  constructor
  · exact fun h => h.2
  · rintro ⟨rfl, rfl⟩
    refine ⟨?_, rfl, rfl⟩
    rw [straddlingPair_vG]
    exact straddlingPair_box

/-- In the run on the straddling pair, component `0` is discarded. -/
theorem straddlingPair_keep :
    (nestLoop straddlingPair (componentsLoop straddlingPair straddlingPair.ncc).vG
      straddlingPair.ncc).keep.getD 0 false = false := by
  have hkept : (nestLoop straddlingPair (componentsLoop straddlingPair straddlingPair.ncc).vG
      1).keep.getD 1 false = true := by
    by_contra hk
    obtain ⟨d, hd, _, _, hcon⟩ := discarded_has_container straddlingPair
      straddlingPair_batchFree _ 1 1 (by decide) (by simpa using hk)
    rw [straddlingPair_contains d 1 (by omega) (by decide)] at hcon
    omega
  exact tester_discards straddlingPair straddlingPair_batchFree _ 2 1 0 (by decide) (by decide)
    (by decide) hkept ((straddlingPair_contains 1 0 (by decide) (by decide)).mpr ⟨rfl, rfl⟩)

/-- In the run on the straddling pair with its faces exchanged, component `0`
is kept. -/
theorem straddlingPairSwapped_keep :
    (nestLoop straddlingPairSwapped
      (componentsLoop straddlingPairSwapped straddlingPairSwapped.ncc).vG
      straddlingPairSwapped.ncc).keep.getD 0 false = true := by
  by_contra hk
  obtain ⟨d, hd, _, _, hcon⟩ := discarded_has_container straddlingPairSwapped
    (batchFree_of_map straddlingPairSwapped _ (fun _ _ => rfl)) _ 2 0 (by decide)
    (by simpa using hk)
  exact straddlingPairSwapped_reports d 0 hd (by decide) hcon.2

/-! ### The broken chain -/

theorem brokenChain_relabelled :
    Relabelled brokenChain brokenChain (fun i => i) (fun i => i) :=
  ⟨rfl, rfl, fun _ h => h, fun _ h => h, fun _ _ => rfl, fun _ _ => rfl, fun _ _ => rfl,
    by decide, by decide, rfl, fun _ _ => rfl, rfl, fun _ _ => rfl⟩

theorem brokenChain_renumbered : Renumbered brokenChain brokenChainRenumbered swapIds swapIds :=
  ⟨rfl, rfl, rfl, rfl, rfl, rfl, rfl, by decide, by decide, by decide, by decide, by decide,
    by decide⟩

theorem brokenChain_batchFree : OracleBatchFree brokenChain :=
  batchFree_of_map brokenChain _ (fun _ _ => rfl)

theorem brokenChain_rowOrderFree : OracleRowOrderFree brokenChain := by
  intro S S' pts hperm
  show pts.map _ = pts.map _
  simp only [hperm.mem_iff]

theorem brokenChain_vG :
    (componentsLoop brokenChain brokenChain.ncc).vG
      = [[[0, 1, 2]], [[3, 4, 5]], [[6, 7, 8]]] := by
  decide

theorem brokenChainRenumbered_vG :
    (componentsLoop brokenChainRenumbered brokenChainRenumbered.ncc).vG
      = [[[0, 1, 2]], [[6, 7, 8]], [[3, 4, 5]]] := by
  decide

theorem brokenChain_sampleIndependent :
    SampleIndependent brokenChain (componentsLoop brokenChain brokenChain.ncc).vG := by
  rw [brokenChain_vG]
  intro id _ oid hoid r hr
  have hoid' : oid < 3 := hoid
  unfold reportsInside
  rw [queryPoint_eq_barycenter]
  interval_cases oid <;>
    · simp only [List.getD_cons_zero, List.getD_cons_succ, List.mem_singleton] at hr
      rw [hr]
      rfl

theorem brokenChain_reports (x y : Nat) (hx : x < 3) (hy : y < 3) :
    reportsInside brokenChain (componentsLoop brokenChain brokenChain.ncc).vG x y ↔
      (x = 1 ∧ y = 2) ∨ (x = 2 ∧ y = 0) := by
  rw [brokenChain_vG]
  interval_cases x <;> interval_cases y <;>
    simp [reportsInside, queryPoint, Input.Vat, brokenChain, threeTriangles,
      List.range_succ] <;> norm_num

theorem brokenChainRenumbered_reports (x y : Nat) (hx : x < 3) (hy : y < 3) :
    reportsInside brokenChainRenumbered
        (componentsLoop brokenChainRenumbered brokenChainRenumbered.ncc).vG x y ↔
      (x = 2 ∧ y = 1) ∨ (x = 1 ∧ y = 0) := by
  rw [brokenChainRenumbered_vG]
  interval_cases x <;> interval_cases y <;>
    simp [reportsInside, queryPoint, Input.Vat, brokenChainRenumbered, brokenChain,
      threeTriangles, List.range_succ] <;> norm_num

theorem brokenChain_boxes (inp : Input) (hV : inp.V = threeTriangles.V) (x y : Nat) (hx : x < 3)
    (hy : y < 3) :
    has_overlapping_bbox inp
      (([[[0, 1, 2]], [[3, 4, 5]], [[6, 7, 8]]] : List (List (List Nat))).getD x [])
      (([[[0, 1, 2]], [[3, 4, 5]], [[6, 7, 8]]] : List (List (List Nat))).getD y []) = true := by
  rw [has_overlapping_bbox_perm threeTriangles inp hV _ _ _ _ (List.Perm.refl _)
    (List.Perm.refl _)]
  have := threeTriangles_boxes x y hx hy
  rw [threeTriangles_vG] at this
  exact this

/-- In the run on the broken chain the innermost triangle, component `0`, is
kept: the middle triangle, which contains it, is discarded before its turn. -/
theorem brokenChain_keep :
    (nestLoop brokenChain (componentsLoop brokenChain brokenChain.ncc).vG
      brokenChain.ncc).keep.getD 0 false = true := by
  have hr := fun x y hx hy => brokenChain_reports x y hx hy
  have hbf := brokenChain_batchFree
  have h11 : (nestLoop brokenChain (componentsLoop brokenChain brokenChain.ncc).vG
      1).keep.getD 1 false = true := by
    by_contra hk
    obtain ⟨d, hd, _, _, hcon⟩ := discarded_has_container brokenChain hbf _ 1 1 (by decide)
      (by simpa using hk)
    have := (hr d 1 (by omega) (by decide)).mp hcon.2
    omega
  have h22 : (nestLoop brokenChain (componentsLoop brokenChain brokenChain.ncc).vG
      2).keep.getD 2 false = false := by
    apply tester_discards brokenChain hbf _ 2 1 2 (by decide) (by decide) (by decide) h11
    refine ⟨?_, (hr 1 2 (by decide) (by decide)).mpr (Or.inl ⟨rfl, rfl⟩)⟩
    rw [brokenChain_vG]
    exact brokenChain_boxes brokenChain rfl 1 2 (by decide) (by decide)
  by_contra hk
  obtain ⟨d, hd, hne, hkept, hcon⟩ := discarded_has_container brokenChain hbf _ 3 0 (by decide)
    (by simpa using hk)
  have hd' := (hr d 0 (by omega) (by decide)).mp hcon.2
  have hd2 : d = 2 := by omega
  rw [hd2, h22] at hkept
  cases hkept

/-- In the run on the renumbered broken chain the innermost triangle,
component `0`, is discarded by the middle triangle, now component `1`. -/
theorem brokenChainRenumbered_keep :
    (nestLoop brokenChainRenumbered
      (componentsLoop brokenChainRenumbered brokenChainRenumbered.ncc).vG
      brokenChainRenumbered.ncc).keep.getD 0 false = false := by
  have hr := fun x y hx hy => brokenChainRenumbered_reports x y hx hy
  have hbf : OracleBatchFree brokenChainRenumbered :=
    batchFree_of_map brokenChainRenumbered _ (fun _ _ => rfl)
  have h11 : (nestLoop brokenChainRenumbered
      (componentsLoop brokenChainRenumbered brokenChainRenumbered.ncc).vG 1).keep.getD 1 false
        = true := by
    by_contra hk
    obtain ⟨d, hd, _, _, hcon⟩ := discarded_has_container brokenChainRenumbered hbf _ 1 1
      (by decide) (by simpa using hk)
    have := (hr d 1 (by omega) (by decide)).mp hcon.2
    omega
  apply tester_discards brokenChainRenumbered hbf _ 3 1 0 (by decide) (by decide) (by decide) h11
  refine ⟨?_, (hr 1 0 (by decide) (by decide)).mpr (Or.inr ⟨rfl, rfl⟩)⟩
  rw [brokenChainRenumbered_vG]
  exact brokenChain_boxes brokenChainRenumbered rfl 2 0 (by decide) (by decide)

/-! ### The mutual triangles -/

theorem mutualTriangles_relabelled :
    Relabelled mutualTriangles mutualTriangles (fun i => i) (fun i => i) :=
  ⟨rfl, rfl, fun _ h => h, fun _ h => h, fun _ _ => rfl, fun _ _ => rfl, fun _ _ => rfl,
    by decide, by decide, rfl, fun _ _ => rfl, rfl, fun _ _ => rfl⟩

theorem mutualTriangles_renumbered :
    Renumbered mutualTriangles mutualTrianglesRenumbered swapFirstIds swapFirstIds :=
  ⟨rfl, rfl, rfl, rfl, rfl, rfl, rfl, by decide, by decide, by decide, by decide, by decide,
    by decide⟩

theorem mutualTriangles_batchFree : OracleBatchFree mutualTriangles :=
  batchFree_of_map mutualTriangles _ (fun _ _ => rfl)

theorem mutualTriangles_rowOrderFree : OracleRowOrderFree mutualTriangles :=
  fun _ _ _ _ => rfl

theorem mutualTriangles_vG :
    (componentsLoop mutualTriangles mutualTriangles.ncc).vG
      = [[[0, 1, 2]], [[3, 4, 5]], [[6, 7, 8]]] := by
  decide

theorem mutualTrianglesRenumbered_vG :
    (componentsLoop mutualTrianglesRenumbered mutualTrianglesRenumbered.ncc).vG
      = [[[3, 4, 5]], [[0, 1, 2]], [[6, 7, 8]]] := by
  decide

theorem mutualTriangles_sampleIndependent :
    SampleIndependent mutualTriangles (componentsLoop mutualTriangles mutualTriangles.ncc).vG :=
  fun _ _ _ _ _ _ => Iff.rfl

theorem mutualTriangles_contains (x y : Nat) (hx : x < 3) (hy : y < 3) :
    containsComp mutualTriangles (componentsLoop mutualTriangles mutualTriangles.ncc).vG x y := by
  refine ⟨?_, (by decide : (1 : Int) ≠ 0)⟩
  rw [mutualTriangles_vG]
  exact brokenChain_boxes mutualTriangles rfl x y hx hy

/-- In the run on the mutual triangles the innermost triangle, component `0`,
is kept: it is the first tester and discards the others. -/
theorem mutualTriangles_keep :
    (nestLoop mutualTriangles (componentsLoop mutualTriangles mutualTriangles.ncc).vG
      mutualTriangles.ncc).keep.getD 0 false = true := by
  have hbf := mutualTriangles_batchFree
  by_contra hk
  obtain ⟨d, hd, hne, hkept, _⟩ := discarded_has_container mutualTriangles hbf _ 3 0 (by decide)
    (by simpa using hk)
  have hgone := tester_discards mutualTriangles hbf _ d 0 d (by omega) hd (fun h => hne h.symm)
    (by decide) (mutualTriangles_contains 0 d (by decide) hd)
  rw [hgone] at hkept
  cases hkept

/-- In the run on the renumbered mutual triangles the innermost triangle, now
component `1`, is discarded by the outermost, now component `0`. -/
theorem mutualTrianglesRenumbered_keep :
    (nestLoop mutualTrianglesRenumbered
      (componentsLoop mutualTrianglesRenumbered mutualTrianglesRenumbered.ncc).vG
      mutualTrianglesRenumbered.ncc).keep.getD 1 false = false := by
  have hbf : OracleBatchFree mutualTrianglesRenumbered :=
    batchFree_of_map mutualTrianglesRenumbered _ (fun _ _ => rfl)
  apply tester_discards mutualTrianglesRenumbered hbf _ 3 0 1 (by decide) (by decide)
    (by decide) (by decide)
  refine ⟨?_, (by decide : (1 : Int) ≠ 0)⟩
  rw [mutualTrianglesRenumbered_vG]
  exact brokenChain_boxes mutualTrianglesRenumbered rfl 1 0 (by decide) (by decide)

/-- C18, as the code has it: let `inp'` be the input `inp` with its faces
listed in another order (face `i` of `inp'` is face `p i` of `inp`) and its
components numbered in another order (component `a` of `inp` is component
`τ a` of `inp'`), with the edge map, the incidence lists with their radial
order and flags and the seeds renamed accordingly (`mid` is the input between
the two renamings), and with the same point-in-solid routine.  Let that
routine answer each query point independently of its batch and independently
of the order of the rows of the surface, let it answer alike for the
barycentre of every triangle of a tested component, and let containment
between distinct components of `inp` be asymmetric and transitive.  When the
helper results of `inp` are well formed, the rows of `G` returned for `inp'`
are the rows returned for `inp` up to their order, the indices `J` returned
for `inp'`, mapped through `p`, are the indices returned for `inp` up to their
order, and the flip of face `i` of `inp'` is the flip of face `p i` of `inp`. -/
theorem C18_relabeling_invariance (inp mid inp' : Input) (p q τ σ : Nat → Nat)
    (hL : EdgesListed inp) (hA : AdjacencyClosed inp) (hLab : LabelsOK inp) (hS : SeedsOK inp)
    (hE : EdgeMapOK inp) (hN : ∀ ue ∈ inp.uE2E, ue.Nodup ∧ ∀ x ∈ ue, x < 3 * inp.m)
    (hR : Relabelled inp mid p q) (hT : Renumbered mid inp' τ σ)
    (hO : inp'.points_inside_component = inp.points_inside_component)
    (hbf : OracleBatchFree inp) (hrow : OracleRowOrderFree inp)
    (hsamp : SampleIndependent inp (componentsLoop inp inp.ncc).vG)
    (hasym : ∀ a < inp.ncc, ∀ b < inp.ncc, a ≠ b →
      containsComp inp (componentsLoop inp inp.ncc).vG a b →
      ¬ containsComp inp (componentsLoop inp inp.ncc).vG b a)
    (htr : ∀ a < inp.ncc, ∀ b < inp.ncc, ∀ c < inp.ncc, a ≠ b → b ≠ c → a ≠ c →
      containsComp inp (componentsLoop inp inp.ncc).vG a b →
      containsComp inp (componentsLoop inp inp.ncc).vG b c →
      containsComp inp (componentsLoop inp inp.ncc).vG a c) :
    List.Perm (outer_hull_legacy inp').G (outer_hull_legacy inp).G ∧
    List.Perm ((outer_hull_legacy inp').J.map p) (outer_hull_legacy inp).J ∧
    (∀ t, t ∈ (outer_hull_legacy inp').G ↔ t ∈ (outer_hull_legacy inp).G) ∧
    (∀ f, f ∈ (outer_hull_legacy inp').J.map p ↔ f ∈ (outer_hull_legacy inp).J) ∧
    (∀ i < inp.m, (outer_hull_legacy inp').flip.getD i false
      = (outer_hull_legacy inp).flip.getD (p i) false) := by
  have hnccM := relabelled_ncc inp mid p q hR
  have hncc : inp'.ncc = inp.ncc := hT.sameNcc.trans hnccM
  have hLm := relabelled_EdgesListed inp mid p q hR hL
  have hAm := relabelled_AdjacencyClosed inp mid p q hR hA hN
  have hLabm := relabelled_LabelsOK inp mid p q hR hLab
  have hSm := relabelled_SeedsOK inp mid p q hR hS
  have hNm := relabelled_tables inp mid p q hR hN
  have hτ : ∀ a < inp.ncc, τ a < inp.ncc := fun a ha => by
    have := hT.τLt a (by rw [hnccM]; exact ha)
    rw [hnccM] at this
    exact this
  have hσ : ∀ b < inp.ncc, σ b < inp.ncc := fun b hb => by
    have := hT.σLt b (by rw [hnccM]; exact hb)
    rw [hnccM] at this
    exact this
  have hτσ : ∀ b < inp.ncc, τ (σ b) = b := fun b hb => hT.τσ b (by rw [hnccM]; exact hb)
  have hστ : ∀ a < inp.ncc, σ (τ a) = a := fun a ha => hT.στ a (by rw [hnccM]; exact ha)
  have hg := GInv_componentsLoop inp hL hA hLab hS inp.ncc (le_refl _)
  have hsim : GSim inp q (componentsLoop inp inp.ncc) (componentsLoop mid mid.ncc) := by
    rw [hnccM]
    exact GSim_componentsLoop inp mid p q hR hL hA hLab hS hE hN inp.ncc (le_refl _)
  have hb1 := blocks_relabel inp mid p q hR hL hA hLab hS hE hN
  have hb2 : ∀ a < inp.ncc,
      (componentsLoop inp' inp'.ncc).vJ.getD (τ a) [] = (componentsLoop mid mid.ncc).vJ.getD a [] ∧
      (componentsLoop inp' inp'.ncc).vG.getD (τ a) []
        = (componentsLoop mid mid.ncc).vG.getD a [] := fun a ha =>
    renumbered_blocks mid inp' τ σ hT hLm hAm hLabm hSm hNm a (by rw [hnccM]; exact ha)
  have hblocks : ∀ a < inp.ncc,
      List.Perm ((componentsLoop inp' inp'.ncc).vG.getD (τ a) [])
        ((componentsLoop inp inp.ncc).vG.getD a []) := fun a ha => by
    rw [(hb2 a ha).2]
    exact (hb1 a ha).2
  have hkeep : ∀ a < inp.ncc,
      (nestLoop inp' (componentsLoop inp' inp'.ncc).vG inp'.ncc).keep.getD (τ a) false
        = (nestLoop inp (componentsLoop inp inp.ncc).vG inp.ncc).keep.getD a false :=
    keep_transfer inp inp' τ σ _ _ (hT.sameV.trans hR.sameV) hncc hO hτ hσ hτσ hστ hbf hrow hsamp
      hasym htr hblocks
  have hcol : ∀ {α : Type} (keep : List Bool) (v : List (List α)),
      collect inp'.ncc keep v = collect inp.ncc keep v := by
    intro α keep v
    rw [hncc]
  have hG : List.Perm (outer_hull_legacy inp').G (outer_hull_legacy inp).G := by
    unfold outer_hull_legacy
    simp only
    rw [hcol]
    exact collect_reindex inp.ncc τ σ _ _ _ _ hτ hσ hτσ hστ hkeep hblocks
  have hJ : List.Perm ((outer_hull_legacy inp').J.map p) (outer_hull_legacy inp).J := by
    unfold outer_hull_legacy
    simp only
    rw [hcol, collect_map]
    apply collect_reindex inp.ncc τ σ _ _ _ _ hτ hσ hτσ hστ hkeep
    intro a ha
    rw [getD_map_nil, (hb2 a ha).1]
    have h1 := ((hb1 a ha).1).map p
    rw [List.map_map] at h1
    have h2 : List.map (p ∘ q) ((componentsLoop inp inp.ncc).vJ.getD a [])
        = (componentsLoop inp inp.ncc).vJ.getD a [] := by
      conv_rhs => rw [← List.map_id ((componentsLoop inp inp.ncc).vJ.getD a [])]
      apply List.map_congr_left
      intro f hf
      rw [hg.resJ a ha, List.mem_filter, mem_IM inp hLab a ha] at hf
      exact hR.pq f hf.1.1
    rw [h2] at h1
    exact h1
  refine ⟨hG, hJ, fun t => hG.mem_iff, fun f => hJ.mem_iff, ?_⟩
  intro i hi
  have h1 := (renumbered_marks mid inp' τ σ hT hLm hAm hLabm hSm hNm i
    (by rw [hR.sameM]; exact hi)).2
  have h2 := hsim.flips (p i) (hR.pLt i hi)
  rw [hR.qp i hi] at h2
  show (componentsLoop inp' inp'.ncc).flip.getD i false
    = (componentsLoop inp inp.ncc).flip.getD (p i) false
  rw [h1, h2]

/-- C18 on the three nested triangles: the same triangles listed in the order
`1, 2, 0`, and then numbered in the order of their first face as a labelling
of the new face list does, give the same rows and the same faces. -/
theorem C18_relabeling_invariance_witness :
    ((EdgesListed threeTriangles ∧ AdjacencyClosed threeTriangles ∧ LabelsOK threeTriangles ∧
      SeedsOK threeTriangles ∧ EdgeMapOK threeTriangles ∧
      (∀ ue ∈ threeTriangles.uE2E, ue.Nodup ∧ ∀ x ∈ ue, x < 3 * threeTriangles.m)) ∧
    Relabelled threeTriangles threeTrianglesRelabelled rotateFaces rotateFacesInv ∧
    Renumbered threeTrianglesRelabelled threeTrianglesRenumbered rotateFacesInv rotateFaces ∧
    threeTrianglesRenumbered.points_inside_component = threeTriangles.points_inside_component ∧
    OracleBatchFree threeTriangles ∧ OracleRowOrderFree threeTriangles ∧
    SampleIndependent threeTriangles (componentsLoop threeTriangles threeTriangles.ncc).vG ∧
    (∀ a < threeTriangles.ncc, ∀ b < threeTriangles.ncc, a ≠ b →
      containsComp threeTriangles (componentsLoop threeTriangles threeTriangles.ncc).vG a b →
        ¬ containsComp threeTriangles (componentsLoop threeTriangles threeTriangles.ncc).vG b a) ∧
    (∀ a < threeTriangles.ncc, ∀ b < threeTriangles.ncc, ∀ c < threeTriangles.ncc,
      a ≠ b → b ≠ c → a ≠ c →
      containsComp threeTriangles (componentsLoop threeTriangles threeTriangles.ncc).vG a b →
        containsComp threeTriangles (componentsLoop threeTriangles threeTriangles.ncc).vG b c →
        containsComp threeTriangles (componentsLoop threeTriangles threeTriangles.ncc).vG a c)) ∧
    List.Perm (outer_hull_legacy threeTrianglesRenumbered).G (outer_hull_legacy threeTriangles).G ∧
    List.Perm ((outer_hull_legacy threeTrianglesRenumbered).J.map rotateFaces)
      (outer_hull_legacy threeTriangles).J :=
  have hasym : ∀ a < threeTriangles.ncc, ∀ b < threeTriangles.ncc, a ≠ b →
      containsComp threeTriangles (componentsLoop threeTriangles threeTriangles.ncc).vG a b →
        ¬ containsComp threeTriangles (componentsLoop threeTriangles threeTriangles.ncc).vG b a :=
    fun a ha b hb _ => by
      rw [threeTriangles_contains a b ha hb, threeTriangles_contains b a hb ha]; omega
  have htr : ∀ a < threeTriangles.ncc, ∀ b < threeTriangles.ncc, ∀ c < threeTriangles.ncc,
      a ≠ b → b ≠ c → a ≠ c →
      containsComp threeTriangles (componentsLoop threeTriangles threeTriangles.ncc).vG a b →
        containsComp threeTriangles (componentsLoop threeTriangles threeTriangles.ncc).vG b c →
        containsComp threeTriangles (componentsLoop threeTriangles threeTriangles.ncc).vG a c :=
    fun a ha b hb c hc _ _ _ => by
      rw [threeTriangles_contains a b ha hb, threeTriangles_contains b c hb hc,
        threeTriangles_contains a c ha hc]; omega
  ⟨⟨by decide, threeTriangles_relabelled, threeTriangles_renumbered, rfl,
      threeTriangles_batchFree, threeTriangles_rowOrderFree, threeTriangles_sampleIndependent,
      hasym, htr⟩,
    (C18_relabeling_invariance threeTriangles threeTrianglesRelabelled threeTrianglesRenumbered
      rotateFaces rotateFacesInv rotateFacesInv rotateFaces (by decide) (by decide) (by decide)
      (by decide) (by decide) (by decide) threeTriangles_relabelled threeTriangles_renumbered
      rfl threeTriangles_batchFree threeTriangles_rowOrderFree threeTriangles_sampleIndependent
      hasym htr).1,
    (C18_relabeling_invariance threeTriangles threeTrianglesRelabelled threeTrianglesRenumbered
      rotateFaces rotateFacesInv rotateFacesInv rotateFaces (by decide) (by decide) (by decide)
      (by decide) (by decide) (by decide) threeTriangles_relabelled threeTriangles_renumbered
      rfl threeTriangles_batchFree threeTriangles_rowOrderFree threeTriangles_sampleIndependent
      hasym htr).2.1⟩

/-- C18 as stated fails, in three ways, although every helper answers
equivariantly and the point-in-solid routine is one routine that answers each
point independently of its batch and of the order of the rows of the surface.

First, the sample of a component is the barycentre of its resolved face of
lowest index, a face that depends on the order of the faces: in
`straddlingPair` the routine reports the barycentre of face `0` of component
`0` inside component `1` and the barycentre of its face `1` outside; the run
on the faces as given discards component `0`, the run on the same faces with
the first two exchanged samples the other triangle and keeps it, so the
triangle `(1,3,2)` is returned by the second run only.

Second, the nesting loop tests against the components in the order of their
ids and skips a discarded tester: in `brokenChain`, where the answers of the
routine are not transitive, the innermost triangle `(0,1,2)` is returned by
the run on the input as given, and is not returned when the ids `1` and `2`
of the components are exchanged.

Third, of two components that contain each other the one with the lower id
survives: in `mutualTriangles` the innermost triangle `(0,1,2)` is returned by
the run on the input as given, and is not returned when the ids `0` and `1`
of the components are exchanged. -/
theorem C18_counterexample :
    (((EdgesListed straddlingPair ∧ AdjacencyClosed straddlingPair ∧ LabelsOK straddlingPair ∧
        SeedsOK straddlingPair ∧ EdgeMapOK straddlingPair ∧
        (∀ ue ∈ straddlingPair.uE2E, ue.Nodup ∧ ∀ x ∈ ue, x < 3 * straddlingPair.m)) ∧
      Relabelled straddlingPair straddlingPairSwapped swapFaces swapFaces ∧
      Renumbered straddlingPairSwapped straddlingPairSwapped (fun a => a) (fun a => a) ∧
      straddlingPairSwapped.points_inside_component = straddlingPair.points_inside_component ∧
      OracleBatchFree straddlingPair ∧ OracleRowOrderFree straddlingPair ∧
      (∀ a < straddlingPair.ncc, ∀ b < straddlingPair.ncc, a ≠ b →
        containsComp straddlingPair (componentsLoop straddlingPair straddlingPair.ncc).vG a b →
          ¬ containsComp straddlingPair
            (componentsLoop straddlingPair straddlingPair.ncc).vG b a) ∧
      (∀ a < straddlingPair.ncc, ∀ b < straddlingPair.ncc, ∀ c < straddlingPair.ncc,
        a ≠ b → b ≠ c → a ≠ c →
        containsComp straddlingPair (componentsLoop straddlingPair straddlingPair.ncc).vG a b →
          containsComp straddlingPair (componentsLoop straddlingPair straddlingPair.ncc).vG b c →
          containsComp straddlingPair (componentsLoop straddlingPair straddlingPair.ncc).vG a c)) ∧
      [1, 3, 2] ∈ (outer_hull_legacy straddlingPairSwapped).G ∧
      [1, 3, 2] ∉ (outer_hull_legacy straddlingPair).G) ∧
    (((EdgesListed brokenChain ∧ AdjacencyClosed brokenChain ∧ LabelsOK brokenChain ∧
        SeedsOK brokenChain ∧ EdgeMapOK brokenChain ∧
        (∀ ue ∈ brokenChain.uE2E, ue.Nodup ∧ ∀ x ∈ ue, x < 3 * brokenChain.m)) ∧
      Relabelled brokenChain brokenChain (fun i => i) (fun i => i) ∧
      Renumbered brokenChain brokenChainRenumbered swapIds swapIds ∧
      brokenChainRenumbered.points_inside_component = brokenChain.points_inside_component ∧
      OracleBatchFree brokenChain ∧ OracleRowOrderFree brokenChain ∧
      SampleIndependent brokenChain (componentsLoop brokenChain brokenChain.ncc).vG ∧
      (∀ a < brokenChain.ncc, ∀ b < brokenChain.ncc, a ≠ b →
        containsComp brokenChain (componentsLoop brokenChain brokenChain.ncc).vG a b →
          ¬ containsComp brokenChain (componentsLoop brokenChain brokenChain.ncc).vG b a)) ∧
      [0, 1, 2] ∈ (outer_hull_legacy brokenChain).G ∧
      [0, 1, 2] ∉ (outer_hull_legacy brokenChainRenumbered).G) ∧
    (((EdgesListed mutualTriangles ∧ AdjacencyClosed mutualTriangles ∧
        LabelsOK mutualTriangles ∧ SeedsOK mutualTriangles ∧ EdgeMapOK mutualTriangles ∧
        (∀ ue ∈ mutualTriangles.uE2E, ue.Nodup ∧ ∀ x ∈ ue, x < 3 * mutualTriangles.m)) ∧
      Relabelled mutualTriangles mutualTriangles (fun i => i) (fun i => i) ∧
      Renumbered mutualTriangles mutualTrianglesRenumbered swapFirstIds swapFirstIds ∧
      mutualTrianglesRenumbered.points_inside_component
        = mutualTriangles.points_inside_component ∧
      OracleBatchFree mutualTriangles ∧ OracleRowOrderFree mutualTriangles ∧
      SampleIndependent mutualTriangles
        (componentsLoop mutualTriangles mutualTriangles.ncc).vG ∧
      (∀ a < mutualTriangles.ncc, ∀ b < mutualTriangles.ncc, ∀ c < mutualTriangles.ncc,
        a ≠ b → b ≠ c → a ≠ c →
        containsComp mutualTriangles (componentsLoop mutualTriangles mutualTriangles.ncc).vG a b →
          containsComp mutualTriangles
            (componentsLoop mutualTriangles mutualTriangles.ncc).vG b c →
          containsComp mutualTriangles
            (componentsLoop mutualTriangles mutualTriangles.ncc).vG a c)) ∧
      [0, 1, 2] ∈ (outer_hull_legacy mutualTriangles).G ∧
      [0, 1, 2] ∉ (outer_hull_legacy mutualTrianglesRenumbered).G) := by
  refine ⟨⟨⟨by decide, straddlingPair_relabelled, renumbered_refl _, rfl,
      straddlingPair_batchFree, straddlingPair_rowOrderFree, ?_, ?_⟩, ?_, ?_⟩,
    ⟨⟨by decide, brokenChain_relabelled, brokenChain_renumbered, rfl, brokenChain_batchFree,
      brokenChain_rowOrderFree, brokenChain_sampleIndependent, ?_⟩, ?_, ?_⟩,
    ⟨by decide, mutualTriangles_relabelled, mutualTriangles_renumbered, rfl,
      mutualTriangles_batchFree, mutualTriangles_rowOrderFree,
      mutualTriangles_sampleIndependent,
      fun a ha _ _ c hc _ _ _ _ _ => mutualTriangles_contains a c ha hc⟩, ?_, ?_⟩
  · intro a ha b hb _
    rw [straddlingPair_contains a b ha hb, straddlingPair_contains b a hb ha]; omega
  · intro a ha b hb c hc _ _ _
    rw [straddlingPair_contains a b ha hb, straddlingPair_contains b c hb hc,
      straddlingPair_contains a c ha hc]; omega
  · show [1, 3, 2] ∈ collect _ _ _
    rw [mem_collect]
    refine ⟨0, by decide, straddlingPairSwapped_keep, ?_⟩
    rw [straddlingPairSwapped_vG]
    decide
  · show [1, 3, 2] ∉ collect _ _ _
    rw [mem_collect]
    rintro ⟨id, hid, hk, ht⟩
    have hid' : id < 2 := hid
    rw [straddlingPair_vG] at ht
    interval_cases id
    · rw [straddlingPair_keep] at hk
      cases hk
    · revert ht
      decide
  · intro a ha b hb _ hab hba
    have h1 := (brokenChain_reports a b ha hb).mp hab.2
    have h2 := (brokenChain_reports b a hb ha).mp hba.2
    omega
  · show [0, 1, 2] ∈ collect _ _ _
    rw [mem_collect]
    refine ⟨0, by decide, brokenChain_keep, ?_⟩
    rw [brokenChain_vG]
    decide
  · show [0, 1, 2] ∉ collect _ _ _
    rw [mem_collect]
    rintro ⟨id, hid, hk, ht⟩
    have hid' : id < 3 := hid
    rw [brokenChainRenumbered_vG] at ht
    interval_cases id
    · rw [brokenChainRenumbered_keep] at hk
      cases hk
    · revert ht
      decide
    · revert ht
      decide
  · show [0, 1, 2] ∈ collect _ _ _
    rw [mem_collect]
    refine ⟨0, by decide, mutualTriangles_keep, ?_⟩
    rw [mutualTriangles_vG]
    decide
  · show [0, 1, 2] ∉ collect _ _ _
    rw [mem_collect]
    rintro ⟨id, hid, hk, ht⟩
    have hid' : id < 3 := hid
    rw [mutualTrianglesRenumbered_vG] at ht
    interval_cases id
    · revert ht
      decide
    · rw [mutualTrianglesRenumbered_keep] at hk
      cases hk
    · revert ht
      decide

/-- The mark of a face labelled `id` does not change after the traversal of component
`id`. -/
theorem componentsLoop_later_FH (inp : Input) (hL : EdgesListed inp) (hA : AdjacencyClosed inp)
    (hLab : LabelsOK inp) (hS : SeedsOK inp) (id j : Nat) (hj : id + 1 + j ≤ inp.ncc)
    (f : Nat) (hC : inp.C.getD f 0 = id) :
    (componentsLoop inp (id + 1 + j)).FH.getD f false
      = (componentsLoop inp (id + 1)).FH.getD f false := by
  induction j with
  | zero => rfl
  | succ j ih =>
    have hg := GInv_componentsLoop inp hL hA hLab hS (id + 1 + j) (by omega)
    have hT := TInv_bfs inp hL hA (id + 1 + j) _ (bfsFuel inp) _
      (TInv_seedInit inp hS (id + 1 + j) (by omega) _ hg)
    have hne : inp.C.getD f 0 ≠ id + 1 + j := by omega
    have hstep : (componentsLoop inp (id + 1 + (j + 1))).FH.getD f false
        = (componentsLoop inp (id + 1 + j)).FH.getD f false := by
      show (componentsLoop inp (id + 1 + j + 1)).FH.getD f false = _
      rw [componentsLoop_succ_FH, hT.frameFH f hne]
    rw [hstep, ih (by omega)]

/-- C19 (amended): with well-formed helper results, if after the traversal of
component `id` has ended (its queue is empty) a face `f` of that component has
not been reached, nothing fails: both assertions of the gathering block hold,
and the face is left out of the block of the component and of the returned
`J`. -/
theorem C19_unreached_faces_omitted (inp : Input) (hL : EdgesListed inp)
    (hA : AdjacencyClosed inp) (hLab : LabelsOK inp) (hS : SeedsOK inp) (id : Nat)
    (hid : id < inp.ncc) (f : Nat) (hC : inp.C.getD f 0 = id)
    (hun : (bfs inp (bfsFuel inp) (seedInit inp id (componentsLoop inp id))).FH.getD f false
      = false) :
    (bfs inp (bfsFuel inp) (seedInit inp id (componentsLoop inp id))).Q = [] ∧
    gatherAssertions inp id (bfs inp (bfsFuel inp) (seedInit inp id (componentsLoop inp id))) ∧
    f ∉ (componentsLoop inp (id + 1)).vJ.getD id [] ∧
    f ∉ (outer_hull_legacy inp).J := by
  have hg := GInv_componentsLoop inp hL hA hLab hS id (by omega)
  have hg1 := GInv_componentsLoop inp hL hA hLab hS (id + 1) (by omega)
  have hT := TInv_bfs inp hL hA id _ (bfsFuel inp) _ (TInv_seedInit inp hS id hid _ hg)
  refine ⟨traversal_terminates inp hL hA hLab hS id hid, ⟨?_, ?_⟩, ?_, ?_⟩
  · rw [IM_length inp hLab id hid]
  · rw [gathered_length inp hLab id hid, hT.count]
  · rw [hg1.resJ id (by omega), List.mem_filter, componentsLoop_succ_FH, hun]
    simp
  · intro hJ
    have hfin := (mem_J inp hL hA hLab hS f hJ).2
    have hlater := componentsLoop_later_FH inp hL hA hLab hS id (inp.ncc - (id + 1)) (by omega)
      f hC
    have hsum : id + 1 + (inp.ncc - (id + 1)) = inp.ncc := by omega
    rw [hsum, componentsLoop_succ_FH, hun] at hlater
    rw [hlater] at hfin
    cases hfin

/-- C19 (amended) on the tetrahedron with an interior triangle, whose face `4`
is not reached. -/
theorem C19_unreached_faces_omitted_witness :
    (EdgesListed finMesh ∧ AdjacencyClosed finMesh ∧ LabelsOK finMesh ∧ SeedsOK finMesh ∧
      0 < finMesh.ncc ∧ finMesh.C.getD 4 0 = 0 ∧
      (bfs finMesh (bfsFuel finMesh) (seedInit finMesh 0 (componentsLoop finMesh 0))).FH.getD 4
        false = false) ∧
    gatherAssertions finMesh 0
      (bfs finMesh (bfsFuel finMesh) (seedInit finMesh 0 (componentsLoop finMesh 0))) ∧
    4 ∉ (outer_hull_legacy finMesh).J :=
  ⟨by decide,
    (C19_unreached_faces_omitted finMesh (by decide) (by decide) (by decide) (by decide) 0
      (by decide) 4 (by decide) (by decide)).2.1,
    (C19_unreached_faces_omitted finMesh (by decide) (by decide) (by decide) (by decide) 0
      (by decide) 4 (by decide) (by decide)).2.2.2⟩

/-- C19 as stated fails: on the tetrahedron with an interior triangle (helper
results well formed) the traversal of component `0` ends with an empty queue
while face `4` of that component is not reached; both assertions of the
gathering block hold, and `outer_hull_legacy` returns a result, with the faces
`0, 1, 2, 3` and without face `4`. -/
theorem C19_counterexample :
    (EdgesListed finMesh ∧ AdjacencyClosed finMesh ∧ LabelsOK finMesh ∧ SeedsOK finMesh) ∧
    (bfs finMesh (bfsFuel finMesh) (seedInit finMesh 0 (componentsLoop finMesh 0))).Q = [] ∧
    finMesh.C.getD 4 0 = 0 ∧
    (bfs finMesh (bfsFuel finMesh) (seedInit finMesh 0 (componentsLoop finMesh 0))).FH.getD 4
      false = false ∧
    gatherAssertions finMesh 0
      (bfs finMesh (bfsFuel finMesh) (seedInit finMesh 0 (componentsLoop finMesh 0))) ∧
    outer_hull_legacy finMesh
      = { G := [[0, 2, 1], [0, 1, 3], [1, 2, 3], [0, 3, 2]]
          J := [0, 1, 2, 3]
          flip := [false, false, false, false, false] } := by
  decide

/-- The labels along a traversal that starts from any global state `g` at a seed labelled
`id`: queued half-edges belong to faces labelled `id`, and faces with another label keep
their mark. -/
theorem labels_iterate (inp : Input) (hL : EdgesListed inp) (hA : AdjacencyClosed inp)
    (id : Nat) (g : Global)
    (hseed : (inp.outer_facet (inp.IM id)).1 < inp.m ∧
      inp.C.getD (inp.outer_facet (inp.IM id)).1 0 = id) (k : Nat) :
    (∀ e ∈ ((bfsStep inp)^[k] (seedInit inp id g)).Q,
      e < 3 * inp.m ∧ inp.C.getD (e % inp.m) 0 = id) ∧
    ∀ f, inp.C.getD f 0 ≠ id →
      ((bfsStep inp)^[k] (seedInit inp id g)).FH.getD f false = g.FH.getD f false := by
  obtain ⟨hlt, hC⟩ := hseed
  induction k with
  | zero =>
    simp only [Function.iterate_zero, id_eq]
    unfold seedInit
    constructor
    · intro e he
      simp only [List.mem_cons, List.mem_singleton, List.not_mem_nil, or_false] at he
      rcases he with rfl | rfl | rfl
      · exact ⟨add_mul_lt _ _ _ hlt (by omega), by rw [mod_add_mul _ _ _ hlt]; exact hC⟩
      · exact ⟨add_mul_lt _ _ _ hlt (by omega), by rw [mod_add_mul _ _ _ hlt]; exact hC⟩
      · exact ⟨add_mul_lt _ _ _ hlt (by omega), by rw [mod_add_mul _ _ _ hlt]; exact hC⟩
    · intro f hf
      have : (inp.outer_facet (inp.IM id)).1 ≠ f := by rintro rfl; exact hf hC
      simp only
      rw [getD_set_other _ _ _ _ _ this]
  | succ k ih =>
    rw [Function.iterate_succ_apply']
    generalize (bfsStep inp)^[k] (seedInit inp id g) = s at ih
    obtain ⟨hq, hfr⟩ := ih
    cases hQ : s.Q with
    | nil => rw [bfsStep_nil inp s hQ]; exact ⟨hq, hfr⟩
    | cons e Q =>
      have heQ : e ∈ s.Q := by rw [hQ]; exact List.mem_cons_self _ _
      obtain ⟨he, heC⟩ := hq e heQ
      have hQsub : ∀ x ∈ Q, x ∈ s.Q := fun x hx => by rw [hQ]; exact List.mem_cons_of_mem _ hx
      have hm : 0 < inp.m := by omega
      rcases bfsStep_cases inp s e Q hQ with ⟨_, hs⟩ | ⟨_, _, hs⟩ | ⟨_, i, hn, hs⟩
      · rw [hs]
        exact ⟨fun x hx => hq x (hQsub x hx), hfr⟩
      · rw [hs]
        exact ⟨fun x hx => hq x (hQsub x hx), hfr⟩
      · obtain ⟨_, hxC, _⟩ := cross_facts inp hL hA s.FH _ e i he hn
        rw [hs]
        have hnf : (inp.ue e).getD i 0 % inp.m < inp.m := Nat.mod_lt _ hm
        have hnfC : inp.C.getD ((inp.ue e).getD i 0 % inp.m) 0 = id := by rw [hxC, heC]
        unfold crossState
        constructor
        · intro x hx
          simp only at hx
          rcases pushUnvisited_mem _ _ _ _ hx with hx | hx
          · rcases pushUnvisited_mem _ _ _ _ hx with hx | hx
            · exact hq x (hQsub x hx)
            · subst hx
              exact ⟨add_mul_lt _ _ _ hnf (Nat.mod_lt _ (by omega)),
                by rw [mod_add_mul _ _ _ hnf]; exact hnfC⟩
          · subst hx
            exact ⟨add_mul_lt _ _ _ hnf (Nat.mod_lt _ (by omega)),
              by rw [mod_add_mul _ _ _ hnf]; exact hnfC⟩
        · intro f hf
          have : (inp.ue e).getD i 0 % inp.m ≠ f := by rintro rfl; exact hf hnfC
          simp only
          rw [getD_set_other _ _ _ _ _ this]
          exact hfr f hf

/-- C20: let every half-edge be listed by its undirected edge, let the
labelling be adjacency-closed, and let the seed of component `id` be a face
labelled `id`. Then, from whatever marks `g` the traversal of component `id`
starts, every face that is resolved after any number `k` of iterations of the
traversal loop, or when the traversal has ended, and was not resolved before
the traversal, is labelled `id`. -/
theorem C20_resolved_faces_labelled (inp : Input) (hL : EdgesListed inp)
    (hA : AdjacencyClosed inp) (id : Nat) (g : Global)
    (hseed : (inp.outer_facet (inp.IM id)).1 < inp.m ∧
      inp.C.getD (inp.outer_facet (inp.IM id)).1 0 = id) (f : Nat)
    (hbefore : g.FH.getD f false = false) :
    (∀ k, ((bfsStep inp)^[k] (seedInit inp id g)).FH.getD f false = true →
      inp.C.getD f 0 = id) ∧
    ((bfs inp (bfsFuel inp) (seedInit inp id g)).FH.getD f false = true →
      inp.C.getD f 0 = id) ∧
    ((componentBody inp id g).FH.getD f false = true → inp.C.getD f 0 = id) := by
  have hk : ∀ k, ((bfsStep inp)^[k] (seedInit inp id g)).FH.getD f false = true →
      inp.C.getD f 0 = id := by
    intro k hres
    by_contra hne
    rw [(labels_iterate inp hL hA id g hseed k).2 f hne, hbefore] at hres
    cases hres
  refine ⟨hk, ?_, ?_⟩
  · rw [bfs_eq_iterate]
    exact hk _
  · unfold componentBody
    simp only
    rw [bfs_eq_iterate]
    exact hk _

/-- C20 on the traversal of the tetrahedron with an interior triangle: face `3`
is resolved by the traversal and is labelled `0`. -/
theorem C20_resolved_faces_labelled_witness :
    (EdgesListed finMesh ∧ AdjacencyClosed finMesh ∧
      (finMesh.outer_facet (finMesh.IM 0)).1 < finMesh.m ∧
      finMesh.C.getD (finMesh.outer_facet (finMesh.IM 0)).1 0 = 0 ∧
      (componentsLoop finMesh 0).FH.getD 3 false = false ∧
      (componentBody finMesh 0 (componentsLoop finMesh 0)).FH.getD 3 false = true) ∧
    finMesh.C.getD 3 0 = 0 :=
  ⟨by decide, (C20_resolved_faces_labelled finMesh (by decide) (by decide) 0
    (componentsLoop finMesh 0) (by decide) 3 (by decide)).2.2 (by decide)⟩

/-- C21: for a valence `1 ≤ val < 2^31`, a position `d < val` and `step = 1`,
the expression of line 239, evaluated modulo `2^64` as C++ evaluates its mixed
`int`/`size_t` operands, is `(d + s) mod val`, a position below `val`, where
`s = +1` when exactly one of the consistency flag and the flip of `f` is set
and `s = -1` otherwise. -/
theorem C21_one_step_position (val d : Nat) (e_cons flipf : Bool) (hval : 1 ≤ val)
    (hbound : val < 2 ^ 31) (hd : d < val) :
    ((nfei_new d val e_cons 1 flipf : Nat) : Int)
      = ((d : Int) + (if xor e_cons flipf then 1 else -1)) % (val : Int) ∧
    nfei_new d val e_cons 1 flipf < val := by
  refine ⟨?_, nfei_new_lt d val e_cons 1 flipf hval⟩
  rw [nfei_new_one d val e_cons flipf hval hbound hd]
  unfold oneStepPosition
  by_cases hx : xor e_cons flipf = true
  · rw [if_pos hx, if_pos hx]
    push_cast
    rfl
  · rw [if_neg hx, if_neg hx]
    have h1 : ((d + val - 1 : Nat) : Int) = (d : Int) + -1 + (val : Int) := by omega
    rw [Int.natCast_mod, h1, Int.add_emod_self]

/-- C21 for an edge of valence `3`: from position `0` the step `-1` leads to
position `2`. -/
theorem C21_one_step_position_witness :
    (1 ≤ 3 ∧ 3 < 2 ^ 31 ∧ 0 < 3) ∧
    ((nfei_new 0 3 true 1 true : Nat) : Int) = ((0 : Int) + -1) % 3 ∧
    nfei_new 0 3 true 1 true = 2 :=
  ⟨by decide, (C21_one_step_position 3 0 true true (by decide) (by decide) (by decide)).1,
    by decide⟩

/-- C22: the value written to `flip(nf)` at a crossing from the half-edge
`(f,c)` to the half-edge `(nf,nc)` is `flip(f)` iff `F(f,(c+1)%3) =
F(nf,(nc+2)%3)` and the negation of `flip(f)` otherwise; the vertex that the
test `(flip(f)?fd:fs) == nd` takes from `f` is `F(f,(c+1)%3)` whatever
`flip(f)` is. In the state after the crossing (`f` resolved, `nf` not yet
resolved before it) `flip(nf)` holds that value and `flip(f)` is unchanged. -/
theorem C22_neighbor_flip (inp : Input) (s : State) (e : Nat) (Q : List Nat) (max_ne : Nat)
    (hm : 0 < inp.m) (hlen : s.flip.length = inp.m)
    (hf : s.FH.getD (e % inp.m) false = true)
    (hnf : s.FH.getD (max_ne % inp.m) false = false) :
    (∀ flipf : Bool,
      (if flipf then edgeDest inp flipf (e % inp.m) (e / inp.m)
        else edgeSource inp flipf (e % inp.m) (e / inp.m))
        = inp.Fat (e % inp.m) ((e / inp.m + 1) % 3)) ∧
    ((crossState inp s e Q max_ne).flip.getD (max_ne % inp.m) false
        = s.flip.getD (e % inp.m) false ↔
      inp.Fat (e % inp.m) ((e / inp.m + 1) % 3)
        = inp.Fat (max_ne % inp.m) ((max_ne / inp.m + 2) % 3)) ∧
    (inp.Fat (e % inp.m) ((e / inp.m + 1) % 3)
        ≠ inp.Fat (max_ne % inp.m) ((max_ne / inp.m + 2) % 3) →
      (crossState inp s e Q max_ne).flip.getD (max_ne % inp.m) false
        = !(s.flip.getD (e % inp.m) false)) ∧
    (crossState inp s e Q max_ne).flip.getD (e % inp.m) false
      = s.flip.getD (e % inp.m) false := by
  obtain ⟨h1, h2⟩ := crossState_flips inp s e Q max_ne hm hlen hf hnf
  have hval : neighborFlip inp (s.flip.getD (e % inp.m) false) (e % inp.m) (e / inp.m)
      (max_ne % inp.m) (max_ne / inp.m)
      = if inp.Fat (e % inp.m) ((e / inp.m + 1) % 3)
          = inp.Fat (max_ne % inp.m) ((max_ne / inp.m + 2) % 3)
        then s.flip.getD (e % inp.m) false else !(s.flip.getD (e % inp.m) false) := by
    unfold neighborFlip edgeSource edgeDest
    cases s.flip.getD (e % inp.m) false <;> simp
  refine ⟨?_, ?_, ?_, h1⟩
  · intro flipf
    unfold edgeSource edgeDest
    cases flipf <;> rfl
  · rw [h2, hval]
    by_cases hc : inp.Fat (e % inp.m) ((e / inp.m + 1) % 3)
        = inp.Fat (max_ne % inp.m) ((max_ne / inp.m + 2) % 3)
    · rw [if_pos hc]; exact ⟨fun _ => hc, fun _ => rfl⟩
    · rw [if_neg hc]
      constructor
      · intro h
        cases hb : s.flip.getD (e % inp.m) false <;> rw [hb] at h <;> cases h
      · intro h; exact absurd h hc
  · intro hc
    rw [h2, hval, if_neg hc]

/-- C22 at the three-page book: the third iteration crosses from half-edge `6`
of face `0` (corner `2`) to half-edge `7` of face `1` (corner `2`); `F(0,0) = 0`
differs from `F(1,1) = 1`, so face `1` gets the negated flip. -/
theorem C22_neighbor_flip_witness :
    (0 < bookMesh.m ∧ (traversalState bookMesh 0 2).flip.length = bookMesh.m ∧
      (traversalState bookMesh 0 2).FH.getD (6 % bookMesh.m) false = true ∧
      (traversalState bookMesh 0 2).FH.getD (7 % bookMesh.m) false = false ∧
      bookMesh.Fat (6 % bookMesh.m) ((6 / bookMesh.m + 1) % 3)
        ≠ bookMesh.Fat (7 % bookMesh.m) ((7 / bookMesh.m + 2) % 3)) ∧
    (crossState bookMesh (traversalState bookMesh 0 2) 6 [] 7).flip.getD (7 % bookMesh.m) false
      = !((traversalState bookMesh 0 2).flip.getD (6 % bookMesh.m) false) :=
  ⟨by decide, (C22_neighbor_flip bookMesh (traversalState bookMesh 0 2) 6 [] 7 (by decide)
    (by decide) (by decide) (by decide)).2.2.1 (by decide)⟩

/-- C23: for every input and all answers of the helper routines, provided the
seed that `outer_facet` returns for component `id` is a face index, the
traversal loop of component `id` ends with an empty queue (within `3 + 2 m`
iterations), and after any number `k` of iterations the number of half-edges
pushed so far, the three pushes of the seed included, is at most
`3 + 2 (FHcount - 1)`, where `1 ≤ FHcount ≤ m`. -/
theorem C23_pushes_bounded (inp : Input) (id : Nat)
    (hseed : (inp.outer_facet (inp.IM id)).1 < inp.m) :
    (bfs inp (bfsFuel inp) (seedInit inp id (componentsLoop inp id))).Q = [] ∧
    ∀ k, (pushedUpTo inp (seedInit inp id (componentsLoop inp id)) k).length
        ≤ 3 + 2 * ((traversalState inp id k).FHcount - 1) ∧
      1 ≤ (traversalState inp id k).FHcount ∧ (traversalState inp id k).FHcount ≤ inp.m := by
  have hm : 0 < inp.m := by omega
  have hlen := componentsLoop_lenFH inp id
  have hlen0 : (seedInit inp id (componentsLoop inp id)).FH.length = inp.m := by
    unfold seedInit
    simp only [List.length_set]
    exact hlen
  refine ⟨bfs_queue_empty inp hm _ _ hlen0 (seedInit_measure inp id _ hlen), ?_⟩
  intro k
  have hpush := pushedUpTo_length inp (seedInit inp id (componentsLoop inp id)) k
  have hset : (seedInit inp id (componentsLoop inp id)).FH.getD (inp.outer_facet (inp.IM id)).1
      false = true := by
    unfold seedInit
    exact getD_set_self _ _ _ _ (by rw [hlen]; exact hseed)
  have h0 : (seedInit inp id (componentsLoop inp id)).FHcount
      + (seedInit inp id (componentsLoop inp id)).FH.count false ≤ inp.m := by
    have := count_false_lt _ _ hset
    rw [hlen0] at this
    have hc : (seedInit inp id (componentsLoop inp id)).FHcount = 1 := rfl
    omega
  obtain ⟨h1, h2⟩ := iterate_count_bound inp k _ hm hlen0 h0
  have hc : (seedInit inp id (componentsLoop inp id)).FHcount = 1 := rfl
  have hq : (seedInit inp id (componentsLoop inp id)).Q.length = 3 := rfl
  rw [hc] at h2
  rw [hc, hq] at hpush
  unfold traversalState
  refine ⟨by omega, h2, by omega⟩

/-- C23 on the tetrahedron with an interior triangle: the traversal resolves
four faces and pushes nine half-edges, `3 + 2 (4 - 1)`. -/
theorem C23_pushes_bounded_witness :
    (finMesh.outer_facet (finMesh.IM 0)).1 < finMesh.m ∧
    (traversalState finMesh 0 (bfsFuel finMesh)).FHcount = 4 ∧
    (pushedUpTo finMesh (seedInit finMesh 0 (componentsLoop finMesh 0))
      (bfsFuel finMesh)).length = 9 ∧
    (pushedUpTo finMesh (seedInit finMesh 0 (componentsLoop finMesh 0))
        (bfsFuel finMesh)).length
      ≤ 3 + 2 * ((traversalState finMesh 0 (bfsFuel finMesh)).FHcount - 1) :=
  ⟨by decide, by decide, by decide,
    ((C23_pushes_bounded finMesh 0 (by decide)).2 (bfsFuel finMesh)).1⟩

theorem looseTriangles_kept (c : Nat) (hc : c < 3) :
    (nestLoop looseTriangles (componentsLoop looseTriangles looseTriangles.ncc).vG
      looseTriangles.ncc).keep.getD c false = true := by
  have hbf : OracleBatchFree looseTriangles :=
    batchFree_of_map looseTriangles _ (fun _ _ => rfl)
  by_contra hk
  obtain ⟨d, _, _, _, hcon⟩ := discarded_has_container looseTriangles hbf _ looseTriangles.ncc c
    hc (by simpa using hk)
  exact hcon.2 (by simp [looseTriangles])

theorem looseTriangles_boxes (x y : Nat) (hx : x < 3) (hy : y < 3) :
    has_overlapping_bbox looseTriangles
      ((componentsLoop looseTriangles looseTriangles.ncc).vG.getD x [])
      ((componentsLoop looseTriangles looseTriangles.ncc).vG.getD y []) = true := by
  have h := threeTriangles_boxes x y hx hy
  rw [has_overlapping_bbox_congr looseTriangles threeTriangles rfl]
  have hv : (componentsLoop looseTriangles looseTriangles.ncc).vG
      = (componentsLoop threeTriangles threeTriangles.ncc).vG :=
    congrArg Global.vG (componentsLoop_oracle threeTriangles _ threeTriangles.ncc)
  rw [hv]
  exact h

/-- C24: whatever the box test and the point-in-solid routine answer, if two
distinct components `id` and `oid` are both kept at the end of the nesting
loop and their boxes overlap, then `oid` was among the components sent with
the surface of `id` in the round of `id`, and the routine answered "not
inside" at every position of `oid` in that batch. When the routine answers
each point independently of its batch, `id` does not contain `oid`: it is not
the case that the boxes overlap and the sample of `oid` is reported inside
the surface of `id`. -/
theorem C24_kept_pair_not_nested (inp : Input) (vG : List (List (List Nat))) (id oid : Nat)
    (hid : id < inp.ncc) (hoid : oid < inp.ncc) (hne : id ≠ oid)
    (hk : (nestLoop inp vG inp.ncc).keep.getD id false = true)
    (hko : (nestLoop inp vG inp.ncc).keep.getD oid false = true) :
    (has_overlapping_bbox inp (vG.getD id []) (vG.getD oid []) = true →
      oid ∈ unresolvedOf inp vG (nestLoop inp vG id).keep id ∧
      ∀ i < (unresolvedOf inp vG (nestLoop inp vG id).keep id).length,
        (unresolvedOf inp vG (nestLoop inp vG id).keep id).getD i 0 = oid →
        (inp.points_inside_component (vG.getD id [])
          ((unresolvedOf inp vG (nestLoop inp vG id).keep id).map (queryPoint inp vG))).getD i 0
            = 0) ∧
    (OracleBatchFree inp → ¬ containsComp inp vG id oid) := by
  refine ⟨kept_pair_round inp vG id oid hid hoid hne hk hko, ?_⟩
  intro hbf hcon
  have h1 := nestLoop_keep_mono inp vG id inp.ncc (by omega) id hk
  have := tester_discards inp hbf vG inp.ncc id oid hid hoid hne h1 hcon
  rw [this] at hko
  cases hko

/-- C24 on the three nested triangles with an oracle that reports every sample
outside: the components `1` and `0` are both kept, their boxes overlap, and
component `0` was tested against component `1`. -/
theorem C24_kept_pair_not_nested_witness :
    (1 < looseTriangles.ncc ∧ 0 < looseTriangles.ncc ∧ 1 ≠ 0 ∧
      (nestLoop looseTriangles (componentsLoop looseTriangles looseTriangles.ncc).vG
        looseTriangles.ncc).keep.getD 1 false = true ∧
      (nestLoop looseTriangles (componentsLoop looseTriangles looseTriangles.ncc).vG
        looseTriangles.ncc).keep.getD 0 false = true ∧
      has_overlapping_bbox looseTriangles
        ((componentsLoop looseTriangles looseTriangles.ncc).vG.getD 1 [])
        ((componentsLoop looseTriangles looseTriangles.ncc).vG.getD 0 []) = true) ∧
    0 ∈ unresolvedOf looseTriangles (componentsLoop looseTriangles looseTriangles.ncc).vG
      (nestLoop looseTriangles (componentsLoop looseTriangles looseTriangles.ncc).vG 1).keep 1 :=
  ⟨⟨by decide, by decide, by decide, looseTriangles_kept 1 (by decide),
      looseTriangles_kept 0 (by decide), looseTriangles_boxes 1 0 (by decide) (by decide)⟩,
    ((C24_kept_pair_not_nested looseTriangles _ 1 0 (by decide) (by decide) (by decide)
      (looseTriangles_kept 1 (by decide)) (looseTriangles_kept 0 (by decide))).1
        (looseTriangles_boxes 1 0 (by decide) (by decide))).1⟩

/-- For non-empty rows with coordinates in the range of the initial box, the computed box
is the tight one. -/
theorem bounding_box_tight (inp : Input) (A : List (List Nat)) (hA : A ≠ [])
    (hAc : ∀ k < 3, ∀ x ∈ axisCoords inp A k,
      -100000000000000000000000000 ≤ x ∧ x ≤ 100000000000000000000000000) :
    bounding_box inp A
      = ((List.range 3).map (fun k => listMin (axisCoords inp A k)),
         (List.range 3).map (fun k => listMax (axisCoords inp A k))) := by
  rw [bounding_box_eq]
  congr 1
  · apply List.map_congr_left
    intro k hk
    exact foldl_min_eq_listMin _ (axisCoords_ne_nil inp A hA k) _
      (fun x hx => (hAc k (List.mem_range.mp hk) x hx).2)
  · apply List.map_congr_left
    intro k hk
    exact foldl_max_eq_listMax _ (axisCoords_ne_nil inp A hA k) _
      (fun x hx => (hAc k (List.mem_range.mp hk) x hx).1)

theorem has_overlapping_bbox_iff (inp : Input) (A B : List (List Nat))
    (lA hA lB hB : Nat → ℚ)
    (hbA : bounding_box inp A = ((List.range 3).map lA, (List.range 3).map hA))
    (hbB : bounding_box inp B = ((List.range 3).map lB, (List.range 3).map hB)) :
    has_overlapping_bbox inp A B = true ↔ ∀ k < 3, lB k ≤ hA k ∧ lA k ≤ hB k := by
  unfold has_overlapping_bbox
  simp only [hbA, hbB]
  have h1 : (List.range 3).map (fun k => ((List.range 3).map lB).getD k 0
      - ((List.range 3).map hA).getD k 0) = (List.range 3).map (fun k => lB k - hA k) := by
    apply List.map_congr_left
    intro k hk
    rw [getD_map_range3 lB k (List.mem_range.mp hk), getD_map_range3 hA k (List.mem_range.mp hk)]
  have h2 : (List.range 3).map (fun k => ((List.range 3).map lA).getD k 0
      - ((List.range 3).map hB).getD k 0) = (List.range 3).map (fun k => lA k - hB k) := by
    apply List.map_congr_left
    intro k hk
    rw [getD_map_range3 lA k (List.mem_range.mp hk), getD_map_range3 hB k (List.mem_range.mp hk)]
  rw [h1, h2]
  have hc : (maxCoeff ((List.range 3).map (fun k => lB k - hA k)) > 0 ∨
      maxCoeff ((List.range 3).map (fun k => lA k - hB k)) > 0) ↔
      ((∃ k < 3, lB k - hA k > 0) ∨ ∃ k < 3, lA k - hB k > 0) := by
    rw [maxCoeff_pos, maxCoeff_pos]
  constructor
  · intro h k hk
    by_contra hc'
    have hor : (∃ k < 3, lB k - hA k > 0) ∨ ∃ k < 3, lA k - hB k > 0 := by
      by_cases h1 : lB k ≤ hA k
      · right
        refine ⟨k, hk, ?_⟩
        have : ¬ lA k ≤ hB k := fun h2 => hc' ⟨h1, h2⟩
        linarith [not_le.mp this]
      · left
        exact ⟨k, hk, by linarith [not_le.mp h1]⟩
    rw [if_pos (hc.mpr hor)] at h
    cases h
  · intro h
    rw [if_neg]
    intro hor
    rcases hc.mp hor with ⟨k, hk, hpos⟩ | ⟨k, hk, hpos⟩
    · linarith [(h k hk).1]
    · linarith [(h k hk).2]

/-- C25: for non-empty face lists `A` and `B` whose vertex coordinates lie in
`[-1e26, 1e26]`, `has_overlapping_bbox(V,A,B)` is true iff on each of the three
axes the closed intervals `[min_A, max_A]` and `[min_B, max_B]` intersect, that
is `max(min_A, min_B) ≤ min(max_A, max_B)` (touching intervals included, the
comparison is not strict); the predicate is symmetric in `A` and `B`. -/
theorem C25_bbox_overlap (inp : Input) (A B : List (List Nat)) (hA : A ≠ []) (hB : B ≠ [])
    (hAc : ∀ k < 3, ∀ x ∈ axisCoords inp A k,
      -100000000000000000000000000 ≤ x ∧ x ≤ 100000000000000000000000000)
    (hBc : ∀ k < 3, ∀ x ∈ axisCoords inp B k,
      -100000000000000000000000000 ≤ x ∧ x ≤ 100000000000000000000000000) :
    (has_overlapping_bbox inp A B = true ↔
      ∀ k < 3, max (listMin (axisCoords inp A k)) (listMin (axisCoords inp B k))
        ≤ min (listMax (axisCoords inp A k)) (listMax (axisCoords inp B k))) ∧
    has_overlapping_bbox inp A B = has_overlapping_bbox inp B A := by
  have hbA := bounding_box_tight inp A hA hAc
  have hbB := bounding_box_tight inp B hB hBc
  have hAB := has_overlapping_bbox_iff inp A B _ _ _ _ hbA hbB
  have hBA := has_overlapping_bbox_iff inp B A _ _ _ _ hbB hbA
  have hordA : ∀ k, listMin (axisCoords inp A k) ≤ listMax (axisCoords inp A k) := fun k =>
    (listMax_spec _ (axisCoords_ne_nil inp A hA k)).2 _
      (listMin_spec _ (axisCoords_ne_nil inp A hA k)).1
  have hordB : ∀ k, listMin (axisCoords inp B k) ≤ listMax (axisCoords inp B k) := fun k =>
    (listMax_spec _ (axisCoords_ne_nil inp B hB k)).2 _
      (listMin_spec _ (axisCoords_ne_nil inp B hB k)).1
  constructor
  · rw [hAB]
    constructor
    · intro h k hk
      exact max_le (le_min (hordA k) (h k hk).2) (le_min (h k hk).1 (hordB k))
    · intro h k hk
      have := h k hk
      exact ⟨le_trans (le_max_right _ _) (le_trans this (min_le_left _ _)),
        le_trans (le_max_left _ _) (le_trans this (min_le_right _ _))⟩
  · cases h1 : has_overlapping_bbox inp A B <;> cases h2 : has_overlapping_bbox inp B A
    · rfl
    · have := hAB.mpr (fun k hk => ⟨((hBA.mp h2) k hk).2, ((hBA.mp h2) k hk).1⟩)
      rw [h1] at this; cases this
    · have := hBA.mpr (fun k hk => ⟨((hAB.mp h1) k hk).2, ((hAB.mp h1) k hk).1⟩)
      rw [h2] at this; cases this
    · rfl

theorem mem_axisCoords (inp : Input) (A : List (List Nat)) (k : Nat) (x : ℚ)
    (hx : x ∈ axisCoords inp A k) : ∃ v, x = inp.Vat v k := by
  unfold axisCoords at hx
  simp only [List.mem_flatMap, List.mem_map] at hx
  obtain ⟨row, _, c, _, h⟩ := hx
  exact ⟨row.getD c 0, h.symm⟩

theorem getD_mem_or_default {α : Type} (l : List α) (i : Nat) (d : α) :
    l.getD i d = d ∨ l.getD i d ∈ l := by
  by_cases h : i < l.length
  · exact Or.inr (getD_mem l i d h)
  · exact Or.inl (List.getD_eq_default _ _ (by omega))

theorem cubes_coords (v k : Nat) :
    -1 ≤ (nestedCubes true).Vat v k ∧ (nestedCubes true).Vat v k ≤ 1 := by
  have hall : ∀ r ∈ cubesV, ∀ x ∈ r, -1 ≤ x ∧ x ≤ (1 : ℚ) := by
    simp [cubesV]
    norm_num
  unfold Input.Vat
  rcases getD_mem_or_default (nestedCubes true).V v [] with h | h
  · rw [h]
    have : ([] : List ℚ).getD k 0 = 0 := rfl
    rw [this]; norm_num
  · rcases getD_mem_or_default ((nestedCubes true).V.getD v []) k 0 with h2 | h2
    · rw [h2]; norm_num
    · exact hall _ h _ h2

theorem cubes_axisCoords (A : List (List Nat)) (k : Nat) (x : ℚ)
    (hx : x ∈ axisCoords (nestedCubes true) A k) :
    -100000000000000000000000000 ≤ x ∧ x ≤ 100000000000000000000000000 := by
  obtain ⟨v, rfl⟩ := mem_axisCoords _ A k x hx
  obtain ⟨h1, h2⟩ := cubes_coords v k
  constructor <;> linarith

theorem touching_boxes :
    bounding_box (nestedCubes true) [[0, 6, 2]] = ([-1, -1, -1], [-1, 1, 1]) ∧
    bounding_box (nestedCubes true) [[0, 1, 5]] = ([-1, -1, -1], [1, -1, 1]) := by
  constructor <;>
    simp [bounding_box, Input.Vat, nestedCubes, cubesV, List.range_succ, min_def, max_def] <;>
    norm_num

theorem touching_overlap :
    has_overlapping_bbox (nestedCubes true) [[0, 6, 2]] [[0, 1, 5]] = true := by
  unfold has_overlapping_bbox
  simp only [touching_boxes.1, touching_boxes.2]
  simp [maxCoeff, List.range_succ]

/-- C25 on two triangles of the cube of side `2`, one in the plane `x = -1`,
one in the plane `y = -1`: their boxes touch and count as overlapping. -/
theorem C25_bbox_overlap_witness :
    (([[0, 6, 2]] : List (List Nat)) ≠ [] ∧ ([[0, 1, 5]] : List (List Nat)) ≠ [] ∧
      (∀ k < 3, ∀ x ∈ axisCoords (nestedCubes true) [[0, 6, 2]] k,
        -100000000000000000000000000 ≤ x ∧ x ≤ 100000000000000000000000000) ∧
      (∀ k < 3, ∀ x ∈ axisCoords (nestedCubes true) [[0, 1, 5]] k,
        -100000000000000000000000000 ≤ x ∧ x ≤ 100000000000000000000000000)) ∧
    has_overlapping_bbox (nestedCubes true) [[0, 6, 2]] [[0, 1, 5]] = true ∧
    has_overlapping_bbox (nestedCubes true) [[0, 6, 2]] [[0, 1, 5]]
      = has_overlapping_bbox (nestedCubes true) [[0, 1, 5]] [[0, 6, 2]] ∧
    (has_overlapping_bbox (nestedCubes true) [[0, 6, 2]] [[0, 1, 5]] = true ↔
      ∀ k < 3, max (listMin (axisCoords (nestedCubes true) [[0, 6, 2]] k))
          (listMin (axisCoords (nestedCubes true) [[0, 1, 5]] k))
        ≤ min (listMax (axisCoords (nestedCubes true) [[0, 6, 2]] k))
          (listMax (axisCoords (nestedCubes true) [[0, 1, 5]] k))) :=
  ⟨⟨by decide, by decide, fun k _ x hx => cubes_axisCoords _ k x hx,
      fun k _ x hx => cubes_axisCoords _ k x hx⟩,
    touching_overlap,
    (C25_bbox_overlap (nestedCubes true) _ _ (by decide) (by decide)
      (fun k _ x hx => cubes_axisCoords _ k x hx)
      (fun k _ x hx => cubes_axisCoords _ k x hx)).2,
    (C25_bbox_overlap (nestedCubes true) _ _ (by decide) (by decide)
      (fun k _ x hx => cubes_axisCoords _ k x hx)
      (fun k _ x hx => cubes_axisCoords _ k x hx)).1⟩

theorem flippedTriangles_vG :
    (componentsLoop flippedTriangles flippedTriangles.ncc).vG
      = [[[2, 1, 0]], [[5, 4, 3]], [[8, 7, 6]]] := by
  decide

theorem flippedTriangles_box (x : Nat) (hx : x < 3) :
    bounding_box flippedTriangles
      (([[[2, 1, 0]], [[5, 4, 3]], [[8, 7, 6]]] : List (List (List Nat))).getD x [])
      = (([([2, 2, 0], [3, 3, 0]), ([0, 0, 0], [9, 9, 0]), ([1, 1, 0], [4, 4, 0])] :
          List (List ℚ × List ℚ)).getD x ([], [])) := by
  interval_cases x <;>
    simp [bounding_box, Input.Vat, flippedTriangles, threeTriangles, List.range_succ, min_def,
      max_def] <;>
    norm_num

theorem flippedTriangles_boxes (x y : Nat) (hx : x < 3) (hy : y < 3) :
    has_overlapping_bbox flippedTriangles
      ((componentsLoop flippedTriangles flippedTriangles.ncc).vG.getD x [])
      ((componentsLoop flippedTriangles flippedTriangles.ncc).vG.getD y []) = true := by
  rw [flippedTriangles_vG]
  unfold has_overlapping_bbox
  simp only [flippedTriangles_box x hx, flippedTriangles_box y hy]
  interval_cases x <;> interval_cases y <;>
    simp [maxCoeff, List.range_succ] <;> norm_num

theorem flippedTriangles_reports (x y : Nat) (hx : x < 3) (hy : y < 3) :
    reportsInside flippedTriangles (componentsLoop flippedTriangles flippedTriangles.ncc).vG x y ↔
      (x = 1 ∧ y = 2) ∨ (x = 1 ∧ y = 0) ∨ (x = 2 ∧ y = 0) := by
  rw [flippedTriangles_vG]
  interval_cases x <;> interval_cases y <;>
    simp [reportsInside, queryPoint, Input.Vat, flippedTriangles, threeTriangles,
      List.range_succ] <;> norm_num

/-- In the flipped nested triangles the innermost triangle (component `0`) is discarded. -/
theorem flippedTriangles_discarded :
    (nestLoop flippedTriangles (componentsLoop flippedTriangles flippedTriangles.ncc).vG
      flippedTriangles.ncc).keep.getD 0 false = false := by
  have hbf : OracleBatchFree flippedTriangles :=
    batchFree_of_map flippedTriangles _ (fun _ _ => rfl)
  have hkept : (nestLoop flippedTriangles
      (componentsLoop flippedTriangles flippedTriangles.ncc).vG 1).keep.getD 1 false = true := by
    by_contra hk
    obtain ⟨d, hd, _, _, hcon⟩ := discarded_has_container flippedTriangles hbf _ 1 1
      (by decide) (by simpa using hk)
    have := (flippedTriangles_reports d 1 (by omega) (by decide)).mp hcon.2
    omega
  exact tester_discards flippedTriangles hbf _ flippedTriangles.ncc 1 0 (by decide) (by decide)
    (by decide) hkept
    ⟨flippedTriangles_boxes 1 0 (by decide) (by decide),
      (flippedTriangles_reports 1 0 (by decide) (by decide)).mpr (by decide)⟩

/-- C26: for every input, a face that is not resolved when the run ends (a
face resolved by some traversal stays resolved, so this is a face that no
traversal resolved) has `flip = false` in the returned array, and a face whose
returned flip is set is resolved. The returned array is the array of the
traversals, whatever the nesting loop keeps: the flip of a resolved face of a
discarded component is returned as it was set. -/
theorem C26_flip_only_resolved (inp : Input) (f : Nat) :
    ((componentsLoop inp inp.ncc).FH.getD f false = false →
      (outer_hull_legacy inp).flip.getD f false = false) ∧
    ((outer_hull_legacy inp).flip.getD f false = true →
      (componentsLoop inp inp.ncc).FH.getD f false = true) ∧
    (∀ k j, (componentsLoop inp k).FH.getD f false = true →
      (componentsLoop inp (k + j)).FH.getD f false = true) ∧
    (outer_hull_legacy inp).flip = (componentsLoop inp inp.ncc).flip := by
  have h := (componentsLoop_flip_marks inp inp.ncc).2 f
  have hflip : (outer_hull_legacy inp).flip = (componentsLoop inp inp.ncc).flip := rfl
  refine ⟨?_, ?_, fun k j hk => componentsLoop_FH_mono inp k j f hk, hflip⟩
  · intro hFH
    rw [hflip]
    cases hb : (componentsLoop inp inp.ncc).flip.getD f false
    · rfl
    · rw [h hb] at hFH; cases hFH
  · intro hf
    rw [hflip] at hf
    exact h hf

/-- C26 on the flipped nested triangles: face `0` belongs to component `0`,
which the nesting loop discards, and its returned flip is set; the face is
resolved. -/
theorem C26_flip_only_resolved_witness :
    (flippedTriangles.C.getD 0 0 = 0 ∧
      (nestLoop flippedTriangles (componentsLoop flippedTriangles flippedTriangles.ncc).vG
        flippedTriangles.ncc).keep.getD 0 false = false ∧
      (outer_hull_legacy flippedTriangles).flip.getD 0 false = true) ∧
    (componentsLoop flippedTriangles flippedTriangles.ncc).FH.getD 0 false = true :=
  ⟨⟨by decide, flippedTriangles_discarded, by decide⟩,
    (C26_flip_only_resolved flippedTriangles 0).2.1 (by decide)⟩

/-- The first entry of a non-empty filtered range is the least index that passes the
filter. -/
theorem filter_range_head (P : Nat → Bool) (m a : Nat) (ha : a < m) (hPa : P a = true) :
    ∃ f0 rest, (List.range m).filter P = f0 :: rest ∧ f0 < m ∧ P f0 = true ∧
      ∀ f < f0, P f = false := by
  have hmem : a ∈ (List.range m).filter P :=
    List.mem_filter.mpr ⟨List.mem_range.mpr ha, hPa⟩
  cases hl : (List.range m).filter P with
  | nil => rw [hl] at hmem; cases hmem
  | cons f0 rest =>
    have hf0 : f0 ∈ (List.range m).filter P := by rw [hl]; exact List.mem_cons_self _ _
    obtain ⟨h1, h2⟩ := List.mem_filter.mp hf0
    refine ⟨f0, rest, rfl, List.mem_range.mp h1, h2, ?_⟩
    intro f hf
    by_contra hP
    have hPf : P f = true := by simpa using hP
    have hfm : f ∈ (List.range m).filter P :=
      List.mem_filter.mpr ⟨List.mem_range.mpr (by have := List.mem_range.mp h1; omega), hPf⟩
    have hpw : List.Pairwise (fun x y => x < y) ((List.range m).filter P) :=
      List.Pairwise.filter _ (List.pairwise_lt_range _)
    rw [hl] at hfm hpw
    rcases List.mem_cons.mp hfm with h | h
    · omega
    · have := (List.pairwise_cons.mp hpw).1 f h
      omega

/-- C27: with well-formed helper results and three entries in every row of
`F`, the block of every component `oid` is not empty (its seed is resolved),
its first row is the oriented row of the face `f0` that is the lowest-indexed
resolved face labelled `oid`, and the sample point of `oid` is the arithmetic
mean `(v0 + v1 + v2) / 3` of the positions of the three vertices of `f0`. -/
theorem C27_sample_point (inp : Input) (hL : EdgesListed inp) (hA : AdjacencyClosed inp)
    (hLab : LabelsOK inp) (hS : SeedsOK inp) (hTri : TrianglesOK inp) (oid : Nat)
    (hoid : oid < inp.ncc) :
    ∃ f0 < inp.m, inp.C.getD f0 0 = oid ∧
      (componentsLoop inp inp.ncc).FH.getD f0 false = true ∧
      (∀ f < f0, inp.C.getD f 0 = oid → (componentsLoop inp inp.ncc).FH.getD f false = false) ∧
      ((componentsLoop inp inp.ncc).vJ.getD oid []).head? = some f0 ∧
      ((componentsLoop inp inp.ncc).vG.getD oid []).head?
        = some (orientedRow inp (componentsLoop inp inp.ncc).flip f0) ∧
      queryPoint inp (componentsLoop inp inp.ncc).vG oid
        = (List.range 3).map (fun k =>
            (inp.Vat (inp.Fat f0 0) k + inp.Vat (inp.Fat f0 1) k + inp.Vat (inp.Fat f0 2) k)
              / 3) := by
  have hg := GInv_componentsLoop inp hL hA hLab hS inp.ncc (le_refl _)
  obtain ⟨hlt, hC⟩ := hS oid hoid
  have hseed := seed_resolved_final inp hL hA hLab hS oid hoid
  obtain ⟨f0, rest, hlist, hf0, hP, hleast⟩ := filter_range_head
    (fun f => inp.C.getD f 0 == oid && (componentsLoop inp inp.ncc).FH.getD f false) inp.m
    (inp.outer_facet (inp.IM oid)).1 hlt (by simp only [hC, hseed, beq_self_eq_true, Bool.and_self])
  have hJ : (componentsLoop inp inp.ncc).vJ.getD oid [] = f0 :: rest := by
    rw [hg.resJ oid hoid, IM_eq_filter inp hLab oid hoid, List.filter_filter, ← hlist]
    apply List.filter_congr
    intro f _
    exact Bool.and_comm _ _
  have hG : (componentsLoop inp inp.ncc).vG.getD oid []
      = orientedRow inp (componentsLoop inp inp.ncc).flip f0
        :: rest.map (orientedRow inp (componentsLoop inp inp.ncc).flip) := by
    rw [hg.resG oid hoid, hJ]
    rfl
  simp only [Bool.and_eq_true, beq_iff_eq] at hP
  refine ⟨f0, hf0, hP.1, hP.2, ?_, by rw [hJ]; rfl, by rw [hG]; rfl, ?_⟩
  · intro f hf hfC
    have := hleast f hf
    simp only [hfC, beq_self_eq_true, Bool.true_and] at this
    exact this
  · have hrow : (inp.row f0).length = 3 := by
      apply hTri
      unfold Input.row
      exact getD_mem _ _ _ hf0
    obtain ⟨a, b, c, habc⟩ := length_three _ hrow
    unfold queryPoint
    rw [hG]
    apply List.map_congr_left
    intro k _
    unfold orientedRow Input.Fat
    rw [habc]
    cases (componentsLoop inp inp.ncc).flip.getD f0 false
    · rfl
    · show (inp.Vat c k + inp.Vat b k + inp.Vat a k) / 3
        = (inp.Vat a k + inp.Vat b k + inp.Vat c k) / 3
      ring

/-- C27 on the tetrahedron with an interior triangle (seed face `2`): the
first row of the block is face `0`, and the sample is its barycentre. -/
theorem C27_sample_point_witness :
    (EdgesListed finMesh ∧ AdjacencyClosed finMesh ∧ LabelsOK finMesh ∧ SeedsOK finMesh ∧
      TrianglesOK finMesh ∧ 0 < finMesh.ncc) ∧
    ((componentsLoop finMesh finMesh.ncc).vJ.getD 0 []).head? = some 0 ∧
    ∃ f0 < finMesh.m, finMesh.C.getD f0 0 = 0 ∧
      (componentsLoop finMesh finMesh.ncc).FH.getD f0 false = true ∧
      (∀ f < f0, finMesh.C.getD f 0 = 0 →
        (componentsLoop finMesh finMesh.ncc).FH.getD f false = false) ∧
      ((componentsLoop finMesh finMesh.ncc).vJ.getD 0 []).head? = some f0 ∧
      ((componentsLoop finMesh finMesh.ncc).vG.getD 0 []).head?
        = some (orientedRow finMesh (componentsLoop finMesh finMesh.ncc).flip f0) ∧
      queryPoint finMesh (componentsLoop finMesh finMesh.ncc).vG 0
        = (List.range 3).map (fun k =>
            (finMesh.Vat (finMesh.Fat f0 0) k + finMesh.Vat (finMesh.Fat f0 1) k
              + finMesh.Vat (finMesh.Fat f0 2) k) / 3) :=
  ⟨by decide, by decide,
    C27_sample_point finMesh (by decide) (by decide) (by decide) (by decide) (by decide) 0
      (by decide)⟩

/-- The half-edge taken from the queue is marked after the iteration. -/
theorem popped_marked (inp : Input) (s : State) (e : Nat) (Q : List Nat) (hQ : s.Q = e :: Q)
    (he : e < s.EH.length) : (bfsStep inp s).EH.getD e false = true := by
  rcases bfsStep_cases inp s e Q hQ with ⟨hv, hs⟩ | ⟨_, _, hs⟩ | ⟨_, i, _, hs⟩
  · rw [hs]; exact hv
  · rw [hs]; exact getD_set_self _ _ _ _ he
  · rw [hs]; unfold crossState; exact getD_set_self _ _ _ _ he

/-- In a run with well-formed helper results, the half-edges pushed during the traversal of a
component are pairwise distinct; each is still queued or already marked, and belongs to a
face of the component. -/
theorem pushedUpTo_inv (inp : Input) (hL : EdgesListed inp) (hA : AdjacencyClosed inp)
    (hLab : LabelsOK inp) (hS : SeedsOK inp) (id : Nat) (hid : id < inp.ncc) (k : Nat) :
    (pushedUpTo inp (seedInit inp id (componentsLoop inp id)) k).Nodup ∧
    (∀ x ∈ pushedUpTo inp (seedInit inp id (componentsLoop inp id)) k,
      x ∈ (traversalState inp id k).Q ∨ (traversalState inp id k).EH.getD x false = true) ∧
    ∀ x ∈ pushedUpTo inp (seedInit inp id (componentsLoop inp id)) k,
      x < 3 * inp.m ∧ inp.C.getD (x % inp.m) 0 = id := by
  induction k with
  | zero =>
    have hT := TInv_traversalState inp hL hA hLab hS id hid 0
    have hM := MInv_traversalState inp hL hA hLab hS id hid 0
    exact ⟨hM.nodup, fun x hx => Or.inl hx, fun x hx => hT.queue x hx⟩
  | succ k ih =>
    obtain ⟨hnd, hqm, hlab⟩ := ih
    have hT := TInv_traversalState inp hL hA hLab hS id hid k
    have hT1 := TInv_traversalState inp hL hA hLab hS id hid (k + 1)
    have hM1 := MInv_traversalState inp hL hA hLab hS id hid (k + 1)
    have hrw : pushedUpTo inp (seedInit inp id (componentsLoop inp id)) (k + 1)
        = pushedUpTo inp (seedInit inp id (componentsLoop inp id)) k
          ++ pushedInStep inp (traversalState inp id k) := rfl
    rw [hrw]
    cases hQ : (traversalState inp id k).Q with
    | nil =>
      rw [pushedInStep_nil inp _ hQ, List.append_nil, traversalState_succ,
        bfsStep_nil inp _ hQ]
      exact ⟨hnd, hqm, hlab⟩
    | cons e Q =>
      have hstep := (bfsStep_Q inp _ e Q hQ).1
      rw [← traversalState_succ] at hstep
      have hnodup := hM1.nodup
      rw [hstep] at hnodup
      have he : e < 3 * inp.m := (hT.queue e (by rw [hQ]; exact List.mem_cons_self _ _)).1
      have hmark : (traversalState inp id (k + 1)).EH.getD e false = true := by
        rw [traversalState_succ]
        exact popped_marked inp _ e Q hQ (by rw [hT.lenEH]; exact he)
      have hinQ1 : ∀ x ∈ pushedInStep inp (traversalState inp id k),
          x ∈ (traversalState inp id (k + 1)).Q := by
        intro x hx; rw [hstep]; exact List.mem_append_right _ hx
      refine ⟨?_, ?_, ?_⟩
      · rw [List.nodup_append]
        refine ⟨hnd, (List.nodup_append.mp hnodup).2.1, ?_⟩
        intro x hx hxL
        have hfresh := hM1.fresh x (hinQ1 x hxL)
        rcases hqm x hx with h | h
        · rw [hQ] at h
          rcases List.mem_cons.mp h with rfl | h
          · rw [hmark] at hfresh; cases hfresh
          · exact (List.nodup_append.mp hnodup).2.2 h hxL
        · rw [traversalState_succ, bfsStep_EH_mono inp _ x h] at hfresh
          cases hfresh
      · intro x hx
        rcases List.mem_append.mp hx with hx | hx
        · rcases hqm x hx with h | h
          · rw [hQ] at h
            rcases List.mem_cons.mp h with rfl | h
            · exact Or.inr hmark
            · left; rw [hstep]; exact List.mem_append_left _ h
          · right; rw [traversalState_succ]; exact bfsStep_EH_mono inp _ x h
        · exact Or.inl (hinQ1 x hx)
      · intro x hx
        rcases List.mem_append.mp hx with hx | hx
        · exact hlab x hx
        · exact hT1.queue x (hinQ1 x hx)

/-- C28: in a run with well-formed helper results (half-edges listed, an
adjacency-closed labelling, each seed in its own component), the half-edges
pushed on the traversal queues during the whole run are pairwise distinct:
every half-edge is pushed at most once. The half-edge taken from the queue is
never marked, so the branch `if(EH[e] == true) continue;` is not taken; and at
every crossing the two half-edges `ne1`, `ne2` of the new face are unmarked, so
both guards succeed and both are pushed. -/
theorem C28_pushed_once (inp : Input) (hL : EdgesListed inp) (hA : AdjacencyClosed inp)
    (hLab : LabelsOK inp) (hS : SeedsOK inp) :
    (runPushes inp).Nodup ∧
    (∀ id < inp.ncc, ∀ k e Q, (traversalState inp id k).Q = e :: Q →
      (traversalState inp id k).EH.getD e false = false) ∧
    (∀ id < inp.ncc, ∀ k e Q i, (traversalState inp id k).Q = e :: Q →
      nextFaceSearch inp (traversalState inp id k).FH
        ((traversalState inp id k).flip.getD (e % inp.m) false) e = some i →
      ((traversalState inp id k).EH.set e true).getD
        ((inp.ue e).getD i 0 % inp.m + (((inp.ue e).getD i 0 / inp.m + 1) % 3) * inp.m) false
          = false ∧
      ((traversalState inp id k).EH.set e true).getD
        ((inp.ue e).getD i 0 % inp.m + (((inp.ue e).getD i 0 / inp.m + 2) % 3) * inp.m) false
          = false ∧
      (traversalState inp id (k + 1)).Q
        = Q ++ [(inp.ue e).getD i 0 % inp.m + (((inp.ue e).getD i 0 / inp.m + 1) % 3) * inp.m,
            (inp.ue e).getD i 0 % inp.m + (((inp.ue e).getD i 0 / inp.m + 2) % 3) * inp.m]) := by
  have hfresh : ∀ id < inp.ncc, ∀ k e Q, (traversalState inp id k).Q = e :: Q →
      (traversalState inp id k).EH.getD e false = false := by
    intro id hid k e Q hQ
    exact (MInv_traversalState inp hL hA hLab hS id hid k).fresh e
      (by rw [hQ]; exact List.mem_cons_self _ _)
  refine ⟨?_, hfresh, ?_⟩
  · unfold runPushes
    rw [List.nodup_flatMap]
    constructor
    · intro id hid
      exact (pushedUpTo_inv inp hL hA hLab hS id (List.mem_range.mp hid) _).1
    · apply List.Nodup.pairwise_of_forall_ne (List.nodup_range _)
      intro a ha b hb hab
      intro x hxa hxb
      have h1 := ((pushedUpTo_inv inp hL hA hLab hS a (List.mem_range.mp ha) _).2.2 x hxa).2
      have h2 := ((pushedUpTo_inv inp hL hA hLab hS b (List.mem_range.mp hb) _).2.2 x hxb).2
      exact hab (h1.symm.trans h2)
  · intro id hid k e Q i hQ hn
    have hT := TInv_traversalState inp hL hA hLab hS id hid k
    have hM := MInv_traversalState inp hL hA hLab hS id hid k
    have heQ : e ∈ (traversalState inp id k).Q := by rw [hQ]; exact List.mem_cons_self _ _
    obtain ⟨he, heC⟩ := hT.queue e heQ
    have hm : 0 < inp.m := by omega
    obtain ⟨_, hxC, hxFH⟩ := cross_facts inp hL hA _ _ e i he hn
    have hnf : (inp.ue e).getD i 0 % inp.m < inp.m := Nat.mod_lt _ hm
    have hun := hM.unresolved _ hnf (by rw [hxC, heC]) hxFH
    have hguard : ∀ c < 3, ((traversalState inp id k).EH.set e true).getD
        ((inp.ue e).getD i 0 % inp.m + c * inp.m) false = false := by
      intro c hc
      obtain ⟨h1, h2⟩ := hun c hc
      have hne : e ≠ (inp.ue e).getD i 0 % inp.m + c * inp.m := by
        rintro heq; rw [← heq] at h2; exact h2 heQ
      rw [getD_set_other _ _ _ _ _ hne]
      exact h1
    have hk : ∀ c, c % 3 < 3 := fun c => Nat.mod_lt _ (by omega)
    refine ⟨hguard _ (hk _), hguard _ (hk _), ?_⟩
    rw [traversalState_succ]
    rcases bfsStep_cases inp _ e Q hQ with ⟨h1, _⟩ | ⟨_, h1, _⟩ | ⟨_, i', h1, hs⟩
    · rw [hfresh id hid k e Q hQ] at h1; cases h1
    · rw [hn] at h1; cases h1
    · rw [hn] at h1
      injection h1 with h1
      rw [hs, ← h1]
      exact crossState_Q inp _ e Q _ (hguard _ (hk _)) (hguard _ (hk _))

/-- C28 on the tetrahedron with an interior triangle: nine distinct half-edges
are pushed during the run. -/
theorem C28_pushed_once_witness :
    (EdgesListed finMesh ∧ AdjacencyClosed finMesh ∧ LabelsOK finMesh ∧ SeedsOK finMesh) ∧
    (runPushes finMesh).length = 9 ∧ (runPushes finMesh).Nodup :=
  ⟨by decide, by decide,
    (C28_pushed_once finMesh (by decide) (by decide) (by decide) (by decide)).1⟩

/-- C29: with every half-edge listed by its undirected edge, an
adjacency-closed labelling, `counts[id]` the number of faces labelled `id` and
each seed in its own component, the assertion `(int)h == FHcount` holds for
every component `id`: the number `h` of rows gathered equals `FHcount`, which
is the number of faces labelled `id` whose `FH` flag is set when the traversal
has ended, that is `1` (the seed) plus the number of other resolved faces of
the component. So the blocks `vG[id]` and `vJ[id]`, resized to `FHcount`
rows, consist of the gathered rows only: every row is written. -/
theorem C29_rows_written (inp : Input) (hL : EdgesListed inp) (hA : AdjacencyClosed inp)
    (hLab : LabelsOK inp) (hS : SeedsOK inp) (id : Nat) (hid : id < inp.ncc) :
    (gathered inp id (bfs inp (bfsFuel inp) (seedInit inp id (componentsLoop inp id)))).length
      = (bfs inp (bfsFuel inp) (seedInit inp id (componentsLoop inp id))).FHcount ∧
    (bfs inp (bfsFuel inp) (seedInit inp id (componentsLoop inp id))).FHcount
      = resolvedCount inp id
          (bfs inp (bfsFuel inp) (seedInit inp id (componentsLoop inp id))).FH ∧
    (bfs inp (bfsFuel inp) (seedInit inp id (componentsLoop inp id))).FHcount
      = 1 + (List.range inp.m).countP (fun f => (inp.C.getD f 0 == id &&
          (bfs inp (bfsFuel inp) (seedInit inp id (componentsLoop inp id))).FH.getD f false) &&
          f != (inp.outer_facet (inp.IM id)).1) ∧
    (componentsLoop inp (id + 1)).vJ.getD id []
      = gathered inp id (bfs inp (bfsFuel inp) (seedInit inp id (componentsLoop inp id))) ∧
    (componentsLoop inp (id + 1)).vG.getD id []
      = (gathered inp id (bfs inp (bfsFuel inp) (seedInit inp id (componentsLoop inp id)))).map
          (orientedRow inp
            (bfs inp (bfsFuel inp) (seedInit inp id (componentsLoop inp id))).flip) := by
  have hg := GInv_componentsLoop inp hL hA hLab hS id (by omega)
  have hT := TInv_bfs inp hL hA id _ (bfsFuel inp) _ (TInv_seedInit inp hS id hid _ hg)
  have hlenG : (gathered inp id
      (bfs inp (bfsFuel inp) (seedInit inp id (componentsLoop inp id)))).length
      = (bfs inp (bfsFuel inp) (seedInit inp id (componentsLoop inp id))).FHcount := by
    rw [gathered_length inp hLab id hid, hT.count]
  obtain ⟨hlt, hC⟩ := hS id hid
  have hseed : (bfs inp (bfsFuel inp) (seedInit inp id (componentsLoop inp id))).FH.getD
      (inp.outer_facet (inp.IM id)).1 false = true := by
    rw [bfs_eq_iterate]
    apply (iterate_resolved inp _ _ _ _).1
    unfold seedInit
    exact getD_set_self _ _ _ _ (by rw [hg.lenFH]; exact hlt)
  refine ⟨hlenG, hT.count, ?_, ?_, ?_⟩
  · rw [hT.count]
    unfold resolvedCount
    rw [Nat.add_comm]
    apply countP_range_update _ _ inp.m (inp.outer_facet (inp.IM id)).1 hlt
    · simp
    · simp only [hC, hseed, beq_self_eq_true, Bool.and_self]
    · intro x hx
      simp [hx]
  · show ((componentsLoop inp id).vJ.set id _).getD id [] = _
    rw [getD_set_self _ _ _ _ (by rw [hg.lenvJ]; exact hid), resized_eq _ _ _ hlenG]
  · show ((componentsLoop inp id).vG.set id _).getD id [] = _
    rw [getD_set_self _ _ _ _ (by rw [hg.lenvG]; exact hid),
      resized_eq _ _ _ (by rw [List.length_map]; exact hlenG)]

/-- C29 on the tetrahedron with an interior triangle: four rows are gathered,
and `FHcount` is `4`. -/
theorem C29_rows_written_witness :
    (EdgesListed finMesh ∧ AdjacencyClosed finMesh ∧ LabelsOK finMesh ∧ SeedsOK finMesh ∧
      0 < finMesh.ncc) ∧
    (bfs finMesh (bfsFuel finMesh) (seedInit finMesh 0 (componentsLoop finMesh 0))).FHcount = 4 ∧
    (gathered finMesh 0
      (bfs finMesh (bfsFuel finMesh) (seedInit finMesh 0 (componentsLoop finMesh 0)))).length
      = (bfs finMesh (bfsFuel finMesh) (seedInit finMesh 0 (componentsLoop finMesh 0))).FHcount :=
  ⟨by decide, by decide,
    (C29_rows_written finMesh (by decide) (by decide) (by decide) (by decide) 0 (by decide)).1⟩

/-- C30: whatever the box test and the point-in-solid routine answer, for any
blocks and any number `ncc ≥ 1` of components at least one component is kept
after the nesting loop. Hence, when the helper results are well formed, an
input with at least one face yields a `G` with at least one row. -/
theorem C30_some_component_kept (inp : Input) :
    (∀ vG, 1 ≤ inp.ncc →
      ∃ c < inp.ncc, (nestLoop inp vG inp.ncc).keep.getD c false = true) ∧
    (EdgesListed inp → AdjacencyClosed inp → LabelsOK inp → SeedsOK inp → 1 ≤ inp.m →
      1 ≤ (outer_hull_legacy inp).G.length ∧ 1 ≤ (outer_hull_legacy inp).J.length) := by
  refine ⟨fun vG h => nestLoop_some_kept inp vG inp.ncc h (le_refl _), ?_⟩
  intro hL hA hLab hS hm
  have hncc : 1 ≤ inp.ncc := by have := hLab.1 0 (by omega); omega
  obtain ⟨c, hc, hkeep⟩ := nestLoop_some_kept inp (componentsLoop inp inp.ncc).vG inp.ncc hncc
    (le_refl _)
  obtain ⟨hlt, hC⟩ := hS c hc
  have hJ := resolved_mem_J_of_kept inp hL hA hLab hS _ hlt
    (seed_resolved_final inp hL hA hLab hS c hc) (by rw [hC]; exact hkeep)
  have hlen : 1 ≤ (outer_hull_legacy inp).J.length := List.length_pos_of_mem hJ
  refine ⟨?_, hlen⟩
  rw [G_eq_map_J inp hL hA hLab hS, List.length_map]
  exact hlen

/-- C30 on the three nested triangles. -/
theorem C30_some_component_kept_witness :
    (1 ≤ threeTriangles.ncc ∧ EdgesListed threeTriangles ∧ AdjacencyClosed threeTriangles ∧
      LabelsOK threeTriangles ∧ SeedsOK threeTriangles ∧ 1 ≤ threeTriangles.m) ∧
    (∃ c < threeTriangles.ncc,
      (nestLoop threeTriangles (componentsLoop threeTriangles threeTriangles.ncc).vG
        threeTriangles.ncc).keep.getD c false = true) ∧
    1 ≤ (outer_hull_legacy threeTriangles).G.length :=
  ⟨by decide, (C30_some_component_kept threeTriangles).1 _ (by decide),
    ((C30_some_component_kept threeTriangles).2 (by decide) (by decide) (by decide) (by decide)
      (by decide)).1⟩

/-! ## Components with edges of valence one or two are traversed completely -/

theorem short_list_pair (l : List Nat) (e x : Nat) (hlen : l.length ≤ 2) (he : e ∈ l)
    (hx : x ∈ l) (hne : x ≠ e) : l = [e, x] ∨ l = [x, e] := by
  match l, hlen, he, hx with
  | [], _, he, _ => cases he
  | [a], _, he, hx =>
    simp at he hx
    exact absurd (hx.trans he.symm) hne
  | [a, b], _, he, hx =>
    simp at he hx
    rcases he with rfl | rfl <;> rcases hx with rfl | rfl
    · exact absurd rfl hne
    · exact Or.inl rfl
    · exact Or.inr rfl
    · exact absurd rfl hne
  | _ :: _ :: _ :: _, hlen, _, _ => simp at hlen

theorem EdgesCovered_seedInit (inp : Input) (hS : SeedsOK inp) (id : Nat) (hid : id < inp.ncc)
    (g : Global) (hg : GInv inp id g) : EdgesCovered inp id (seedInit inp id g) := by
  obtain ⟨hlt, hC⟩ := hS id hid
  intro f hf hfC hfFH c hc
  have hres : f = (inp.outer_facet (inp.IM id)).1 := by
    by_contra hne
    unfold seedInit at hfFH
    simp only at hfFH
    rw [getD_set_other _ _ _ _ _ (fun h => hne h.symm)] at hfFH
    have := hg.marksFH f hfFH
    omega
  left
  rw [hres]
  unfold seedInit
  simp only [List.mem_cons, List.mem_singleton, List.not_mem_nil, or_false]
  have : c = 0 ∨ c = 1 ∨ c = 2 := by omega
  rcases this with rfl | rfl | rfl
  · exact Or.inl rfl
  · exact Or.inr (Or.inl rfl)
  · exact Or.inr (Or.inr rfl)

theorem EdgesCovered_step (inp : Input) (hL : EdgesListed inp) (hA : AdjacencyClosed inp)
    (hE : EdgeMapOK inp) (hR : IncidenceInRange inp) (id : Nat) (hV : ValenceAtMostTwo inp id)
    (seed : Nat) (g : Global) (s : State) (hT : TInv inp id g s) (hI : MInv inp id seed s)
    (h : EdgesCovered inp id s) : EdgesCovered inp id (bfsStep inp s) := by
  cases hQ : s.Q with
  | nil => rw [bfsStep_nil inp s hQ]; exact h
  | cons e Q =>
    have heQ : e ∈ s.Q := by rw [hQ]; exact List.mem_cons_self _ _
    obtain ⟨he, heC⟩ := hT.queue e heQ
    have hown := hT.owner e heQ
    have hm : 0 < inp.m := by omega
    have hlen := hV e he heC
    have hemem : e ∈ inp.ue e := hL e he
    -- the old disjunction survives unless the half-edge is `e` itself
    have hold : ∀ (FH' : List Bool) (Q' : List Nat),
        (∀ x, s.FH.getD x false = true → FH'.getD x false = true) →
        (∀ x ∈ Q, x ∈ Q') →
        (∀ x ∈ inp.ue e, FH'.getD (x % inp.m) false = true) →
        ∀ f < inp.m, inp.C.getD f 0 = id → s.FH.getD f false = true → ∀ c < 3,
          f + c * inp.m ∈ Q' ∨
            ∀ x ∈ inp.ue (f + c * inp.m), FH'.getD (x % inp.m) false = true := by
      intro FH' Q' hmono hsub hdone f hf hfC hfFH c hc
      rcases h f hf hfC hfFH c hc with h1 | h1
      · rw [hQ] at h1
        rcases List.mem_cons.mp h1 with h2 | h2
        · right; rw [h2]; exact hdone
        · exact Or.inl (hsub _ h2)
      · exact Or.inr (fun x hx => hmono _ (h1 x hx))
    rcases bfsStep_cases inp s e Q hQ with ⟨hEH, _⟩ | ⟨_, hnone, hs⟩ | ⟨_, i, hn, hs⟩
    · rw [hI.fresh e heQ] at hEH; cases hEH
    · rw [hs]
      have hdone : ∀ x ∈ inp.ue e, s.FH.getD (x % inp.m) false = true := by
        intro x hx
        by_cases hxe : x = e
        · rw [hxe]; exact hown
        · have hue := short_list_pair _ e x hlen hemem hx hxe
          obtain ⟨hval, hbound, hd, htarget⟩ := manifold_target inp hE e x he hxe hue
            ((inp.uE2C.getD (inp.EMAP.getD e 0) []).getD (inp.diIM e) false)
            (s.flip.getD (e % inp.m) false)
          have hsearch :=
            nextFaceSearch_eq inp s.FH (s.flip.getD (e % inp.m) false) e hval hbound hd
          rw [htarget, hnone] at hsearch
          by_contra hc
          rw [if_neg hc] at hsearch
          cases hsearch
      exact hold s.FH Q (fun _ hx => hx) (fun _ hx => hx) hdone
    · obtain ⟨hxmem, hxC, hxFH⟩ :=
        cross_facts inp hL hA s.FH (s.flip.getD (e % inp.m) false) e i he hn
      generalize (inp.ue e).getD i 0 = e' at hs hxmem hxC hxFH
      have hne : e' ≠ e := by
        rintro rfl
        rw [hown] at hxFH; cases hxFH
      have hue := short_list_pair _ e e' hlen hemem hxmem hne
      have hmemue : ∀ x ∈ inp.ue e, x = e ∨ x = e' := by
        intro x hx
        rcases hue with hu | hu <;> rw [hu] at hx <;> simp at hx <;> tauto
      have he' : e' < 3 * inp.m :=
        hR _ (ue_mem_uE2E inp e (List.ne_nil_of_mem hxmem)) _ hxmem
      have hnf : e' % inp.m < inp.m := Nat.mod_lt _ hm
      have hnfC : inp.C.getD (e' % inp.m) 0 = id := by rw [hxC, heC]
      have hun := hI.unresolved _ hnf hnfC hxFH
      have hne1 := hun ((e' / inp.m + 1) % 3) (Nat.mod_lt _ (by omega))
      have hne2 := hun ((e' / inp.m + 2) % 3) (Nat.mod_lt _ (by omega))
      have hkeep : ∀ x, x ∉ s.Q → (s.EH.set e true).getD x false = s.EH.getD x false := by
        intro x hx
        exact getD_set_other _ _ _ _ _ (by rintro rfl; exact hx heQ)
      have hQ' := crossState_Q inp s e Q e' (by rw [hkeep _ hne1.2]; exact hne1.1)
        (by rw [hkeep _ hne2.2]; exact hne2.1)
      have hFH' : (crossState inp s e Q e').FH = s.FH.set (e' % inp.m) true := rfl
      have hnfset : (s.FH.set (e' % inp.m) true).getD (e' % inp.m) false = true :=
        getD_set_self _ _ _ _ (by rw [hT.lenFH]; exact hnf)
      have hdone : ∀ x ∈ inp.ue e,
          (s.FH.set (e' % inp.m) true).getD (x % inp.m) false = true := by
        intro x hx
        rcases hmemue x hx with rfl | rfl
        · exact getD_set_true _ _ _ hown
        · exact hnfset
      rw [hs]
      intro f hf hfC hfFH c hc
      rw [hFH'] at hfFH ⊢
      rw [hQ']
      by_cases hfnf : f = e' % inp.m
      · subst hfnf
        have hnc : e' / inp.m < 3 := by
          apply Nat.div_lt_of_lt_mul; rw [Nat.mul_comm]; exact he'
        by_cases hc0 : c = e' / inp.m
        · right
          rw [hc0, half_edge_decomp, ue_eq_of_mem inp hE e e' hxmem]
          exact hdone
        · left
          have : c = (e' / inp.m + 1) % 3 ∨ c = (e' / inp.m + 2) % 3 := by
            generalize e' / inp.m = nc at hnc hc0 ⊢
            omega
          rcases this with h1 | h1 <;> rw [← h1] <;> simp
      · rw [getD_set_other _ _ _ _ _ (fun h => hfnf h.symm)] at hfFH
        exact hold _ _ (fun x hx => getD_set_true _ _ _ hx)
          (fun x hx => List.mem_append_left _ hx) hdone f hf hfC hfFH c hc

theorem EdgesCovered_traversalState (inp : Input) (hL : EdgesListed inp)
    (hA : AdjacencyClosed inp) (hLab : LabelsOK inp) (hS : SeedsOK inp) (hE : EdgeMapOK inp)
    (hR : IncidenceInRange inp) (id : Nat) (hid : id < inp.ncc) (hV : ValenceAtMostTwo inp id)
    (k : Nat) : EdgesCovered inp id (traversalState inp id k) := by
  induction k with
  | zero =>
    exact EdgesCovered_seedInit inp hS id hid _
      (GInv_componentsLoop inp hL hA hLab hS id (by omega))
  | succ k ih =>
    rw [traversalState_succ]
    exact EdgesCovered_step inp hL hA hE hR id hV _ _ _
      (TInv_traversalState inp hL hA hLab hS id hid k)
      (MInv_traversalState inp hL hA hLab hS id hid k) ih

/-- Every face of a connected component whose edges have valence at most two is
resolved when the traversal of the component ends. -/
theorem valence_two_complete (inp : Input) (hL : EdgesListed inp) (hA : AdjacencyClosed inp)
    (hLab : LabelsOK inp) (hS : SeedsOK inp) (hE : EdgeMapOK inp) (hR : IncidenceInRange inp)
    (id : Nat) (hid : id < inp.ncc) (hV : ValenceAtMostTwo inp id)
    (hconn : ComponentConnected inp id) (f : Nat) (hf : f < inp.m)
    (hfC : inp.C.getD f 0 = id) :
    (traversalState inp id (bfsFuel inp)).FH.getD f false = true := by
  have hC := EdgesCovered_traversalState inp hL hA hLab hS hE hR id hid hV (bfsFuel inp)
  have hI := MInv_traversalState inp hL hA hLab hS id hid (bfsFuel inp)
  have hQ : (traversalState inp id (bfsFuel inp)).Q = [] := by
    rw [← bfs_eq_traversalState]; exact traversal_terminates inp hL hA hLab hS id hid
  obtain ⟨hslt, hsC⟩ := hS id hid
  have hreach := hconn _ hslt f hf hsC hfC
  have hall : f < inp.m ∧ inp.C.getD f 0 = id ∧
      (traversalState inp id (bfsFuel inp)).FH.getD f false = true := by
    clear hf hfC
    induction hreach with
    | refl => exact ⟨hslt, hsC, hI.seedFH⟩
    | @tail b c0 _ hadj ih =>
      obtain ⟨hb, hbC, hbFH⟩ := ih
      obtain ⟨c, hc, x, hx, hxc⟩ := hadj
      have hm : 0 < inp.m := by omega
      refine ⟨by rw [← hxc]; exact Nat.mod_lt _ hm, ?_, ?_⟩
      · have hbe : b + c * inp.m < 3 * inp.m := add_mul_lt _ _ _ hb hc
        have := hA _ (ue_mem_uE2E inp _ (List.ne_nil_of_mem hx)) _ hx _ (hL _ hbe)
        rw [mod_add_mul _ _ _ hb, hxc] at this
        rw [this, hbC]
      · rcases hC b hb hbC hbFH c hc with h1 | h1
        · rw [hQ] at h1; cases h1
        · rw [← hxc]; exact h1 x hx
  exact hall.2.2

/-- When every face labelled `id` is resolved, the number of resolved faces of
the component is the number of faces labelled `id`. -/
theorem resolvedCount_full (inp : Input) (id : Nat) (FH : List Bool)
    (h : ∀ f < inp.m, inp.C.getD f 0 = id → FH.getD f false = true) :
    resolvedCount inp id FH = labelCount inp id := by
  unfold resolvedCount labelCount
  apply List.countP_congr
  intro f hf
  have hflt : f < inp.m := List.mem_range.mp hf
  constructor
  · intro h1
    rw [Bool.and_eq_true] at h1
    exact h1.1
  · intro h1
    rw [Bool.and_eq_true]
    exact ⟨h1, h f hflt (by simpa using h1)⟩

/-- C31: let every half-edge be listed by its undirected edge, the incidence
lists hold half-edges of the mesh, the labelling be adjacency-closed with
`counts[id]` the number of faces labelled `id`, and each seed lie in its own
component.  If every undirected edge touched by component `id` has at most two
incident half-edges and the faces labelled `id` are connected through shared
edges, the traversal started at the seed of the component ends with an empty
queue and with every face of the component resolved, so `FHcount` equals
`counts[id]` and the block `vJ[id]` lists all faces of the component. -/
theorem C31_valence_two_complete (inp : Input) (hL : EdgesListed inp) (hE : EdgeMapOK inp)
    (hR : IncidenceInRange inp) (hA : AdjacencyClosed inp) (hLab : LabelsOK inp)
    (hS : SeedsOK inp) (id : Nat) (hid : id < inp.ncc) (hV : ValenceAtMostTwo inp id)
    (hconn : ComponentConnected inp id) :
    (bfs inp (bfsFuel inp) (seedInit inp id (componentsLoop inp id))).Q = [] ∧
    (∀ f < inp.m, inp.C.getD f 0 = id →
      (bfs inp (bfsFuel inp) (seedInit inp id (componentsLoop inp id))).FH.getD f false
        = true) ∧
    (bfs inp (bfsFuel inp) (seedInit inp id (componentsLoop inp id))).FHcount
      = inp.counts.getD id 0 ∧
    (componentsLoop inp (id + 1)).vJ.getD id [] = inp.IM id := by
  have hg := GInv_componentsLoop inp hL hA hLab hS id (by omega)
  have hT := TInv_bfs inp hL hA id _ (bfsFuel inp) _ (TInv_seedInit inp hS id hid _ hg)
  have hall : ∀ f < inp.m, inp.C.getD f 0 = id →
      (bfs inp (bfsFuel inp) (seedInit inp id (componentsLoop inp id))).FH.getD f false
        = true := by
    intro f hf hfC
    rw [bfs_eq_traversalState]
    exact valence_two_complete inp hL hA hLab hS hE hR id hid hV hconn f hf hfC
  have hcount : (bfs inp (bfsFuel inp) (seedInit inp id (componentsLoop inp id))).FHcount
      = inp.counts.getD id 0 := by
    rw [hT.count, resolvedCount_full inp id _ hall, hLab.2 id hid]
  refine ⟨traversal_terminates inp hL hA hLab hS id hid, hall, hcount, ?_⟩
  have hg' := GInv_componentsLoop inp hL hA hLab hS (id + 1) (by omega)
  rw [hg'.resJ id (by omega), List.filter_eq_self]
  intro f hf
  obtain ⟨hflt, hfC⟩ := (mem_IM inp hLab id hid f).mp hf
  rw [componentsLoop_succ_FH]
  exact hall f hflt hfC

theorem mobiusMesh_connected : ComponentConnected mobiusMesh 0 :=
  connected_of_walk mobiusMesh 0 [0, 1, 2, 3, 4] (by decide)

/-- C31 on the Möbius strip of five triangles, whose edges have valence one
(the boundary) or two: all five faces are resolved. -/
theorem C31_valence_two_complete_witness :
    (EdgesListed mobiusMesh ∧ EdgeMapOK mobiusMesh ∧ IncidenceInRange mobiusMesh ∧
      AdjacencyClosed mobiusMesh ∧ LabelsOK mobiusMesh ∧ SeedsOK mobiusMesh ∧
      0 < mobiusMesh.ncc ∧ ValenceAtMostTwo mobiusMesh 0 ∧
      (mobiusMesh.ue 5).length = 1 ∧ (mobiusMesh.ue 0).length = 2) ∧
    (bfs mobiusMesh (bfsFuel mobiusMesh)
      (seedInit mobiusMesh 0 (componentsLoop mobiusMesh 0))).FHcount = 5 :=
  ⟨by decide,
    (C31_valence_two_complete mobiusMesh (by decide) (by decide) (by decide) (by decide)
      (by decide) (by decide) 0 (by decide) (by decide) mobiusMesh_connected).2.2.1⟩

end OuterHull

namespace StraightenSeams

/-- C32: what the code does with `OT`.  For every input `OT` is the selection
`OF` of rows of `EF`, the half-edges with indices into the 3D mesh.  On two
triangles that share an edge in 3D and are cut apart along it in the texture,
`OT` is `[[1,2],[1,3],[2,0],[3,2],[0,1],[2,1]]`, whereas the rows of `ET`
selected by the texture-boundary mask are
`[[1,2],[4,3],[2,0],[3,5],[0,1],[5,4]]`; the loop of lines 128-135 then marks
the texture vertices `1` and `2` only, whereas run on the rows of `ET` it marks
`1`, `2`, `4` and `5`, the two sides of the seam. -/
theorem C32_OT_holds_mesh_indices :
    (∀ inp : Input, OT inp = sliceRows (EF inp) (vBT_i inp) ∧ OT inp = OF inp) ∧
    OT seamQuad = [[1, 2], [1, 3], [2, 0], [3, 2], [0, 1], [2, 1]] ∧
    textureBoundaryRows seamQuad = [[1, 2], [4, 3], [2, 0], [3, 5], [0, 1], [5, 4]] ∧
    OT seamQuad ≠ textureBoundaryRows seamQuad ∧
    BTF seamQuad = [false, true, true, true, true, false] ∧
    SV seamQuad = [false, true, true, false, false, false] ∧
    markSharp seamQuad (textureBoundaryRows seamQuad)
      = [false, true, true, false, true, true] :=
  ⟨fun _ => ⟨rfl, rfl⟩, by decide, by decide, by decide, by decide, by decide, by decide⟩

end StraightenSeams

namespace Eigen

/-! ## Sums of triplets -/

theorem tripletSum_nil (r c : Nat) : tripletSum [] r c = 0 := rfl

theorem tripletSum_cons (t : Triplet) (T : List Triplet) (r c : Nat) :
    tripletSum (t :: T) r c
      = (if t.row = r ∧ t.col = c then t.value else 0) + tripletSum T r c := by
  unfold tripletSum
  by_cases h : t.row = r ∧ t.col = c
  · rw [List.filter_cons_of_pos (by simpa using h), if_pos h, List.map_cons, List.sum_cons]
  · rw [List.filter_cons_of_neg (by simpa using h), if_neg h, zero_add]

theorem tripletSum_append (T1 T2 : List Triplet) (r c : Nat) :
    tripletSum (T1 ++ T2) r c = tripletSum T1 r c + tripletSum T2 r c := by
  unfold tripletSum
  rw [List.filter_append, List.map_append, List.sum_append]

/-- A non-zero coefficient comes from a triplet at that position. -/
theorem tripletSum_ne_zero (T : List Triplet) (r c : Nat) (h : tripletSum T r c ≠ 0) :
    ∃ t ∈ T, t.row = r ∧ t.col = c := by
  induction T with
  | nil => exact absurd (tripletSum_nil r c) h
  | cons t T ih =>
    rw [tripletSum_cons] at h
    by_cases ht : t.row = r ∧ t.col = c
    · exact ⟨t, List.mem_cons_self _ _, ht⟩
    · rw [if_neg ht, zero_add] at h
      obtain ⟨t', ht', h'⟩ := ih h
      exact ⟨t', List.mem_cons_of_mem _ ht', h'⟩

/-- The quadratic form of a matrix assembled from triplets inside its
dimensions is the sum of the contributions of the triplets. -/
theorem quadraticForm_setFromTriplets (rows cols : Nat) (T : List Triplet) (x : List ℚ)
    (h : ∀ t ∈ T, t.row < rows ∧ t.col < cols) :
    quadraticForm (setFromTriplets rows cols T) x
      = (T.map (fun t => x.getD t.row 0 * t.value * x.getD t.col 0)).sum := by
  unfold quadraticForm setFromTriplets
  simp only
  induction T with
  | nil => simp [tripletSum_nil]
  | cons t T ih =>
    have ht := h t (List.mem_cons_self _ _)
    have ih' := ih (fun t' ht' => h t' (List.mem_cons_of_mem _ ht'))
    rw [List.map_cons, List.sum_cons, ← ih']
    simp only [tripletSum_cons, mul_add, add_mul, Finset.sum_add_distrib]
    congr 1
    rw [Finset.sum_eq_single t.row]
    · rw [Finset.sum_eq_single t.col]
      · simp
      · intro c _ hc
        rw [if_neg (fun h' => hc h'.2.symm)]; simp
      · intro hc
        exact absurd (Finset.mem_range.mpr ht.2) hc
    · intro r _ hr
      apply Finset.sum_eq_zero
      intro c _
      rw [if_neg (fun h' => hr h'.1.symm)]; simp
    · intro hr
      exact absurd (Finset.mem_range.mpr ht.1) hr

/-- The sum of a row of a matrix assembled from triplets inside its columns
is the sum of the values of the triplets of that row. -/
theorem rowSum_setFromTriplets (rows cols : Nat) (T : List Triplet) (r : Nat)
    (h : ∀ t ∈ T, t.col < cols) :
    rowSum (setFromTriplets rows cols T) r
      = (T.map (fun t => if t.row = r then t.value else 0)).sum := by
  unfold rowSum setFromTriplets
  simp only
  induction T with
  | nil => simp [tripletSum_nil]
  | cons t T ih =>
    have ht := h t (List.mem_cons_self _ _)
    have ih' := ih (fun t' ht' => h t' (List.mem_cons_of_mem _ ht'))
    rw [List.map_cons, List.sum_cons, ← ih']
    simp only [tripletSum_cons, Finset.sum_add_distrib]
    congr 1
    by_cases hr : t.row = r
    · rw [if_pos hr, Finset.sum_eq_single t.col]
      · simp [hr]
      · intro c _ hc
        rw [if_neg (fun h' => hc h'.2.symm)]
      · intro hc
        exact absurd (Finset.mem_range.mpr ht) hc
    · rw [if_neg hr]
      apply Finset.sum_eq_zero
      intro c _
      rw [if_neg (fun h' => hr h'.1)]

end Eigen

namespace VectorAreaMatrix

theorem foldl_max_le (l : List Nat) (a : Nat) : a ≤ l.foldl max a := by
  induction l generalizing a with
  | nil => exact le_refl _
  | cons x l ih => exact le_trans (le_max_left a x) (ih (max a x))

theorem foldl_max_mem_le (l : List Nat) (a x : Nat) (hx : x ∈ l) : x ≤ l.foldl max a := by
  induction l generalizing a with
  | nil => cases hx
  | cons y l ih =>
    rcases List.mem_cons.mp hx with rfl | h
    · exact le_trans (le_max_right a x) (foldl_max_le l (max a x))
    · exact ih (max a y) h

/-- Every vertex index of `F` is below `n = F.maxCoeff()+1`. -/
theorem lt_of_mem_faces (F : List (List Nat)) (x : Nat) (hx : x ∈ F.flatMap id) :
    x < maxCoeff F + 1 :=
  Nat.lt_succ_of_le (foldl_max_mem_le _ 0 x hx)

theorem tripletList_cons (n : Nat) (e : List Nat) (E : List (List Nat)) :
    tripletList n (e :: E)
      = [{ row := e.getD 0 0 + n, col := e.getD 1 0, value := -1/4 },
         { row := e.getD 1 0, col := e.getD 0 0 + n, value := -1/4 },
         { row := e.getD 0 0, col := e.getD 1 0 + n, value := 1/4 },
         { row := e.getD 1 0 + n, col := e.getD 0 0, value := 1/4 }] ++ tripletList n E := by
  unfold tripletList
  rw [List.flatMap_cons]

/-- Every triplet couples a vertex index with a vertex index shifted by `n`. -/
theorem mem_tripletList (n : Nat) (E : List (List Nat)) (t : Eigen.Triplet)
    (ht : t ∈ tripletList n E) :
    ∃ e ∈ E, (t.row = e.getD 0 0 + n ∧ t.col = e.getD 1 0) ∨
      (t.row = e.getD 1 0 ∧ t.col = e.getD 0 0 + n) ∨
      (t.row = e.getD 0 0 ∧ t.col = e.getD 1 0 + n) ∨
      (t.row = e.getD 1 0 + n ∧ t.col = e.getD 0 0) := by
  unfold tripletList at ht
  rw [List.mem_flatMap] at ht
  obtain ⟨e, he, hte⟩ := ht
  refine ⟨e, he, ?_⟩
  simp only [List.mem_cons, List.mem_singleton, List.not_mem_nil, or_false] at hte
  rcases hte with rfl | rfl | rfl | rfl
  · exact Or.inl ⟨rfl, rfl⟩
  · exact Or.inr (Or.inl ⟨rfl, rfl⟩)
  · exact Or.inr (Or.inr (Or.inl ⟨rfl, rfl⟩))
  · exact Or.inr (Or.inr (Or.inr ⟨rfl, rfl⟩))

theorem tripletList_symm (n : Nat) (E : List (List Nat)) (r c : Nat) :
    Eigen.tripletSum (tripletList n E) r c = Eigen.tripletSum (tripletList n E) c r := by
  induction E with
  | nil => rfl
  | cons e E ih =>
    rw [tripletList_cons, Eigen.tripletSum_append, Eigen.tripletSum_append, ih]
    congr 1
    simp only [Eigen.tripletSum_cons, Eigen.tripletSum_nil, add_zero]
    have h1 : (e.getD 0 0 + n = r ∧ e.getD 1 0 = c) ↔ (e.getD 1 0 = c ∧ e.getD 0 0 + n = r) :=
      And.comm
    have h2 : (e.getD 0 0 = r ∧ e.getD 1 0 + n = c) ↔ (e.getD 1 0 + n = c ∧ e.getD 0 0 = r) :=
      And.comm
    have h3 : (e.getD 1 0 = r ∧ e.getD 0 0 + n = c) ↔ (e.getD 0 0 + n = c ∧ e.getD 1 0 = r) :=
      And.comm
    have h4 : (e.getD 1 0 + n = r ∧ e.getD 0 0 = c) ↔ (e.getD 0 0 = c ∧ e.getD 1 0 + n = r) :=
      And.comm
    simp only [h1, h2, h3, h4]
    ring

theorem getD_append_left_lt (u v : List ℚ) (i : Nat) (h : i < u.length) :
    (u ++ v).getD i 0 = u.getD i 0 := by
  rw [List.getD_eq_getElem?_getD, List.getD_eq_getElem?_getD, List.getElem?_append_left h]

theorem getD_append_right_add (u v : List ℚ) (i : Nat) :
    (u ++ v).getD (i + u.length) 0 = v.getD i 0 := by
  rw [List.getD_eq_getElem?_getD, List.getD_eq_getElem?_getD,
    List.getElem?_append_right (by omega)]
  simp

/-- The contributions of the triplets add up to half the boundary sum. -/
theorem tripletList_sum (n : Nat) (E : List (List Nat)) (u v : List ℚ) (hu : u.length = n)
    (hE : ∀ e ∈ E, e.getD 0 0 < n ∧ e.getD 1 0 < n) :
    ((tripletList n E).map
        (fun t => (u ++ v).getD t.row 0 * t.value * (u ++ v).getD t.col 0)).sum
      = 1 / 2 * boundarySum E u v := by
  induction E with
  | nil => simp [tripletList, boundarySum]
  | cons e E ih =>
    have he := hE e (List.mem_cons_self _ _)
    have ih' := ih (fun e' he' => hE e' (List.mem_cons_of_mem _ he'))
    rw [tripletList_cons, List.map_append, List.sum_append, ih']
    unfold boundarySum
    rw [List.map_cons, List.sum_cons]
    simp only [List.map_cons, List.map_nil, List.sum_cons, List.sum_nil]
    have i0 : (u ++ v).getD (e.getD 0 0) 0 = u.getD (e.getD 0 0) 0 :=
      getD_append_left_lt u v _ (by omega)
    have i1 : (u ++ v).getD (e.getD 1 0) 0 = u.getD (e.getD 1 0) 0 :=
      getD_append_left_lt u v _ (by omega)
    have j0 : (u ++ v).getD (e.getD 0 0 + n) 0 = v.getD (e.getD 0 0) 0 := by
      rw [← hu]; exact getD_append_right_add u v _
    have j1 : (u ++ v).getD (e.getD 1 0 + n) 0 = v.getD (e.getD 1 0) 0 := by
      rw [← hu]; exact getD_append_right_add u v _
    rw [i0, i1, j0, j1]
    ring

/-- C33: for every face list `F` and every list `E` of boundary edges returned
by `boundary_facets` (its end points are vertex indices of `F`), with
`n = F.maxCoeff()+1`, the matrix `A` built by `vector_area_matrix` has `2n`
rows and `2n` columns, and for all vectors `u`, `v` of length `n` the quadratic
form `[u;v]^T A [u;v]` equals one half of the sum over the boundary edges
`(i,j)` of `u_i*v_j - u_j*v_i`, triplets with the same coordinates being
summed. -/
theorem C33_quadratic_form (boundary_facets : List (List Nat) → List (List Nat))
    (F : List (List Nat)) (u v : List ℚ) (hE : EdgesOfFaces F (boundary_facets F))
    (hu : u.length = maxCoeff F + 1) (hv : v.length = maxCoeff F + 1) :
    (vector_area_matrix boundary_facets F).rows = 2 * (maxCoeff F + 1) ∧
    (vector_area_matrix boundary_facets F).cols = 2 * (maxCoeff F + 1) ∧
    (vector_area_matrix boundary_facets F).coeff
      = Eigen.tripletSum (tripletList (maxCoeff F + 1) (boundary_facets F)) ∧
    Eigen.quadraticForm (vector_area_matrix boundary_facets F) (u ++ v)
      = 1 / 2 * boundarySum (boundary_facets F) u v := by
  have hlt : ∀ e ∈ boundary_facets F,
      e.getD 0 0 < maxCoeff F + 1 ∧ e.getD 1 0 < maxCoeff F + 1 :=
    fun e he => ⟨lt_of_mem_faces F _ (hE e he).1, lt_of_mem_faces F _ (hE e he).2⟩
  refine ⟨Nat.mul_comm _ _, Nat.mul_comm _ _, rfl, ?_⟩
  unfold vector_area_matrix
  simp only
  rw [Eigen.quadraticForm_setFromTriplets]
  · exact tripletList_sum _ _ u v hu hlt
  · intro t ht
    obtain ⟨e, he, h⟩ := mem_tripletList _ _ t ht
    have := hlt e he
    rcases h with ⟨h1, h2⟩ | ⟨h1, h2⟩ | ⟨h1, h2⟩ | ⟨h1, h2⟩ <;> rw [h1, h2] <;> omega

/-- C33 on a single triangle `(0,1,2)` with `u = (0,1,0)`, `v = (0,0,1)`: the
quadratic form is half the boundary sum, which is `1`. -/
theorem C33_quadratic_form_witness :
    (EdgesOfFaces [[0, 1, 2]] (allEdges [[0, 1, 2]]) ∧
      ([0, 1, 0] : List ℚ).length = maxCoeff [[0, 1, 2]] + 1 ∧
      ([0, 0, 1] : List ℚ).length = maxCoeff [[0, 1, 2]] + 1) ∧
    Eigen.quadraticForm (vector_area_matrix allEdges [[0, 1, 2]]) ([0, 1, 0] ++ [0, 0, 1])
      = 1 / 2 * boundarySum (allEdges [[0, 1, 2]]) [0, 1, 0] [0, 0, 1] :=
  ⟨by decide,
    (C33_quadratic_form allEdges [[0, 1, 2]] [0, 1, 0] [0, 0, 1] (by decide) (by decide)
      (by decide)).2.2.2⟩

/-- C34: the matrix `A` built by `vector_area_matrix` is symmetric, and when
the end points of the boundary edges are vertex indices of `F` every non-zero
entry couples an index below `n` with an index at or above `n` (and below
`2n`): the two diagonal `n`-by-`n` blocks are zero. -/
theorem C34_symmetric_zero_blocks (boundary_facets : List (List Nat) → List (List Nat))
    (F : List (List Nat)) :
    (∀ r c, (vector_area_matrix boundary_facets F).coeff r c
      = (vector_area_matrix boundary_facets F).coeff c r) ∧
    (EdgesOfFaces F (boundary_facets F) →
      (∀ r c, (vector_area_matrix boundary_facets F).coeff r c ≠ 0 →
        (r < maxCoeff F + 1 ∧ maxCoeff F + 1 ≤ c ∧ c < 2 * (maxCoeff F + 1)) ∨
        (c < maxCoeff F + 1 ∧ maxCoeff F + 1 ≤ r ∧ r < 2 * (maxCoeff F + 1))) ∧
      (∀ r c, r < maxCoeff F + 1 → c < maxCoeff F + 1 →
        (vector_area_matrix boundary_facets F).coeff r c = 0) ∧
      (∀ r c, maxCoeff F + 1 ≤ r → maxCoeff F + 1 ≤ c →
        (vector_area_matrix boundary_facets F).coeff r c = 0)) := by
  have hcoeff : (vector_area_matrix boundary_facets F).coeff
      = Eigen.tripletSum (tripletList (maxCoeff F + 1) (boundary_facets F)) := rfl
  refine ⟨fun r c => by rw [hcoeff]; exact tripletList_symm _ _ r c, ?_⟩
  intro hE
  have hlt : ∀ e ∈ boundary_facets F,
      e.getD 0 0 < maxCoeff F + 1 ∧ e.getD 1 0 < maxCoeff F + 1 :=
    fun e he => ⟨lt_of_mem_faces F _ (hE e he).1, lt_of_mem_faces F _ (hE e he).2⟩
  have hne : ∀ r c, (vector_area_matrix boundary_facets F).coeff r c ≠ 0 →
      (r < maxCoeff F + 1 ∧ maxCoeff F + 1 ≤ c ∧ c < 2 * (maxCoeff F + 1)) ∨
      (c < maxCoeff F + 1 ∧ maxCoeff F + 1 ≤ r ∧ r < 2 * (maxCoeff F + 1)) := by
    intro r c h
    rw [hcoeff] at h
    obtain ⟨t, ht, hr, hc⟩ := Eigen.tripletSum_ne_zero _ r c h
    obtain ⟨e, he, h'⟩ := mem_tripletList _ _ t ht
    have := hlt e he
    rcases h' with ⟨h1, h2⟩ | ⟨h1, h2⟩ | ⟨h1, h2⟩ | ⟨h1, h2⟩ <;> omega
  refine ⟨hne, ?_, ?_⟩
  · intro r c hr hc
    by_contra h
    rcases hne r c h with h' | h' <;> omega
  · intro r c hr hc
    by_contra h
    rcases hne r c h with h' | h' <;> omega

/-- C34 on a single triangle (`n = 3`): the boundary edges are edges of the
face list, and the entries at `(0,0)` and at `(4,3)`, inside the two diagonal
blocks, are zero. -/
theorem C34_symmetric_zero_blocks_witness :
    EdgesOfFaces [[0, 1, 2]] (allEdges [[0, 1, 2]]) ∧
    (vector_area_matrix allEdges [[0, 1, 2]]).coeff 0 0 = 0 ∧
    (vector_area_matrix allEdges [[0, 1, 2]]).coeff 4 3 = 0 :=
  ⟨by decide,
    ((C34_symmetric_zero_blocks allEdges [[0, 1, 2]]).2 (by decide)).2.1 0 0 (by decide)
      (by decide),
    ((C34_symmetric_zero_blocks allEdges [[0, 1, 2]]).2 (by decide)).2.2 4 3 (by decide)
      (by decide)⟩

end VectorAreaMatrix

namespace NormalDerivative

/-! ## The rows of the normal derivative matrix -/

theorem sum_flatMap {α R : Type} [CommRing R] (l : List α) (f : α → List R) :
    (l.flatMap f).sum = (l.map (fun a => (f a).sum)).sum := by
  induction l with
  | nil => rfl
  | cons a l ih => rw [List.flatMap_cons, List.sum_append, List.map_cons, List.sum_cons, ih]

/-- A sum over `0, ..., 2N-1` taken two terms at a time. -/
theorem sum_range_pairs {R : Type} [CommRing R] (h : Nat → R) (N : Nat) :
    ((List.range (2 * N)).map h).sum
      = ((List.range N).map (fun p => h (2 * p) + h (2 * p + 1))).sum := by
  induction N with
  | zero => rfl
  | succ N ih =>
    have h2 : 2 * (N + 1) = 2 * N + 1 + 1 := by ring
    rw [h2, List.range_succ, List.range_succ, List.range_succ (n := N)]
    simp only [List.map_append, List.sum_append, List.map_cons, List.map_nil, List.sum_cons,
      List.sum_nil, add_zero]
    rw [ih]
    ring

theorem sum_map_eq_zero {α R : Type} [CommRing R] (l : List α) (f : α → R)
    (h : ∀ a ∈ l, f a = 0) : (l.map f).sum = 0 := by
  induction l with
  | nil => rfl
  | cons a l ih =>
    rw [List.map_cons, List.sum_cons, h a (List.mem_cons_self _ _),
      ih (fun b hb => h b (List.mem_cons_of_mem _ hb)), add_zero]

theorem sum_map_add {α R : Type} [CommRing R] (l : List α) (f g : α → R) :
    (l.map f).sum + (l.map g).sum = (l.map (fun a => f a + g a)).sum := by
  induction l with
  | nil => simp
  | cons a l ih =>
    simp only [List.map_cons, List.sum_cons]
    rw [← ih]; ring

/-- A sum over `0, ..., n-1` with a single non-zero term. -/
theorem sum_range_single {R : Type} [CommRing R] (n k : Nat) (x : R) (hk : k < n) :
    ((List.range n).map (fun c => if k = c then x else 0)).sum = x := by
  induction n with
  | zero => omega
  | succ n ih =>
    rw [List.range_succ, List.map_append, List.sum_append, List.map_cons, List.map_nil,
      List.sum_cons, List.sum_nil, add_zero]
    by_cases h : k = n
    · rw [if_pos h, sum_map_eq_zero, zero_add]
      intro c hc
      have := List.mem_range.mp hc
      rw [if_neg (by omega)]
    · rw [if_neg h, add_zero]
      exact ih (by omega)

theorem getD_map_lt {α β : Type} (l : List α) (f : α → β) (i : Nat) (d : α) (d' : β)
    (h : i < l.length) : (l.map f).getD i d' = f (l.getD i d) := by
  rw [List.getD_eq_getElem _ _ (by rw [List.length_map]; exact h), List.getElem_map,
    List.getD_eq_getElem l _ h]

theorem entry_sliceCols {α : Type} (M : List (List α)) (cols : List Nat) (d : α) (e k : Nat)
    (he : e < M.length) (hk : k < cols.length) :
    entry (sliceCols M cols d) e k d = (M.getD e []).getD (cols.getD k 0) d := by
  unfold entry sliceCols
  rw [getD_map_lt M _ e [] [] he, getD_map_lt cols _ k 0 d hk]

/-- An entry read from a matrix is the default or an entry of one of its rows. -/
theorem entry_default_or_mem {α : Type} (M : List (List α)) (e k : Nat) (d : α) :
    entry M e k d = d ∨ ∃ r ∈ M, entry M e k d ∈ r := by
  unfold entry
  by_cases he : e < M.length
  · by_cases hk : k < (M.getD e []).length
    · right
      refine ⟨M.getD e [], ?_, ?_⟩
      · rw [List.getD_eq_getElem _ _ he]; exact List.getElem_mem _
      · rw [List.getD_eq_getElem _ _ hk]; exact List.getElem_mem _
    · left
      exact List.getD_eq_default _ _ (by omega)
  · left
    rw [List.getD_eq_default M _ (by omega)]
    rfl

/-! ### Sums of triplets -/

theorem tripletsAt_cons_sum {S R : Type} [CommRing R] (t : Triplet S) (T : List (Triplet S))
    (g : S → R) (r c : Nat) :
    ((tripletsAt (t :: T) r c).map (fun t => g t.value)).sum
      = (if t.row = r ∧ t.col = c then g t.value else 0)
        + ((tripletsAt T r c).map (fun t => g t.value)).sum := by
  unfold tripletsAt
  by_cases h : t.row = r ∧ t.col = c
  · rw [List.filter_cons_of_pos (by simpa using h), if_pos h, List.map_cons, List.sum_cons]
  · rw [List.filter_cons_of_neg (by simpa using h), if_neg h, zero_add]

/-- Summed over the columns of the matrix, the values of the triplets at the
positions of row `r` are the values of the triplets of row `r`. -/
theorem sum_tripletsAt {S R : Type} [CommRing R] (T : List (Triplet S)) (g : S → R)
    (r n : Nat) (h : ∀ t ∈ T, t.col < n) :
    ((List.range n).map (fun c => ((tripletsAt T r c).map (fun t => g t.value)).sum)).sum
      = (T.map (fun t => if t.row = r then g t.value else 0)).sum := by
  induction T with
  | nil =>
    apply sum_map_eq_zero
    intro c _
    rfl
  | cons t T ih =>
    have ht := h t (List.mem_cons_self _ _)
    have ih' := ih (fun t' ht' => h t' (List.mem_cons_of_mem _ ht'))
    rw [List.map_cons, List.sum_cons, ← ih']
    simp only [tripletsAt_cons_sum]
    rw [← sum_map_add]
    congr 1
    by_cases hr : t.row = r
    · rw [if_pos hr]
      simp only [hr, true_and]
      exact sum_range_single n t.col _ ht
    · rw [if_neg hr]
      apply sum_map_eq_zero
      intro c _
      rw [if_neg (fun h' => hr h'.1)]

/-- In exact arithmetic the stored coefficient is the sum of the values. -/
theorem sumDuplicates_exact (vs : List ℚ) : sumDuplicates exact vs = vs.sum := by
  cases vs with
  | nil => rfl
  | cons v vs =>
    show vs.foldl (fun x y => x + y) v = (v :: vs).sum
    rw [List.sum_cons]
    induction vs generalizing v with
    | nil => simp
    | cons w vs ih => rw [List.foldl_cons, ih, List.sum_cons]; ring

/-! ### The triplets of `normal_derivative` -/

/-- The row `e` of `DDV`. -/
theorem DDV_row {S : Type} (A : Arith S) (C : List (List S)) (cols : List Nat) (D : List S)
    (e : Nat) :
    (DDV A C cols D).getD e []
      = if e < C.length then
          List.zipWith A.mul (cols.map (fun c => (C.getD e []).getD c A.zero)) D
        else [] := by
  unfold DDV sliceCols
  by_cases he : e < C.length
  · rw [if_pos he, getD_map_lt _ _ e [] [] (by rw [List.length_map]; exact he),
      getD_map_lt C _ e [] [] he]
  · rw [if_neg he, List.getD_eq_default _ _ (by simpa using he)]

/-- For triangles, the entries of `DDV` in the columns `2p` and `2p+1` are the
products of one entry of `C` with `1` and with `-1`, or both the default. -/
theorem DDV3_pair {S : Type} (A : Arith S) (C : List (List S)) (e p : Nat) (hp : p < 6) :
    (∃ x, (x = A.zero ∨ ∃ r ∈ C, x ∈ r) ∧
      entry (DDV A C DDVcols3 (signs A 6)) e (2 * p) A.zero = A.mul x A.one ∧
      entry (DDV A C DDVcols3 (signs A 6)) e (2 * p + 1) A.zero = A.mul x A.minusOne) ∨
    (entry (DDV A C DDVcols3 (signs A 6)) e (2 * p) A.zero = A.zero ∧
      entry (DDV A C DDVcols3 (signs A 6)) e (2 * p + 1) A.zero = A.zero) := by
  unfold entry
  rw [DDV_row]
  by_cases he : e < C.length
  · left
    rw [if_pos he]
    refine ⟨entry C e (DDVcols3.getD (2 * p) 0) A.zero, ?_, ?_⟩
    · rcases entry_default_or_mem C e (DDVcols3.getD (2 * p) 0) A.zero with h | h
      · exact Or.inl h
      · exact Or.inr h
    · unfold entry
      generalize C.getD e [] = r
      interval_cases p <;> exact ⟨rfl, rfl⟩
  · right
    rw [if_neg he]
    exact ⟨rfl, rfl⟩

/-- For tetrahedra, the entries of `DDV` in the columns `2p` and `2p+1` are the
products of one entry of `C` with `1` and with `-1`, or both the default. -/
theorem DDV4_pair {S : Type} (A : Arith S) (C : List (List S)) (e p : Nat) (hp : p < 12) :
    (∃ x, (x = A.zero ∨ ∃ r ∈ C, x ∈ r) ∧
      entry (DDV A C DDVcols4 (signs A 12)) e (2 * p) A.zero = A.mul x A.one ∧
      entry (DDV A C DDVcols4 (signs A 12)) e (2 * p + 1) A.zero = A.mul x A.minusOne) ∨
    (entry (DDV A C DDVcols4 (signs A 12)) e (2 * p) A.zero = A.zero ∧
      entry (DDV A C DDVcols4 (signs A 12)) e (2 * p + 1) A.zero = A.zero) := by
  unfold entry
  rw [DDV_row]
  by_cases he : e < C.length
  · left
    rw [if_pos he]
    refine ⟨entry C e (DDVcols4.getD (2 * p) 0) A.zero, ?_, ?_⟩
    · rcases entry_default_or_mem C e (DDVcols4.getD (2 * p) 0) A.zero with h | h
      · exact Or.inl h
      · exact Or.inr h
    · unfold entry
      generalize C.getD e [] = r
      interval_cases p <;> exact ⟨rfl, rfl⟩
  · right
    rw [if_neg he]
    exact ⟨rfl, rfl⟩

/-- Where the products with the diagonal of `S` are exact, the values of a
product with `1` and of the product with `-1` cancel. -/
theorem signsExact_cancel {S R : Type} [CommRing R] (A : Arith S) (φ : S → Option R)
    (C : List (List S)) (h : SignsExact A φ C) (x : S)
    (hx : x = A.zero ∨ ∃ r ∈ C, x ∈ r) :
    (φ (A.mul x A.one)).getD 0 + (φ (A.mul x A.minusOne)).getD 0 = 0 := by
  have hs : ScalesExactly A φ x := by
    rcases hx with rfl | ⟨r, hr, hxr⟩
    · exact h.2.1
    · exact h.2.2 r hr x hxr
  obtain ⟨h1, h2, h3⟩ := hs
  rw [h2, h3]
  cases hφ : φ x with
  | none => rw [hφ] at h1; cases h1
  | some q => simp

/-- For triangles, the columns `2p` and `2p+1` of `DDI` are equal. -/
theorem DDI3_pair (m p : Nat) (hp : p < 6) :
    (DDI m 3 4).getD (2 * p) [] = (DDI m 3 4).getD (2 * p + 1) [] := by
  interval_cases p <;> rfl

/-- For tetrahedra, the columns `2p` and `2p+1` of `DDI` are equal. -/
theorem DDI4_pair (m p : Nat) (hp : p < 12) :
    (DDI m 4 6).getD (2 * p) [] = (DDI m 4 6).getD (2 * p + 1) [] := by
  interval_cases p <;> rfl

/-- The values of the triplets of any one row add up to zero when the columns
of `DDI` pair up and the values of the columns of `DDV` cancel in pairs. -/
theorem IJV_row_sum {S R : Type} [CommRing R] (g : S → R) (d : S) (m N : Nat)
    (I : List (List Nat)) (J : List (List Nat)) (V : List (List S)) (r : Nat)
    (hI : ∀ p < N, I.getD (2 * p) [] = I.getD (2 * p + 1) [])
    (hV : ∀ e, ∀ p < N, g (entry V e (2 * p) d) + g (entry V e (2 * p + 1) d) = 0) :
    ((IJV d m (2 * N) I J V).map (fun t => if t.row = r then g t.value else 0)).sum = 0 := by
  unfold IJV
  rw [List.map_flatMap, sum_flatMap]
  simp only [List.map_map]
  rw [sum_range_pairs]
  apply sum_map_eq_zero
  intro p hp
  have hp' : p < N := List.mem_range.mp hp
  rw [sum_map_add]
  apply sum_map_eq_zero
  intro e _
  simp only [Function.comp]
  rw [hI p hp']
  by_cases h : (I.getD (2 * p + 1) []).getD e 0 = r
  · rw [if_pos h, if_pos h]; exact hV e p hp'
  · rw [if_neg h, if_neg h]; exact add_zero _

/-- The columns of the triplets are entries of `Ele`. -/
theorem IJV_col {S : Type} (d : S) (m ncols : Nat) (I : List (List Nat))
    (Ele : List (List Nat)) (cols : List Nat) (V : List (List S)) (hm : m = Ele.length)
    (hc : ncols = cols.length) (t : Triplet S)
    (ht : t ∈ IJV d m ncols I (sliceCols Ele cols 0) V) :
    ∃ r ∈ Ele, ∃ c ∈ cols, t.col = r.getD c 0 := by
  unfold IJV at ht
  rw [List.mem_flatMap] at ht
  obtain ⟨f, hf, ht⟩ := ht
  rw [List.mem_map] at ht
  obtain ⟨e, he, rfl⟩ := ht
  have hf' : f < cols.length := by rw [← hc]; exact List.mem_range.mp hf
  have he' : e < Ele.length := by rw [← hm]; exact List.mem_range.mp he
  refine ⟨Ele.getD e [], ?_, cols.getD f 0, ?_, ?_⟩
  · rw [List.getD_eq_getElem _ _ he']; exact List.getElem_mem _
  · rw [List.getD_eq_getElem _ _ hf']; exact List.getElem_mem _
  · exact entry_sliceCols Ele cols 0 e f he' hf'

/-- The values of the triplets of a row of `normal_derivative` add up to zero
when the products with the diagonal of `S` are exact. -/
theorem triplets_row_sum {S R : Type} [CommRing R] (A : Arith S) (φ : S → Option R)
    (inp : Input S) (hC : SignsExact A φ inp.C) (r : Nat) :
    ((triplets A inp).map (fun t => if t.row = r then (φ t.value).getD 0 else 0)).sum = 0 := by
  have hz : (φ A.zero).getD 0 + (φ A.zero).getD 0 = 0 := by rw [hC.1]; simp
  unfold triplets
  split
  · refine IJV_row_sum (fun x => (φ x).getD 0) A.zero inp.m 12 _ _ _ r (DDI4_pair inp.m) ?_
    intro e p hp
    rcases DDV4_pair A inp.C e p hp with ⟨x, hx, h1, h2⟩ | ⟨h1, h2⟩
    · rw [h1, h2]; exact signsExact_cancel A φ inp.C hC x hx
    · rw [h1, h2]; exact hz
  · refine IJV_row_sum (fun x => (φ x).getD 0) A.zero inp.m 6 _ _ _ r (DDI3_pair inp.m) ?_
    intro e p hp
    rcases DDV3_pair A inp.C e p hp with ⟨x, hx, h1, h2⟩ | ⟨h1, h2⟩
    · rw [h1, h2]; exact signsExact_cancel A φ inp.C hC x hx
    · rw [h1, h2]; exact hz

/-- The triplets of `normal_derivative` lie inside the columns of `DD`. -/
theorem triplets_col {S : Type} (A : Arith S) (inp : Input S)
    (hss : inp.ss = 3 ∨ inp.ss = 4) (hEle : ElementsInRange inp) (t : Triplet S)
    (ht : t ∈ triplets A inp) : t.col < inp.Vrows := by
  unfold triplets at ht
  split at ht
  · rename_i h4
    obtain ⟨r, hr, c, hc, htc⟩ := IJV_col A.zero inp.m (6 * 4) _ inp.Ele DDJcols4 _ rfl rfl t ht
    rw [htc]
    apply hEle r hr c
    rw [h4]
    exact (by decide : ∀ c ∈ DDJcols4, c < 4) c hc
  · rename_i h4
    have h3 : inp.ss = 3 := by omega
    obtain ⟨r, hr, c, hc, htc⟩ := IJV_col A.zero inp.m 12 _ inp.Ele DDJcols3 _ rfl rfl t ht
    rw [htc]
    apply hEle r hr c
    rw [h3]
    exact (by decide : ∀ c ∈ DDJcols3, c < 3) c hc

/-- The matrix built by `normal_derivative` is assembled from `triplets`. -/
theorem normal_derivative_eq {S : Type} (A : Arith S) (inp : Input S)
    (hss : inp.ss = 3 ∨ inp.ss = 4) :
    normal_derivative A inp
      = some (setFromTriplets A (inp.m * inp.ss) inp.Vrows (triplets A inp)) := by
  unfold normal_derivative triplets
  rcases hss with h3 | h4
  · simp [h3]
  · simp [h4]

/-- A matrix whose rows sum to zero maps constant vectors to zero. -/
theorem mulVec_const {S R : Type} [CommRing R] (φ : S → Option R) (DD : SparseMatrix S)
    (k : R) (r : Nat) (h : rowSum φ DD r = 0) :
    mulVec φ DD (List.replicate DD.cols k) r = 0 := by
  unfold mulVec
  have : (List.range DD.cols).map
        (fun c => (φ (DD.coeff r c)).getD 0 * (List.replicate DD.cols k).getD c 0)
      = (List.range DD.cols).map (fun c => (φ (DD.coeff r c)).getD 0 * k) := by
    apply List.map_congr_left
    intro c hc
    rw [List.getD_eq_getElem _ _ (by simpa using hc)]
    simp
  rw [this, List.sum_map_mul_right]
  unfold rowSum at h
  rw [h, zero_mul]

/-- Where the arithmetic commits no rounding error, the rows of the matrix of
`normal_derivative` sum to zero. -/
theorem rowSum_of_exact {S R : Type} [CommRing R] (A : Arith S) (φ : S → Option R)
    (inp : Input S) (hss : inp.ss = 3 ∨ inp.ss = 4) (hEle : ElementsInRange inp)
    (hC : SignsExact A φ inp.C)
    (hsum : ExactlySummed A φ (triplets A inp) (inp.m * inp.ss) inp.Vrows) (r : Nat)
    (hr : r < inp.m * inp.ss) :
    rowSum φ (setFromTriplets A (inp.m * inp.ss) inp.Vrows (triplets A inp)) r = 0 := by
  unfold rowSum setFromTriplets
  simp only
  have : (List.range inp.Vrows).map (fun c => (φ (tripletSum A (triplets A inp) r c)).getD 0)
      = (List.range inp.Vrows).map
          (fun c => ((tripletsAt (triplets A inp) r c).map (fun t => (φ t.value).getD 0)).sum) := by
    apply List.map_congr_left
    intro c hc
    rw [hsum r hr c (List.mem_range.mp hc)]
    rfl
  rw [this, sum_tripletsAt (triplets A inp) (fun x => (φ x).getD 0) r inp.Vrows
    (triplets_col A inp hss hEle)]
  exact triplets_row_sum A φ inp hC r

/-- Exact arithmetic multiplies by `1` and `-1` without error. -/
theorem signsExact_exact (C : List (List ℚ)) : SignsExact exact some C := by
  have h : ∀ x : ℚ, ScalesExactly exact some x := by
    intro x
    refine ⟨rfl, ?_, ?_⟩
    · show some (x * 1) = some x
      rw [mul_one]
    · show some (x * -1) = some (-x)
      rw [mul_neg_one]
  exact ⟨rfl, h _, fun _ _ x _ => h x⟩

/-- Exact arithmetic sums the triplets of a position without error. -/
theorem exactlySummed_exact (T : List (Triplet ℚ)) (rows cols : Nat) :
    ExactlySummed exact some T rows cols := by
  intro r _ c _
  unfold tripletSum
  rw [sumDuplicates_exact]
  rfl

/-! ### The arithmetic of `double` -/

theorem bitLengthAux_le (fuel a k : Nat) (h : a < 2 ^ k) : bitLengthAux fuel a ≤ k := by
  induction fuel generalizing a k with
  | zero => exact Nat.zero_le _
  | succ fuel ih =>
    unfold bitLengthAux
    by_cases ha : a = 0
    · rw [if_pos ha]; exact Nat.zero_le _
    · rw [if_neg ha]
      cases k with
      | zero => simp at h; omega
      | succ k =>
        have : a / 2 < 2 ^ k := by
          rw [Nat.div_lt_iff_lt_mul (by decide)]
          rw [Nat.pow_succ] at h
          exact h
        have := ih (a / 2) k this
        omega

/-- A value that is a `double` as written is not changed by rounding. -/
theorem round_representable (m e : Int) (h : (Binary64.finite m e).Representable)
    (hm : m ≠ 0) : Binary64.round m e = .finite m e := by
  obtain ⟨h1, h2, h3⟩ := h
  have hb : (bitLength m.natAbs : Int) ≤ 53 := by
    have := bitLengthAux_le m.natAbs m.natAbs 53 h1
    unfold bitLength
    exact_mod_cast this
  have ha : m.natAbs ≠ 0 := by simpa using hm
  have he : max e (max ((bitLength m.natAbs : Int) + e - 53) (-1074)) = e := by
    rw [max_eq_left]
    exact max_le (by omega) h2
  unfold Binary64.round
  simp only [if_neg ha, he, sub_self, Int.toNat_zero, pow_zero, Nat.div_one, Nat.mod_one,
    Nat.mul_zero]
  have hq : ¬ (1 < 0 ∨ (0 = 1 ∧ m.natAbs % 2 = 1)) := by omega
  rw [if_neg hq, if_neg (by omega)]
  congr 1
  by_cases hneg : m < 0
  · rw [if_pos hneg]; omega
  · rw [if_neg hneg]; omega

theorem scaled_zero (k : Nat) (e : Int) : Binary64.scaled k (.finite 0 e) = some 0 := by
  show (if 0 ≤ e + (k : Int) then some ((0 : Int) * 2 ^ (e + k).toNat)
    else if (0 : Int) % 2 ^ (-(e + k)).toNat = 0 then some ((0 : Int) / 2 ^ (-(e + k)).toNat)
    else none) = some 0
  by_cases h : 0 ≤ e + (k : Int)
  · rw [if_pos h, zero_mul]
  · rw [if_neg h, if_pos (Int.zero_emod _), Int.zero_ediv]

theorem scaled_neg (k : Nat) (m e : Int) :
    Binary64.scaled k (.finite (-m) e) = (Binary64.scaled k (.finite m e)).map (fun q => -q) := by
  show (if 0 ≤ e + (k : Int) then some (-m * 2 ^ (e + k).toNat)
      else if -m % 2 ^ (-(e + k)).toNat = 0 then some (-m / 2 ^ (-(e + k)).toNat)
      else none)
    = (if 0 ≤ e + (k : Int) then some (m * 2 ^ (e + k).toNat)
      else if m % 2 ^ (-(e + k)).toNat = 0 then some (m / 2 ^ (-(e + k)).toNat)
      else none).map (fun q => -q)
  by_cases h : 0 ≤ e + (k : Int)
  · simp only [if_pos h, Option.map_some', neg_mul]
  · simp only [if_neg h]
    by_cases hd : m % 2 ^ (-(e + k)).toNat = 0
    · have hd' : -m % 2 ^ (-(e + k)).toNat = 0 :=
        Int.emod_eq_zero_of_dvd ((Int.dvd_neg).mpr (Int.dvd_of_emod_eq_zero hd))
      rw [if_pos hd, if_pos hd', Option.map_some']
      congr 1
      exact Int.neg_ediv_of_dvd (Int.dvd_of_emod_eq_zero hd)
    · have hd' : ¬ (-m % 2 ^ (-(e + k)).toNat = 0) := by
        intro h0
        apply hd
        have := Int.dvd_of_emod_eq_zero h0
        exact Int.emod_eq_zero_of_dvd ((Int.dvd_neg).mp this)
      rw [if_neg hd, if_neg hd', Option.map_none']

/-- In the arithmetic of `double` the products of a finite value with `1` and
with `-1` are exact. -/
theorem scalesExactly_binary64 (k : Nat) (x : Binary64) (hx : x.Representable)
    (hv : (Binary64.scaled k x).isSome = true) :
    ScalesExactly binary64 (Binary64.scaled k) x := by
  cases x with
  | inf s => cases hv
  | nan => cases hv
  | finite m e =>
    refine ⟨hv, ?_, ?_⟩
    · show Binary64.scaled k (Binary64.round (m * 1) (e + 0)) = _
      rw [mul_one, add_zero]
      by_cases hm : m = 0
      · subst hm
        rw [scaled_zero]
        show Binary64.scaled k (.finite 0 0) = some 0
        exact scaled_zero k 0
      · rw [round_representable m e hx hm]
    · show Binary64.scaled k (Binary64.round (m * -1) (e + 0)) = _
      rw [mul_neg_one, add_zero]
      by_cases hm : m = 0
      · subst hm
        rw [scaled_zero]
        show Binary64.scaled k (.finite 0 0) = some (-0)
        rw [scaled_zero, neg_zero]
      · have hx' : (Binary64.finite (-m) e).Representable := by
          obtain ⟨h1, h2, h3⟩ := hx
          exact ⟨by rw [Int.natAbs_neg]; exact h1, h2, by rw [Int.natAbs_neg]; exact h3⟩
        rw [round_representable (-m) e hx' (by simpa using hm), scaled_neg]

/-- In the arithmetic of `double` the products of finite cotangent entries
with the diagonal of `S` are exact. -/
theorem signsExact_binary64 (k : Nat) (C : List (List Binary64))
    (h : ∀ r ∈ C, ∀ x ∈ r, x.Representable ∧ (Binary64.scaled k x).isSome = true) :
    SignsExact binary64 (Binary64.scaled k) C := by
  have h0 : Binary64.scaled k binary64.zero = some 0 := scaled_zero k 0
  refine ⟨h0, scalesExactly_binary64 k _ (by decide) (by rw [h0]; rfl), ?_⟩
  intro r hr x hxr
  exact scalesExactly_binary64 k x (h r hr x hxr).1 (h r hr x hxr).2

/-- Every finite `double` is a whole number of units of `2^(-1074)`. -/
theorem scaled_isSome (x : Binary64) (hx : x.Representable) (hf : x.isFinite = true) :
    (Binary64.scaled 1074 x).isSome = true := by
  cases x with
  | inf s => cases hf
  | nan => cases hf
  | finite m e =>
    obtain ⟨_, h2, _⟩ := hx
    have h : 0 ≤ e + ((1074 : Nat) : Int) := by
      have : ((1074 : Nat) : Int) = 1074 := rfl
      omega
    show (if 0 ≤ e + ((1074 : Nat) : Int) then some (m * 2 ^ (e + ((1074 : Nat) : Int)).toNat)
      else _).isSome = true
    rw [if_pos h]
    rfl

/-- In the arithmetic of `double`, for finite cotangent entries: when the sums
of the triplets that fall on the same position are not rounded, every row of
`DD` sums to zero. -/
theorem rowSum_double (inp : Input Binary64) (hss : inp.ss = 3 ∨ inp.ss = 4)
    (hEle : ElementsInRange inp)
    (hC : ∀ r ∈ inp.C, ∀ x ∈ r, x.Representable ∧ x.isFinite = true)
    (hsum : ExactlySummed binary64 (Binary64.scaled 1074) (triplets binary64 inp)
      (inp.m * inp.ss) inp.Vrows) (r : Nat) (hr : r < inp.m * inp.ss) :
    rowSum (Binary64.scaled 1074)
      (setFromTriplets binary64 (inp.m * inp.ss) inp.Vrows (triplets binary64 inp)) r = 0 :=
  rowSum_of_exact binary64 (Binary64.scaled 1074) inp hss hEle
    (signsExact_binary64 1074 inp.C (fun r hr x hx =>
      ⟨(hC r hr x hx).1, scaled_isSome x (hC r hr x hx).1 (hC r hr x hx).2⟩)) hsum r hr

/-- In exact arithmetic every row of `DD` sums to zero. -/
theorem rowSum_exact (inp : Input ℚ) (hss : inp.ss = 3 ∨ inp.ss = 4)
    (hEle : ElementsInRange inp) (r : Nat) (hr : r < inp.m * inp.ss) :
    rowSum some (setFromTriplets exact (inp.m * inp.ss) inp.Vrows (triplets exact inp)) r = 0 :=
  rowSum_of_exact exact some inp hss hEle (signsExact_exact _) (exactlySummed_exact _ _ _) r hr

/-- C35, as the code has it: for triangle (`ss = 3`) and tetrahedral (`ss = 4`)
element lists with `m` elements whose vertex indices are below the number `n`
of vertices, and cotangent entries `C`, `normal_derivative` builds `DD` with
`m*ss` rows and `n` columns in any arithmetic of the scalars.  When that
arithmetic commits no rounding error on this input (the products of the
entries of `C` with `1` and `-1` and the sums of the triplets that fall on the
same position of `DD` have their exact values under a valuation `φ`), every
entry of `DD` has a value, every row of `DD` sums to zero, and `DD` applied
exactly to a constant vector is the zero vector. -/
theorem C35_rows_sum_to_zero {S R : Type} [CommRing R] (A : Arith S) (φ : S → Option R)
    (inp : Input S) (hss : inp.ss = 3 ∨ inp.ss = 4) (hEle : ElementsInRange inp)
    (hC : SignsExact A φ inp.C)
    (hsum : ExactlySummed A φ (triplets A inp) (inp.m * inp.ss) inp.Vrows) :
    ∃ DD, normal_derivative A inp = some DD ∧ DD.rows = inp.m * inp.ss ∧
      DD.cols = inp.Vrows ∧
      ∀ r < DD.rows, (∀ c < DD.cols, (φ (DD.coeff r c)).isSome = true) ∧
        rowSum φ DD r = 0 ∧
        ∀ k : R, mulVec φ DD (List.replicate inp.Vrows k) r = 0 := by
  refine ⟨_, normal_derivative_eq A inp hss, rfl, rfl, ?_⟩
  intro r hr
  have h0 := rowSum_of_exact A φ inp hss hEle hC hsum r hr
  refine ⟨?_, h0, fun k => mulVec_const φ _ k r h0⟩
  intro c hc
  show (φ (tripletSum A (triplets A inp) r c)).isSome = true
  rw [hsum r hr c hc]
  rfl

/-- C35 on two triangles in exact rational arithmetic, where there is no
rounding, and on one tetrahedron with the cotangent entries `1..6` in the
arithmetic of `double`, where the sums of these small whole numbers are not
rounded. -/
theorem C35_rows_sum_to_zero_witness :
    ((twoTriangles.ss = 3 ∨ twoTriangles.ss = 4) ∧ ElementsInRange twoTriangles ∧
      SignsExact exact some twoTriangles.C ∧
      ExactlySummed exact some (triplets exact twoTriangles)
        (twoTriangles.m * twoTriangles.ss) twoTriangles.Vrows ∧
      (oneTet.ss = 3 ∨ oneTet.ss = 4) ∧ ElementsInRange oneTet ∧
      SignsExact binary64 (Binary64.scaled 0) oneTet.C ∧
      ExactlySummed binary64 (Binary64.scaled 0) (triplets binary64 oneTet)
        (oneTet.m * oneTet.ss) oneTet.Vrows) ∧
    (∃ DD, normal_derivative exact twoTriangles = some DD ∧
      DD.rows = twoTriangles.m * twoTriangles.ss ∧ DD.cols = twoTriangles.Vrows ∧
      ∀ r < DD.rows, (∀ c < DD.cols, ((some (DD.coeff r c) : Option ℚ)).isSome = true) ∧
        rowSum some DD r = 0 ∧
        ∀ k : ℚ, mulVec some DD (List.replicate twoTriangles.Vrows k) r = 0) ∧
    (∃ DD, normal_derivative binary64 oneTet = some DD ∧
      DD.rows = oneTet.m * oneTet.ss ∧ DD.cols = oneTet.Vrows ∧
      ∀ r < DD.rows, (∀ c < DD.cols, (Binary64.scaled 0 (DD.coeff r c)).isSome = true) ∧
        rowSum (Binary64.scaled 0) DD r = 0 ∧
        ∀ k : Int, mulVec (Binary64.scaled 0) DD (List.replicate oneTet.Vrows k) r = 0) :=
  ⟨⟨by decide, by decide, signsExact_exact _, exactlySummed_exact _ _ _, by decide, by decide,
      by decide, by decide⟩,
    C35_rows_sum_to_zero exact some twoTriangles (by decide) (by decide) (signsExact_exact _)
      (exactlySummed_exact _ _ _),
    C35_rows_sum_to_zero binary64 (Binary64.scaled 0) oneTet (by decide) (by decide)
      (by decide) (by decide)⟩

/-- C35 as stated fails in the arithmetic of `double`, the one the file
instantiates the template with.  For one triangle `(0,1,2)` whose cotangent
entries are the values nearest to `1`, `0.1` and `0.2`, the products with `1`
and `-1` are exact, but the two triplets `-0.1` and `-0.2` at the position
`(0,0)` are added with rounding, to `-5404319552844596 * 2^(-54)`, while the
positions `(0,1)` and `(0,2)` hold `0.2` and `0.1`.  Row `0` of `DD` does not
sum to zero: added in `double` from left to right its entries, and its entries
times `1`, give `-2^(-55)`, and their exact sum is `-1` in units of `2^(-55)`.
For the cotangent entries `1`, infinity and `0.2` row `0` holds the two
infinities and its sum in `double` is a NaN. -/
theorem C35_counterexample :
    ((roundedTriangle.ss = 3 ∧ ElementsInRange roundedTriangle ∧
      (∀ r ∈ roundedTriangle.C, ∀ x ∈ r, x.Representable ∧ x.isFinite = true) ∧
      SignsExact binary64 (Binary64.scaled 55) roundedTriangle.C) ∧
    ∃ DD, normal_derivative binary64 roundedTriangle = some DD ∧
      DD.rows = 3 ∧ DD.cols = 3 ∧
      DD.coeff 0 0 = .finite (-5404319552844596) (-54) ∧
      DD.coeff 0 1 = fifth ∧ DD.coeff 0 2 = tenth ∧
      binary64.add (binary64.add (DD.coeff 0 0) (DD.coeff 0 1)) (DD.coeff 0 2)
        = .finite (-1) (-55) ∧
      binary64.add (binary64.add (binary64.mul (DD.coeff 0 0) binary64.one)
          (binary64.mul (DD.coeff 0 1) binary64.one)) (binary64.mul (DD.coeff 0 2) binary64.one)
        = .finite (-1) (-55) ∧
      rowSum (Binary64.scaled 55) DD 0 = -1 ∧
      mulVec (Binary64.scaled 55) DD (List.replicate 3 1) 0 = -1) ∧
    ((infiniteTriangle.ss = 3 ∧ ElementsInRange infiniteTriangle) ∧
    ∃ DD, normal_derivative binary64 infiniteTriangle = some DD ∧
      DD.coeff 0 0 = .inf true ∧ DD.coeff 0 1 = fifth ∧ DD.coeff 0 2 = .inf false ∧
      binary64.add (binary64.add (DD.coeff 0 0) (DD.coeff 0 1)) (DD.coeff 0 2) = .nan) :=
  ⟨⟨by decide, _, rfl, by decide⟩, ⟨by decide, _, rfl, by decide⟩⟩

end NormalDerivative

namespace WindingNumberAABB

/-! ## The box test and the corners -/

theorem insideLoop_iff (c : Corners) (p : Point) (l : List (Fin 3)) :
    insideLoop c p l = true ↔
      ∀ i ∈ l, c.min_corner i ≤ (p i : WithTop ℚ) ∧ (p i : WithBot ℚ) ≤ c.max_corner i := by
  induction l with
  | nil => simp [insideLoop]
  | cons i rest ih =>
    unfold insideLoop
    by_cases h : (p i : WithTop ℚ) < c.min_corner i ∨ (p i : WithBot ℚ) > c.max_corner i
    · rw [if_pos h]
      constructor
      · intro hf; cases hf
      · intro hall
        have := hall i (List.mem_cons_self _ _)
        rcases h with h | h
        · exact absurd this.1 (not_le.mpr h)
        · exact absurd this.2 (not_le.mpr h)
    · rw [if_neg h, ih]
      rw [not_or, not_lt, not_lt] at h
      constructor
      · intro hall j hj
        rcases List.mem_cons.mp hj with rfl | hj'
        · exact h
        · exact hall j hj'
      · intro hall j hj
        exact hall j (List.mem_cons_of_mem _ hj)

theorem inside_iff (c : Corners) (p : Point) :
    inside c p = true ↔
      ∀ i : Fin 3, c.min_corner i ≤ (p i : WithTop ℚ) ∧ (p i : WithBot ℚ) ≤ c.max_corner i := by
  unfold inside
  rw [insideLoop_iff]
  constructor
  · intro h i; exact h i (List.mem_finRange i)
  · intro h i _; exact h i

theorem updateCorners_min (V : Nat → Point) (c : Corners) (v : Nat) (d : Fin 3) :
    (updateCorners V c v).min_corner d = min (V v d : WithTop ℚ) (c.min_corner d) := by
  unfold updateCorners
  simp only
  by_cases h : (V v d : WithTop ℚ) < c.min_corner d
  · rw [if_pos h, min_eq_left (le_of_lt h)]
  · rw [if_neg h, min_eq_right (not_lt.mp h)]

theorem updateCorners_max (V : Nat → Point) (c : Corners) (v : Nat) (d : Fin 3) :
    (updateCorners V c v).max_corner d = max (V v d : WithBot ℚ) (c.max_corner d) := by
  unfold updateCorners
  simp only
  by_cases h : (V v d : WithBot ℚ) > c.max_corner d
  · rw [if_pos h, max_eq_left (le_of_lt h)]
  · rw [if_neg h, max_eq_right (not_lt.mp h)]

/-- The two nested loops visit the corners of the facets in the order of the
concatenated rows. -/
theorem compute_eq_foldl (V : Nat → Point) (F : List (List Nat)) (c : Corners) :
    F.foldl (fun c row => row.foldl (updateCorners V) c) c
      = (F.flatMap id).foldl (updateCorners V) c := by
  induction F generalizing c with
  | nil => rfl
  | cons row F ih =>
    rw [List.foldl_cons, ih, List.flatMap_cons, List.foldl_append]
    rfl

theorem corner_min_le_init (V : Nat → Point) (vs : List Nat) (c : Corners) (d : Fin 3) :
    (vs.foldl (updateCorners V) c).min_corner d ≤ c.min_corner d := by
  induction vs generalizing c with
  | nil => exact le_refl _
  | cons v vs ih =>
    rw [List.foldl_cons]
    refine le_trans (ih _) ?_
    rw [updateCorners_min]
    exact min_le_right _ _

theorem corner_max_ge_init (V : Nat → Point) (vs : List Nat) (c : Corners) (d : Fin 3) :
    c.max_corner d ≤ (vs.foldl (updateCorners V) c).max_corner d := by
  induction vs generalizing c with
  | nil => exact le_refl _
  | cons v vs ih =>
    rw [List.foldl_cons]
    refine le_trans ?_ (ih _)
    rw [updateCorners_max]
    exact le_max_right _ _

theorem corner_min_le_mem (V : Nat → Point) (vs : List Nat) (c : Corners) (d : Fin 3)
    (v : Nat) (hv : v ∈ vs) :
    (vs.foldl (updateCorners V) c).min_corner d ≤ (V v d : WithTop ℚ) := by
  induction vs generalizing c with
  | nil => cases hv
  | cons w vs ih =>
    rw [List.foldl_cons]
    rcases List.mem_cons.mp hv with rfl | h
    · refine le_trans (corner_min_le_init V vs _ d) ?_
      rw [updateCorners_min]
      exact min_le_left _ _
    · exact ih _ h

theorem corner_max_ge_mem (V : Nat → Point) (vs : List Nat) (c : Corners) (d : Fin 3)
    (v : Nat) (hv : v ∈ vs) :
    (V v d : WithBot ℚ) ≤ (vs.foldl (updateCorners V) c).max_corner d := by
  induction vs generalizing c with
  | nil => cases hv
  | cons w vs ih =>
    rw [List.foldl_cons]
    rcases List.mem_cons.mp hv with rfl | h
    · refine le_trans ?_ (corner_max_ge_init V vs _ d)
      rw [updateCorners_max]
      exact le_max_left _ _
    · exact ih _ h

theorem corner_min_attained (V : Nat → Point) (vs : List Nat) (c : Corners) (d : Fin 3) :
    (vs.foldl (updateCorners V) c).min_corner d = c.min_corner d ∨
      ∃ v ∈ vs, (vs.foldl (updateCorners V) c).min_corner d = (V v d : WithTop ℚ) := by
  induction vs generalizing c with
  | nil => exact Or.inl rfl
  | cons w vs ih =>
    rw [List.foldl_cons]
    rcases ih (updateCorners V c w) with h | ⟨v, hv, h⟩
    · rw [h, updateCorners_min]
      rcases min_choice (V w d : WithTop ℚ) (c.min_corner d) with h' | h'
      · exact Or.inr ⟨w, List.mem_cons_self _ _, h'⟩
      · exact Or.inl h'
    · exact Or.inr ⟨v, List.mem_cons_of_mem _ hv, h⟩

theorem corner_max_attained (V : Nat → Point) (vs : List Nat) (c : Corners) (d : Fin 3) :
    (vs.foldl (updateCorners V) c).max_corner d = c.max_corner d ∨
      ∃ v ∈ vs, (vs.foldl (updateCorners V) c).max_corner d = (V v d : WithBot ℚ) := by
  induction vs generalizing c with
  | nil => exact Or.inl rfl
  | cons w vs ih =>
    rw [List.foldl_cons]
    rcases ih (updateCorners V c w) with h | ⟨v, hv, h⟩
    · rw [h, updateCorners_max]
      rcases max_choice (V w d : WithBot ℚ) (c.max_corner d) with h' | h'
      · exact Or.inr ⟨w, List.mem_cons_self _ _, h'⟩
      · exact Or.inl h'
    · exact Or.inr ⟨v, List.mem_cons_of_mem _ hv, h⟩

/-- The corners of a node with a referenced vertex are attained. -/
theorem corners_attained (V : Nat → Point) (F : List (List Nat)) (w : Nat)
    (hw : w ∈ F.flatMap id) (d : Fin 3) :
    (∃ v ∈ F.flatMap id, (compute_min_max_corners V F).min_corner d = (V v d : WithTop ℚ)) ∧
    (∃ v ∈ F.flatMap id, (compute_min_max_corners V F).max_corner d = (V v d : WithBot ℚ)) := by
  unfold compute_min_max_corners
  rw [compute_eq_foldl]
  constructor
  · rcases corner_min_attained V (F.flatMap id) initialCorners d with h | h
    · have := corner_min_le_mem V (F.flatMap id) initialCorners d w hw
      rw [h] at this
      exact absurd this (not_le.mpr (WithTop.coe_lt_top _))
    · exact h
  · rcases corner_max_attained V (F.flatMap id) initialCorners d with h | h
    · have := corner_max_ge_mem V (F.flatMap id) initialCorners d w hw
      rw [h] at this
      exact absurd this (not_le.mpr (WithBot.bot_lt_coe _))
    · exact h

/-- C36: `inside(p)` returns `true` exactly when
`min_corner(i) <= p(i) <= max_corner(i)` for every coordinate `i`; the test
is conservative: for a box with corners `lo <= hi`, the corners `lo` and `hi`
themselves and every point of the closed box that has a coordinate equal to
the one of `lo` or of `hi` (a point on a face, an edge or a corner) are
reported inside. -/
theorem C36_inside_closed_box (c : Corners) (p : Point) :
    (inside c p = true ↔
      ∀ i : Fin 3, c.min_corner i ≤ (p i : WithTop ℚ) ∧ (p i : WithBot ℚ) ≤ c.max_corner i) ∧
    ∀ lo hi : Point, (∀ i, lo i ≤ hi i) →
      c.min_corner = (fun i => (lo i : WithTop ℚ)) →
      c.max_corner = (fun i => (hi i : WithBot ℚ)) →
      inside c lo = true ∧ inside c hi = true ∧
      ((∀ i, lo i ≤ p i ∧ p i ≤ hi i) → (∃ i, p i = lo i ∨ p i = hi i) →
        inside c p = true) := by
  refine ⟨inside_iff c p, ?_⟩
  intro lo hi hle hmin hmax
  refine ⟨?_, ?_, ?_⟩
  · rw [inside_iff, hmin, hmax]
    intro i
    exact ⟨le_refl _, WithBot.coe_le_coe.mpr (hle i)⟩
  · rw [inside_iff, hmin, hmax]
    intro i
    exact ⟨WithTop.coe_le_coe.mpr (hle i), le_refl _⟩
  · intro hp _
    rw [inside_iff, hmin, hmax]
    intro i
    exact ⟨WithTop.coe_le_coe.mpr (hp i).1, WithBot.coe_le_coe.mpr (hp i).2⟩

/-- The unit box `[0,1]^3`. -/
theorem C36_inside_closed_box_witness :
    ((∀ i : Fin 3, (fun _ => (0 : ℚ)) i ≤ (fun _ => (1 : ℚ)) i)) ∧
    inside { min_corner := fun _ => ((0 : ℚ) : WithTop ℚ),
             max_corner := fun _ => ((1 : ℚ) : WithBot ℚ) } (fun _ => 0) = true ∧
    inside { min_corner := fun _ => ((0 : ℚ) : WithTop ℚ),
             max_corner := fun _ => ((1 : ℚ) : WithBot ℚ) } (fun _ => 1) = true :=
  ⟨fun _ => zero_le_one,
    ((C36_inside_closed_box
      { min_corner := fun _ => ((0 : ℚ) : WithTop ℚ),
        max_corner := fun _ => ((1 : ℚ) : WithBot ℚ) } (fun _ => 0)).2
      (fun _ => 0) (fun _ => 1) (fun _ => zero_le_one) rfl rfl).1,
    ((C36_inside_closed_box
      { min_corner := fun _ => ((0 : ℚ) : WithTop ℚ),
        max_corner := fun _ => ((1 : ℚ) : WithBot ℚ) } (fun _ => 0)).2
      (fun _ => 0) (fun _ => 1) (fun _ => zero_le_one) rfl rfl).2.1⟩

/-- C37: after `compute_min_max_corners` on a node with a non-empty face list
whose facets have corners, every vertex referenced by a facet of the node
satisfies `inside(v)`, and each coordinate of `min_corner` and of `max_corner`
is the coordinate of some referenced vertex. -/
theorem C37_tight_box (V : Nat → Point) (F : List (List Nat)) (hF : F ≠ [])
    (hrows : ∀ row ∈ F, row ≠ []) :
    (∀ row ∈ F, ∀ v ∈ row, inside (compute_min_max_corners V F) (V v) = true) ∧
    (∀ d : Fin 3, ∃ row ∈ F, ∃ v ∈ row,
      (compute_min_max_corners V F).min_corner d = (V v d : WithTop ℚ)) ∧
    (∀ d : Fin 3, ∃ row ∈ F, ∃ v ∈ row,
      (compute_min_max_corners V F).max_corner d = (V v d : WithBot ℚ)) := by
  have hmem : ∀ v, v ∈ F.flatMap id ↔ ∃ row ∈ F, v ∈ row := by
    intro v; simp [List.mem_flatMap]
  obtain ⟨w, hw⟩ : ∃ w, w ∈ F.flatMap id := by
    obtain ⟨row, hrow⟩ := List.exists_mem_of_ne_nil F hF
    obtain ⟨w, hw⟩ := List.exists_mem_of_ne_nil row (hrows row hrow)
    exact ⟨w, (hmem w).mpr ⟨row, hrow, hw⟩⟩
  refine ⟨?_, ?_, ?_⟩
  · intro row hrow v hv
    rw [inside_iff]
    intro d
    unfold compute_min_max_corners
    rw [compute_eq_foldl]
    exact ⟨corner_min_le_mem V _ _ d v ((hmem v).mpr ⟨row, hrow, hv⟩),
      corner_max_ge_mem V _ _ d v ((hmem v).mpr ⟨row, hrow, hv⟩)⟩
  · intro d
    obtain ⟨v, hv, h⟩ := (corners_attained V F w hw d).1
    obtain ⟨row, hrow, hvr⟩ := (hmem v).mp hv
    exact ⟨row, hrow, v, hvr, h⟩
  · intro d
    obtain ⟨v, hv, h⟩ := (corners_attained V F w hw d).2
    obtain ⟨row, hrow, hvr⟩ := (hmem v).mp hv
    exact ⟨row, hrow, v, hvr, h⟩

/-- C37 on a strip of three triangles over the vertices `0, ..., 4` of the
diagonal. -/
theorem C37_tight_box_witness :
    (strip 3 ≠ [] ∧ ∀ row ∈ strip 3, row ≠ []) ∧
    (∀ row ∈ strip 3, ∀ v ∈ row,
      inside (compute_min_max_corners diagonalV (strip 3)) (diagonalV v) = true) :=
  ⟨by decide, (C37_tight_box diagonalV (strip 3) (by decide) (by decide)).1⟩

/-! ## The split of a node -/

theorem sides_length (F : List (List Nat)) (BC : List Point) (max_d : Option (Fin 3))
    (sv : ℚ) : (sides F BC max_d sv).length = F.length := by
  unfold sides; simp

theorem sides_getD (F : List (List Nat)) (BC : List Point) (max_d : Option (Fin 3)) (sv : ℚ)
    (i : Nat) (hi : i < F.length) :
    (sides F BC max_d sv).getD i 0
      = if coordAt (BC.getD i (fun _ => 0)) max_d ≤ sv then 0 else 1 := by
  unfold sides
  rw [List.getD_eq_getElem _ _ (by simpa using hi)]
  simp

theorem sidesOf_length (ctx : Context) (sm : SplitMethod) (F : List (List Nat)) :
    (sidesOf ctx sm F).length = F.length := sides_length _ _ _ _

theorem sidesOf_getD (ctx : Context) (sm : SplitMethod) (F : List (List Nat)) (i : Nat)
    (hi : i < F.length) :
    (sidesOf ctx sm F).getD i 0 = if splitCoord ctx F i ≤ splitOf ctx sm F then 0 else 1 :=
  sides_getD _ _ _ _ i hi

theorem rows_map_getD_range (F : List (List Nat)) :
    (List.range F.length).map (fun i => F.getD i []) = F := by
  apply List.ext_getElem
  · simp
  · intro i h1 h2
    rw [List.getElem_map, List.getElem_range, List.getD_eq_getElem _ _ h2]

/-- The number of indices below the length of `id` whose entry is `s`. -/
theorem filter_range_count (id : List Nat) (s : Nat) :
    ((List.range id.length).filter (fun i => id.getD i 0 == s)).length = id.count s := by
  induction id using List.reverseRecOn with
  | nil => rfl
  | append_singleton l a ih =>
    rw [List.length_append, List.length_singleton, List.range_succ, List.filter_append,
      List.length_append, List.count_append]
    have h1 : (List.range l.length).filter (fun i => (l ++ [a]).getD i 0 == s)
        = (List.range l.length).filter (fun i => l.getD i 0 == s) := by
      apply List.filter_congr
      intro i hi
      have hi' : i < l.length := List.mem_range.mp hi
      rw [List.getD_eq_getElem?_getD, List.getD_eq_getElem?_getD,
        List.getElem?_append_left hi']
    have h2 : (l ++ [a]).getD l.length 0 = a := by
      rw [List.getD_eq_getElem?_getD, List.getElem?_append_right (le_refl _)]
      simp
    rw [h1, ih]
    congr 1
    by_cases ha : a = s
    · rw [List.filter_cons_of_pos (by rw [h2]; simpa using ha)]
      simp [ha]
    · rw [List.filter_cons_of_neg (by rw [h2]; simpa using ha)]
      have hb : (a == s) = false := by simpa using ha
      simp [List.count_cons, hb]

theorem rowsOfSide_length (F : List (List Nat)) (id : List Nat) (s : Nat)
    (h : id.length = F.length) : (rowsOfSide F id s).length = id.count s := by
  unfold rowsOfSide
  rw [List.length_map, ← h, filter_range_count]

theorem rowsOfSide_sublist (F : List (List Nat)) (id : List Nat) (s : Nat) :
    (rowsOfSide F id s).Sublist F := by
  have h : (rowsOfSide F id s).Sublist ((List.range F.length).map (fun i => F.getD i [])) :=
    List.Sublist.map _ (List.filter_sublist _)
  rw [rows_map_getD_range] at h
  exact h

theorem count_zero_one (id : List Nat) (h : ∀ x ∈ id, x = 0 ∨ x = 1) :
    id.count 0 + id.count 1 = id.length := by
  induction id with
  | nil => rfl
  | cons a l ih =>
    have ih' := ih (fun x hx => h x (List.mem_cons_of_mem _ hx))
    rcases h a (List.mem_cons_self _ _) with rfl | rfl
    · simp [List.count_cons]; omega
    · simp [List.count_cons]; omega

theorem sides_mem (F : List (List Nat)) (BC : List Point) (max_d : Option (Fin 3)) (sv : ℚ)
    (x : Nat) (hx : x ∈ sides F BC max_d sv) : x = 0 ∨ x = 1 := by
  unfold sides at hx
  rw [List.mem_map] at hx
  obtain ⟨i, _, rfl⟩ := hx
  by_cases h : coordAt (BC.getD i (fun _ => 0)) max_d ≤ sv
  · left; rw [if_pos h]
  · right; rw [if_neg h]

/-- The rows of the two sides together are the rows of `F`. -/
theorem rowsOfSide_perm (ctx : Context) (sm : SplitMethod) (F : List (List Nat)) :
    (rowsOfSide F (sidesOf ctx sm F) 0 ++ rowsOfSide F (sidesOf ctx sm F) 1).Perm F := by
  unfold rowsOfSide
  rw [← List.map_append]
  have h1 : (List.range F.length).filter (fun i => (sidesOf ctx sm F).getD i 0 == 1)
      = (List.range F.length).filter (fun i => !((sidesOf ctx sm F).getD i 0 == 0)) := by
    apply List.filter_congr
    intro i hi
    rw [sidesOf_getD ctx sm F i (List.mem_range.mp hi)]
    by_cases h : splitCoord ctx F i ≤ splitOf ctx sm F
    · rw [if_pos h]; rfl
    · rw [if_neg h]; rfl
  rw [h1]
  have h2 := List.Perm.map (fun i => F.getD i [])
    (List.filter_append_perm (fun i => (sidesOf ctx sm F).getD i 0 == 0) (List.range F.length))
  rw [rows_map_getD_range] at h2
  exact h2

/-- The left rows are the rows whose barycenter coordinate is at most the
split value, the right rows are the others. -/
theorem rowsOfSide_eq (ctx : Context) (sm : SplitMethod) (F : List (List Nat)) :
    rowsOfSide F (sidesOf ctx sm F) 0
      = ((List.range F.length).filter
          (fun i => decide (splitCoord ctx F i ≤ splitOf ctx sm F))).map
            (fun i => F.getD i []) ∧
    rowsOfSide F (sidesOf ctx sm F) 1
      = ((List.range F.length).filter
          (fun i => decide (¬ splitCoord ctx F i ≤ splitOf ctx sm F))).map
            (fun i => F.getD i []) := by
  unfold rowsOfSide
  constructor
  · congr 1
    apply List.filter_congr
    intro i hi
    rw [sidesOf_getD ctx sm F i (List.mem_range.mp hi)]
    by_cases h : splitCoord ctx F i ≤ splitOf ctx sm F
    · rw [if_pos h]; simp [h]
    · rw [if_neg h]; simp [h]
  · congr 1
    apply List.filter_congr
    intro i hi
    rw [sidesOf_getD ctx sm F i (List.mem_range.mp hi)]
    by_cases h : splitCoord ctx F i ≤ splitOf ctx sm F
    · rw [if_pos h]; simp [h]
    · rw [if_neg h]; simp [h]

/-- The facts about the two face lists of a split. -/
theorem split_facts (ctx : Context) (sm : SplitMethod) (F : List (List Nat))
    (hl : (sidesOf ctx sm F).count 0 ≠ 0) (hr : (sidesOf ctx sm F).count 1 ≠ 0) :
    rowsOfSide F (sidesOf ctx sm F) 0 ≠ [] ∧ rowsOfSide F (sidesOf ctx sm F) 1 ≠ [] ∧
    (rowsOfSide F (sidesOf ctx sm F) 0).length + (rowsOfSide F (sidesOf ctx sm F) 1).length
      = F.length ∧
    (rowsOfSide F (sidesOf ctx sm F) 0).length < F.length ∧
    (rowsOfSide F (sidesOf ctx sm F) 1).length < F.length := by
  have h0 := rowsOfSide_length F (sidesOf ctx sm F) 0 (sidesOf_length ctx sm F)
  have h1 := rowsOfSide_length F (sidesOf ctx sm F) 1 (sidesOf_length ctx sm F)
  have hsum := count_zero_one (sidesOf ctx sm F) (sides_mem _ _ _ _)
  rw [sidesOf_length] at hsum
  refine ⟨?_, ?_, by omega, by omega, by omega⟩
  · intro h; rw [h] at h0; simp at h0; exact hl h0.symm
  · intro h; rw [h] at h1; simp at h1; exact hr h1.symm

/-! ## The recursion of `grow` -/

theorem grow_succ (ctx : Context) (fuel : Nat) (sm : SplitMethod) (F : List (List Nat)) :
    grow ctx (fuel + 1) sm F
      = if F.length ≤ WindingNumberAABB_MIN_F ∨
            ((ctx.cap_rows F : Int) - 2 ≥ (F.length : Int)) then
          some (Tree.node F [])
        else if (sidesOf ctx sm F).count 0 = 0 ∨ (sidesOf ctx sm F).count 1 = 0 then
          some (Tree.node F [])
        else
          match grow ctx fuel SplitMethod.MEDIAN_ON_LONGEST_AXIS
                (rowsOfSide F (sidesOf ctx sm F) 0),
              grow ctx fuel SplitMethod.MEDIAN_ON_LONGEST_AXIS
                (rowsOfSide F (sidesOf ctx sm F) 1) with
          | some l, some r => some (Tree.node F [l, r])
          | _, _ => none := by
  rw [grow]

theorem grow_F (ctx : Context) (fuel : Nat) (sm : SplitMethod) (F : List (List Nat))
    (t : Tree) (h : grow ctx fuel sm F = some t) : t.F = F := by
  cases fuel with
  | zero => cases h
  | succ fuel =>
    rw [grow_succ] at h
    split at h
    · injection h with h; rw [← h]; rfl
    · split at h
      · injection h with h; rw [← h]; rfl
      · split at h
        · injection h with h; rw [← h]; rfl
        · cases h

/-- With more fuel than faces the result of `grow` does not depend on the
fuel. -/
theorem grow_fuel (ctx : Context) (fuel : Nat) :
    ∀ (sm : SplitMethod) (F : List (List Nat)), F.length < fuel →
      grow ctx fuel sm F = grow ctx (F.length + 1) sm F := by
  induction fuel using Nat.strong_induction_on with
  | _ fuel ih =>
    intro sm F hF
    cases fuel with
    | zero => omega
    | succ k =>
      rw [grow_succ ctx k sm F, grow_succ ctx F.length sm F]
      by_cases hbase : F.length ≤ WindingNumberAABB_MIN_F ∨
          ((ctx.cap_rows F : Int) - 2 ≥ (F.length : Int))
      · rw [if_pos hbase, if_pos hbase]
      · rw [if_neg hbase, if_neg hbase]
        by_cases hbad : (sidesOf ctx sm F).count 0 = 0 ∨ (sidesOf ctx sm F).count 1 = 0
        · rw [if_pos hbad, if_pos hbad]
        · rw [if_neg hbad, if_neg hbad]
          rw [not_or] at hbad
          obtain ⟨_, _, _, hl, hr⟩ := split_facts ctx sm F hbad.1 hbad.2
          rw [ih k (by omega) _ _ (by omega), ih k (by omega) _ _ (by omega),
            ih F.length (by omega) _ _ hl, ih F.length (by omega) _ _ hr]

/-- With more fuel than faces `grow` returns. -/
theorem grow_some (ctx : Context) (fuel : Nat) :
    ∀ (sm : SplitMethod) (F : List (List Nat)), F.length < fuel →
      ∃ t, grow ctx fuel sm F = some t := by
  induction fuel with
  | zero => intro sm F h; omega
  | succ k ih =>
    intro sm F hF
    rw [grow_succ]
    by_cases hbase : F.length ≤ WindingNumberAABB_MIN_F ∨
        ((ctx.cap_rows F : Int) - 2 ≥ (F.length : Int))
    · rw [if_pos hbase]; exact ⟨_, rfl⟩
    · rw [if_neg hbase]
      by_cases hbad : (sidesOf ctx sm F).count 0 = 0 ∨ (sidesOf ctx sm F).count 1 = 0
      · rw [if_pos hbad]; exact ⟨_, rfl⟩
      · rw [if_neg hbad]
        rw [not_or] at hbad
        obtain ⟨_, _, _, hl, hr⟩ := split_facts ctx sm F hbad.1 hbad.2
        obtain ⟨l, hl1⟩ := ih SplitMethod.MEDIAN_ON_LONGEST_AXIS _
          (by omega : (rowsOfSide F (sidesOf ctx sm F) 0).length < k)
        obtain ⟨r, hr1⟩ := ih SplitMethod.MEDIAN_ON_LONGEST_AXIS _
          (by omega : (rowsOfSide F (sidesOf ctx sm F) 1).length < k)
        rw [hl1, hr1]
        exact ⟨_, rfl⟩

/-- The children of the node that `grow` returns. -/
theorem grow_children (ctx : Context) (fuel : Nat) (sm : SplitMethod) (F : List (List Nat))
    (t : Tree) (h : grow ctx (fuel + 1) sm F = some t) :
    t.children = [] ∨
      (WindingNumberAABB_MIN_F < F.length ∧ (sidesOf ctx sm F).count 0 ≠ 0 ∧
        (sidesOf ctx sm F).count 1 ≠ 0 ∧
        ∃ l r, t.children = [l, r] ∧
          grow ctx fuel SplitMethod.MEDIAN_ON_LONGEST_AXIS
            (rowsOfSide F (sidesOf ctx sm F) 0) = some l ∧
          grow ctx fuel SplitMethod.MEDIAN_ON_LONGEST_AXIS
            (rowsOfSide F (sidesOf ctx sm F) 1) = some r) := by
  rw [grow_succ] at h
  by_cases hbase : F.length ≤ WindingNumberAABB_MIN_F ∨
      ((ctx.cap_rows F : Int) - 2 ≥ (F.length : Int))
  · rw [if_pos hbase] at h
    injection h with h; rw [← h]; exact Or.inl rfl
  · rw [if_neg hbase] at h
    by_cases hbad : (sidesOf ctx sm F).count 0 = 0 ∨ (sidesOf ctx sm F).count 1 = 0
    · rw [if_pos hbad] at h
      injection h with h; rw [← h]; exact Or.inl rfl
    · rw [if_neg hbad] at h
      rw [not_or] at hbad hbase
      right
      refine ⟨by omega, hbad.1, hbad.2, ?_⟩
      cases hl : grow ctx fuel SplitMethod.MEDIAN_ON_LONGEST_AXIS
          (rowsOfSide F (sidesOf ctx sm F) 0) with
      | none => rw [hl] at h; cases h
      | some l =>
        cases hr : grow ctx fuel SplitMethod.MEDIAN_ON_LONGEST_AXIS
            (rowsOfSide F (sidesOf ctx sm F) 1) with
        | none => rw [hl, hr] at h; cases h
        | some r =>
          rw [hl, hr] at h
          injection h with h
          exact ⟨l, r, by rw [← h]; rfl, rfl, rfl⟩

/-! ## The longest axis -/

theorem axisLength_coe (c : Corners) (d : Fin 3) (a b : ℚ)
    (ha : c.max_corner d = (a : WithBot ℚ)) (hb : c.min_corner d = (b : WithTop ℚ)) :
    axisLength c d = ((a - b : ℚ) : WithBot ℚ) := by
  unfold axisLength
  rw [ha, hb]

theorem longestAxis_fold (c : Corners) (l : List (Fin 3)) (st : Option (Fin 3) × WithBot ℚ) :
    st.2 ≤ (l.foldl (fun (st : Option (Fin 3) × WithBot ℚ) d =>
        if axisLength c d > st.2 then (some d, axisLength c d) else st) st).2 ∧
    (∀ d ∈ l, axisLength c d ≤ (l.foldl (fun (st : Option (Fin 3) × WithBot ℚ) d =>
        if axisLength c d > st.2 then (some d, axisLength c d) else st) st).2) ∧
    ((l.foldl (fun (st : Option (Fin 3) × WithBot ℚ) d =>
        if axisLength c d > st.2 then (some d, axisLength c d) else st) st) = st ∨
      ∃ d ∈ l, (l.foldl (fun (st : Option (Fin 3) × WithBot ℚ) d =>
        if axisLength c d > st.2 then (some d, axisLength c d) else st) st)
          = (some d, axisLength c d)) := by
  induction l generalizing st with
  | nil => exact ⟨le_refl _, fun d hd => (by cases hd), Or.inl rfl⟩
  | cons x l ih =>
    rw [List.foldl_cons]
    by_cases h : axisLength c x > st.2
    · rw [if_pos h]
      obtain ⟨h1, h2, h3⟩ := ih (some x, axisLength c x)
      refine ⟨le_trans (le_of_lt h) h1, ?_, ?_⟩
      · intro d hd
        rcases List.mem_cons.mp hd with rfl | hd'
        · exact h1
        · exact h2 d hd'
      · rcases h3 with h3 | ⟨d, hd, h3⟩
        · exact Or.inr ⟨x, List.mem_cons_self _ _, h3⟩
        · exact Or.inr ⟨d, List.mem_cons_of_mem _ hd, h3⟩
    · rw [if_neg h]
      obtain ⟨h1, h2, h3⟩ := ih st
      refine ⟨h1, ?_, ?_⟩
      · intro d hd
        rcases List.mem_cons.mp hd with rfl | hd'
        · exact le_trans (not_lt.mp h) h1
        · exact h2 d hd'
      · rcases h3 with h3 | ⟨d, hd, h3⟩
        · exact Or.inl h3
        · exact Or.inr ⟨d, List.mem_cons_of_mem _ hd, h3⟩

/-- When some axis has a length that is a number, `max_d` is an axis of
greatest length. -/
theorem longestAxis_spec (c : Corners) (d0 : Fin 3) (h : ⊥ < axisLength c d0) :
    ∃ d, (longestAxis c).1 = some d ∧ (longestAxis c).2 = axisLength c d ∧
      ∀ d', axisLength c d' ≤ axisLength c d := by
  unfold longestAxis
  obtain ⟨_, h2, h3⟩ := longestAxis_fold c (List.finRange 3) (none, ⊥)
  rcases h3 with h3 | ⟨d, _, h3⟩
  · have := h2 d0 (List.mem_finRange d0)
    rw [h3] at this
    exact absurd this (not_le.mpr h)
  · refine ⟨d, by rw [h3], by rw [h3], ?_⟩
    intro d'
    have := h2 d' (List.mem_finRange d')
    rw [h3] at this
    exact this

/-- On a node with a referenced vertex every axis has a length that is a
number, and `max_d` is an axis of greatest length. -/
theorem longestAxis_of_faces (V : Nat → Point) (F : List (List Nat)) (w : Nat)
    (hw : w ∈ F.flatMap id) :
    ∃ d, (longestAxis (compute_min_max_corners V F)).1 = some d ∧
      ∀ d', axisLength (compute_min_max_corners V F) d'
        ≤ axisLength (compute_min_max_corners V F) d := by
  obtain ⟨⟨v1, _, h1⟩, ⟨v2, _, h2⟩⟩ := corners_attained V F w hw 0
  have hlen := axisLength_coe _ 0 _ _ h2 h1
  obtain ⟨d, hd, _, hmax⟩ := longestAxis_spec (compute_min_max_corners V F) 0
    (by rw [hlen]; exact WithBot.bot_lt_coe _)
  exact ⟨d, hd, hmax⟩

theorem mem_of_getD (l : List Nat) (i x : Nat) (hi : i < l.length) (h : l.getD i 0 = x) :
    x ∈ l := by
  rw [← h, List.getD_eq_getElem _ _ hi]
  exact List.getElem_mem _

/-- The strip of `101` triangles is split: facet `0` goes left, facet `100`
goes right. -/
theorem strip_splits :
    (sidesOf stripContext SplitMethod.MEDIAN_ON_LONGEST_AXIS (strip 101)).count 0 ≠ 0 ∧
      (sidesOf stripContext SplitMethod.MEDIAN_ON_LONGEST_AXIS (strip 101)).count 1 ≠ 0 := by
  have hlen : (strip 101).length = 101 := by simp [strip]
  obtain ⟨d, hd, _⟩ := longestAxis_of_faces diagonalV (strip 101) 0 (by decide)
  have hsplit : splitOf stripContext SplitMethod.MEDIAN_ON_LONGEST_AXIS (strip 101) = 51 := rfl
  have hc : ∀ i < 101, splitCoord stripContext (strip 101) i = (i : ℚ) + 1 := by
    intro i hi
    unfold splitCoord
    have hd' : (longestAxis (compute_min_max_corners stripContext.V (strip 101))).1
        = some d := hd
    rw [hd']
    have hb : stripContext.barycenter (strip 101) = (strip 101).map (fun row => fun d =>
        (diagonalV (row.getD 0 0) d + diagonalV (row.getD 1 0) d + diagonalV (row.getD 2 0) d)
          / 3) := rfl
    rw [hb, List.getD_eq_getElem _ _ (by simpa [strip] using hi)]
    simp only [List.getElem_map, strip, List.getElem_range, coordAt, diagonalV]
    simp
    ring
  have h0 : (sidesOf stripContext SplitMethod.MEDIAN_ON_LONGEST_AXIS (strip 101)).getD 0 0 = 0 := by
    rw [sidesOf_getD _ _ _ 0 (by rw [hlen]; omega), hsplit, hc 0 (by omega)]
    norm_num
  have h1 : (sidesOf stripContext SplitMethod.MEDIAN_ON_LONGEST_AXIS (strip 101)).getD 100 0 = 1 := by
    rw [sidesOf_getD _ _ _ 100 (by rw [hlen]; omega), hsplit, hc 100 (by omega)]
    norm_num
  have hl : (sidesOf stripContext SplitMethod.MEDIAN_ON_LONGEST_AXIS (strip 101)).length = 101 := by
    rw [sidesOf_length, hlen]
  constructor
  · have := List.count_pos_iff.mpr (mem_of_getD _ 0 0 (by rw [hl]; omega) h0)
    omega
  · have := List.count_pos_iff.mpr (mem_of_getD _ 100 1 (by rw [hl]; omega) h1)
    omega

/-- C38: `grow` terminates on every mesh: with more fuel than the node has
faces the recursion returns a node `t` for the face list `F`, the same for
every such fuel.  The node has no children exactly in the base cases (at most
`WindingNumberAABB_MIN_F = 100` faces, a cap with at least `F.rows()+2` rows,
or a split that leaves one side empty); otherwise it has exactly two children
`l`, `r`, built with the method `MEDIAN_ON_LONGEST_AXIS` and themselves grown:
the face list of `l` holds the rows of `F` whose barycenter coordinate on the
axis `max_d` is at most the split value, the one of `r` holds the other rows,
both in the order of `F`; both are non-empty, together they are the rows of
`F`, and each has fewer rows than `F`.  On a node with a referenced vertex
`max_d` is an axis of greatest length. -/
theorem C38_grow_terminates (ctx : Context) (sm : SplitMethod) (F : List (List Nat))
    (fuel : Nat) (hfuel : F.length < fuel) :
    ∃ t, grow ctx fuel sm F = some t ∧
      (∀ fuel', F.length < fuel' → grow ctx fuel' sm F = some t) ∧
      t.F = F ∧
      (F.length ≤ WindingNumberAABB_MIN_F → t.children = []) ∧
      (t.children = [] ↔
        (F.length ≤ WindingNumberAABB_MIN_F ∨
          ((ctx.cap_rows F : Int) - 2 ≥ (F.length : Int)) ∨
          (sidesOf ctx sm F).count 0 = 0 ∨ (sidesOf ctx sm F).count 1 = 0)) ∧
      (t.children = [] ∨
        ∃ l r, t.children = [l, r] ∧
          (∀ fuel', l.F.length < fuel' →
            grow ctx fuel' SplitMethod.MEDIAN_ON_LONGEST_AXIS l.F = some l) ∧
          (∀ fuel', r.F.length < fuel' →
            grow ctx fuel' SplitMethod.MEDIAN_ON_LONGEST_AXIS r.F = some r) ∧
          l.F = ((List.range F.length).filter
            (fun i => decide (splitCoord ctx F i ≤ splitOf ctx sm F))).map
              (fun i => F.getD i []) ∧
          r.F = ((List.range F.length).filter
            (fun i => decide (¬ splitCoord ctx F i ≤ splitOf ctx sm F))).map
              (fun i => F.getD i []) ∧
          l.F ≠ [] ∧ r.F ≠ [] ∧ l.F.length + r.F.length = F.length ∧
          l.F.length < F.length ∧ r.F.length < F.length ∧
          l.F.Sublist F ∧ r.F.Sublist F ∧ (l.F ++ r.F).Perm F) ∧
      ((∃ row ∈ F, row ≠ []) →
        ∃ d, (longestAxis (compute_min_max_corners ctx.V F)).1 = some d ∧
          ∀ d', axisLength (compute_min_max_corners ctx.V F) d'
            ≤ axisLength (compute_min_max_corners ctx.V F) d) := by
  obtain ⟨t, ht⟩ := grow_some ctx fuel sm F hfuel
  have hall : ∀ fuel', F.length < fuel' → grow ctx fuel' sm F = some t := by
    intro fuel' h'
    rw [grow_fuel ctx fuel' sm F h', ← grow_fuel ctx fuel sm F hfuel, ht]
  have ht1 := hall (F.length + 1) (by omega)
  have hch := grow_children ctx F.length sm F t ht1
  have hiff : t.children = [] ↔
      (F.length ≤ WindingNumberAABB_MIN_F ∨
        ((ctx.cap_rows F : Int) - 2 ≥ (F.length : Int)) ∨
        (sidesOf ctx sm F).count 0 = 0 ∨ (sidesOf ctx sm F).count 1 = 0) := by
    constructor
    · intro hnil
      by_contra hcon
      rw [not_or, not_or, not_or] at hcon
      obtain ⟨l, hl⟩ := grow_some ctx F.length SplitMethod.MEDIAN_ON_LONGEST_AXIS
        (rowsOfSide F (sidesOf ctx sm F) 0) (split_facts ctx sm F hcon.2.2.1 hcon.2.2.2).2.2.2.1
      obtain ⟨r, hr⟩ := grow_some ctx F.length SplitMethod.MEDIAN_ON_LONGEST_AXIS
        (rowsOfSide F (sidesOf ctx sm F) 1) (split_facts ctx sm F hcon.2.2.1 hcon.2.2.2).2.2.2.2
      rw [grow_succ, if_neg (by rw [not_or]; exact ⟨hcon.1, hcon.2.1⟩),
        if_neg (by rw [not_or]; exact hcon.2.2), hl, hr] at ht1
      injection ht1 with ht1
      rw [← ht1] at hnil
      cases hnil
    · intro hbase
      rcases hch with h | ⟨h1, h2, h3, l, r, h4, _, _⟩
      · exact h
      · rw [grow_succ] at ht1
        rcases hbase with hb | hb | hb | hb
        · omega
        · rw [if_pos (Or.inr hb)] at ht1
          injection ht1 with ht1; rw [← ht1]; rfl
        · exact absurd hb h2
        · exact absurd hb h3
  refine ⟨t, ht, hall, grow_F ctx fuel sm F t ht, fun h => hiff.mpr (Or.inl h), hiff, ?_, ?_⟩
  · rcases hch with h | ⟨_, h2, h3, l, r, h4, hl, hr⟩
    · exact Or.inl h
    · right
      have hlF := grow_F ctx _ _ _ l hl
      have hrF := grow_F ctx _ _ _ r hr
      obtain ⟨f1, f2, f3, f4, f5⟩ := split_facts ctx sm F h2 h3
      refine ⟨l, r, h4, ?_, ?_, ?_, ?_, ?_, ?_, ?_, ?_, ?_, ?_, ?_, ?_⟩
      · intro fuel' h'
        rw [hlF] at h' ⊢
        rw [grow_fuel ctx fuel' _ _ h', ← grow_fuel ctx F.length _ _ f4, hl]
      · intro fuel' h'
        rw [hrF] at h' ⊢
        rw [grow_fuel ctx fuel' _ _ h', ← grow_fuel ctx F.length _ _ f5, hr]
      · rw [hlF]; exact (rowsOfSide_eq ctx sm F).1
      · rw [hrF]; exact (rowsOfSide_eq ctx sm F).2
      · rw [hlF]; exact f1
      · rw [hrF]; exact f2
      · rw [hlF, hrF]; exact f3
      · rw [hlF]; exact f4
      · rw [hrF]; exact f5
      · rw [hlF]; exact rowsOfSide_sublist _ _ _
      · rw [hrF]; exact rowsOfSide_sublist _ _ _
      · rw [hlF, hrF]; exact rowsOfSide_perm ctx sm F
  · rintro ⟨row, hrow, hne⟩
    obtain ⟨w, hw⟩ := List.exists_mem_of_ne_nil row hne
    exact longestAxis_of_faces ctx.V F w
      (List.mem_flatMap.mpr ⟨row, hrow, hw⟩)

/-- C38 on the strip of `101` triangles: `grow` returns a node, and the node
has children. -/
theorem C38_grow_terminates_witness :
    (strip 101).length < 102 ∧
    ∃ t, grow stripContext 102 SplitMethod.MEDIAN_ON_LONGEST_AXIS (strip 101) = some t ∧
      t.F = strip 101 ∧ t.children ≠ [] := by
  obtain ⟨t, h1, _, h3, _, h5, _⟩ := C38_grow_terminates stripContext
    SplitMethod.MEDIAN_ON_LONGEST_AXIS (strip 101) 102 (by decide)
  refine ⟨by decide, t, h1, h3, ?_⟩
  intro hnil
  have hlen : (strip 101).length = 101 := by simp [strip]
  rcases h5.mp hnil with h | h | h | h
  · rw [hlen] at h; unfold WindingNumberAABB_MIN_F at h; omega
  · rw [hlen] at h
    have : stripContext.cap_rows (strip 101) = 0 := rfl
    rw [this] at h
    norm_num at h
  · exact strip_splits.1 h
  · exact strip_splits.2 h

end WindingNumberAABB
